import Mathlib

/-!
# kubesurvival: workload DSL front-end, pre-filter and cost search

A shallow embedding of the Go sources of `aporia-ai/kubesurvival`
(`pkg/lexer`, `pkg/parser`, `pkg/podgen`, `pkg/nodesource`, `main.go`) and theorems
about them.

Conventions of the embedding.

* Go `string` values are Lean `String`s; the rune stream behind a `bufio.Reader` is a
  `List Char`.
* Go `int` and `int64` values are `Nat` or `Int`; the only place where the 64-bit range
  matters is `strconv.ParseInt`, which is modelled with its range check.
* Pointer receivers become explicit state passing: a method that mutates its receiver
  returns the new receiver next to its result.
* A Go `for` loop becomes a recursive function with a fuel argument.  The scanner chooses
  its own fuel (more than the number of unread runes); the parser returns `none` when the
  fuel is used up and `Parse` passes a fuel that is proved to suffice.
* A nil value of the interface `Expression` is the constructor `Expression.nil`.
* Go `float64` values are rationals.  The float64 operations of the price arithmetic of
  `main` are the exact operations followed by a rounding `fl : ℚ → ℚ`, a parameter of the
  search; the theorems about the search hold for every such rounding, or for every one
  that keeps the order.
-/

set_option autoImplicit false

/-! ## Package lexer: token.go -/

namespace lexer

/-- The token kinds of token.go, in declaration order. -/
inductive TokenType
  | ILLEGAL
  | EOF
  | LPAREN
  | RPAREN
  | COMMA
  | COLON
  | POD
  | CPU
  | MEMORY
  | GPU
  | ADD
  | MUL
  | INTEGER
  | STRING
  | BADSTRING
  | BADESCAPE
deriving DecidableEq, Repr

/-- Position of token.go: zero-based line and column. -/
structure Position where
  Line : Nat
  Column : Nat
deriving DecidableEq, Repr

/-- Token of token.go. -/
structure Token where
  TokenType : lexer.TokenType
  Lexeme : String
  Position : lexer.Position
deriving DecidableEq, Repr

/-! ## Package lexer: scanner.go -/

/-- Modelled from the spec: the rune constant `eof` is declared in a file of package lexer
that is not under src/; the comment of `read` in scanner.go says that it is rune(0). -/
def eof : Char := Char.ofNat 0

/-- Modelled from the spec: `isWhitespace` is declared in a file of package lexer that is not
under src/; section 4.1 lists space, tab, newline and carriage return. -/
def isWhitespace (ch : Char) : Bool :=
  ch == ' ' || ch == '\t' || ch == '\n' || ch == '\r'

/-- Modelled from the spec: `isLetter` is declared in a file of package lexer that is not
under src/; section 4.1 says identifiers start with a letter. -/
def isLetter (ch : Char) : Bool :=
  ('a' ≤ ch && ch ≤ 'z') || ('A' ≤ ch && ch ≤ 'Z')

/-- Modelled from the spec: `isDigit` is declared in a file of package lexer that is not
under src/; section 4.1 says integers are runs of decimal digits. -/
def isDigit (ch : Char) : Bool :=
  '0' ≤ ch && ch ≤ '9'

/-- Scanner of scanner.go.  `Reader` holds the runes not yet read from the underlying
reader.  Of the ring `buffer` only the newest entry is kept: `Unscan` is only ever called
right after a `read`, so `bufferSize` is 0 or 1 and `curr` never looks further back. -/
structure Scanner where
  Reader : List Char
  position : Position
  eof : Bool
  bufferSize : Nat
  buffer : Char × Position
  DisablePositions : Bool
deriving DecidableEq, Repr

/-- NewScanner of scanner.go: every field but the reader has its zero value. -/
def NewScanner (reader : List Char) : Scanner :=
  { Reader := reader, position := ⟨0, 0⟩, eof := false, bufferSize := 0,
    buffer := (Char.ofNat 0, ⟨0, 0⟩), DisablePositions := false }

/-- Scanner.curr: the last read character and position. -/
def Scanner.curr (s : Scanner) : Char × Position :=
  if s.DisablePositions then (s.buffer.1, ⟨0, 0⟩) else s.buffer

/-- The rune that `read` takes from the underlying reader, with the rest of the reader:
`eof` on an error, and a newline for each of the line endings CR and CR LF. -/
def readRune (reader : List Char) : Char × List Char :=
  match reader with
  | [] => (eof, [])
  | ch :: rest =>
    if ch = '\r' then
      match rest with
      | [] => ('\n', [])
      | ch2 :: rest2 => if ch2 ≠ '\n' then ('\n', rest) else ('\n', rest2)
    else (ch, rest)

/-- Scanner.read: the next rune, from the pushed-back buffer entry when there is one. -/
def Scanner.read (s : Scanner) : (Char × Position) × Scanner :=
  if s.bufferSize > 0 then
    let s1 : Scanner := { s with bufferSize := s.bufferSize - 1 }
    (s1.curr, s1)
  else
    let ch := (readRune s.Reader).1
    let position1 : Position :=
      if ch = '\n' then ⟨s.position.Line + 1, 0⟩
      else if !s.eof then ⟨s.position.Line, s.position.Column + 1⟩
      else s.position
    let s1 : Scanner :=
      { s with Reader := (readRune s.Reader).2, buffer := (ch, s.position),
               position := position1, eof := if ch = lexer.eof then true else s.eof }
    (s1.curr, s1)

/-- Scanner.Unscan pushes the last read rune back. -/
def Scanner.Unscan (s : Scanner) : Scanner :=
  { s with bufferSize := s.bufferSize + 1 }

/-- Scanner.scanWhitespace: consumes all contiguous whitespace. -/
def Scanner.scanWhitespace : Nat → Scanner → Scanner
  | 0, s => s
  | fuel + 1, s =>
    let r := s.read
    if r.1.1 = lexer.eof then r.2
    else if !isWhitespace r.1.1 then r.2.Unscan
    else Scanner.scanWhitespace fuel r.2

/-- Scanner.skipUntilEndComment: skips to the end of the line; the Boolean is true when
the Go function returns the error io.EOF. -/
def Scanner.skipUntilEndComment : Nat → Scanner → Bool × Scanner
  | 0, s => (false, s)
  | fuel + 1, s =>
    let r := s.read
    if r.1.1 = '\n' then (false, r.2)
    else if r.1.1 = lexer.eof then (true, r.2)
    else Scanner.skipUntilEndComment fuel r.2

/-- The loop of Scanner.scanKeyword, `buf` being the identifier read so far. -/
def Scanner.scanKeywordLoop : Nat → List Char → Scanner → List Char × Scanner
  | 0, buf, s => (buf, s)
  | fuel + 1, buf, s =>
    let r := s.read
    if r.1.1 = lexer.eof then (buf, r.2)
    else if !isLetter r.1.1 && !isDigit r.1.1 && r.1.1 ≠ '_' then (buf, r.2.Unscan)
    else Scanner.scanKeywordLoop fuel (buf ++ [r.1.1]) r.2

/-- Scanner.scanKeyword: consumes the current rune and all contiguous identifier runes. -/
def Scanner.scanKeyword (fuel : Nat) (s : Scanner) : Token × Scanner :=
  let r := s.read
  let l := Scanner.scanKeywordLoop fuel [r.1.1] r.2
  let lexeme := String.mk l.1
  if lexeme = "pod" then (⟨TokenType.POD, lexeme, r.1.2⟩, l.2)
  else if lexeme = "cpu" then (⟨TokenType.CPU, lexeme, r.1.2⟩, l.2)
  else if lexeme = "memory" then (⟨TokenType.MEMORY, lexeme, r.1.2⟩, l.2)
  else if lexeme = "gpu" then (⟨TokenType.GPU, lexeme, r.1.2⟩, l.2)
  else (⟨TokenType.ILLEGAL, lexeme, r.1.2⟩, l.2)

/-- The loop of Scanner.scanInteger, `ch` being the rune read last. -/
def Scanner.scanIntegerLoop : Nat → List Char → Char → Scanner → List Char × Scanner
  | 0, buf, _, s => (buf, s)
  | fuel + 1, buf, ch, s =>
    if !isDigit ch then (buf, s.Unscan)
    else
      let r := s.read
      Scanner.scanIntegerLoop fuel (buf ++ [ch]) r.1.1 r.2

/-- Scanner.scanInteger: consumes a contiguous series of digits. -/
def Scanner.scanInteger (fuel : Nat) (s : Scanner) : Token × Scanner :=
  let r := s.read
  let l := Scanner.scanIntegerLoop fuel [] r.1.1 r.2
  (⟨TokenType.INTEGER, String.mk l.1, r.1.2⟩, l.2)

/-- The loop of Scanner.scanString, `ch` being the rune read last and `pos` the position
of the first rune after the opening quote. -/
def Scanner.scanStringLoop : Nat → List Char → Char → Position → Scanner → Token × Scanner
  | 0, buf, _, pos, s => (⟨TokenType.BADSTRING, String.mk buf, pos⟩, s)
  | fuel + 1, buf, ch, pos, s =>
    if ch = '"' then (⟨TokenType.STRING, String.mk buf, pos⟩, s)
    else if ch = lexer.eof || ch = '\n' then (⟨TokenType.BADSTRING, String.mk buf, pos⟩, s)
    else
      let r := s.read
      Scanner.scanStringLoop fuel (buf ++ [ch]) r.1.1 pos r.2

/-- Scanner.scanString: consumes a contiguous string of non-quote characters. -/
def Scanner.scanString (fuel : Nat) (s : Scanner) : Token × Scanner :=
  let r := s.read
  Scanner.scanStringLoop fuel [] r.1.1 r.1.2 r.2

/-- The part of Scanner.Scan after its loop: the token that starts with the rune `ch`. -/
def Scanner.scanToken (fuel : Nat) (ch : Char) (pos : Position) (s : Scanner) :
    Token × Scanner :=
  if isLetter ch then s.Unscan.scanKeyword fuel
  else if isDigit ch then s.Unscan.scanInteger fuel
  else if ch = lexer.eof then (⟨TokenType.EOF, "EOF", pos⟩, s)
  else if ch = '"' then s.scanString fuel
  else if ch = '(' then (⟨TokenType.LPAREN, String.singleton ch, pos⟩, s)
  else if ch = ')' then (⟨TokenType.RPAREN, String.singleton ch, pos⟩, s)
  else if ch = ',' then (⟨TokenType.COMMA, String.singleton ch, pos⟩, s)
  else if ch = ':' then (⟨TokenType.COLON, String.singleton ch, pos⟩, s)
  else if ch = '+' then (⟨TokenType.ADD, String.singleton ch, pos⟩, s)
  else if ch = '*' then (⟨TokenType.MUL, String.singleton ch, pos⟩, s)
  else (⟨TokenType.ILLEGAL, String.singleton ch, pos⟩, s)

/-- The loop of Scanner.Scan that skips comments and whitespace, followed by the rest of
Scan.  `fuel` bounds this loop, `inner` is the fuel handed to the loops it calls. -/
def Scanner.scanLoop : Nat → Nat → Char → Position → Scanner → Token × Scanner
  | 0, _, _, pos, s => (⟨TokenType.ILLEGAL, "", pos⟩, s)
  | fuel + 1, inner, ch, pos, s =>
    if ch = '#' then
      let c := s.skipUntilEndComment inner
      if c.1 then (⟨TokenType.ILLEGAL, "", pos⟩, c.2)
      else
        let r := c.2.read
        Scanner.scanLoop fuel inner r.1.1 r.1.2 r.2
    else if isWhitespace ch then
      let r := (s.scanWhitespace inner).read
      Scanner.scanLoop fuel inner r.1.1 r.1.2 r.2
    else Scanner.scanToken inner ch pos s

/-- Scanner.Scan: the next token.  Every loop reads at least one rune per round, so the
fuel, two more than the number of runes that can still be read, is never used up. -/
def Scanner.Scan (s : Scanner) : Token × Scanner :=
  let r := s.read
  Scanner.scanLoop (s.Reader.length + s.bufferSize + 2) (s.Reader.length + s.bufferSize + 2)
    r.1.1 r.1.2 r.2

/-- The number of runes other than `eof` that the scanner can still read: those of the
reader and the pushed-back ones. -/
def Scanner.unread (s : Scanner) : Nat :=
  s.Reader.length + (if s.buffer.1 = lexer.eof then 0 else s.bufferSize)

/-- The first `n` tokens that successive calls of Scan return. -/
def Scanner.tokens : Nat → Scanner → List Token
  | 0, _ => []
  | n + 1, s => (s.Scan).1 :: Scanner.tokens n (s.Scan).2

end lexer


/-! ## Go standard library: strconv.ParseInt -/

namespace strconv

/-- The value of a run of decimal digits. -/
def digitsValue (ds : List Char) : Nat :=
  ds.foldl (fun acc ch => acc * 10 + (ch.toNat - 48)) 0

/-- Model of `strconv.ParseInt(s, 10, 64)` of the Go standard library, after its
documentation: an optional sign followed by a non-empty run of decimal digits.  The result
is the value and whether `err` is nil.  On a syntax error the value is 0; on a value out of
the signed 64-bit range it is the nearest bound of that range. -/
def ParseInt (s : String) : Int × Bool :=
  let neg : Bool := s.data.head? = some '-'
  let ds : List Char :=
    if s.data.head? = some '-' || s.data.head? = some '+' then s.data.tail else s.data
  if ds = [] || !ds.all lexer.isDigit then (0, false)
  else if neg then
    if digitsValue ds > 2 ^ 63 then (-(2 ^ 63 : Int), false)
    else (-(digitsValue ds : Int), true)
  else
    if digitsValue ds ≥ 2 ^ 63 then ((2 ^ 63 - 1 : Int), false)
    else ((digitsValue ds : Int), true)

end strconv

/-! ## Package parser: ast.go, error.go -/

namespace parser

open lexer

/-- Operator of ast.go. -/
inductive Operator
  | Add
  | Multiply
deriving DecidableEq, Repr

/-- The interface Expression of ast.go with its four implementations IntLiteral,
StringLiteral, ArithmeticExpression and PodExpression; `nil` is the nil interface value. -/
inductive Expression
  | nil
  | IntLiteral (Value : Int) (Position : lexer.Position)
  | StringLiteral (Value : String) (Position : lexer.Position)
  | ArithmeticExpression (LHS : Expression) (Operator : parser.Operator) (RHS : Expression)
      (Position : lexer.Position)
  | PodExpression (CPU : Expression) (Memory : Expression) (GPU : Expression)
      (Position : lexer.Position)
deriving DecidableEq, Repr

/-- ParseError of error.go. -/
structure ParseError where
  Message : String
  Found : String
  Expected : List String
  Pos : Position
deriving DecidableEq, Repr

/-- The function newParseError of error.go. -/
def newParseError (found : String) (expected : List String) (pos : Position) : ParseError :=
  { Message := "", Found := found, Expected := expected, Pos := pos }

/-! ## Package parser: parser.go -/

/-- Parser of parser.go. -/
structure Parser where
  Errors : List ParseError
  scanner : Scanner
  lookahead : Token
deriving DecidableEq, Repr

/-- NewParser of parser.go: the look-ahead is the first token of the scanner. -/
def NewParser (scanner : Scanner) : Parser :=
  { Errors := [], scanner := (scanner.Scan).2, lookahead := (scanner.Scan).1 }

/-- Parser.matchToken: when the look-ahead has one of the given types it is returned with
true and the next token is scanned; otherwise the look-ahead is returned with false. -/
def Parser.matchToken (p : Parser) : List TokenType → (Token × Bool) × Parser
  | [] => ((p.lookahead, false), p)
  | tokType :: tokenTypes =>
    if tokType = p.lookahead.TokenType then
      ((p.lookahead, true),
        { p with lookahead := (p.scanner.Scan).1, scanner := (p.scanner.Scan).2 })
    else Parser.matchToken p tokenTypes

/-- Parser.match (named `match_`, `match` being a keyword). -/
def Parser.match_ (p : Parser) (tokenTypes : List TokenType) : (Token × Bool) × Parser :=
  let r := p.matchToken tokenTypes
  if r.1.2 then r else ((r.2.lookahead, false), r.2)

/-- Parser.addError: an error is dropped when one with the same position is recorded. -/
def Parser.addError (p : Parser) (e : ParseError) : Parser :=
  if p.Errors.any (fun err => err.Pos = e.Pos) then p
  else { p with Errors := p.Errors ++ [e] }

/-- Parser.ParseString. -/
def Parser.ParseString (p : Parser) : Expression × Parser :=
  let r := p.match_ [TokenType.STRING]
  let p1 := if !r.1.2 then r.2.addError (newParseError r.1.1.Lexeme ["STRING"] r.1.1.Position)
    else r.2
  (Expression.StringLiteral r.1.1.Lexeme r.1.1.Position, p1)

/-- Parser.ParseInteger.  The error for a literal that strconv.ParseInt rejects has only a
message; its position is the zero value. -/
def Parser.ParseInteger (p : Parser) : Expression × Parser :=
  let r := p.match_ [TokenType.INTEGER]
  let p1 := if !r.1.2 then r.2.addError (newParseError r.1.1.Lexeme ["INTEGER"] r.1.1.Position)
    else r.2
  let v := strconv.ParseInt r.1.1.Lexeme
  let p2 := if !v.2 then
      p1.addError { Message := r.1.1.Lexeme ++ " is not number", Found := "", Expected := [],
                    Pos := ⟨0, 0⟩ }
    else p1
  (Expression.IntLiteral v.1 r.1.1.Position, p2)

/-- Parser.ParseStringOrInteger. -/
def Parser.ParseStringOrInteger (p : Parser) : Expression × Parser :=
  if p.lookahead.TokenType = TokenType.STRING then p.ParseString
  else if p.lookahead.TokenType = TokenType.INTEGER then p.ParseInteger
  else (Expression.nil,
    p.addError (newParseError p.lookahead.Lexeme ["STRING", "INTEGER"] p.lookahead.Position))

/-- The colon and the value of a field of a pod, after its keyword has been matched. -/
def Parser.parseField (p : Parser) : Expression × Parser :=
  let r := p.match_ [TokenType.COLON]
  let p1 := if !r.1.2 then r.2.addError (newParseError r.1.1.Lexeme [":"] r.1.1.Position)
    else r.2
  p1.ParseStringOrInteger

/-- The second switch of the loop of Parser.ParsePod, after a field: `some p1` when the
function returns (with parser `p1`), `none` when the loop continues after a comma. -/
def Parser.afterField (p : Parser) : Option Parser × Parser :=
  if p.lookahead.TokenType = TokenType.RPAREN then
    (some (p.match_ [TokenType.RPAREN]).2, p)
  else if p.lookahead.TokenType = TokenType.COMMA then
    (none, (p.match_ [TokenType.COMMA]).2)
  else
    (some (p.addError (newParseError p.lookahead.Lexeme [",", ")"] p.lookahead.Position)), p)

/-- The loop of Parser.ParsePod; `cpu`, `memory`, `gpu` and `pos` are the fields of the
PodExpression under construction. -/
def Parser.parsePodLoop : Nat → Expression → Expression → Expression → Position → Parser →
    Option (Expression × Parser)
  | 0, _, _, _, _, _ => none
  | fuel + 1, cpu, memory, gpu, pos, p =>
    if p.lookahead.TokenType ≠ TokenType.RPAREN then
      if p.lookahead.TokenType = TokenType.MEMORY then
        let f := (p.match_ [TokenType.MEMORY]).2.parseField
        match f.2.afterField with
        | (some p1, _) => some (Expression.PodExpression cpu f.1 gpu pos, p1)
        | (none, p1) => Parser.parsePodLoop fuel cpu f.1 gpu pos p1
      else if p.lookahead.TokenType = TokenType.CPU then
        let f := (p.match_ [TokenType.CPU]).2.parseField
        match f.2.afterField with
        | (some p1, _) => some (Expression.PodExpression f.1 memory gpu pos, p1)
        | (none, p1) => Parser.parsePodLoop fuel f.1 memory gpu pos p1
      else if p.lookahead.TokenType = TokenType.GPU then
        let f := (p.match_ [TokenType.GPU]).2.parseField
        match f.2.afterField with
        | (some p1, _) => some (Expression.PodExpression cpu memory f.1 pos, p1)
        | (none, p1) => Parser.parsePodLoop fuel cpu memory f.1 pos p1
      else
        some (Expression.PodExpression cpu memory gpu pos,
          p.addError (newParseError p.lookahead.Lexeme ["cpu", "memory", "gpu", ")"]
            p.lookahead.Position))
    else some (Expression.PodExpression cpu memory gpu pos, p)

/-- Parser.ParsePod.  The position of the pod is read from `podToken` after the `(` has been
matched: when `pod` was matched, `podToken` is that token; when it was not, `match` has
returned the address of the look-ahead, so the position is that of the look-ahead at that
time, the token after the `(` when there is one. -/
def Parser.ParsePod (fuel : Nat) (p : Parser) : Option (Expression × Parser) :=
  let r := p.match_ [TokenType.POD]
  let p1 := if !r.1.2 then r.2.addError (newParseError r.1.1.Lexeme ["pod"] r.1.1.Position)
    else r.2
  let r2 := p1.match_ [TokenType.LPAREN]
  let p2 := if !r2.1.2 then r2.2.addError (newParseError r2.1.1.Lexeme ["("] r2.1.1.Position)
    else r2.2
  Parser.parsePodLoop fuel Expression.nil Expression.nil Expression.nil
    (if r.1.2 then r.1.1.Position else p2.lookahead.Position) p2

mutual

/-- Parser.ParseExpression: a term, then the loop over `+`. -/
def Parser.ParseExpression : Nat → Parser → Option (Expression × Parser)
  | 0, _ => none
  | fuel + 1, p =>
    match Parser.ParseTerm fuel p with
    | none => none
    | some (result, p1) => Parser.parseExpressionLoop fuel result p1

/-- The loop of Parser.ParseExpression, `result` being the expression built so far. -/
def Parser.parseExpressionLoop : Nat → Expression → Parser → Option (Expression × Parser)
  | 0, _, _ => none
  | fuel + 1, result, p =>
    if p.lookahead.TokenType = TokenType.ADD then
      let position := p.lookahead.Position
      match Parser.ParseTerm fuel (p.match_ [TokenType.ADD]).2 with
      | none => none
      | some (rhs, p1) =>
        Parser.parseExpressionLoop fuel
          (Expression.ArithmeticExpression result Operator.Add rhs position) p1
    else some (result, p)

/-- Parser.ParseTerm: an integer or a factor, then the loop over `*`. -/
def Parser.ParseTerm : Nat → Parser → Option (Expression × Parser)
  | 0, _ => none
  | fuel + 1, p =>
    if p.lookahead.TokenType = TokenType.INTEGER then
      let r := p.ParseInteger
      let p1 := if r.2.lookahead.TokenType ≠ TokenType.MUL then
          r.2.addError (newParseError r.2.lookahead.Lexeme ["*"] r.2.lookahead.Position)
        else r.2
      Parser.parseTermLoop fuel true r.1 p1
    else
      match Parser.ParseFactor fuel p with
      | none => none
      | some (result, p1) => Parser.parseTermLoop fuel false result p1

/-- The loop of Parser.ParseTerm, `result` being the expression built so far. -/
def Parser.parseTermLoop : Nat → Bool → Expression → Parser → Option (Expression × Parser)
  | 0, _, _, _ => none
  | fuel + 1, isLHSInteger, result, p =>
    if p.lookahead.TokenType = TokenType.MUL then
      let position := p.lookahead.Position
      if isLHSInteger then
        match Parser.ParseFactor fuel (p.match_ [TokenType.MUL]).2 with
        | none => none
        | some (rhs, p1) =>
          Parser.parseTermLoop fuel isLHSInteger
            (Expression.ArithmeticExpression result Operator.Multiply rhs position) p1
      else
        let r := (p.match_ [TokenType.MUL]).2.ParseInteger
        Parser.parseTermLoop fuel isLHSInteger
          (Expression.ArithmeticExpression result Operator.Multiply r.1 position) r.2
    else some (result, p)

/-- Parser.ParseFactor: a parenthesised expression or a pod. -/
def Parser.ParseFactor : Nat → Parser → Option (Expression × Parser)
  | 0, _ => none
  | fuel + 1, p =>
    if p.lookahead.TokenType = TokenType.LPAREN then
      match Parser.ParseExpression fuel (p.match_ [TokenType.LPAREN]).2 with
      | none => none
      | some (expr, p1) =>
        let r := p1.match_ [TokenType.RPAREN]
        let p2 := if !r.1.2 then
            r.2.addError (newParseError r.1.1.Lexeme [")"] r.1.1.Position)
          else r.2
        some (expr, p2)
    else if p.lookahead.TokenType = TokenType.POD then Parser.ParsePod fuel p
    else
      some (Expression.nil,
        p.addError (newParseError p.lookahead.Lexeme ["(", "pod"] p.lookahead.Position))

end

/-- The parser after its look-ahead has been consumed: the next token is scanned. -/
def Parser.advance (p : Parser) : Parser :=
  { p with lookahead := (p.scanner.Scan).1, scanner := (p.scanner.Scan).2 }

/-- The number of tokens that the parser can still consume, bounded from above: the
look-ahead, unless it is EOF, and one for every rune that the scanner can still read. -/
def Parser.pending (p : Parser) : Nat :=
  p.scanner.unread + (if p.lookahead.TokenType = TokenType.EOF then 0 else 1)

/-- Parse of parser.go: the expression and the error list.  The fuel is three units per
rune of the input plus three; `none` would mean that it was used up. -/
def Parse (s : String) : Option (Expression × List ParseError) :=
  match Parser.ParseExpression (3 * s.length + 3) (NewParser (NewScanner s.data)) with
  | none => none
  | some (e, p) => some (e, p.Errors)

end parser

/-! ## Kubernetes API types used by podgen and main -/

namespace resource

/-- Model of `resource.Quantity` of k8s.io/apimachinery: an exact number.  The library
keeps a decimal with a scale and compares exactly, so the value is all that the code
observes. -/
abbrev Quantity := ℚ

/-- Model of `resource.NewScaledQuantity(value, scale)`: value times ten to the scale. -/
def NewScaledQuantity (value : Int) (scale : Int) : Quantity :=
  (value : ℚ) * (10 : ℚ) ^ scale

/-- Model of `Quantity.Cmp`: -1, 0 or 1. -/
def Quantity.Cmp (q y : Quantity) : Int :=
  if q < y then -1 else if q = y then 0 else 1

end resource

namespace corev1

/-- The type `ResourceList` (a Go map from resource name to quantity), as an association
list with at most one entry per name. -/
abbrev ResourceList := List (String × resource.Quantity)

/-- Assignment `m[name] = q` on a ResourceList. -/
def ResourceList.set (m : ResourceList) (name : String) (q : resource.Quantity) :
    ResourceList :=
  m.filter (fun kv => kv.1 ≠ name) ++ [(name, q)]

/-- Index expression `m[name]`: the zero quantity when the name is missing.  The methods
`Cpu()` and `Memory()` of ResourceList are this index at "cpu" and "memory". -/
def ResourceList.get (m : ResourceList) (name : String) : resource.Quantity :=
  (m.lookup name).getD 0

/-- The fields of `v1.Container` that podgen sets. -/
structure Container where
  Name : String
  Image : String
  Requests : ResourceList
deriving DecidableEq

/-- The fields of `v1.Pod` that podgen sets. -/
structure Pod where
  APIVersion : String
  Kind : String
  Name : String
  Containers : List Container
deriving DecidableEq

end corev1

/-! ## Package podgen: error.go, podgen.go -/

namespace podgen

open parser corev1

/-- Error of error.go. -/
structure Error where
  Message : String
  Pos : lexer.Position
deriving DecidableEq, Repr

/-- PodGenerator of podgen.go. -/
structure PodGenerator where
  errors : List Error
  pods : List Pod
  currentPodIndex : Nat
deriving DecidableEq

/-- PodGenerator.ParseQuantity.  `parseQuantity` stands for `resource.ParseQuantity` of
k8s.io/apimachinery, which is not part of the repository: it returns the quantity or the
text of the error. -/
def PodGenerator.ParseQuantity (parseQuantity : String → Except String resource.Quantity)
    (c : PodGenerator) : Expression → Option resource.Quantity × PodGenerator
  | Expression.IntLiteral value _ => (some (resource.NewScaledQuantity value 0), c)
  | Expression.StringLiteral value position =>
    match parseQuantity value with
    | Except.error err =>
      (none, { c with errors := c.errors ++ [{ Message := err, Pos := position }] })
    | Except.ok result => (some result, c)
  | _ => (none, c)

/-- The request map after `if q != nil { resources[name] = *q }`. -/
def setRequest (resources : ResourceList) (name : String) :
    Option resource.Quantity → ResourceList
  | none => resources
  | some q => resources.set name q

/-- PodGenerator.PodgenPodExpression, for the node with the given fields. -/
def PodGenerator.PodgenPodExpression
    (parseQuantity : String → Except String resource.Quantity)
    (c : PodGenerator) (CPU Memory GPU : Expression) : PodGenerator :=
  let cpu := c.ParseQuantity parseQuantity CPU
  let resources1 := setRequest [] "cpu" cpu.1
  let memory := cpu.2.ParseQuantity parseQuantity Memory
  let resources2 := setRequest resources1 "memory" memory.1
  let gpu := memory.2.ParseQuantity parseQuantity GPU
  let resources3 := setRequest resources2 "nvidia.com/gpu" gpu.1
  let c1 := gpu.2
  { c1 with
    pods := c1.pods ++
      [{ APIVersion := "v1", Kind := "Pod",
         Name := "pod-" ++ toString c1.currentPodIndex,
         Containers := [{ Name := "container", Image := "container",
                          Requests := resources3 }] }],
    currentPodIndex := c1.currentPodIndex + 1 }

/-- PodGenerator.PodgenExpression, with PodGenerator.PodgenArithmeticExpression written
out in the two cases of an ArithmeticExpression; the loop `for i = 0; i < Value; i++` runs
its body `Value.toNat` times. -/
def PodGenerator.PodgenExpression
    (parseQuantity : String → Except String resource.Quantity) :
    Expression → PodGenerator → PodGenerator
  | Expression.PodExpression CPU Memory GPU _, c =>
    c.PodgenPodExpression parseQuantity CPU Memory GPU
  | Expression.ArithmeticExpression LHS Operator.Add RHS _, c =>
    PodGenerator.PodgenExpression parseQuantity RHS
      (PodGenerator.PodgenExpression parseQuantity LHS c)
  | Expression.ArithmeticExpression LHS Operator.Multiply RHS position, c =>
    match LHS with
    | Expression.IntLiteral value _ =>
      Nat.iterate (fun c1 => PodGenerator.PodgenExpression parseQuantity RHS c1) value.toNat c
    | _ =>
      match RHS with
      | Expression.IntLiteral value _ =>
        Nat.iterate (fun c1 => PodGenerator.PodgenExpression parseQuantity LHS c1)
          value.toNat c
      | _ =>
        { c with errors := c.errors ++
            [{ Message := "one of [lhs, rhs] must be an integer in a multiply expression",
               Pos := position }] }
  | _, c => c

/-- Podgen of podgen.go: the pods and the errors of an expression. -/
def Podgen (parseQuantity : String → Except String resource.Quantity)
    (expression : Expression) : List Pod × List Error :=
  let c := PodGenerator.PodgenExpression parseQuantity expression
    { errors := [], pods := [], currentPodIndex := 0 }
  (c.pods, c.errors)

/-- The request maps of a list of pods: for each pod those of its containers. -/
def requestMaps (pods : List Pod) : List (List ResourceList) :=
  pods.map (fun pod => pod.Containers.map (fun container => container.Requests))

end podgen

/-! ## Package nodesource: aws.go -/

namespace nodesource

/-- AWSNode of aws.go.  The price (`float64`) and the memory (`float32`) are rationals,
the values of finite floating-point numbers; infinities and NaN are not modelled. -/
structure AWSNode where
  InstanceType : String
  OnDemandPrice : ℚ
  VCPU : Int
  Memory : ℚ
  GPU : Int
  MaxPods : Int
  Arch : List String
deriving DecidableEq

/-- AWSNode.GetHourlyPrice. -/
def AWSNode.GetHourlyPrice (n : AWSNode) : ℚ :=
  n.OnDemandPrice

/-- The Go conversion `int(x)` of a floating-point number: truncation towards zero. -/
def truncate (x : ℚ) : Int :=
  Int.tdiv x.num (x.den : Int)

/-- The entry `Status.Allocatable` of AWSNode.GetNodeConfig.  The Go code formats each
capacity with `%d` (the memory with `%dGi`, after `int(n.Memory)`), and the only reader,
filterNodeTypes, parses the text back with resource.MustParse; the model holds the
quantity so written: the integer itself, and for the memory that many times 2^30. -/
def AWSNode.Allocatable (n : AWSNode) : corev1.ResourceList :=
  [("cpu", (n.VCPU : ℚ)),
   ("memory", (truncate n.Memory : ℚ) * 2 ^ 30),
   ("nvidia.com/gpu", (n.GPU : ℚ)),
   ("pods", (n.MaxPods : ℚ))]

end nodesource

/-! ## main.go -/

namespace kubesurvival

open nodesource corev1

/-- Result of main.go. -/
structure Result where
  InstanceType : String
  NodeCount : Nat
  TotalPricePerMonth : ℚ
deriving DecidableEq

/-- The body of the inner loop of filterNodeTypes for one pod: whether the node type is
still kept after this pod.  `none` is the run-time panic of `Containers[0]` on a pod
without containers. -/
def podFits (nodeType : AWSNode) (pod : Pod) : Option Bool :=
  match pod.Containers with
  | [] => none
  | container :: _ =>
    let nodeCpu := nodeType.Allocatable.get "cpu"
    let podCpu := container.Requests.get "cpu"
    if resource.Quantity.Cmp podCpu nodeCpu > 0 then some false
    else
      let nodeMemory := nodeType.Allocatable.get "memory"
      let podMemory := container.Requests.get "memory"
      if resource.Quantity.Cmp podMemory nodeMemory > 0 then some false
      else
        let nodeGpu := nodeType.Allocatable.get "nvidia.com/gpu"
        let podGpu := container.Requests.get "nvidia.com/gpu"
        if resource.Quantity.Cmp podGpu nodeGpu > 0 then some false
        else some true

/-- The inner loop of filterNodeTypes: the final value of `nodeHasEnoughResources`. -/
def nodeHasEnoughResources (nodeType : AWSNode) : List Pod → Option Bool
  | [] => some true
  | pod :: pods =>
    match podFits nodeType pod with
    | none => none
    | some false => some false
    | some true => nodeHasEnoughResources nodeType pods

/-- The function filterNodeTypes of main.go (its warnings left out). -/
def filterNodeTypes : List AWSNode → List Pod → Option (List AWSNode)
  | [], _ => some []
  | nodeType :: nodeTypes, pods =>
    match nodeHasEnoughResources nodeType pods with
    | none => none
    | some keep =>
      match filterNodeTypes nodeTypes pods with
      | none => none
      | some result => some (if keep then nodeType :: result else result)

/-- The monthly price that the main loop computes for a fleet,
`float64(nodeCount) * nodeType.GetHourlyPrice() * 24 * 31`.  The arithmetic is that of
float64: the conversion and each multiplication, from left to right, give the exact value
rounded to a float64.  The rounding is the parameter `fl`; rounding to the nearest float64
is one such function, and the identity gives exact arithmetic.  A product beyond the range
of float64 is `+Inf` in Go, greater than every other number and equal to itself: a
rounding that takes such products to one number above the range stands for it. -/
def totalPricePerMonth (fl : ℚ → ℚ) (nodeCount : Nat) (nodeType : AWSNode) : ℚ :=
  fl (fl (fl (fl (nodeCount : ℚ) * nodeType.GetHourlyPrice) * 24) * 31)

/-- The node count after `nodeCount += int(math.Max(float64(nodeCount)/15, 1))`.  The
division is the exact one: for node counts below 2^52 the rounding of the float64 quotient
does not reach the next whole number, so the truncated quotient is the same. -/
def nextNodeCount (nodeCount : Nat) : Nat :=
  nodeCount + (truncate (max ((nodeCount : ℚ) / 15) 1)).toNat

/-- The test `result != nil && totalPricePerMonth > result.TotalPricePerMonth` of main, a
comparison of two float64 values. -/
def tooExpensive (result : Option Result) (total : ℚ) : Bool :=
  match result with
  | none => false
  | some r => decide (total > r.TotalPricePerMonth)

/-- The inner loop `for` of main for one node type, started at `nodeCount`.  `Simulate`
stands for KubernetesSimulator.Simulate, which runs the external cluster simulator.  The
result is `none` when the fuel is used up, `some (Except.error _)` when main returns after
a failed simulation, and otherwise the value of `result` at the `break`. -/
def countLoop (fl : ℚ → ℚ) (Simulate : List Pod → List AWSNode → Except String Bool)
    (pods : List Pod) (nodeType : AWSNode) :
    Nat → Option Result → Nat → Option (Except String (Option Result))
  | 0, _, _ => none
  | fuel + 1, result, nodeCount =>
    let total := totalPricePerMonth fl nodeCount nodeType
    if tooExpensive result total then some (Except.ok result)
    else
      match Simulate pods (List.replicate nodeCount nodeType) with
      | Except.error err => some (Except.error err)
      | Except.ok true =>
        some (Except.ok (some { InstanceType := nodeType.InstanceType,
                                NodeCount := nodeCount,
                                TotalPricePerMonth := total }))
      | Except.ok false =>
        countLoop fl Simulate pods nodeType fuel result (nextNodeCount nodeCount)

/-- The main loop of main over the filtered node types, started with `result`. -/
def mainLoop (fl : ℚ → ℚ) (Simulate : List Pod → List AWSNode → Except String Bool)
    (pods : List Pod) (fuel : Nat) :
    List AWSNode → Option Result → Option (Except String (Option Result))
  | [], result => some (Except.ok result)
  | nodeType :: nodeTypes, result =>
    match countLoop fl Simulate pods nodeType fuel result 2 with
    | none => none
    | some (Except.error err) => some (Except.error err)
    | some (Except.ok result1) => mainLoop fl Simulate pods fuel nodeTypes result1

/-- The node counts that the inner loop of main tries: 2, 3, ..., 30, 32, 34, ... -/
def growthCount : Nat → Nat
  | 0 => 2
  | n + 1 => nextNodeCount (growthCount n)

end kubesurvival

/-! ## Instances used in the examples of the search -/

namespace kubesurvival

open nodesource corev1

/-- A node type with an hourly price of one dollar. -/
def dollarNode : AWSNode :=
  { InstanceType := "m", OnDemandPrice := 1, VCPU := 2, Memory := 8, GPU := 0, MaxPods := 10,
    Arch := [] }

/-- A simulator verdict that is monotone in the node count: success from `n` nodes on. -/
def succeedsFrom (n : Nat) : List Pod → List AWSNode → Except String Bool :=
  fun _ nodes => Except.ok (decide (n ≤ nodes.length))

end kubesurvival

/-! ## The grammar of the DSL (specification, section 4.2) -/

namespace parser

open lexer

/-- What the grammar sees of a token: its type, and for an INTEGER or STRING token also
its lexeme. -/
inductive Symbol
  | token (t : TokenType)
  | integer (digits : String)
  | string (contents : String)
deriving DecidableEq, Repr

/-- The grammar symbol of a token. -/
def symbol (t : Token) : Symbol :=
  if t.TokenType = TokenType.INTEGER then Symbol.integer t.Lexeme
  else if t.TokenType = TokenType.STRING then Symbol.string t.Lexeme
  else Symbol.token t.TokenType

/-- The symbols of the first `n` tokens of a text. -/
def tokenSymbols (s : String) (n : Nat) : List Symbol :=
  ((NewScanner s.data).tokens n).map symbol

/-- The token stream of the text `s` starts with the symbols `ts`. -/
def HasTokens (s : String) (ts : List Symbol) : Prop :=
  tokenSymbols s ts.length = ts

instance (s : String) (ts : List Symbol) : Decidable (HasTokens s ts) :=
  inferInstanceAs (Decidable (tokenSymbols s ts.length = ts))

/-- The symbols of the next `n` tokens of a parser, its look-ahead first. -/
def Parser.upcoming : Nat → Parser → List Symbol
  | 0, _ => []
  | n + 1, p => symbol p.lookahead :: Parser.upcoming n p.advance

/-- The token stream of the parser starts with the symbols `ts`. -/
def Parser.Sees (p : Parser) (ts : List Symbol) : Prop :=
  p.upcoming ts.length = ts

/-- An expression with every position set to the zero position (the trees that the tests
of the parser compare, which run the scanner with DisablePositions). -/
def Expression.erase : Expression → Expression
  | Expression.nil => Expression.nil
  | Expression.IntLiteral value _ => Expression.IntLiteral value ⟨0, 0⟩
  | Expression.StringLiteral value _ => Expression.StringLiteral value ⟨0, 0⟩
  | Expression.ArithmeticExpression lhs op rhs _ =>
    Expression.ArithmeticExpression lhs.erase op rhs.erase ⟨0, 0⟩
  | Expression.PodExpression cpu memory gpu _ =>
    Expression.PodExpression cpu.erase memory.erase gpu.erase ⟨0, 0⟩

/-- The three resource axes of a pod. -/
inductive Axis
  | cpu
  | memory
  | gpu
deriving DecidableEq, Repr

/-- The keyword of an axis. -/
def Axis.keyword : Axis → TokenType
  | Axis.cpu => TokenType.CPU
  | Axis.memory => TokenType.MEMORY
  | Axis.gpu => TokenType.GPU

/-- The fields (cpu, memory, gpu) of a pod after the assignment of `v` to one axis. -/
def Axis.assign (a : Axis) (v : Expression) (f : Expression × Expression × Expression) :
    Expression × Expression × Expression :=
  match a with
  | Axis.cpu => (v, f.2.1, f.2.2)
  | Axis.memory => (f.1, v, f.2.2)
  | Axis.gpu => (f.1, f.2.1, v)

/-- The literal, without position, that a value symbol `string | integer` denotes. -/
inductive DerivesValue : Symbol → Expression → Prop
  | integer (digits : String) :
    DerivesValue (Symbol.integer digits)
      (Expression.IntLiteral (strconv.ParseInt digits).1 ⟨0, 0⟩)
  | string (contents : String) :
    DerivesValue (Symbol.string contents) (Expression.StringLiteral contents ⟨0, 0⟩)

/-- The production `field ( "," field )*`, with
`field := ( "cpu" | "memory" | "gpu" ) ":" ( string | integer )`:
`DerivesFields f ts f1` when the symbols `ts` are such a list of fields and `f1` are the
fields of the pod after the fields of `ts`, read from left to right, have been assigned to
the fields `f`. -/
inductive DerivesFields :
    Expression × Expression × Expression → List Symbol →
    Expression × Expression × Expression → Prop
  | last (a : Axis) (t : Symbol) (v : Expression) (f : Expression × Expression × Expression) :
    DerivesValue t v →
    DerivesFields f [Symbol.token a.keyword, Symbol.token TokenType.COLON, t] (a.assign v f)
  | more (a : Axis) (t : Symbol) (v : Expression) (f f1 : Expression × Expression × Expression)
      (ts : List Symbol) :
    DerivesValue t v → DerivesFields (a.assign v f) ts f1 →
    DerivesFields f
      ([Symbol.token a.keyword, Symbol.token TokenType.COLON, t,
        Symbol.token TokenType.COMMA] ++ ts) f1

/-- The nonterminals of the grammar; `term` has the two alternatives `integerTerm`
(`integer "*" factor ( "*" factor )*`) and `factorTerm` (`factor ( "*" integer )*`). -/
inductive Category
  | expression
  | integerTerm
  | factorTerm
  | factor
deriving DecidableEq, Repr

/-- The grammar of section 4.2 with the tree, without positions, of each phrase:
`Derives b c ts e` when the symbols `ts` are a phrase of the nonterminal `c` whose
left-associative expression tree is `e`.  The flag `b` tells whether pod literals without
fields are allowed: `Derives true` is the grammar of the specification, `Derives false`
the same grammar with `pod := "pod" "(" field ( "," field )* ")"`. -/
inductive Derives : Bool → Category → List Symbol → Expression → Prop
  | emptyPod :
    Derives true Category.factor
      [Symbol.token TokenType.POD, Symbol.token TokenType.LPAREN,
        Symbol.token TokenType.RPAREN]
      (Expression.PodExpression Expression.nil Expression.nil Expression.nil ⟨0, 0⟩)
  | pod (b : Bool) (ts : List Symbol) (f : Expression × Expression × Expression) :
    DerivesFields (Expression.nil, Expression.nil, Expression.nil) ts f →
    Derives b Category.factor
      ([Symbol.token TokenType.POD, Symbol.token TokenType.LPAREN] ++ ts ++
        [Symbol.token TokenType.RPAREN])
      (Expression.PodExpression f.1 f.2.1 f.2.2 ⟨0, 0⟩)
  | paren (b : Bool) (ts : List Symbol) (e : Expression) :
    Derives b Category.expression ts e →
    Derives b Category.factor
      ([Symbol.token TokenType.LPAREN] ++ ts ++ [Symbol.token TokenType.RPAREN]) e
  | factorTerm (b : Bool) (ts : List Symbol) (e : Expression) :
    Derives b Category.factor ts e → Derives b Category.factorTerm ts e
  | timesInteger (b : Bool) (ts : List Symbol) (e : Expression) (digits : String) :
    Derives b Category.factorTerm ts e →
    Derives b Category.factorTerm
      (ts ++ [Symbol.token TokenType.MUL, Symbol.integer digits])
      (Expression.ArithmeticExpression e Operator.Multiply
        (Expression.IntLiteral (strconv.ParseInt digits).1 ⟨0, 0⟩) ⟨0, 0⟩)
  | integerTimes (b : Bool) (digits : String) (ts : List Symbol) (e : Expression) :
    Derives b Category.factor ts e →
    Derives b Category.integerTerm
      ([Symbol.integer digits, Symbol.token TokenType.MUL] ++ ts)
      (Expression.ArithmeticExpression
        (Expression.IntLiteral (strconv.ParseInt digits).1 ⟨0, 0⟩) Operator.Multiply e ⟨0, 0⟩)
  | timesFactor (b : Bool) (ts ts1 : List Symbol) (e e1 : Expression) :
    Derives b Category.integerTerm ts e → Derives b Category.factor ts1 e1 →
    Derives b Category.integerTerm (ts ++ [Symbol.token TokenType.MUL] ++ ts1)
      (Expression.ArithmeticExpression e Operator.Multiply e1 ⟨0, 0⟩)
  | ofFactorTerm (b : Bool) (ts : List Symbol) (e : Expression) :
    Derives b Category.factorTerm ts e → Derives b Category.expression ts e
  | ofIntegerTerm (b : Bool) (ts : List Symbol) (e : Expression) :
    Derives b Category.integerTerm ts e → Derives b Category.expression ts e
  | plusFactorTerm (b : Bool) (ts ts1 : List Symbol) (e e1 : Expression) :
    Derives b Category.expression ts e → Derives b Category.factorTerm ts1 e1 →
    Derives b Category.expression (ts ++ [Symbol.token TokenType.ADD] ++ ts1)
      (Expression.ArithmeticExpression e Operator.Add e1 ⟨0, 0⟩)
  | plusIntegerTerm (b : Bool) (ts ts1 : List Symbol) (e e1 : Expression) :
    Derives b Category.expression ts e → Derives b Category.integerTerm ts1 e1 →
    Derives b Category.expression (ts ++ [Symbol.token TokenType.ADD] ++ ts1)
      (Expression.ArithmeticExpression e Operator.Add e1 ⟨0, 0⟩)

/-- Every integer literal among the symbols is accepted by strconv.ParseInt: it is within
the signed 64-bit range. -/
def IntegersInRange (ts : List Symbol) : Prop :=
  ∀ digits, Symbol.integer digits ∈ ts → (strconv.ParseInt digits).2 = true

end parser

namespace parser

open lexer

/-- What it means that the parser, at `p`, accepts the phrase `ts` of the nonterminal `c`
with tree `e`.  ParseFactor returns a tree that is `e` up to positions, having consumed
exactly `ts`.  ParseTerm and ParseExpression reach their loop having consumed exactly
`ts`, with such a tree as the expression built so far: whatever the loop then returns is
the result of the function. -/
def Accepts (c : Category) (ts : List Symbol) (e : Expression) (p : Parser) : Prop :=
  match c with
  | Category.factor =>
    ∃ fuel e1, Parser.ParseFactor fuel p = some (e1, Parser.advance^[ts.length] p) ∧
      e1.erase = e
  | Category.factorTerm =>
    ∃ e1, e1.erase = e ∧ ∀ fuel r,
      Parser.parseTermLoop fuel false e1 (Parser.advance^[ts.length] p) = some r →
      ∃ fuel1, Parser.ParseTerm fuel1 p = some r
  | Category.integerTerm =>
    ∃ e1, e1.erase = e ∧ ∀ fuel r,
      Parser.parseTermLoop fuel true e1 (Parser.advance^[ts.length] p) = some r →
      ∃ fuel1, Parser.ParseTerm fuel1 p = some r
  | Category.expression =>
    ∃ e1, e1.erase = e ∧ ∀ fuel r,
      Parser.parseExpressionLoop fuel e1 (Parser.advance^[ts.length] p) = some r →
      ∃ fuel1, Parser.ParseExpression fuel1 p = some r

end parser

/-! ## Pod literals as texts -/

namespace parser

open lexer

/-- The value of a field in a pod literal: an integer literal, given by its digits, or a
string literal, given by the characters between its quotes. -/
inductive Literal
  | integer (digits : String)
  | string (contents : String)
deriving DecidableEq, Repr

/-- The symbol of a literal. -/
def Literal.symbol : Literal → Symbol
  | Literal.integer digits => Symbol.integer digits
  | Literal.string contents => Symbol.string contents

/-- An integer literal is in range when it is a non-empty run of decimal digits whose
value is within the signed 64-bit range; every string literal is. -/
def Literal.InRange : Literal → Prop
  | Literal.integer digits =>
    digits.data ≠ [] ∧ digits.data.all lexer.isDigit = true ∧
      strconv.digitsValue digits.data < 2 ^ 63
  | Literal.string _ => True

/-- The tree of a literal, without position: an IntLiteral with the decimal value of the
digits, or a StringLiteral with the contents. -/
def Literal.expression : Literal → Expression
  | Literal.integer digits => Expression.IntLiteral (strconv.digitsValue digits.data) ⟨0, 0⟩
  | Literal.string contents => Expression.StringLiteral contents ⟨0, 0⟩

/-- The symbols of `field ( "," field )*` for the given fields; none for no field. -/
def fieldSymbols : List (Axis × Literal) → List Symbol
  | [] => []
  | [x] => [Symbol.token x.1.keyword, Symbol.token TokenType.COLON, x.2.symbol]
  | x :: y :: fs =>
    [Symbol.token x.1.keyword, Symbol.token TokenType.COLON, x.2.symbol,
      Symbol.token TokenType.COMMA] ++ fieldSymbols (y :: fs)

/-- The symbols of the pod literal `pod(f1, ..., fk)`. -/
def podSymbols (fs : List (Axis × Literal)) : List Symbol :=
  [Symbol.token TokenType.POD, Symbol.token TokenType.LPAREN] ++ fieldSymbols fs ++
    [Symbol.token TokenType.RPAREN]

/-- The fields (cpu, memory, gpu) after the given fields have been assigned from left to
right. -/
def assignFields : List (Axis × Literal) → Expression × Expression × Expression →
    Expression × Expression × Expression
  | [], f => f
  | x :: fs, f => assignFields fs (x.1.assign x.2.expression f)

/-- The tree, without positions, of the pod literal with the given fields. -/
def podExpression (fs : List (Axis × Literal)) : Expression :=
  Expression.PodExpression
    (assignFields fs (Expression.nil, Expression.nil, Expression.nil)).1
    (assignFields fs (Expression.nil, Expression.nil, Expression.nil)).2.1
    (assignFields fs (Expression.nil, Expression.nil, Expression.nil)).2.2 ⟨0, 0⟩

/-- The field that a pod literal with pairwise different axes gives to the axis `a`: the
literal of the field that names `a`, absent when no field names it. -/
def fieldOf (fs : List (Axis × Literal)) (a : Axis) : Expression :=
  match fs.lookup a with
  | some l => l.expression
  | none => Expression.nil

end parser

namespace parser

/-- The field of the axis `a` among the fields (cpu, memory, gpu). -/
def Axis.get (a : Axis) (f : Expression × Expression × Expression) : Expression :=
  match a with
  | Axis.cpu => f.1
  | Axis.memory => f.2.1
  | Axis.gpu => f.2.2

end parser

/-! ## Specification-side functions for the materializer -/

namespace podgen

open parser corev1

/-- The value of an IntLiteral, none for every other expression: the outcome of the Go
type assertion `node.(*parser.IntLiteral)`. -/
def asIntLiteral : Expression → Option Int
  | Expression.IntLiteral value _ => some value
  | _ => none

/-- The quantity that section 4.3 gives to a field of a PodSpec: an integer literal is
that whole number, a string literal the quantity it parses to, and an absent field or a
string that does not parse gives no quantity. -/
def specQuantity (parseQuantity : String → Except String resource.Quantity) :
    Expression → Option resource.Quantity
  | Expression.IntLiteral value _ => some (value : ℚ)
  | Expression.StringLiteral value _ =>
    match parseQuantity value with
    | Except.ok q => some q
    | Except.error _ => none
  | _ => none

/-- The generator that Podgen starts with. -/
def emptyGenerator : PodGenerator :=
  { errors := [], pods := [], currentPodIndex := 0 }

/-- Two states of the generator that differ at most in the positions of their errors. -/
def PodGenerator.Similar (c d : PodGenerator) : Prop :=
  c.pods = d.pods ∧ c.currentPodIndex = d.currentPodIndex ∧
    c.errors.map Error.Message = d.errors.map Error.Message

end podgen

namespace podgen

open parser corev1

/-- What the request of one axis must be for a field of a PodSpec (section 4.3): it is
present exactly when the field is an IntLiteral or a StringLiteral that parses as a
quantity; an IntLiteral `v` gives exactly `v`, a StringLiteral the quantity it parses to. -/
def AxisRequest (parseQuantity : String → Except String resource.Quantity)
    (field : Expression) (request : Option resource.Quantity) : Prop :=
  (request.isSome = true ↔
    (∃ v p, field = Expression.IntLiteral v p) ∨
    (∃ s p q, field = Expression.StringLiteral s p ∧ parseQuantity s = Except.ok q)) ∧
  (∀ v p, field = Expression.IntLiteral v p → request = some (v : ℚ)) ∧
  (∀ s p q, field = Expression.StringLiteral s p → parseQuantity s = Except.ok q →
    request = some q)

end podgen

/-! ## Specification-side functions for the pre-filter -/

namespace kubesurvival

open nodesource corev1

/-- The demand of a unit on an axis (section 3): the entry of the request map of the unit,
which is the one of its first container, and zero for an axis that the map does not
have. -/
def demand (u : Pod) (axis : String) : ℚ :=
  match u.Containers with
  | [] => 0
  | container :: _ =>
    match container.Requests.lookup axis with
    | some q => q
    | none => 0

/-- The condition of section 4.4 for a machine and a unit: on each of the three axes the
demand of the unit is at most the capacity of the machine, the memory of the machine
being its whole GiB (in bytes, the unit of a memory quantity). -/
def Fits (m : AWSNode) (u : Pod) : Prop :=
  demand u "cpu" ≤ (m.VCPU : ℚ) ∧
  demand u "memory" ≤ (truncate m.Memory : ℚ) * 2 ^ 30 ∧
  demand u "nvidia.com/gpu" ≤ (m.GPU : ℚ)

instance (m : AWSNode) (u : Pod) : Decidable (Fits m u) :=
  inferInstanceAs (Decidable (_ ∧ _ ∧ _))

/-- A unit whose only container has the given request map. -/
def unitOf (requests : ResourceList) : Pod :=
  { APIVersion := "v1", Kind := "Pod", Name := "pod-0",
    Containers := [{ Name := "container", Image := "container", Requests := requests }] }

end kubesurvival

/-! ## Specification-side notions for the soundness of the parser -/

namespace parser

open lexer

/-- The parser `p` reads the symbols `ts`, none of them the end of input, and is then the
parser `q`. -/
def Parser.Reads (p : Parser) (ts : List Symbol) (q : Parser) : Prop :=
  p.Sees ts ∧ q = Parser.advance^[ts.length] p ∧ Symbol.token TokenType.EOF ∉ ts

/-- A parser without its errors: its look-ahead and its scanner. -/
def Parser.clean (p : Parser) : Parser :=
  { p with Errors := [] }

/-- Whether `b` is a `)` right after `a`, a `(` or a `,`. -/
def closesEmpty (a b : Symbol) : Bool :=
  decide ((a = Symbol.token TokenType.LPAREN ∨ a = Symbol.token TokenType.COMMA) ∧
    b = Symbol.token TokenType.RPAREN)

/-- Whether no symbol of the list is a `)` right after a `(` or a `,`. -/
def noEmptyClose : List Symbol → Bool
  | [] => true
  | a :: ts =>
    (match ts with
      | [] => true
      | b :: _ => !closesEmpty a b) && noEmptyClose ts

/-- Among the tokens of the text `s` no `)` comes right after a `(` or a `,`: the text has
no pod literal without fields and no comma before a closing parenthesis.  The text has at
most `s.length` tokens before its end. -/
def NoEmptyClose (s : String) : Prop :=
  noEmptyClose (tokenSymbols s (s.length + 1)) = true

instance (s : String) : Decidable (NoEmptyClose s) :=
  inferInstanceAs (Decidable (noEmptyClose (tokenSymbols s (s.length + 1)) = true))

/-- Among the tokens that the parser has before it, up to the first end of input, no `)`
comes right after a `(` or a `,`. -/
def Parser.NoEmptyClose (p : Parser) : Prop :=
  ∀ i, (∀ j, j ≤ i → (Parser.advance^[j] p.clean).lookahead.TokenType ≠ TokenType.EOF) →
    ((Parser.advance^[i] p.clean).lookahead.TokenType = TokenType.LPAREN ∨
      (Parser.advance^[i] p.clean).lookahead.TokenType = TokenType.COMMA) →
    (Parser.advance^[i + 1] p.clean).lookahead.TokenType ≠ TokenType.RPAREN

end parser

/-! ## Specification-side notions for the diagnostics of the materializer -/

namespace podgen

open parser corev1

/-- The resource name under which PodgenPodExpression stores the request of an axis. -/
def resourceName : Axis → String
  | Axis.cpu => "cpu"
  | Axis.memory => "memory"
  | Axis.gpu => "nvidia.com/gpu"

/-- The error that PodgenArithmeticExpression records for a product without an integer
side. -/
def multiplyError (position : lexer.Position) : Error :=
  { Message := "one of [lhs, rhs] must be an integer in a multiply expression",
    Pos := position }

end podgen

/-! ## The search of main with a record of the fleets it considers -/

namespace kubesurvival

open nodesource corev1

/-- What the inner loop of main does with a fleet that it has reached: it leaves the
loop without simulating because the fleet costs more than the best so far (`pruned`), or
it simulates and the simulation fails (`failed`), succeeds (`succeeded`, the fleet becomes
the best so far), or returns an error (`errored`, main returns). -/
inductive Verdict
  | pruned
  | failed
  | succeeded
  | errored
deriving DecidableEq, Repr

/-- One round of the inner loop of main: the fleet, the value of `result` at the start of
the round, and what the round does. -/
structure Attempt where
  nodeType : AWSNode
  nodeCount : Nat
  best : Option Result
  verdict : Verdict
deriving DecidableEq

/-- The monthly price of the fleet of an attempt, as main computes it with the rounding
`fl` of float64. -/
def Attempt.price (fl : ℚ → ℚ) (a : Attempt) : ℚ :=
  totalPricePerMonth fl a.nodeCount a.nodeType

/-- The value of `result` at the end of a round of the inner loop. -/
def Attempt.next (fl : ℚ → ℚ) (a : Attempt) : Option Result :=
  if a.verdict = Verdict.succeeded then
    some { InstanceType := a.nodeType.InstanceType, NodeCount := a.nodeCount,
           TotalPricePerMonth := a.price fl }
  else a.best

/-- The inner loop of main as in `countLoop`, together with the list of its rounds. -/
def countLoopLog (fl : ℚ → ℚ) (Simulate : List Pod → List AWSNode → Except String Bool)
    (pods : List Pod) (nodeType : AWSNode) :
    Nat → Option Result → Nat → Option (Except String (Option Result) × List Attempt)
  | 0, _, _ => none
  | fuel + 1, result, nodeCount =>
    let total := totalPricePerMonth fl nodeCount nodeType
    if tooExpensive result total then
      some (Except.ok result, [⟨nodeType, nodeCount, result, Verdict.pruned⟩])
    else
      match Simulate pods (List.replicate nodeCount nodeType) with
      | Except.error err =>
        some (Except.error err, [⟨nodeType, nodeCount, result, Verdict.errored⟩])
      | Except.ok true =>
        some (Except.ok (some { InstanceType := nodeType.InstanceType,
                                NodeCount := nodeCount,
                                TotalPricePerMonth := total }),
          [⟨nodeType, nodeCount, result, Verdict.succeeded⟩])
      | Except.ok false =>
        match countLoopLog fl Simulate pods nodeType fuel result
            (nextNodeCount nodeCount) with
        | none => none
        | some (out, log) => some (out, ⟨nodeType, nodeCount, result, Verdict.failed⟩ :: log)

/-- The main loop of main as in `mainLoop`, together with the list of the rounds of its
inner loop. -/
def mainLoopLog (fl : ℚ → ℚ) (Simulate : List Pod → List AWSNode → Except String Bool)
    (pods : List Pod) (fuel : Nat) :
    List AWSNode → Option Result → Option (Except String (Option Result) × List Attempt)
  | [], result => some (Except.ok result, [])
  | nodeType :: nodeTypes, result =>
    match countLoopLog fl Simulate pods nodeType fuel result 2 with
    | none => none
    | some (Except.error err, log) => some (Except.error err, log)
    | some (Except.ok result1, log) =>
      match mainLoopLog fl Simulate pods fuel nodeTypes result1 with
      | none => none
      | some (out, log1) => some (out, log ++ log1)

/-- The record of a round agrees with what the code does in that round: the round is
`pruned` exactly when the test `result != nil && totalPricePerMonth >
result.TotalPricePerMonth` holds, and otherwise its verdict is the answer of the
simulator for the fleet. -/
def Attempt.Faithful (fl : ℚ → ℚ) (Simulate : List Pod → List AWSNode → Except String Bool)
    (pods : List Pod) (a : Attempt) : Prop :=
  (a.verdict = Verdict.pruned ↔ tooExpensive a.best (a.price fl) = true) ∧
  (a.verdict = Verdict.succeeded →
    Simulate pods (List.replicate a.nodeCount a.nodeType) = Except.ok true) ∧
  (a.verdict = Verdict.failed →
    Simulate pods (List.replicate a.nodeCount a.nodeType) = Except.ok false) ∧
  (a.verdict = Verdict.errored →
    ∃ err, Simulate pods (List.replicate a.nodeCount a.nodeType) = Except.error err)

/-- A simulator that reports failure for every fleet. -/
def neverSucceeds : List Pod → List AWSNode → Except String Bool :=
  fun _ _ => Except.ok false

/-- The machine of the first test scenario of the specification: m5.large with 2 vCPU,
8 GiB, no GPU, at 0.096 dollars per hour. -/
def m5large : AWSNode :=
  { InstanceType := "m5.large", OnDemandPrice := 96 / 1000, VCPU := 2, Memory := 8, GPU := 0,
    MaxPods := 29, Arch := ["x86_64"] }

/-- The number of hundredths nearest to a nonnegative amount, a tie going to the even
one: the rounding of the verb `%.2f` of package fmt. -/
def roundCents (x : ℚ) : Nat :=
  let y := x * 100
  let f := (Rat.floor y).toNat
  if y - (f : ℚ) < 1 / 2 then f
  else if 1 / 2 < y - (f : ℚ) then f + 1
  else if f % 2 = 0 then f else f + 1

/-- The text that `fmt.Printf("%.2f", x)` prints for a nonnegative amount `x`. -/
def formatPrice (x : ℚ) : String :=
  toString (roundCents x / 100) ++ "." ++
    (if roundCents x % 100 < 10 then "0" else "") ++ toString (roundCents x % 100)

end kubesurvival

namespace kubesurvival

open nodesource corev1

/-- The rounds of the list pass the best so far from one to the next: the first starts
with `res`, each next one with what the round before it left, and the last leaves
`final`. -/
def Threads (fl : ℚ → ℚ) : Option Result → List Attempt → Option Result → Prop
  | res, [], final => final = res
  | res, a :: log, final => a.best = res ∧ Threads fl (a.next fl) log final

/-- A node type like `dollarNode` with another name. -/
def dollarNode2 : AWSNode :=
  { dollarNode with InstanceType := "n" }

end kubesurvival

/-! ## The front-end of main -/

namespace kubesurvival

open nodesource corev1

/-- The two ways in which main returns before the search: after it has printed the errors
of the parser, or those of the materializer. -/
inductive Stopped
  | parseErrors (errors : List parser.ParseError)
  | podgenErrors (errors : List podgen.Error)
deriving DecidableEq

/-- The part "Parse & generate pods" of main for the text `config.Pods`: the pods for
the search, or the errors after which main returns; `none` only if Parse ran out of
fuel. -/
def frontEnd (parseQuantity : String → Except String resource.Quantity) (text : String) :
    Option (Except Stopped (List Pod)) :=
  match parser.Parse text with
  | none => none
  | some (exp, parseErrors) =>
    if parseErrors.length > 0 then some (Except.error (Stopped.parseErrors parseErrors))
    else
      let r := podgen.Podgen parseQuantity exp
      if r.2.length > 0 then some (Except.error (Stopped.podgenErrors r.2))
      else some (Except.ok r.1)

end kubesurvival

/-! ## Source positions of a tree and repetition-free trees -/

namespace podgen

open parser

/-- The source positions carried by the nodes of a tree, node before operands, operands
from left to right. -/
def positions : Expression → List lexer.Position
  | Expression.nil => []
  | Expression.IntLiteral _ p => [p]
  | Expression.StringLiteral _ p => [p]
  | Expression.ArithmeticExpression l _ r p => p :: (positions l ++ positions r)
  | Expression.PodExpression c m g p => p :: (positions c ++ (positions m ++ positions g))

/-- An operand of a product that is no integer literal above 1. -/
def factorAtMostOne (e : Expression) : Bool :=
  match asIntLiteral e with
  | some v => decide (v ≤ 1)
  | none => true

/-- No product of the tree expands an operand more than once: every integer literal that
is an operand of a Multiply node is at most 1. -/
def unrepeated : Expression → Bool
  | Expression.ArithmeticExpression l Operator.Multiply r _ =>
    unrepeated l && unrepeated r && factorAtMostOne l && factorAtMostOne r
  | Expression.ArithmeticExpression l Operator.Add r _ => unrepeated l && unrepeated r
  | _ => true

end podgen

/-! ## Properties that the parser keeps -/

namespace parser

open lexer

/-- A property of the parser state that is kept by the three things the parser does to
its state: consuming the look-ahead, recording an error of expected tokens at the
look-ahead, and recording the failed conversion of a lexeme to an integer. -/
structure Kept (G : Parser → Prop) : Prop where
  advance : ∀ p : Parser, G p → G p.advance
  found : ∀ (p : Parser) (expected : List String), expected ≠ [] → G p →
    G (p.addError (newParseError p.lookahead.Lexeme expected p.lookahead.Position))
  notNumber : ∀ (p : Parser) (lexeme : String), G p →
    G (p.addError { Message := lexeme ++ " is not number", Found := "", Expected := [],
                    Pos := ⟨0, 0⟩ })

end parser

/-! ## Pretty-printing of expression trees -/

namespace parser

open lexer

/-- Modelled from the spec: the literal that writes the value of a field of a pod, the
decimal numeral of an IntLiteral or the contents of a StringLiteral.  The repository has
no pretty-printer; the round-trip property of the specification describes one. -/
def literalOf : Expression → Option Literal
  | Expression.IntLiteral value _ => some (Literal.integer (toString value))
  | Expression.StringLiteral value _ => some (Literal.string value)
  | _ => none

/-- Modelled from the spec: the fields `axis: value` of a pod literal for the three fields
of a PodExpression, in the order cpu, memory, gpu; an absent field is not written. -/
def podFields (cpu memory gpu : Expression) : List (Axis × Literal) :=
  [(Axis.cpu, cpu), (Axis.memory, memory), (Axis.gpu, gpu)].filterMap
    (fun x => (literalOf x.2).map (fun l => (x.1, l)))

/-- Where a subtree stands in the text: at the top (also inside parentheses and as the left
operand of `+`), as the right operand of `+`, as the left operand of a product with an
integer on the right (`counted`), as the left operand of a product without an integer on
the right (`counting`), or as the right operand of a product (`factor`). -/
inductive Place
  | top
  | addend
  | counted
  | counting
  | factor
deriving DecidableEq, Repr

/-- Whether the expression is an IntLiteral. -/
def isIntLiteral : Expression → Bool
  | Expression.IntLiteral _ _ => true
  | _ => false

/-- The symbols `ts`, in parentheses when `b` holds. -/
def bracket (b : Bool) (ts : List Symbol) : List Symbol :=
  if b then [Symbol.token TokenType.LPAREN] ++ ts ++ [Symbol.token TokenType.RPAREN] else ts

/-- Modelled from the spec: the tokens of the pretty-printed text of a tree.  Fields are
written `axis: value`, `+` and `*` are written infix, and a sum is parenthesised when it is
an operand of `*` or the right operand of `+`.  With `products = false` this is all, as in
the round-trip property of the specification.  With `products = true` a product is
parenthesised as well when it is the right operand of `*`, and when it is the left operand
of `*` and is of the other kind than the product it stands in (the two kinds being
`e * n`, with an integer literal on the right, and `n * e * ...`, without). -/
def prettySymbols (products : Bool) : Place → Expression → List Symbol
  | _, Expression.nil => []
  | _, Expression.IntLiteral value _ => [Symbol.integer (toString value)]
  | _, Expression.StringLiteral value _ => [Symbol.string value]
  | _, Expression.PodExpression cpu memory gpu _ => podSymbols (podFields cpu memory gpu)
  | place, Expression.ArithmeticExpression l op r _ =>
    match op with
    | Operator.Add =>
      bracket (place != Place.top)
        (prettySymbols products Place.top l ++ [Symbol.token TokenType.ADD] ++
          prettySymbols products Place.addend r)
    | Operator.Multiply =>
      if isIntLiteral r then
        bracket (products && (place == Place.factor || place == Place.counting))
          (prettySymbols products Place.counted l ++ [Symbol.token TokenType.MUL] ++
            prettySymbols products Place.factor r)
      else
        bracket (products && (place == Place.factor || place == Place.counted))
          (prettySymbols products Place.counting l ++ [Symbol.token TokenType.MUL] ++
            prettySymbols products Place.factor r)

end parser

namespace parser

open lexer

/-- A product without an integer literal on the right: the tree of `n * e` and of
`n * e * ... * e`. -/
def IntLed (e : Expression) : Prop :=
  ∃ l r p, e = Expression.ArithmeticExpression l Operator.Multiply r p ∧
    isIntLiteral r = false

/-- The pretty-printed tokens of the tree `e`, in each place where a tree can stand, are a
phrase of the grammar for that place with tree `e`; no pod literal of it is without
fields and its integer literals are in range. -/
structure Printable (e : Expression) : Prop where
  notInteger : isIntLiteral e = false
  top : Derives false Category.expression (prettySymbols true Place.top e) e
  factor : Derives false Category.factor (prettySymbols true Place.factor e) e
  addend : Derives false Category.factorTerm (prettySymbols true Place.addend e) e ∨
    Derives false Category.integerTerm (prettySymbols true Place.addend e) e
  counted : Derives false Category.factorTerm (prettySymbols true Place.counted e) e
  counting : IntLed e →
    Derives false Category.integerTerm (prettySymbols true Place.counting e) e
  inRange : ∀ place, IntegersInRange (prettySymbols true place e)

end parser


/-! ## Two scanners that read the same runes -/

namespace lexer

/-- A relation between scanners that is kept when both read a rune and when both push the
rune read last back, the runes read being the same and their positions related by `Q`. -/
structure Simulation (R : Scanner → Scanner → Prop) (Q : Position → Position → Prop) :
    Prop where
  read : ∀ s t : Scanner, R s t →
    (s.read).1.1 = (t.read).1.1 ∧ Q (s.read).1.2 (t.read).1.2 ∧ R (s.read).2 (t.read).2
  unscan : ∀ s t : Scanner, R s t → s.buffer.1 = t.buffer.1 → R s.Unscan t.Unscan

/-- Two tokens of the same type and lexeme whose positions are related by `Q`. -/
def Token.Related (Q : lexer.Position → lexer.Position → Prop) (a b : Token) : Prop :=
  a.TokenType = b.TokenType ∧ a.Lexeme = b.Lexeme ∧ Q a.Position b.Position

end lexer

/-! ## Line endings -/

namespace lexer

/-- The text with each `\r\n` pair and each lone `\r` replaced by a single `\n`. -/
def normalizeLineEndings : List Char → List Char
  | [] => []
  | ch :: rest =>
    if ch = '\r' then
      match rest with
      | [] => ['\n']
      | ch2 :: rest2 =>
        if ch2 = '\n' then '\n' :: normalizeLineEndings rest2
        else '\n' :: normalizeLineEndings (ch2 :: rest2)
    else ch :: normalizeLineEndings rest

/-- The scanner `s` with the line endings of its unread text normalized. -/
def Scanner.normalized (s : Scanner) : Scanner :=
  { s with Reader := normalizeLineEndings s.Reader }

end lexer

/-! ## The scanner as a function of the runes that it reads -/

namespace lexer

/-- The position after a rune at position `pos`: the line ends with a newline, every other
rune takes one column. -/
def Position.after (pos : Position) (ch : Char) : Position :=
  if ch = '\n' then ⟨pos.Line + 1, 0⟩ else ⟨pos.Line, pos.Column + 1⟩

/-- The position after the runes `rs`, the first of which is at position `pos`. -/
def Position.afterAll (pos : Position) (rs : List Char) : Position :=
  rs.foldl Position.after pos

/-- The scanner has nothing pushed back, has not met the end of its input, and the runes
that it will read are `rs`, the first of them at position `pos`. -/
def Scanner.Fresh (s : Scanner) (rs : List Char) (pos : Position) : Prop :=
  s.DisablePositions = false ∧ s.bufferSize = 0 ∧ normalizeLineEndings s.Reader = rs ∧
    s.position = pos ∧ s.eof = false

/-- The scanner has met the end of its input: every rune that it reads from now on is
`eof`. -/
def Scanner.Ended (s : Scanner) : Prop :=
  s.Reader = [] ∧ s.eof = true ∧ s.buffer.1 = lexer.eof ∧ s.bufferSize ≤ 1

/-- The runes that the scanner will read are `rs`, the first of them at position `pos`:
nothing is pushed back, or the first rune of `rs` is, or `rs` is empty and the end of the
input has been met. -/
def Scanner.At (s : Scanner) (rs : List Char) (pos : Position) : Prop :=
  s.Fresh rs pos ∨
  (∃ ch rest, rs = ch :: rest ∧ s.bufferSize = 1 ∧ s.buffer = (ch, pos) ∧
    Scanner.Fresh { s with bufferSize := 0 } rest (pos.after ch)) ∨
  (rs = [] ∧ s.Ended)

/-- The runes of an identifier after its first letter. -/
def isIdentifierRune (ch : Char) : Bool :=
  isLetter ch || isDigit ch || ch == '_'

/-- The runes of the contents of a string: all but the double quote and the newline. -/
def isStringRune (ch : Char) : Bool :=
  ch != '"' && ch != '\n'

/-- The runes of a comment: all but the newline. -/
def isCommentRune (ch : Char) : Bool :=
  ch != '\n'

/-- The token type of an identifier, as in scanKeyword. -/
def keywordType (lexeme : String) : TokenType :=
  if lexeme = "pod" then TokenType.POD
  else if lexeme = "cpu" then TokenType.CPU
  else if lexeme = "memory" then TokenType.MEMORY
  else if lexeme = "gpu" then TokenType.GPU
  else TokenType.ILLEGAL

/-- The token type of a single rune that is no letter, digit or double quote, as in the
switch of Scan. -/
def symbolType (ch : Char) : TokenType :=
  if ch = '(' then TokenType.LPAREN
  else if ch = ')' then TokenType.RPAREN
  else if ch = ',' then TokenType.COMMA
  else if ch = ':' then TokenType.COLON
  else if ch = '+' then TokenType.ADD
  else if ch = '*' then TokenType.MUL
  else TokenType.ILLEGAL

/-- A token as a part of the runes of the input: its type and lexeme, the runes `lead`
before its position and the runes `rest` after it. -/
structure Lexed where
  type : TokenType
  lexeme : List Char
  lead : List Char
  rest : List Char
deriving DecidableEq, Repr

/-- The token that starts with the rune `ch`, which is no whitespace and no `#`, followed
by the runes `rs`; `lead` are the runes before `ch`.  The position of a string is that of
the rune after its opening quote. -/
def lexToken (lead : List Char) (ch : Char) (rs : List Char) : Lexed :=
  if isLetter ch then
    { type := keywordType (String.mk (ch :: rs.takeWhile isIdentifierRune)),
      lexeme := ch :: rs.takeWhile isIdentifierRune, lead := lead,
      rest := rs.dropWhile isIdentifierRune }
  else if isDigit ch then
    { type := TokenType.INTEGER, lexeme := ch :: rs.takeWhile isDigit, lead := lead,
      rest := rs.dropWhile isDigit }
  else if ch = '"' then
    match rs.dropWhile isStringRune with
    | [] =>
      { type := TokenType.BADSTRING, lexeme := rs.takeWhile isStringRune,
        lead := lead ++ [ch], rest := [] }
    | c :: rest =>
      { type := if c = '"' then TokenType.STRING else TokenType.BADSTRING,
        lexeme := rs.takeWhile isStringRune, lead := lead ++ [ch], rest := rest }
  else { type := symbolType ch, lexeme := [ch], lead := lead, rest := rs }

/-- The next token of the runes `rs`, none of which is the rune `eof`; `lead` are the runes
before `rs`.  With `hash = some l` the runes are those of a comment, `l` being the runes
before its `#`: a comment that the end of the input ends is an ILLEGAL token with an empty
lexeme at the position of the `#`. -/
def lexFrom : Option (List Char) → List Char → List Char → Lexed
  | none, lead, [] =>
    { type := TokenType.EOF, lexeme := ['E', 'O', 'F'], lead := lead, rest := [] }
  | some l, _, [] => { type := TokenType.ILLEGAL, lexeme := [], lead := l, rest := [] }
  | some l, lead, ch :: rs =>
    if ch = '\n' then lexFrom none (lead ++ [ch]) rs else lexFrom (some l) (lead ++ [ch]) rs
  | none, lead, ch :: rs =>
    if ch = '#' then lexFrom (some lead) (lead ++ [ch]) rs
    else if isWhitespace ch then lexFrom none (lead ++ [ch]) rs
    else lexToken lead ch rs

/-- The types and lexemes of the first `n` tokens of the runes `rs`. -/
def lexTokens : Nat → List Char → List (TokenType × String)
  | 0, _ => []
  | n + 1, rs =>
    ((lexFrom none [] rs).type, String.mk (lexFrom none [] rs).lexeme) ::
      lexTokens n (lexFrom none [] rs).rest

end lexer

namespace lexer

/-- The states in which the scanner reads a rune: in `code` (between tokens or inside a
keyword, an integer or a symbol), inside a string literal, or inside a comment. -/
inductive Mode where
  | code
  | string
  | comment
  deriving DecidableEq, Repr

/-- The state after a rune: a double quote opens a string and `#` a comment in code, a
double quote or a newline ends a string, a newline ends a comment. -/
def Mode.step : Mode → Char → Mode
  | Mode.code, ch =>
    if ch = '"' then Mode.string else if ch = '#' then Mode.comment else Mode.code
  | Mode.string, ch => if ch = '"' ∨ ch = '\n' then Mode.code else Mode.string
  | Mode.comment, ch => if ch = '\n' then Mode.code else Mode.comment

/-- The state after the runes `rs`, read from the state `m`. -/
def Mode.after (m : Mode) (rs : List Char) : Mode := rs.foldl Mode.step m

/-- What the next token `t1` of the runes `A ++ X1` and the next token `t2` of the runes
`A ++ X2` have in common, `A` being read from the state `m`: either both tokens lie in `A`,
with the same type (not that of the end of input) and lexeme, and leave the same runes
`A1` of `A`, or the runes of `A`
are all skipped and the tokens are those of `X1` and of `X2`, read in code or in a
comment. -/
def Lexed.Before (X1 X2 A : List Char) (m : Mode) (t1 t2 : Lexed) : Prop :=
  (∃ A1 : List Char, A1.length < A.length ∧ Mode.after Mode.code A1 = Mode.after m A ∧
    t1.type = t2.type ∧ t1.lexeme = t2.lexeme ∧ t1.rest = A1 ++ X1 ∧ t2.rest = A1 ++ X2 ∧
    t1.type ≠ TokenType.EOF) ∨
  (Mode.after m A = Mode.code ∧
    ∃ l1 l2 : List Char, t1 = lexFrom none l1 X1 ∧ t2 = lexFrom none l2 X2) ∨
  (Mode.after m A = Mode.comment ∧
    ∃ a b l1 l2 : List Char, t1 = lexFrom (some a) l1 X1 ∧ t2 = lexFrom (some b) l2 X2)

end lexer


/-! ## The rounds of the count loop -/

namespace kubesurvival

open nodesource corev1

/-- The rounds of the inner loop of main for the node type `m`, entered with the best so
far `res`, when it runs through the counts of the growth sequence from index `j` on: the
rounds at the `k` counts from index `j` fail, and the round at the next count has the
verdict `v`. -/
def countRoundsFrom (m : AWSNode) (res : Option Result) (j k : Nat) (v : Verdict) :
    List Attempt :=
  (List.range' j k).map (fun i => ⟨m, growthCount i, res, Verdict.failed⟩) ++
    [⟨m, growthCount (j + k), res, v⟩]

/-- The rounds of the inner loop of main for the node type `m`, which starts at 2 nodes,
the first count of the growth sequence. -/
def countRounds (m : AWSNode) (res : Option Result) (k : Nat) (v : Verdict) : List Attempt :=
  countRoundsFrom m res 0 k v

end kubesurvival

/-! ## Well-formed trees -/

namespace parser

/-- Whether an expression can stand as the cpu, memory or gpu field of a pod: it is absent
(nil) or an IntLiteral or a StringLiteral. -/
def Expression.isFieldValue : Expression → Bool
  | Expression.nil => true
  | Expression.IntLiteral _ _ => true
  | Expression.StringLiteral _ _ => true
  | Expression.ArithmeticExpression _ _ _ _ => false
  | Expression.PodExpression _ _ _ _ => false

/-- Whether a tree is well-formed: it is present (not nil), every ArithmeticExpression in it
has both operands present, and well-formed, and every field of every PodExpression is absent
or a literal. -/
def Expression.WellFormed : Expression → Bool
  | Expression.nil => false
  | Expression.IntLiteral _ _ => true
  | Expression.StringLiteral _ _ => true
  | Expression.ArithmeticExpression l _ r _ => l.WellFormed && r.WellFormed
  | Expression.PodExpression cpu memory gpu _ =>
    cpu.isFieldValue && memory.isFieldValue && gpu.isFieldValue

end parser

/-! ## The shape of the diagnostics -/

namespace parser

open lexer

/-- A property of the parser state that is kept by consuming the look-ahead, by recording
an error of expected tokens at the look-ahead, and by ParseInteger. -/
structure Traced (G : Parser → Prop) : Prop where
  advance : ∀ p : Parser, G p → G p.advance
  found : ∀ (p : Parser) (expected : List String), expected ≠ [] → G p →
    G (p.addError (newParseError p.lookahead.Lexeme expected p.lookahead.Position))
  integer : ∀ p : Parser, G p → G (p.ParseInteger).2

/-- The token number `n` (from 0) that the parser of the scanner `sc` sees. -/
def tokenAt (sc : Scanner) (n : Nat) : Token :=
  (Parser.advance^[n] (NewParser sc)).lookahead

/-- What an error says about a token: either the token was found where others were
expected (the error carries its lexeme, a non-empty list of expected token categories and
its position), or the conversion of its lexeme to an integer by strconv.ParseInt failed (the
error carries the message `<lexeme> is not number`, no found lexeme and no expected
categories). -/
def ParseError.Reports (e : ParseError) (tok : Token) : Prop :=
  (e.Message = "" ∧ e.Found = tok.Lexeme ∧ e.Expected ≠ [] ∧ e.Pos = tok.Position) ∨
  (e.Message = tok.Lexeme ++ " is not number" ∧ e.Found = "" ∧ e.Expected = [] ∧
    (strconv.ParseInt tok.Lexeme).2 = false)

/-- The parser stands at a token of the scanner `sc`, and each of its errors reports a
token of `sc`. -/
def Parser.Diagnosed (sc : Scanner) (p : Parser) : Prop :=
  (∃ n, p.clean = (Parser.advance^[n] (NewParser sc)).clean) ∧
  ∀ e ∈ p.Errors, ∃ n, e.Reports (tokenAt sc n)

end parser

/-! ## Where the tokens stand in the input -/

namespace lexer

/-- The runes between two tokens: whitespace and comments, each comment with the newline
that ends it.  With `inComment` the runes start inside a comment, after its `#`. -/
def isBlank : Bool → List Char → Bool
  | false, [] => true
  | true, [] => false
  | false, ch :: rs =>
    if ch = '#' then isBlank true rs else isWhitespace ch && isBlank false rs
  | true, ch :: rs => if ch = '\n' then isBlank false rs else isBlank true rs

/-- The zero-based position of the rune that follows the runes `pre` of an input: the line
is the number of line endings in `pre`, the column the number of runes of `pre` after the
last of them. -/
def positionAfter (pre : List Char) : Position :=
  ⟨pre.count '\n', (pre.reverse.takeWhile (fun ch => ch != '\n')).length⟩

/-- The tokens `toks` stand one after the other in the runes `rs`, which follow the runes
`pre` of the input.  Before each token comes a gap of whitespace and comments, then the text
of the token, and the next token is looked for after that text:

* the end-of-input token stands where only a gap is left, and so do the tokens after it;
* a STRING token has the text `"`, lexeme, `"`, and a BADSTRING token the text `"`, lexeme
  and the newline that ends it, or no newline at the end of the input; the position of both
  is that of the rune after the opening quote;
* the ILLEGAL token with an empty lexeme has the text of a comment that runs to the end of
  the input, and the position of its `#`;
* every other token has its lexeme for text, which starts with a rune that is neither
  whitespace nor `#`, and the position of the first rune of the lexeme. -/
inductive Placed : List Char → List Char → List Token → Prop
  | done (pre rs : List Char) : Placed pre rs []
  | eof (pre gap : List Char) (tok : Token) (toks : List Token) :
      isBlank false gap = true → tok.TokenType = TokenType.EOF →
      Placed (pre ++ gap) [] toks → Placed pre gap (tok :: toks)
  | string (pre gap close rs : List Char) (tok : Token) (toks : List Token) :
      isBlank false gap = true →
      (tok.TokenType = TokenType.STRING ∧ close = ['"'] ∨
        tok.TokenType = TokenType.BADSTRING ∧ (close = ['\n'] ∨ close = [] ∧ rs = [])) →
      tok.Position = positionAfter (pre ++ gap ++ ['"']) →
      Placed (pre ++ gap ++ '"' :: tok.Lexeme.data ++ close) rs toks →
      Placed pre (gap ++ '"' :: tok.Lexeme.data ++ close ++ rs) (tok :: toks)
  | comment (pre gap body : List Char) (tok : Token) (toks : List Token) :
      isBlank false gap = true →
      tok.TokenType = TokenType.ILLEGAL → tok.Lexeme.data = [] → '\n' ∉ body →
      tok.Position = positionAfter (pre ++ gap) →
      Placed (pre ++ gap ++ '#' :: body) [] toks →
      Placed pre (gap ++ '#' :: body) (tok :: toks)
  | plain (pre gap rs : List Char) (tok : Token) (toks : List Token) :
      isBlank false gap = true →
      tok.TokenType ≠ TokenType.EOF → tok.TokenType ≠ TokenType.STRING →
      tok.TokenType ≠ TokenType.BADSTRING →
      (∃ ch l, tok.Lexeme.data = ch :: l ∧ isWhitespace ch = false ∧ ch ≠ '#') →
      tok.Position = positionAfter (pre ++ gap) →
      Placed (pre ++ gap ++ tok.Lexeme.data) rs toks →
      Placed pre (gap ++ tok.Lexeme.data ++ rs) (tok :: toks)

/-- Where the token `t` stands in the runes `rs` that follow the runes `start`: after a gap
of whitespace and comments. -/
def Lexed.Stands (start rs : List Char) (t : Lexed) : Prop :=
  ∃ gap, isBlank false gap = true ∧
    ((t.type = TokenType.EOF ∧ rs = gap ∧ t.rest = []) ∨
     (∃ close,
        (t.type = TokenType.STRING ∧ close = ['"'] ∨
          t.type = TokenType.BADSTRING ∧ (close = ['\n'] ∨ close = [] ∧ t.rest = [])) ∧
        rs = gap ++ '"' :: t.lexeme ++ close ++ t.rest ∧ t.lead = start ++ gap ++ ['"']) ∨
     (t.type = TokenType.ILLEGAL ∧ t.lexeme = [] ∧ t.rest = [] ∧
        ∃ body, '\n' ∉ body ∧ rs = gap ++ '#' :: body ∧ t.lead = start ++ gap) ∨
     (t.type ≠ TokenType.EOF ∧ t.type ≠ TokenType.STRING ∧ t.type ≠ TokenType.BADSTRING ∧
        (∃ ch l, t.lexeme = ch :: l ∧ isWhitespace ch = false ∧ ch ≠ '#') ∧
        rs = gap ++ t.lexeme ++ t.rest ∧ t.lead = start ++ gap))

end lexer

/-! # Theorems -/

/-! ## The cost search of main.go -/

namespace kubesurvival

open nodesource corev1

theorem truncate_of_nonneg (x : ℚ) (hx : 0 ≤ x) : truncate x = ⌊x⌋ := by
  unfold truncate
  rw [Rat.floor_def]
  exact Int.tdiv_eq_ediv (Rat.num_nonneg.mpr hx) (Int.natCast_nonneg _)

/-- The growth step of main in natural-number arithmetic. -/
theorem nextNodeCount_eq (c : Nat) : nextNodeCount c = c + max (c / 15) 1 := by
  unfold nextNodeCount
  have h0 : (0 : ℚ) ≤ max ((c : ℚ) / 15) 1 := le_trans zero_le_one (le_max_right _ _)
  rw [truncate_of_nonneg _ h0]
  congr 1
  rcases le_total ((c : ℚ) / 15) 1 with h | h
  · rw [max_eq_right h]
    have hc : c / 15 ≤ 1 := by
      have h1 : (c : ℚ) ≤ 15 := by
        have := (div_le_iff₀ (by norm_num : (0 : ℚ) < 15)).mp h
        linarith
      have h2 : c ≤ 15 := by exact_mod_cast h1
      omega
    rw [max_eq_right hc]
    simp
  · rw [max_eq_left h]
    have hc : 1 ≤ c / 15 := by
      have h1 : (15 : ℚ) ≤ c := by
        have := (le_div_iff₀ (by norm_num : (0 : ℚ) < 15)).mp h
        linarith
      have h2 : 15 ≤ c := by exact_mod_cast h1
      omega
    rw [max_eq_left hc]
    have h3 : ⌊(c : ℚ) / 15⌋ = ((c / 15 : ℕ) : ℤ) := by
      have : ((c : ℚ) / 15) = ((c : ℚ) / ((15 : ℕ) : ℚ)) := by norm_num
      rw [this, Rat.floor_natCast_div_natCast]
      norm_cast
    rw [h3]
    exact Int.toNat_ofNat _

theorem growthCount_succ (n : Nat) :
    growthCount (n + 1) = growthCount n + max (growthCount n / 15) 1 := by
  simp [growthCount, nextNodeCount_eq]

theorem growthCount_lt_succ (n : Nat) : growthCount n < growthCount (n + 1) := by
  rw [growthCount_succ]
  have : 1 ≤ max (growthCount n / 15) 1 := le_max_right _ _
  omega

theorem growthCount_mono {j k : Nat} (h : j ≤ k) : growthCount j ≤ growthCount k := by
  induction h with
  | refl => exact le_refl _
  | step _ ih => exact le_trans ih (le_of_lt (growthCount_lt_succ _))

/-- Up to 30 nodes the growth sequence leaves no count out. -/
theorem growthCount_small (k : Nat) (hk : k ≤ 28) : growthCount k = k + 2 := by
  induction k with
  | zero => rfl
  | succ n ih =>
    rw [growthCount_succ, ih (by omega)]
    have : (n + 2) / 15 ≤ 1 := by omega
    rw [max_eq_right this]

/-- The monthly price that main computes does not fall when the node count grows: the
rounding of float64 keeps the order. -/
theorem totalPricePerMonth_mono (fl : ℚ → ℚ) (hfl : Monotone fl) (m : AWSNode)
    (hm : 0 ≤ m.GetHourlyPrice) {c d : Nat} (h : c ≤ d) :
    totalPricePerMonth fl c m ≤ totalPricePerMonth fl d m := by
  unfold totalPricePerMonth
  have h1 : fl (c : ℚ) ≤ fl (d : ℚ) := hfl (by exact_mod_cast h)
  have h2 : fl (fl (c : ℚ) * m.GetHourlyPrice) ≤ fl (fl (d : ℚ) * m.GetHourlyPrice) :=
    hfl (mul_le_mul_of_nonneg_right h1 hm)
  have h3 : fl (fl (fl (c : ℚ) * m.GetHourlyPrice) * 24) ≤
      fl (fl (fl (d : ℚ) * m.GetHourlyPrice) * 24) :=
    hfl (mul_le_mul_of_nonneg_right h2 (by norm_num))
  exact hfl (mul_le_mul_of_nonneg_right h3 (by norm_num))

/-- What one run of the inner loop of main guarantees about the value of `result` at its
`break`: the price never rises, and it is at most the price of every fleet of this node
type, with a node count of the growth sequence from the current one on, whose simulation
succeeds. -/
theorem countLoop_spec (fl : ℚ → ℚ) (hfl : Monotone fl)
    (Simulate : List Pod → List AWSNode → Except String Bool)
    (pods : List Pod) (m : AWSNode) (hm : 0 ≤ m.GetHourlyPrice) :
    ∀ (fuel : Nat) (res res1 : Option Result) (j : Nat),
      countLoop fl Simulate pods m fuel res (growthCount j) = some (Except.ok res1) →
      (∀ r0, res = some r0 → ∃ r1, res1 = some r1 ∧
          r1.TotalPricePerMonth ≤ r0.TotalPricePerMonth) ∧
      (∀ k, j ≤ k → Simulate pods (List.replicate (growthCount k) m) = Except.ok true →
          ∃ r1, res1 = some r1 ∧
            r1.TotalPricePerMonth ≤ totalPricePerMonth fl (growthCount k) m) := by
  intro fuel
  induction fuel with
  | zero => intro res res1 j h; simp [countLoop] at h
  | succ fuel ih =>
    intro res res1 j h
    unfold countLoop at h
    simp only [] at h
    by_cases hprune : tooExpensive res (totalPricePerMonth fl (growthCount j) m) = true
    · -- the price exceeds the best one: break
      rw [if_pos hprune] at h
      cases res with
      | none => simp [tooExpensive] at hprune
      | some r0 =>
        simp only [tooExpensive, decide_eq_true_eq] at hprune
        simp only [Option.some.injEq, Except.ok.injEq] at h
        subst h
        refine ⟨fun r hr => ⟨r, hr, le_refl _⟩, fun k hk _ => ⟨r0, rfl, ?_⟩⟩
        have := totalPricePerMonth_mono fl hfl m hm (growthCount_mono hk)
        exact le_of_lt (lt_of_lt_of_le hprune this)
    · rw [if_neg hprune] at h
      cases hsim : Simulate pods (List.replicate (growthCount j) m) with
      | error err => rw [hsim] at h; simp at h
      | ok b =>
        rw [hsim] at h
        cases b with
        | true =>
          simp only [Option.some.injEq, Except.ok.injEq] at h
          subst h
          refine ⟨fun r0 hr => ⟨_, rfl, ?_⟩, fun k hk _ => ⟨_, rfl, ?_⟩⟩
          · subst hr
            simp only [tooExpensive, decide_eq_true_eq, not_lt] at hprune
            exact hprune
          · exact totalPricePerMonth_mono fl hfl m hm (growthCount_mono hk)
        | false =>
          simp only [] at h
          have h1 := ih res res1 (j + 1) h
          refine ⟨h1.1, fun k hk hk1 => ?_⟩
          rcases Nat.eq_or_lt_of_le hk with heq | hlt
          · subst heq
            rw [hsim] at hk1
            simp at hk1
          · exact h1.2 k hlt hk1

/-- What the main loop guarantees about its final result. -/
theorem mainLoop_spec (fl : ℚ → ℚ) (hfl : Monotone fl)
    (Simulate : List Pod → List AWSNode → Except String Bool) (pods : List Pod) (fuel : Nat) :
    ∀ (nodeTypes : List AWSNode) (res : Option Result) (r : Result),
      (∀ m ∈ nodeTypes, 0 ≤ m.GetHourlyPrice) →
      mainLoop fl Simulate pods fuel nodeTypes res = some (Except.ok (some r)) →
      (∀ r0, res = some r0 → r.TotalPricePerMonth ≤ r0.TotalPricePerMonth) ∧
      (∀ m ∈ nodeTypes, ∀ k,
          Simulate pods (List.replicate (growthCount k) m) = Except.ok true →
          r.TotalPricePerMonth ≤ totalPricePerMonth fl (growthCount k) m) := by
  intro nodeTypes
  induction nodeTypes with
  | nil =>
    intro res r _ h
    simp only [mainLoop, Option.some.injEq, Except.ok.injEq] at h
    subst h
    exact ⟨fun r0 hr => by cases hr; exact le_refl _, fun m hm => by simp at hm⟩
  | cons m rest ih =>
    intro res r hprice h
    rw [mainLoop] at h
    split at h
    · simp at h
    · simp at h
    · rename_i res1 hcount
      have hm : 0 ≤ m.GetHourlyPrice := hprice m (List.mem_cons_self _ _)
      have hA := countLoop_spec fl hfl Simulate pods m hm fuel res res1 0 hcount
      have hB := ih res1 r (fun x hx => hprice x (List.mem_cons_of_mem _ hx)) h
      refine ⟨fun r0 hr => ?_, fun x hx k hk => ?_⟩
      · obtain ⟨r1, hr1, hle⟩ := hA.1 r0 hr
        exact le_trans (hB.1 r1 hr1) hle
      · rcases List.mem_cons.mp hx with hx | hx
        · subst hx
          obtain ⟨r1, hr1, hle⟩ := hA.2 k (Nat.zero_le _) hk
          exact le_trans (hB.1 r1 hr1) hle
        · exact hB.2 x hx k hk

end kubesurvival

set_option maxRecDepth 8000

namespace kubesurvival

open nodesource corev1

/-- C1, as stated, fails: with one node type at one dollar per hour and a simulator that
succeeds exactly from 31 nodes on (a monotone verdict), main tries 2, 3, ..., 30, 32 and
emits the fleet of 32 nodes at 23808 dollars, although the fleet of 31 nodes succeeds and
costs 23064 dollars.  All the prices of this run are whole numbers below 2^53, on which
the arithmetic of float64 is exact: the rounding is the identity. -/
theorem cheapest_fleet_counterexample :
    (∀ (pods : List Pod) (m : AWSNode) (c : Nat),
        succeedsFrom 31 pods (List.replicate c m) = Except.ok true →
        succeedsFrom 31 pods (List.replicate (c + 1) m) = Except.ok true) ∧
    (∀ m ∈ [dollarNode], 0 < m.GetHourlyPrice) ∧
    mainLoop id (succeedsFrom 31) [] 30 [dollarNode] none =
      some (Except.ok (some { InstanceType := "m", NodeCount := 32,
                              TotalPricePerMonth := 23808 })) ∧
    dollarNode ∈ [dollarNode] ∧ 2 ≤ 31 ∧
    succeedsFrom 31 [] (List.replicate 31 dollarNode) = Except.ok true ∧
    totalPricePerMonth id 31 dollarNode < 23808 := by
  refine ⟨?_, ?_, ?_, ?_, ?_, ?_, ?_⟩
  · intro pods m c h
    simp only [succeedsFrom, List.length_replicate, Except.ok.injEq, decide_eq_true_eq] at h ⊢
    omega
  · intro m hm
    simp only [List.mem_singleton] at hm
    subst hm
    simp [AWSNode.GetHourlyPrice, dollarNode]
  · simp only [mainLoop, countLoop, tooExpensive, nextNodeCount_eq, succeedsFrom,
      List.length_replicate]
    norm_num [totalPricePerMonth, AWSNode.GetHourlyPrice, dollarNode]
  · simp
  · norm_num
  · simp [succeedsFrom]
  · norm_num [totalPricePerMonth, AWSNode.GetHourlyPrice, dollarNode]

/-- C1, amended: when every node type of the filtered list has a positive hourly price and
main emits a result, no fleet `(m, c)` with `m` in the filtered list, a successful
simulator verdict and a node count `c` that the driver tries (every count from 2 to 30,
and beyond 30 the counts 32, 34, ... of the growth sequence) has a strictly lower monthly
price than the emitted result.  The monthly prices are those that main computes and
compares, in float64: the product `float64(c) * hourly(m) * 24 * 31` with every operation
rounded, for every rounding `fl` that keeps the order, as the rounding to the nearest
float64 does. -/
theorem cheapest_fleet_among_tried_counts (fl : ℚ → ℚ) (hfl : Monotone fl)
    (Simulate : List Pod → List AWSNode → Except String Bool) (pods : List Pod)
    (fuel : Nat) (nodeTypes : List AWSNode) (r : Result)
    (hprice : ∀ m ∈ nodeTypes, 0 < m.GetHourlyPrice)
    (hemit : mainLoop fl Simulate pods fuel nodeTypes none = some (Except.ok (some r)))
    (m : AWSNode) (hm : m ∈ nodeTypes) (c : Nat)
    (hc : (2 ≤ c ∧ c ≤ 30) ∨ ∃ k, growthCount k = c)
    (hsim : Simulate pods (List.replicate c m) = Except.ok true) :
    ¬ totalPricePerMonth fl c m < r.TotalPricePerMonth := by
  have hk : ∃ k, growthCount k = c := by
    rcases hc with ⟨h2, h30⟩ | h
    · exact ⟨c - 2, by rw [growthCount_small (c - 2) (by omega)]; omega⟩
    · exact h
  obtain ⟨k, rfl⟩ := hk
  have h := (mainLoop_spec fl hfl Simulate pods fuel nodeTypes none r
    (fun x hx => le_of_lt (hprice x hx)) hemit).2 m hm k hsim
  exact not_lt.mpr h

/-- The amended C1 at a concrete search: one node type at one dollar per hour and a
simulator that succeeds from 3 nodes on; the prices are whole numbers, on which the
rounding is the identity. -/
theorem cheapest_fleet_among_tried_counts_witness :
    ¬ totalPricePerMonth id 3 dollarNode <
      (Result.mk "m" 3 2232).TotalPricePerMonth :=
  cheapest_fleet_among_tried_counts id monotone_id (succeedsFrom 3) [] 5 [dollarNode]
    { InstanceType := "m", NodeCount := 3, TotalPricePerMonth := 2232 }
    (by
      intro m hm
      simp only [List.mem_singleton] at hm
      subst hm
      simp [AWSNode.GetHourlyPrice, dollarNode])
    (by
      simp only [mainLoop, countLoop, tooExpensive, nextNodeCount_eq, succeedsFrom,
        List.length_replicate]
      norm_num [totalPricePerMonth, AWSNode.GetHourlyPrice, dollarNode])
    dollarNode (by simp) 3 (Or.inl ⟨by norm_num, by norm_num⟩)
    (by simp [succeedsFrom])

end kubesurvival

/-! ## The scanner reads at least one rune for every token -/

namespace lexer

theorem readRune_length (reader : List Char) :
    (readRune reader).2.length ≤ reader.length ∧
    ((readRune reader).1 ≠ eof → (readRune reader).2.length + 1 ≤ reader.length) := by
  unfold readRune
  cases reader with
  | nil => simp
  | cons ch rest =>
    by_cases h : ch = '\r'
    · simp only [h, if_true]
      cases rest with
      | nil => simp
      | cons ch2 rest2 =>
        by_cases h2 : ch2 = '\n'
        · simp [h2]; omega
        · simp [h2]
    · simp [h]

/-- What `read` does to the number of unread runes; the rune returned is the newest
buffer entry. -/
theorem read_unread (s : Scanner) :
    (s.read).1.1 = (s.read).2.buffer.1 ∧
    (s.read).2.unread ≤ s.unread ∧
    ((s.read).1.1 ≠ eof → (s.read).2.unread + 1 ≤ s.unread) := by
  unfold Scanner.read
  by_cases hb : s.bufferSize > 0
  · simp only [hb, if_true]
    refine ⟨?_, ?_, ?_⟩
    · simp only [Scanner.curr]; split <;> rfl
    · simp only [Scanner.unread]; split <;> omega
    · intro hne
      have hne1 : ¬ s.buffer.1 = eof := by
        intro h
        apply hne
        simp only [Scanner.curr]
        split <;> exact h
      simp only [Scanner.unread, hne1, if_false]
      omega
  · simp only [hb, if_false]
    have hb0 : s.bufferSize = 0 := by omega
    have hl := readRune_length s.Reader
    refine ⟨?_, ?_, ?_⟩
    · simp only [Scanner.curr]; split <;> rfl
    · simp only [Scanner.unread, hb0]
      have := hl.1
      split <;> split <;> omega
    · intro hne
      have hne1 : (readRune s.Reader).1 ≠ eof := by
        intro h
        apply hne
        simp only [Scanner.curr]
        split <;> exact h
      have := hl.2 hne1
      simp only [Scanner.unread, hb0]
      split <;> split <;> omega

theorem unscan_unread (s : Scanner) :
    s.Unscan.unread = s.unread + (if s.buffer.1 = eof then 0 else 1) := by
  simp only [Scanner.Unscan, Scanner.unread]
  split <;> omega

/-- A `read` followed by `Unscan` does not raise the number of unread runes. -/
theorem read_unscan_unread (s : Scanner) : (s.read).2.Unscan.unread ≤ s.unread := by
  have h := read_unread s
  rw [unscan_unread]
  by_cases he : (s.read).2.buffer.1 = eof
  · simp only [he, if_true]; omega
  · simp only [he, if_false]
    have := h.2.2 (by rw [h.1]; exact he)
    omega

theorem scanWhitespace_unread (fuel : Nat) :
    ∀ s : Scanner, (Scanner.scanWhitespace fuel s).unread ≤ s.unread := by
  induction fuel with
  | zero => intro s; simp [Scanner.scanWhitespace]
  | succ fuel ih =>
    intro s
    unfold Scanner.scanWhitespace
    simp only []
    split
    · exact (read_unread s).2.1
    · split
      · exact read_unscan_unread s
      · exact le_trans (ih _) (read_unread s).2.1

theorem skipUntilEndComment_unread (fuel : Nat) :
    ∀ s : Scanner, (Scanner.skipUntilEndComment fuel s).2.unread ≤ s.unread := by
  induction fuel with
  | zero => intro s; simp [Scanner.skipUntilEndComment]
  | succ fuel ih =>
    intro s
    unfold Scanner.skipUntilEndComment
    simp only []
    split
    · exact (read_unread s).2.1
    · split
      · exact (read_unread s).2.1
      · exact le_trans (ih _) (read_unread s).2.1

theorem scanKeywordLoop_unread (fuel : Nat) :
    ∀ (buf : List Char) (s : Scanner),
      (Scanner.scanKeywordLoop fuel buf s).2.unread ≤ s.unread := by
  induction fuel with
  | zero => intro buf s; simp [Scanner.scanKeywordLoop]
  | succ fuel ih =>
    intro buf s
    unfold Scanner.scanKeywordLoop
    simp only []
    split
    · exact (read_unread s).2.1
    · split
      · exact read_unscan_unread s
      · exact le_trans (ih _ _) (read_unread s).2.1

theorem isDigit_ne_eof {ch : Char} (h : isDigit ch = true) : ch ≠ eof := by
  intro he
  subst he
  revert h
  decide

theorem isLetter_ne_eof {ch : Char} (h : isLetter ch = true) : ch ≠ eof := by
  intro he
  subst he
  revert h
  decide

theorem scanIntegerLoop_unread (fuel : Nat) :
    ∀ (buf : List Char) (ch : Char) (s : Scanner), s.buffer.1 = ch →
      (Scanner.scanIntegerLoop fuel buf ch s).2.unread ≤
        s.unread + (if isDigit ch = true ∨ ch = eof then 0 else 1) := by
  induction fuel with
  | zero => intro buf ch s _; simp [Scanner.scanIntegerLoop]
  | succ fuel ih =>
    intro buf ch s hch
    unfold Scanner.scanIntegerLoop
    by_cases hd : isDigit ch = true
    · simp only [hd, Bool.not_true, Bool.false_eq_true, if_false, true_or, if_true, add_zero]
      have hr := read_unread s
      have h1 := ih (buf ++ [ch]) (s.read).1.1 (s.read).2 hr.1.symm
      refine le_trans h1 ?_
      by_cases he : (s.read).1.1 = eof
      · simp only [he, or_true, if_true, add_zero]; exact hr.2.1
      · have := hr.2.2 he
        split <;> omega
    · simp only [hd, Bool.not_false, if_true, false_or]
      rw [unscan_unread, hch]
      simp

theorem scanStringLoop_unread (fuel : Nat) :
    ∀ (buf : List Char) (ch : Char) (pos : Position) (s : Scanner),
      (Scanner.scanStringLoop fuel buf ch pos s).2.unread ≤ s.unread := by
  induction fuel with
  | zero => intro buf ch pos s; simp [Scanner.scanStringLoop]
  | succ fuel ih =>
    intro buf ch pos s
    unfold Scanner.scanStringLoop
    split
    · exact le_refl _
    · split
      · exact le_refl _
      · exact le_trans (ih _ _ _ _) (read_unread s).2.1

theorem read_unscan_char (s : Scanner) : (s.Unscan.read).1.1 = s.buffer.1 := by
  unfold Scanner.read Scanner.Unscan
  simp only [gt_iff_lt, Nat.zero_lt_succ, if_true, Scanner.curr]
  split <;> rfl

theorem scanKeyword_unread (fuel : Nat) (s : Scanner) :
    ((s.read).1.1 ≠ eof → (Scanner.scanKeyword fuel s).2.unread + 1 ≤ s.unread) ∧
    (Scanner.scanKeyword fuel s).1.TokenType ≠ TokenType.EOF := by
  have h : (s.read).1.1 ≠ eof →
      (Scanner.scanKeywordLoop fuel [(s.read).1.1] (s.read).2).2.unread + 1 ≤ s.unread := by
    intro hne
    have h1 := scanKeywordLoop_unread fuel [(s.read).1.1] (s.read).2
    have h2 := (read_unread s).2.2 hne
    omega
  unfold Scanner.scanKeyword
  simp only []
  split_ifs <;> exact ⟨h, by simp⟩

theorem scanInteger_unread (fuel : Nat) (s : Scanner) :
    (isDigit (s.read).1.1 = true → (Scanner.scanInteger fuel s).2.unread + 1 ≤ s.unread) ∧
    (Scanner.scanInteger fuel s).1.TokenType ≠ TokenType.EOF := by
  unfold Scanner.scanInteger
  simp only []
  refine ⟨?_, by simp⟩
  intro hd
  have hr := read_unread s
  have h1 := scanIntegerLoop_unread fuel [] (s.read).1.1 (s.read).2 hr.1.symm
  simp only [hd, true_or, if_true, add_zero] at h1
  have := hr.2.2 (isDigit_ne_eof hd)
  omega

theorem scanStringLoop_type (fuel : Nat) :
    ∀ (buf : List Char) (ch : Char) (pos : Position) (s : Scanner),
      (Scanner.scanStringLoop fuel buf ch pos s).1.TokenType ≠ TokenType.EOF := by
  induction fuel with
  | zero => intro buf ch pos s; simp [Scanner.scanStringLoop]
  | succ fuel ih =>
    intro buf ch pos s
    unfold Scanner.scanStringLoop
    split
    · simp
    · split
      · simp
      · exact ih _ _ _ _

theorem scanString_unread (fuel : Nat) (s : Scanner) :
    (Scanner.scanString fuel s).2.unread ≤ s.unread ∧
    (Scanner.scanString fuel s).1.TokenType ≠ TokenType.EOF :=
  ⟨le_trans (scanStringLoop_unread _ _ _ _ _) (read_unread s).2.1,
   scanStringLoop_type _ _ _ _ _⟩

/-- The token that starts with the rune `ch`, read last: no unread rune is added, and the
token is EOF exactly if `ch` is `eof`. -/
theorem scanToken_unread (fuel : Nat) (ch : Char) (pos : Position) (s : Scanner)
    (hch : s.buffer.1 = ch) :
    (Scanner.scanToken fuel ch pos s).2.unread ≤ s.unread ∧
    ((Scanner.scanToken fuel ch pos s).1.TokenType = TokenType.EOF ↔ ch = eof) := by
  unfold Scanner.scanToken
  by_cases hl : isLetter ch = true
  · simp only [hl, if_true]
    have h := scanKeyword_unread fuel s.Unscan
    rw [read_unscan_char, unscan_unread, hch] at h
    have hne := isLetter_ne_eof hl
    simp only [hne, if_false] at h
    exact ⟨by have := h.1 hne; omega, ⟨fun h1 => absurd h1 h.2, fun h1 => absurd h1 hne⟩⟩
  · simp only [hl, if_false, Bool.false_eq_true]
    by_cases hd : isDigit ch = true
    · simp only [hd, if_true]
      have h := scanInteger_unread fuel s.Unscan
      rw [read_unscan_char, unscan_unread, hch] at h
      have hne := isDigit_ne_eof hd
      simp only [hne, if_false] at h
      exact ⟨by have := h.1 hd; omega, ⟨fun h1 => absurd h1 h.2, fun h1 => absurd h1 hne⟩⟩
    · simp only [hd, if_false, Bool.false_eq_true]
      by_cases he : ch = eof
      · simp [he]
      · simp only [he, if_false]
        have hs := scanString_unread fuel s
        by_cases hq : ch = '"'
        · simp only [hq, if_true]
          exact ⟨hs.1, ⟨fun h1 => absurd h1 hs.2, fun h1 => absurd h1 (by decide)⟩⟩
        · simp only [hq, if_false]
          split_ifs <;> simp

theorem scanLoop_unread (fuel inner : Nat) :
    ∀ (ch : Char) (pos : Position) (s : Scanner), s.buffer.1 = ch →
      (Scanner.scanLoop fuel inner ch pos s).2.unread ≤ s.unread ∧
      (ch = eof → 1 ≤ fuel →
        (Scanner.scanLoop fuel inner ch pos s).1.TokenType = TokenType.EOF) := by
  induction fuel with
  | zero => intro ch pos s _; simp [Scanner.scanLoop]
  | succ fuel ih =>
    intro ch pos s hch
    unfold Scanner.scanLoop
    by_cases h1 : ch = '#'
    · simp only [h1, if_true]
      have hne : ¬ ('#' = eof) := by decide
      have hc := skipUntilEndComment_unread inner s
      split
      · exact ⟨hc, fun h => absurd h hne⟩
      · have hr := read_unread (Scanner.skipUntilEndComment inner s).2
        have := (ih _ (Scanner.skipUntilEndComment inner s).2.read.1.2 _ hr.1.symm).1
        exact ⟨by omega, fun h => absurd h hne⟩
    · simp only [h1, if_false]
      by_cases h2 : isWhitespace ch = true
      · simp only [h2, if_true]
        have hne : ch ≠ eof := by
          intro he
          subst he
          revert h2
          decide
        have hw := scanWhitespace_unread inner s
        have hr := read_unread (Scanner.scanWhitespace inner s)
        have := (ih _ (Scanner.scanWhitespace inner s).read.1.2 _ hr.1.symm).1
        exact ⟨by omega, fun h => absurd h hne⟩
      · simp only [h2, if_false, Bool.false_eq_true]
        have := scanToken_unread inner ch pos s hch
        exact ⟨this.1, fun h _ => this.2.mpr h⟩

/-- Scan reads at least one rune for every token other than EOF. -/
theorem Scan_unread (s : Scanner) :
    (s.Scan).2.unread + (if (s.Scan).1.TokenType = TokenType.EOF then 0 else 1) ≤ s.unread := by
  unfold Scanner.Scan
  simp only []
  have hr := read_unread s
  have hl := scanLoop_unread (s.Reader.length + s.bufferSize + 2)
    (s.Reader.length + s.bufferSize + 2) (s.read).1.1 (s.read).1.2 (s.read).2 hr.1.symm
  by_cases he : (s.read).1.1 = eof
  · rw [if_pos (hl.2 he (by omega))]
    omega
  · have := hr.2.2 he
    split <;> omega

end lexer

/-! ## The parser: basic facts, termination and independence of the fuel -/

namespace parser

open lexer

theorem match_single (p : Parser) (t : TokenType) :
    p.match_ [t] =
      if t = p.lookahead.TokenType then ((p.lookahead, true), p.advance)
      else ((p.lookahead, false), p) := by
  unfold Parser.match_ Parser.matchToken Parser.matchToken Parser.advance
  by_cases h : t = p.lookahead.TokenType <;> simp [h]

theorem advance_pending (p : Parser) :
    p.advance.pending + (if p.lookahead.TokenType = TokenType.EOF then 0 else 1) ≤ p.pending := by
  have h := Scan_unread p.scanner
  simp only [Parser.advance, Parser.pending]
  omega

theorem advance_pending_le (p : Parser) : p.advance.pending ≤ p.pending := by
  have := advance_pending p
  omega

theorem addError_pending (p : Parser) (e : ParseError) : (p.addError e).pending = p.pending := by
  unfold Parser.addError
  split <;> rfl

theorem addError_lookahead (p : Parser) (e : ParseError) :
    (p.addError e).lookahead = p.lookahead := by
  unfold Parser.addError
  split <;> rfl

theorem addError_scanner (p : Parser) (e : ParseError) :
    (p.addError e).scanner = p.scanner := by
  unfold Parser.addError
  split <;> rfl

/-- After addError the error list is not empty. -/
theorem addError_ne_nil (p : Parser) (e : ParseError) : (p.addError e).Errors ≠ [] := by
  unfold Parser.addError
  split
  · rename_i h
    intro hnil
    rw [hnil] at h
    simp at h
  · simp

theorem match_pending (p : Parser) (t : TokenType) : (p.match_ [t]).2.pending ≤ p.pending := by
  rw [match_single]
  split
  · exact advance_pending_le p
  · exact le_refl _

theorem ParseString_pending (p : Parser) : (p.ParseString).2.pending ≤ p.pending := by
  unfold Parser.ParseString
  simp only []
  split
  · rw [addError_pending]; exact match_pending _ _
  · exact match_pending _ _

theorem ParseInteger_pending (p : Parser) : (p.ParseInteger).2.pending ≤ p.pending := by
  unfold Parser.ParseInteger
  simp only []
  have h1 : (if (!(p.match_ [TokenType.INTEGER]).1.2) = true then
      (p.match_ [TokenType.INTEGER]).2.addError
        (newParseError (p.match_ [TokenType.INTEGER]).1.1.Lexeme ["INTEGER"]
          (p.match_ [TokenType.INTEGER]).1.1.Position)
      else (p.match_ [TokenType.INTEGER]).2).pending ≤ p.pending := by
    split
    · rw [addError_pending]; exact match_pending _ _
    · exact match_pending _ _
  split
  · rw [addError_pending]; exact h1
  · exact h1

theorem ParseStringOrInteger_pending (p : Parser) :
    (p.ParseStringOrInteger).2.pending ≤ p.pending := by
  unfold Parser.ParseStringOrInteger
  split
  · exact ParseString_pending p
  · split
    · exact ParseInteger_pending p
    · simp only [addError_pending]; exact le_refl _

theorem parseField_pending (p : Parser) : (p.parseField).2.pending ≤ p.pending := by
  unfold Parser.parseField
  simp only []
  refine le_trans (ParseStringOrInteger_pending _) ?_
  split
  · rw [addError_pending]; exact match_pending _ _
  · exact match_pending _ _

theorem afterField_pending (p : Parser) :
    (p.afterField).2.pending ≤ p.pending ∧
    (∀ p1, (p.afterField).1 = some p1 → p1.pending ≤ p.pending) := by
  unfold Parser.afterField
  split
  · refine ⟨le_refl _, fun p1 h => ?_⟩
    simp only [Option.some.injEq] at h
    subst h
    exact match_pending _ _
  · split
    · exact ⟨match_pending _ _, fun p1 h => by simp at h⟩
    · refine ⟨le_refl _, fun p1 h => ?_⟩
      simp only [Option.some.injEq] at h
      subst h
      rw [addError_pending]

theorem lookahead_pending_pos (p : Parser) (h : p.lookahead.TokenType ≠ TokenType.EOF) :
    1 ≤ p.pending := by
  simp only [Parser.pending, h, if_false]
  omega

theorem match_pending_lt (p : Parser) (t : TokenType) (h : p.lookahead.TokenType = t)
    (hne : t ≠ TokenType.EOF) : (p.match_ [t]).2.pending + 1 ≤ p.pending := by
  rw [match_single, if_pos h.symm]
  have := advance_pending p
  rw [if_neg (by rw [h]; exact hne)] at this
  exact this

/-- One field of a pod, from its keyword on, consumes at least one token. -/
theorem field_pending (p : Parser) (t : TokenType) (h : p.lookahead.TokenType = t)
    (hne : t ≠ TokenType.EOF) :
    ((p.match_ [t]).2.parseField).2.pending + 1 ≤ p.pending :=
  le_trans (Nat.add_le_add_right (parseField_pending _) 1) (match_pending_lt p t h hne)

/-- The loop of ParsePod returns when the fuel exceeds the number of pending tokens. -/
theorem parsePodLoop_total (fuel : Nat) :
    ∀ (cpu memory gpu : Expression) (pos : Position) (p : Parser), p.pending + 1 ≤ fuel →
      ∃ e p1, Parser.parsePodLoop fuel cpu memory gpu pos p = some (e, p1) ∧
        p1.pending ≤ p.pending := by
  induction fuel with
  | zero => intro _ _ _ _ p h; omega
  | succ fuel ih =>
    intro cpu memory gpu pos p hf
    unfold Parser.parsePodLoop
    by_cases hr : p.lookahead.TokenType = TokenType.RPAREN
    · simp only [hr, ne_eq, not_true_eq_false, if_false]
      exact ⟨_, _, rfl, le_refl _⟩
    · simp only [ne_eq, hr, not_false_eq_true, if_true]
      have step : ∀ (t : TokenType), p.lookahead.TokenType = t → t ≠ TokenType.EOF →
          ∀ (k : Expression → Expression × Expression × Expression),
          ∃ e p1,
            (match ((p.match_ [t]).2.parseField).2.afterField with
              | (some p1, _) =>
                some (Expression.PodExpression (k ((p.match_ [t]).2.parseField).1).1
                  (k ((p.match_ [t]).2.parseField).1).2.1
                  (k ((p.match_ [t]).2.parseField).1).2.2 pos, p1)
              | (none, p1) =>
                Parser.parsePodLoop fuel (k ((p.match_ [t]).2.parseField).1).1
                  (k ((p.match_ [t]).2.parseField).1).2.1
                  (k ((p.match_ [t]).2.parseField).1).2.2 pos p1) = some (e, p1) ∧
            p1.pending ≤ p.pending := by
        intro t ht hne k
        have hfp := field_pending p t ht hne
        have haf := afterField_pending ((p.match_ [t]).2.parseField).2
        rcases hx : ((p.match_ [t]).2.parseField).2.afterField with ⟨o, q⟩
        rw [hx] at haf
        cases o with
        | some p1 =>
          exact ⟨_, _, rfl, by have := haf.2 p1 rfl; omega⟩
        | none =>
          simp only []
          have h5 : q.pending ≤ ((p.match_ [t]).2.parseField).2.pending := haf.1
          obtain ⟨e, p1, h1, h2⟩ := ih (k ((p.match_ [t]).2.parseField).1).1
            (k ((p.match_ [t]).2.parseField).1).2.1
            (k ((p.match_ [t]).2.parseField).1).2.2 pos q (by omega)
          exact ⟨e, p1, h1, by omega⟩
      by_cases hm : p.lookahead.TokenType = TokenType.MEMORY
      · simp only [hm, if_true]
        exact step TokenType.MEMORY hm (by decide) (fun v => (cpu, v, gpu))
      · simp only [hm, if_false]
        by_cases hc : p.lookahead.TokenType = TokenType.CPU
        · simp only [hc, if_true]
          exact step TokenType.CPU hc (by decide) (fun v => (v, memory, gpu))
        · simp only [hc, if_false]
          by_cases hg : p.lookahead.TokenType = TokenType.GPU
          · simp only [hg, if_true]
            exact step TokenType.GPU hg (by decide) (fun v => (cpu, memory, v))
          · simp only [hg, if_false]
            exact ⟨_, _, rfl, by rw [addError_pending]⟩

theorem ParsePod_total (fuel : Nat) (p : Parser) (hf : p.pending + 1 ≤ fuel) :
    ∃ e p1, Parser.ParsePod fuel p = some (e, p1) ∧ p1.pending ≤ p.pending := by
  unfold Parser.ParsePod
  simp only []
  have h1 : (if (!(p.match_ [TokenType.POD]).1.2) = true then
      (p.match_ [TokenType.POD]).2.addError
        (newParseError (p.match_ [TokenType.POD]).1.1.Lexeme ["pod"]
          (p.match_ [TokenType.POD]).1.1.Position)
      else (p.match_ [TokenType.POD]).2).pending ≤ p.pending := by
    split
    · rw [addError_pending]; exact match_pending _ _
    · exact match_pending _ _
  generalize (if (!(p.match_ [TokenType.POD]).1.2) = true then
      (p.match_ [TokenType.POD]).2.addError
        (newParseError (p.match_ [TokenType.POD]).1.1.Lexeme ["pod"]
          (p.match_ [TokenType.POD]).1.1.Position)
      else (p.match_ [TokenType.POD]).2) = q at h1
  have h2 : (if (!(q.match_ [TokenType.LPAREN]).1.2) = true then
      (q.match_ [TokenType.LPAREN]).2.addError
        (newParseError (q.match_ [TokenType.LPAREN]).1.1.Lexeme ["("]
          (q.match_ [TokenType.LPAREN]).1.1.Position)
      else (q.match_ [TokenType.LPAREN]).2).pending ≤ q.pending := by
    split
    · rw [addError_pending]; exact match_pending _ _
    · exact match_pending _ _
  generalize (if (!(q.match_ [TokenType.LPAREN]).1.2) = true then
      (q.match_ [TokenType.LPAREN]).2.addError
        (newParseError (q.match_ [TokenType.LPAREN]).1.1.Lexeme ["("]
          (q.match_ [TokenType.LPAREN]).1.1.Position)
      else (q.match_ [TokenType.LPAREN]).2) = q2 at h2
  obtain ⟨e, p1, h3, h4⟩ := parsePodLoop_total fuel Expression.nil Expression.nil
    Expression.nil (if (p.match_ [TokenType.POD]).1.2 = true then
      (p.match_ [TokenType.POD]).1.1.Position else q2.lookahead.Position) q2 (by omega)
  exact ⟨e, p1, h3, by omega⟩

end parser

namespace parser

open lexer

/-- With enough fuel each of the mutually recursive functions of the parser returns;
the number of pending tokens does not rise. -/
theorem parse_total (fuel : Nat) :
    (∀ p : Parser, 3 * p.pending + 3 ≤ fuel →
      ∃ e p1, Parser.ParseExpression fuel p = some (e, p1) ∧ p1.pending ≤ p.pending) ∧
    (∀ (result : Expression) (p : Parser), 3 * p.pending + 2 ≤ fuel →
      ∃ e p1, Parser.parseExpressionLoop fuel result p = some (e, p1) ∧
        p1.pending ≤ p.pending) ∧
    (∀ p : Parser, 3 * p.pending + 2 ≤ fuel →
      ∃ e p1, Parser.ParseTerm fuel p = some (e, p1) ∧ p1.pending ≤ p.pending) ∧
    (∀ (b : Bool) (result : Expression) (p : Parser), 3 * p.pending + 1 ≤ fuel →
      ∃ e p1, Parser.parseTermLoop fuel b result p = some (e, p1) ∧
        p1.pending ≤ p.pending) ∧
    (∀ p : Parser, 3 * p.pending + 1 ≤ fuel →
      ∃ e p1, Parser.ParseFactor fuel p = some (e, p1) ∧ p1.pending ≤ p.pending) := by
  induction fuel with
  | zero =>
    refine ⟨?_, ?_, ?_, ?_, ?_⟩ <;> intros <;> omega
  | succ fuel ih =>
    obtain ⟨ihE, ihEL, ihT, ihTL, ihF⟩ := ih
    refine ⟨?_, ?_, ?_, ?_, ?_⟩
    · -- ParseExpression
      intro p hf
      obtain ⟨e1, p1, h1, hp1⟩ := ihT p (by omega)
      obtain ⟨e2, p2, h2, hp2⟩ := ihEL e1 p1 (by omega)
      refine ⟨e2, p2, ?_, by omega⟩
      rw [Parser.ParseExpression, h1]
      exact h2
    · -- the loop of ParseExpression
      intro result p hf
      rw [Parser.parseExpressionLoop]
      by_cases ha : p.lookahead.TokenType = TokenType.ADD
      · simp only [ha, if_true]
        have hm := match_pending_lt p TokenType.ADD ha (by decide)
        obtain ⟨e1, p1, h1, hp1⟩ := ihT (p.match_ [TokenType.ADD]).2 (by omega)
        obtain ⟨e2, p2, h2, hp2⟩ := ihEL
          (Expression.ArithmeticExpression result Operator.Add e1 p.lookahead.Position) p1
          (by omega)
        rw [h1]
        exact ⟨e2, p2, h2, by omega⟩
      · simp only [ha, if_false]
        exact ⟨_, _, rfl, le_refl _⟩
    · -- ParseTerm
      intro p hf
      rw [Parser.ParseTerm]
      by_cases hi : p.lookahead.TokenType = TokenType.INTEGER
      · simp only [hi, if_true]
        have hq := ParseInteger_pending p
        have hq1 : (if (p.ParseInteger).2.lookahead.TokenType ≠ TokenType.MUL then
            (p.ParseInteger).2.addError
              (newParseError (p.ParseInteger).2.lookahead.Lexeme ["*"]
                (p.ParseInteger).2.lookahead.Position)
            else (p.ParseInteger).2).pending ≤ p.pending := by
          split
          · rw [addError_pending]; exact hq
          · exact hq
        generalize (if (p.ParseInteger).2.lookahead.TokenType ≠ TokenType.MUL then
            (p.ParseInteger).2.addError
              (newParseError (p.ParseInteger).2.lookahead.Lexeme ["*"]
                (p.ParseInteger).2.lookahead.Position)
            else (p.ParseInteger).2) = q at hq1
        obtain ⟨e2, p2, h2, hp2⟩ := ihTL true (p.ParseInteger).1 q (by omega)
        exact ⟨e2, p2, h2, by omega⟩
      · simp only [hi, if_false]
        obtain ⟨e1, p1, h1, hp1⟩ := ihF p (by omega)
        obtain ⟨e2, p2, h2, hp2⟩ := ihTL false e1 p1 (by omega)
        rw [h1]
        exact ⟨e2, p2, h2, by omega⟩
    · -- the loop of ParseTerm
      intro b result p hf
      rw [Parser.parseTermLoop]
      by_cases hm : p.lookahead.TokenType = TokenType.MUL
      · simp only [hm, if_true]
        have hlt := match_pending_lt p TokenType.MUL hm (by decide)
        cases b with
        | true =>
          simp only [if_true]
          obtain ⟨e1, p1, h1, hp1⟩ := ihF (p.match_ [TokenType.MUL]).2 (by omega)
          obtain ⟨e2, p2, h2, hp2⟩ := ihTL true
            (Expression.ArithmeticExpression result Operator.Multiply e1 p.lookahead.Position)
            p1 (by omega)
          rw [h1]
          exact ⟨e2, p2, h2, by omega⟩
        | false =>
          simp only [Bool.false_eq_true, if_false]
          have hq := ParseInteger_pending (p.match_ [TokenType.MUL]).2
          obtain ⟨e2, p2, h2, hp2⟩ := ihTL false
            (Expression.ArithmeticExpression result Operator.Multiply
              ((p.match_ [TokenType.MUL]).2.ParseInteger).1 p.lookahead.Position)
            ((p.match_ [TokenType.MUL]).2.ParseInteger).2 (by omega)
          exact ⟨e2, p2, h2, by omega⟩
      · simp only [hm, if_false]
        exact ⟨_, _, rfl, le_refl _⟩
    · -- ParseFactor
      intro p hf
      rw [Parser.ParseFactor]
      by_cases hl : p.lookahead.TokenType = TokenType.LPAREN
      · simp only [hl, if_true]
        have hlt := match_pending_lt p TokenType.LPAREN hl (by decide)
        obtain ⟨e1, p1, h1, hp1⟩ := ihE (p.match_ [TokenType.LPAREN]).2 (by omega)
        rw [h1]
        simp only []
        refine ⟨_, _, rfl, ?_⟩
        have := match_pending p1 TokenType.RPAREN
        split
        · rw [addError_pending]; omega
        · omega
      · simp only [hl, if_false]
        by_cases hp : p.lookahead.TokenType = TokenType.POD
        · simp only [hp, if_true]
          have hpos := lookahead_pending_pos p (by rw [hp]; decide)
          exact ParsePod_total fuel p (by omega)
        · simp only [hp, if_false]
          exact ⟨_, _, rfl, by rw [addError_pending]⟩

end parser

namespace parser

open lexer

theorem parsePodLoop_fuel_succ (fuel : Nat) :
    ∀ (cpu memory gpu : Expression) (pos : Position) (p : Parser) (r : Expression × Parser),
      Parser.parsePodLoop fuel cpu memory gpu pos p = some r →
      Parser.parsePodLoop (fuel + 1) cpu memory gpu pos p = some r := by
  induction fuel with
  | zero => intro _ _ _ _ _ _ h; simp [Parser.parsePodLoop] at h
  | succ fuel ih =>
    intro cpu memory gpu pos p r h
    rw [Parser.parsePodLoop] at h
    rw [Parser.parsePodLoop]
    by_cases hr : p.lookahead.TokenType = TokenType.RPAREN
    · simp only [hr, ne_eq, not_true_eq_false, if_false] at h ⊢
      exact h
    · simp only [ne_eq, hr, not_false_eq_true, if_true] at h ⊢
      by_cases hm : p.lookahead.TokenType = TokenType.MEMORY
      · simp only [hm, if_true] at h ⊢
        rcases hx : ((p.match_ [TokenType.MEMORY]).2.parseField).2.afterField with ⟨o, q⟩
        rw [hx] at h
        cases o with
        | some p1 => exact h
        | none => exact ih _ _ _ _ _ _ h
      · simp only [hm, if_false] at h ⊢
        by_cases hc : p.lookahead.TokenType = TokenType.CPU
        · simp only [hc, if_true] at h ⊢
          rcases hx : ((p.match_ [TokenType.CPU]).2.parseField).2.afterField with ⟨o, q⟩
          rw [hx] at h
          cases o with
          | some p1 => exact h
          | none => exact ih _ _ _ _ _ _ h
        · simp only [hc, if_false] at h ⊢
          by_cases hg : p.lookahead.TokenType = TokenType.GPU
          · simp only [hg, if_true] at h ⊢
            rcases hx : ((p.match_ [TokenType.GPU]).2.parseField).2.afterField with ⟨o, q⟩
            rw [hx] at h
            cases o with
            | some p1 => exact h
            | none => exact ih _ _ _ _ _ _ h
          · simp only [hg, if_false] at h ⊢
            exact h

theorem ParsePod_fuel_succ (fuel : Nat) (p : Parser) (r : Expression × Parser)
    (h : Parser.ParsePod fuel p = some r) : Parser.ParsePod (fuel + 1) p = some r := by
  unfold Parser.ParsePod at h ⊢
  exact parsePodLoop_fuel_succ _ _ _ _ _ _ _ h

/-- One more unit of fuel does not change a result of the parser. -/
theorem parse_fuel_succ (fuel : Nat) :
    (∀ (p : Parser) (r : Expression × Parser), Parser.ParseExpression fuel p = some r →
      Parser.ParseExpression (fuel + 1) p = some r) ∧
    (∀ (result : Expression) (p : Parser) (r : Expression × Parser),
      Parser.parseExpressionLoop fuel result p = some r →
      Parser.parseExpressionLoop (fuel + 1) result p = some r) ∧
    (∀ (p : Parser) (r : Expression × Parser), Parser.ParseTerm fuel p = some r →
      Parser.ParseTerm (fuel + 1) p = some r) ∧
    (∀ (b : Bool) (result : Expression) (p : Parser) (r : Expression × Parser),
      Parser.parseTermLoop fuel b result p = some r →
      Parser.parseTermLoop (fuel + 1) b result p = some r) ∧
    (∀ (p : Parser) (r : Expression × Parser), Parser.ParseFactor fuel p = some r →
      Parser.ParseFactor (fuel + 1) p = some r) := by
  induction fuel with
  | zero =>
    refine ⟨?_, ?_, ?_, ?_, ?_⟩ <;> intros <;> rename_i h
    · simp [Parser.ParseExpression] at h
    · simp [Parser.parseExpressionLoop] at h
    · simp [Parser.ParseTerm] at h
    · simp [Parser.parseTermLoop] at h
    · simp [Parser.ParseFactor] at h
  | succ fuel ih =>
    obtain ⟨ihE, ihEL, ihT, ihTL, ihF⟩ := ih
    refine ⟨?_, ?_, ?_, ?_, ?_⟩
    · intro p r h
      rw [Parser.ParseExpression] at h
      rw [Parser.ParseExpression]
      cases h1 : Parser.ParseTerm fuel p with
      | none => rw [h1] at h; simp at h
      | some x =>
        rw [h1] at h
        rw [ihT p x h1]
        exact ihEL _ _ _ h
    · intro result p r h
      rw [Parser.parseExpressionLoop] at h
      rw [Parser.parseExpressionLoop]
      by_cases ha : p.lookahead.TokenType = TokenType.ADD
      · simp only [ha, if_true] at h ⊢
        cases h1 : Parser.ParseTerm fuel (p.match_ [TokenType.ADD]).2 with
        | none => rw [h1] at h; simp at h
        | some x =>
          rw [h1] at h
          rw [ihT _ x h1]
          exact ihEL _ _ _ h
      · simp only [ha, if_false] at h ⊢
        exact h
    · intro p r h
      rw [Parser.ParseTerm] at h
      rw [Parser.ParseTerm]
      by_cases hi : p.lookahead.TokenType = TokenType.INTEGER
      · simp only [hi, if_true] at h ⊢
        exact ihTL _ _ _ _ h
      · simp only [hi, if_false] at h ⊢
        cases h1 : Parser.ParseFactor fuel p with
        | none => rw [h1] at h; simp at h
        | some x =>
          rw [h1] at h
          rw [ihF p x h1]
          exact ihTL _ _ _ _ h
    · intro b result p r h
      rw [Parser.parseTermLoop] at h
      rw [Parser.parseTermLoop]
      by_cases hm : p.lookahead.TokenType = TokenType.MUL
      · simp only [hm, if_true] at h ⊢
        cases b with
        | true =>
          simp only [if_true] at h ⊢
          cases h1 : Parser.ParseFactor fuel (p.match_ [TokenType.MUL]).2 with
          | none => rw [h1] at h; simp at h
          | some x =>
            rw [h1] at h
            rw [ihF _ x h1]
            exact ihTL _ _ _ _ h
        | false =>
          simp only [Bool.false_eq_true, if_false] at h ⊢
          exact ihTL _ _ _ _ h
      · simp only [hm, if_false] at h ⊢
        exact h
    · intro p r h
      rw [Parser.ParseFactor] at h
      rw [Parser.ParseFactor]
      by_cases hl : p.lookahead.TokenType = TokenType.LPAREN
      · simp only [hl, if_true] at h ⊢
        cases h1 : Parser.ParseExpression fuel (p.match_ [TokenType.LPAREN]).2 with
        | none => rw [h1] at h; simp at h
        | some x =>
          rw [h1] at h
          rw [ihE _ x h1]
          exact h
      · simp only [hl, if_false] at h ⊢
        by_cases hp : p.lookahead.TokenType = TokenType.POD
        · simp only [hp, if_true] at h ⊢
          exact ParsePod_fuel_succ _ _ _ h
        · simp only [hp, if_false] at h ⊢
          exact h

/-- More fuel does not change a result of ParseExpression. -/
theorem ParseExpression_fuel_mono {fuel fuel1 : Nat} (hle : fuel ≤ fuel1) (p : Parser)
    (r : Expression × Parser) (h : Parser.ParseExpression fuel p = some r) :
    Parser.ParseExpression fuel1 p = some r := by
  induction hle with
  | refl => exact h
  | step _ ih => exact (parse_fuel_succ _).1 p r ih

theorem ParseFactor_fuel_mono {fuel fuel1 : Nat} (hle : fuel ≤ fuel1) (p : Parser)
    (r : Expression × Parser) (h : Parser.ParseFactor fuel p = some r) :
    Parser.ParseFactor fuel1 p = some r := by
  induction hle with
  | refl => exact h
  | step _ ih => exact (parse_fuel_succ _).2.2.2.2 p r ih

theorem ParseTerm_fuel_mono {fuel fuel1 : Nat} (hle : fuel ≤ fuel1) (p : Parser)
    (r : Expression × Parser) (h : Parser.ParseTerm fuel p = some r) :
    Parser.ParseTerm fuel1 p = some r := by
  induction hle with
  | refl => exact h
  | step _ ih => exact (parse_fuel_succ _).2.2.1 p r ih

theorem parseTermLoop_fuel_mono {fuel fuel1 : Nat} (hle : fuel ≤ fuel1) (b : Bool)
    (result : Expression) (p : Parser)
    (r : Expression × Parser) (h : Parser.parseTermLoop fuel b result p = some r) :
    Parser.parseTermLoop fuel1 b result p = some r := by
  induction hle with
  | refl => exact h
  | step _ ih => exact (parse_fuel_succ _).2.2.2.1 b result p r ih

theorem parseExpressionLoop_fuel_mono {fuel fuel1 : Nat} (hle : fuel ≤ fuel1)
    (result : Expression) (p : Parser)
    (r : Expression × Parser) (h : Parser.parseExpressionLoop fuel result p = some r) :
    Parser.parseExpressionLoop fuel1 result p = some r := by
  induction hle with
  | refl => exact h
  | step _ ih => exact (parse_fuel_succ _).2.1 result p r ih

theorem ParsePod_fuel_mono {fuel fuel1 : Nat} (hle : fuel ≤ fuel1) (p : Parser)
    (r : Expression × Parser) (h : Parser.ParsePod fuel p = some r) :
    Parser.ParsePod fuel1 p = some r := by
  induction hle with
  | refl => exact h
  | step _ ih => exact ParsePod_fuel_succ _ p r ih

theorem NewParser_pending (s : String) :
    (NewParser (NewScanner s.data)).pending ≤ s.length := by
  have h := Scan_unread (NewScanner s.data)
  have h0 : (NewScanner s.data).unread = s.length := by
    simp only [Scanner.unread, NewScanner]
    split <;> rfl
  rw [h0] at h
  exact h

/-- Parse returns for every input: its fuel is never used up. -/
theorem Parse_total (s : String) : ∃ e errors, Parse s = some (e, errors) := by
  obtain ⟨e, p1, h, _⟩ := (parse_total (3 * s.length + 3)).1 (NewParser (NewScanner s.data))
    (by have := NewParser_pending s; omega)
  exact ⟨e, p1.Errors, by unfold Parse; rw [h]⟩

/-- The result of Parse is the result of ParseExpression with any fuel that suffices. -/
theorem Parse_of_run (s : String) (fuel : Nat) (e : Expression) (p : Parser)
    (h : Parser.ParseExpression fuel (NewParser (NewScanner s.data)) = some (e, p)) :
    Parse s = some (e, p.Errors) := by
  obtain ⟨e1, p1, h1, _⟩ := (parse_total (3 * s.length + 3)).1 (NewParser (NewScanner s.data))
    (by have := NewParser_pending s; omega)
  have h2 := ParseExpression_fuel_mono (Nat.le_max_left fuel (3 * s.length + 3)) _ _ h
  have h3 := ParseExpression_fuel_mono (Nat.le_max_right fuel (3 * s.length + 3)) _ _ h1
  rw [h2] at h3
  simp only [Option.some.injEq, Prod.mk.injEq] at h3
  unfold Parse
  rw [h1, ← h3.1, ← h3.2]

end parser

/-! ## The token stream seen by the parser -/

namespace parser

open lexer

theorem symbol_token {t : Token} {k : TokenType} (h : symbol t = Symbol.token k) :
    t.TokenType = k := by
  unfold symbol at h
  split at h
  · simp at h
  · split at h
    · simp at h
    · simp only [Symbol.token.injEq] at h
      exact h

theorem symbol_integer {t : Token} {d : String} (h : symbol t = Symbol.integer d) :
    t.TokenType = TokenType.INTEGER ∧ t.Lexeme = d := by
  unfold symbol at h
  split at h
  · rename_i h1
    simp only [Symbol.integer.injEq] at h
    exact ⟨h1, h⟩
  · split at h <;> simp at h

theorem symbol_string {t : Token} {c : String} (h : symbol t = Symbol.string c) :
    t.TokenType = TokenType.STRING ∧ t.Lexeme = c := by
  unfold symbol at h
  split at h
  · simp at h
  · split at h
    · rename_i h1
      simp only [Symbol.string.injEq] at h
      exact ⟨h1, h⟩
    · simp at h

theorem symbol_of_type {t : Token} (h1 : t.TokenType ≠ TokenType.INTEGER)
    (h2 : t.TokenType ≠ TokenType.STRING) : symbol t = Symbol.token t.TokenType := by
  unfold symbol
  simp [h1, h2]

theorem advance_errors (p : Parser) : p.advance.Errors = p.Errors := rfl

theorem advance_iterate_errors (n : Nat) (p : Parser) :
    (Parser.advance^[n] p).Errors = p.Errors := by
  induction n generalizing p with
  | zero => rfl
  | succ n ih => rw [Function.iterate_succ_apply, ih, advance_errors]

theorem upcoming_length (n : Nat) (p : Parser) : (p.upcoming n).length = n := by
  induction n generalizing p with
  | zero => rfl
  | succ n ih => simp [Parser.upcoming, ih]

theorem upcoming_add (m n : Nat) (p : Parser) :
    p.upcoming (m + n) = p.upcoming m ++ (Parser.advance^[m] p).upcoming n := by
  induction m generalizing p with
  | zero => simp [Parser.upcoming]
  | succ m ih =>
    rw [Nat.succ_add, Parser.upcoming, Parser.upcoming, ih, Function.iterate_succ_apply]
    rfl

theorem sees_nil (p : Parser) : p.Sees [] := rfl

theorem sees_cons (p : Parser) (t : Symbol) (ts : List Symbol) :
    p.Sees (t :: ts) ↔ symbol p.lookahead = t ∧ p.advance.Sees ts := by
  simp [Parser.Sees, Parser.upcoming]

theorem sees_append (p : Parser) (a b : List Symbol) :
    p.Sees (a ++ b) ↔ p.Sees a ∧ (Parser.advance^[a.length] p).Sees b := by
  unfold Parser.Sees
  rw [List.length_append, upcoming_add]
  constructor
  · intro h
    have h1 := List.append_inj h (by rw [upcoming_length])
    exact h1
  · intro h
    rw [h.1, h.2]

/-- The stream seen from a parser does not depend on its error list. -/
theorem upcoming_congr (n : Nat) :
    ∀ (p q : Parser), p.lookahead = q.lookahead → p.scanner = q.scanner →
      p.upcoming n = q.upcoming n := by
  induction n with
  | zero => intro p q _ _; rfl
  | succ n ih =>
    intro p q h1 h2
    simp only [Parser.upcoming, h1]
    congr 1
    exact ih _ _ (by simp [Parser.advance, h2]) (by simp [Parser.advance, h2])

theorem NewParser_upcoming (sc : Scanner) (n : Nat) :
    (NewParser sc).upcoming n = (sc.tokens n).map symbol := by
  have key : ∀ (n : Nat) (p : Parser) (sc : Scanner),
      p.lookahead = (sc.Scan).1 → p.scanner = (sc.Scan).2 →
      p.upcoming n = (sc.tokens n).map symbol := by
    intro n
    induction n with
    | zero => intro p sc _ _; rfl
    | succ n ih =>
      intro p sc h1 h2
      simp only [Parser.upcoming, Scanner.tokens, List.map_cons, h1]
      congr 1
      exact ih p.advance (sc.Scan).2 (by simp [Parser.advance, h2])
        (by simp [Parser.advance, h2])
  exact key n (NewParser sc) sc rfl rfl

/-- A text has the tokens `ts` exactly if the parser that Parse creates sees them. -/
theorem hasTokens_iff (s : String) (ts : List Symbol) :
    HasTokens s ts ↔ (NewParser (NewScanner s.data)).Sees ts := by
  unfold HasTokens Parser.Sees tokenSymbols
  rw [NewParser_upcoming]

theorem match_of_type (p : Parser) (t : TokenType) (h : p.lookahead.TokenType = t) :
    p.match_ [t] = ((p.lookahead, true), p.advance) := by
  rw [match_single, if_pos h.symm]

theorem match_of_symbol (p : Parser) (t : TokenType) (h : symbol p.lookahead = Symbol.token t) :
    p.match_ [t] = ((p.lookahead, true), p.advance) :=
  match_of_type p t (symbol_token h)

theorem ParseInteger_run (p : Parser) (d : String) (h : symbol p.lookahead = Symbol.integer d)
    (hd : (strconv.ParseInt d).2 = true) :
    p.ParseInteger =
      (Expression.IntLiteral (strconv.ParseInt d).1 p.lookahead.Position, p.advance) := by
  obtain ⟨h1, h2⟩ := symbol_integer h
  unfold Parser.ParseInteger
  rw [match_of_type p _ h1]
  simp [h2, hd]

theorem ParseString_run (p : Parser) (c : String) (h : symbol p.lookahead = Symbol.string c) :
    p.ParseString = (Expression.StringLiteral c p.lookahead.Position, p.advance) := by
  obtain ⟨h1, h2⟩ := symbol_string h
  unfold Parser.ParseString
  rw [match_of_type p _ h1]
  simp [h2]

theorem ParseStringOrInteger_run (p : Parser) (t : Symbol) (v : Expression)
    (hv : DerivesValue t v) (h : symbol p.lookahead = t)
    (hr : ∀ d, t = Symbol.integer d → (strconv.ParseInt d).2 = true) :
    ∃ v1, p.ParseStringOrInteger = (v1, p.advance) ∧ v1.erase = v := by
  cases hv with
  | integer d =>
    obtain ⟨h1, _⟩ := symbol_integer h
    refine ⟨Expression.IntLiteral (strconv.ParseInt d).1 p.lookahead.Position, ?_, rfl⟩
    unfold Parser.ParseStringOrInteger
    rw [if_neg (by rw [h1]; decide), if_pos h1]
    exact ParseInteger_run p d h (hr d rfl)
  | string c =>
    obtain ⟨h1, _⟩ := symbol_string h
    refine ⟨Expression.StringLiteral c p.lookahead.Position, ?_, rfl⟩
    unfold Parser.ParseStringOrInteger
    rw [if_pos h1]
    exact ParseString_run p c h

theorem parseField_run (p : Parser) (t : Symbol) (v : Expression)
    (hv : DerivesValue t v) (h : p.Sees [Symbol.token TokenType.COLON, t])
    (hr : ∀ d, t = Symbol.integer d → (strconv.ParseInt d).2 = true) :
    ∃ v1, p.parseField = (v1, p.advance.advance) ∧ v1.erase = v := by
  rw [sees_cons, sees_cons] at h
  obtain ⟨h1, h2, _⟩ := h
  unfold Parser.parseField
  rw [match_of_symbol p _ h1]
  simp only [Bool.not_true, Bool.false_eq_true, if_false]
  exact ParseStringOrInteger_run p.advance t v hv h2 hr

end parser

/-! ## The parser accepts the phrases of the grammar (without empty pods) -/

namespace parser

open lexer

theorem keyword_ne_rparen (a : Axis) : a.keyword ≠ TokenType.RPAREN := by
  cases a <;> decide

/-- One round of the loop of ParsePod at the keyword of the axis `a`. -/
theorem parsePodLoop_step (fuel : Nat) (a : Axis) (p : Parser)
    (h : p.lookahead.TokenType = a.keyword) (cpu memory gpu : Expression) (pos : Position) :
    Parser.parsePodLoop (fuel + 1) cpu memory gpu pos p =
      match ((p.match_ [a.keyword]).2.parseField).2.afterField with
      | (some p1, _) =>
        some (Expression.PodExpression
          (a.assign ((p.match_ [a.keyword]).2.parseField).1 (cpu, memory, gpu)).1
          (a.assign ((p.match_ [a.keyword]).2.parseField).1 (cpu, memory, gpu)).2.1
          (a.assign ((p.match_ [a.keyword]).2.parseField).1 (cpu, memory, gpu)).2.2 pos, p1)
      | (none, p1) =>
        Parser.parsePodLoop fuel
          (a.assign ((p.match_ [a.keyword]).2.parseField).1 (cpu, memory, gpu)).1
          (a.assign ((p.match_ [a.keyword]).2.parseField).1 (cpu, memory, gpu)).2.1
          (a.assign ((p.match_ [a.keyword]).2.parseField).1 (cpu, memory, gpu)).2.2 pos p1 := by
  rw [Parser.parsePodLoop]
  cases a <;> simp only [Axis.keyword] at h <;> simp [h, Axis.keyword, Axis.assign]

theorem assign_erase (a : Axis) (v cpu memory gpu : Expression) :
    ((a.assign v (cpu, memory, gpu)).1.erase, (a.assign v (cpu, memory, gpu)).2.1.erase,
      (a.assign v (cpu, memory, gpu)).2.2.erase) =
    a.assign v.erase (cpu.erase, memory.erase, gpu.erase) := by
  cases a <;> rfl

/-- The loop of ParsePod consumes a list of fields and the closing parenthesis. -/
theorem parsePodLoop_complete (f f1 : Expression × Expression × Expression)
    (ts : List Symbol) (h : DerivesFields f ts f1) :
    ∀ (p : Parser) (pos : Position) (cpu memory gpu : Expression),
      (cpu.erase, memory.erase, gpu.erase) = f → IntegersInRange ts →
      p.Sees (ts ++ [Symbol.token TokenType.RPAREN]) →
      ∃ fuel cpu1 memory1 gpu1,
        Parser.parsePodLoop fuel cpu memory gpu pos p =
          some (Expression.PodExpression cpu1 memory1 gpu1 pos,
            Parser.advance^[ts.length + 1] p) ∧
        (cpu1.erase, memory1.erase, gpu1.erase) = f1 := by
  induction h with
  | last a t v f hv =>
    intro p pos cpu memory gpu hf hr hs
    simp only [List.cons_append, List.nil_append, sees_cons] at hs
    obtain ⟨h1, h2, h3, h4, _⟩ := hs
    obtain ⟨v1, hf1, hv1⟩ := parseField_run p.advance t v hv
      (by simp only [sees_cons]; exact ⟨h2, h3, sees_nil _⟩)
      (fun d hd => hr d (by simp [hd]))
    refine ⟨1, (a.assign v1 (cpu, memory, gpu)).1, (a.assign v1 (cpu, memory, gpu)).2.1,
      (a.assign v1 (cpu, memory, gpu)).2.2, ?_, ?_⟩
    · rw [parsePodLoop_step 0 a p (symbol_token h1), match_of_symbol p _ h1, hf1]
      simp only [Parser.afterField, symbol_token h4, if_true, match_of_symbol _ _ h4]
      rfl
    · rw [assign_erase, hv1, hf]
  | more a t v f f1 ts hv _ ih =>
    intro p pos cpu memory gpu hf hr hs
    simp only [List.cons_append, List.nil_append, sees_cons] at hs
    obtain ⟨h1, h2, h3, h4, h5⟩ := hs
    obtain ⟨v1, hf1, hv1⟩ := parseField_run p.advance t v hv
      (by simp only [sees_cons]; exact ⟨h2, h3, sees_nil _⟩)
      (fun d hd => hr d (by simp [hd]))
    obtain ⟨fuel, c1, m1, g1, hrun, he⟩ := ih p.advance.advance.advance.advance pos
      (a.assign v1 (cpu, memory, gpu)).1 (a.assign v1 (cpu, memory, gpu)).2.1
      (a.assign v1 (cpu, memory, gpu)).2.2
      (by rw [assign_erase, hv1, hf])
      (fun d hd => hr d (by simp [hd])) h5
    refine ⟨fuel + 1, c1, m1, g1, ?_, he⟩
    rw [parsePodLoop_step fuel a p (symbol_token h1), match_of_symbol p _ h1, hf1]
    simp only [Parser.afterField, symbol_token h4, match_of_symbol _ _ h4]
    rw [if_neg (by decide)]
    simp only [if_true]
    rw [hrun]
    rfl

/-- ParsePod consumes a pod literal with at least one field, its closing parenthesis
included. -/
theorem ParsePod_complete (f : Expression × Expression × Expression) (ts : List Symbol)
    (h : DerivesFields (Expression.nil, Expression.nil, Expression.nil) ts f)
    (p : Parser) (hr : IntegersInRange ts)
    (hs : p.Sees ([Symbol.token TokenType.POD, Symbol.token TokenType.LPAREN] ++ ts ++
      [Symbol.token TokenType.RPAREN])) :
    ∃ fuel e, Parser.ParsePod fuel p = some (e, Parser.advance^[ts.length + 3] p) ∧
      e.erase = Expression.PodExpression f.1 f.2.1 f.2.2 ⟨0, 0⟩ := by
  simp only [List.cons_append, List.nil_append, sees_cons] at hs
  obtain ⟨h1, h2, h3⟩ := hs
  obtain ⟨fuel, c1, m1, g1, hrun, he⟩ := parsePodLoop_complete _ _ _ h p.advance.advance
    p.lookahead.Position Expression.nil Expression.nil Expression.nil rfl hr h3
  refine ⟨fuel, Expression.PodExpression c1 m1 g1 p.lookahead.Position, ?_, ?_⟩
  · unfold Parser.ParsePod
    simp only [match_of_symbol p _ h1, match_of_symbol p.advance _ h2, Bool.not_true,
      Bool.false_eq_true, if_false, if_true]
    rw [hrun]
    rfl
  · rw [← he]
    rfl

end parser

namespace parser

open lexer

theorem parseTermLoop_exit (fuel : Nat) (b : Bool) (result : Expression) (p : Parser)
    (h : p.lookahead.TokenType ≠ TokenType.MUL) :
    Parser.parseTermLoop (fuel + 1) b result p = some (result, p) := by
  rw [Parser.parseTermLoop, if_neg h]

theorem parseTermLoop_integer (fuel : Nat) (result : Expression) (p : Parser) (d : String)
    (h : p.lookahead.TokenType = TokenType.MUL)
    (h1 : symbol p.advance.lookahead = Symbol.integer d)
    (hd : (strconv.ParseInt d).2 = true) :
    Parser.parseTermLoop (fuel + 1) false result p =
      Parser.parseTermLoop fuel false
        (Expression.ArithmeticExpression result Operator.Multiply
          (Expression.IntLiteral (strconv.ParseInt d).1 p.advance.lookahead.Position)
          p.lookahead.Position) p.advance.advance := by
  rw [Parser.parseTermLoop, if_pos h]
  simp only [Bool.false_eq_true, if_false, match_of_type p _ h,
    ParseInteger_run p.advance d h1 hd]

theorem parseTermLoop_factor (fuel : Nat) (result e1 : Expression) (p q : Parser)
    (h : p.lookahead.TokenType = TokenType.MUL)
    (h1 : Parser.ParseFactor fuel p.advance = some (e1, q)) :
    Parser.parseTermLoop (fuel + 1) true result p =
      Parser.parseTermLoop fuel true
        (Expression.ArithmeticExpression result Operator.Multiply e1 p.lookahead.Position) q := by
  rw [Parser.parseTermLoop, if_pos h]
  simp only [if_true, match_of_type p _ h, h1]

theorem parseExpressionLoop_exit (fuel : Nat) (result : Expression) (p : Parser)
    (h : p.lookahead.TokenType ≠ TokenType.ADD) :
    Parser.parseExpressionLoop (fuel + 1) result p = some (result, p) := by
  rw [Parser.parseExpressionLoop, if_neg h]

theorem parseExpressionLoop_term (fuel : Nat) (result e1 : Expression) (p q : Parser)
    (h : p.lookahead.TokenType = TokenType.ADD)
    (h1 : Parser.ParseTerm fuel p.advance = some (e1, q)) :
    Parser.parseExpressionLoop (fuel + 1) result p =
      Parser.parseExpressionLoop fuel
        (Expression.ArithmeticExpression result Operator.Add e1 p.lookahead.Position) q := by
  rw [Parser.parseExpressionLoop, if_pos h]
  simp only [match_of_type p _ h, h1]

theorem ParseTerm_factor (fuel : Nat) (e1 : Expression) (p q : Parser)
    (h : p.lookahead.TokenType ≠ TokenType.INTEGER)
    (h1 : Parser.ParseFactor fuel p = some (e1, q)) :
    Parser.ParseTerm (fuel + 1) p = Parser.parseTermLoop fuel false e1 q := by
  rw [Parser.ParseTerm, if_neg h, h1]

theorem ParseTerm_integer (fuel : Nat) (p : Parser) (d : String)
    (h : symbol p.lookahead = Symbol.integer d) (hd : (strconv.ParseInt d).2 = true)
    (h1 : p.advance.lookahead.TokenType = TokenType.MUL) :
    Parser.ParseTerm (fuel + 1) p =
      Parser.parseTermLoop fuel true
        (Expression.IntLiteral (strconv.ParseInt d).1 p.lookahead.Position) p.advance := by
  rw [Parser.ParseTerm, if_pos (symbol_integer h).1]
  simp only [ParseInteger_run p d h hd, h1, ne_eq, not_true_eq_false, if_false]

theorem ParseExpression_term (fuel : Nat) (e1 : Expression) (p q : Parser)
    (h1 : Parser.ParseTerm fuel p = some (e1, q)) :
    Parser.ParseExpression (fuel + 1) p = Parser.parseExpressionLoop fuel e1 q := by
  rw [Parser.ParseExpression, h1]

theorem ParseFactor_paren (fuel : Nat) (e1 : Expression) (p q : Parser)
    (h : p.lookahead.TokenType = TokenType.LPAREN)
    (h1 : Parser.ParseExpression fuel p.advance = some (e1, q))
    (h2 : q.lookahead.TokenType = TokenType.RPAREN) :
    Parser.ParseFactor (fuel + 1) p = some (e1, q.advance) := by
  rw [Parser.ParseFactor, if_pos h]
  simp only [match_of_type p _ h, h1, match_of_type q _ h2, Bool.not_true,
    Bool.false_eq_true, if_false]

theorem ParseFactor_pod (fuel : Nat) (p : Parser)
    (h : p.lookahead.TokenType = TokenType.POD) :
    Parser.ParseFactor (fuel + 1) p = Parser.ParsePod fuel p := by
  rw [Parser.ParseFactor, if_neg (by rw [h]; decide), if_pos h]

theorem type_ne_of_symbol_ne {t : Token} {k : TokenType} (h1 : k ≠ TokenType.INTEGER)
    (h2 : k ≠ TokenType.STRING) (h : symbol t ≠ Symbol.token k) : t.TokenType ≠ k := by
  intro he
  apply h
  rw [symbol_of_type (by rw [he]; exact h1) (by rw [he]; exact h2), he]

/-- A factor starts with `(` or with `pod`. -/
theorem derives_factor_head (b : Bool) (c : Category) (ts : List Symbol) (e : Expression)
    (h : Derives b c ts e) : c = Category.factor →
    ∃ rest, ts = Symbol.token TokenType.LPAREN :: rest ∨
      ts = Symbol.token TokenType.POD :: rest := by
  cases h with
  | emptyPod => intro _; exact ⟨_, Or.inr rfl⟩
  | pod ts f _ => intro _; exact ⟨_, Or.inr rfl⟩
  | paren ts e _ => intro _; exact ⟨_, Or.inl rfl⟩
  | factorTerm => intro h; cases h
  | timesInteger => intro h; cases h
  | integerTimes => intro h; cases h
  | timesFactor => intro h; cases h
  | ofFactorTerm => intro h; cases h
  | ofIntegerTerm => intro h; cases h
  | plusFactorTerm => intro h; cases h
  | plusIntegerTerm => intro h; cases h

theorem integersInRange_append {a b : List Symbol} (h : IntegersInRange (a ++ b)) :
    IntegersInRange a ∧ IntegersInRange b :=
  ⟨fun d hd => h d (List.mem_append_left _ hd), fun d hd => h d (List.mem_append_right _ hd)⟩

end parser

namespace parser

open lexer

theorem iterate_advance_head (n : Nat) (p : Parser) :
    Parser.advance^[n + 1] p = Parser.advance^[n] p.advance :=
  Function.iterate_succ_apply _ _ _

theorem iterate_advance_last (n : Nat) (p : Parser) :
    Parser.advance^[n + 1] p = (Parser.advance^[n] p).advance :=
  Function.iterate_succ_apply' _ _ _

theorem iterate_advance_add (m n : Nat) (p : Parser) :
    Parser.advance^[m + n] p = Parser.advance^[n] (Parser.advance^[m] p) := by
  rw [Nat.add_comm, Function.iterate_add_apply]

/-- Completeness of the parser: it accepts every phrase of the grammar that has no empty
pod literal and whose integer literals are within the signed 64-bit range. -/
theorem parser_complete (b : Bool) (c : Category) (ts : List Symbol) (e : Expression)
    (h : Derives b c ts e) :
    b = false → IntegersInRange ts → ∀ p : Parser, p.Sees ts →
    (c = Category.expression →
      (Parser.advance^[ts.length] p).lookahead.TokenType ≠ TokenType.MUL) →
    Accepts c ts e p := by
  induction h with
  | emptyPod =>
    intro hne
    cases hne
  | pod b ts f hf =>
    intro _ hr p hs _
    have hr1 : IntegersInRange ts :=
      (integersInRange_append (integersInRange_append hr).1).2
    obtain ⟨fuel, e1, hrun, he⟩ := ParsePod_complete f ts hf p hr1 hs
    have hpod : p.lookahead.TokenType = TokenType.POD := by
      simp only [List.cons_append, List.nil_append, sees_cons] at hs
      exact symbol_token hs.1
    refine ⟨fuel + 1, e1, ?_, he⟩
    have hlen : ([Symbol.token TokenType.POD, Symbol.token TokenType.LPAREN] ++ ts ++
        [Symbol.token TokenType.RPAREN]).length = ts.length + 3 := by simp
    rw [ParseFactor_pod fuel p hpod, hrun, hlen]
  | paren b ts e _ ih =>
    intro hne hr p hs _
    have hr1 : IntegersInRange ts := (integersInRange_append (integersInRange_append hr).1).2
    simp only [List.cons_append, List.nil_append, sees_cons, sees_append] at hs
    obtain ⟨hl, hs1, hrp, _⟩ := hs
    obtain ⟨e1, he, hk⟩ := ih hne hr1 p.advance hs1
      (fun _ => by rw [symbol_token hrp]; decide)
    obtain ⟨fuel1, hE⟩ := hk 1 (e1, Parser.advance^[ts.length] p.advance)
      (parseExpressionLoop_exit 0 _ _ (by rw [symbol_token hrp]; decide))
    refine ⟨fuel1 + 1, e1, ?_, he⟩
    rw [ParseFactor_paren fuel1 e1 p _ (symbol_token hl) hE (symbol_token hrp)]
    have hlen : ([Symbol.token TokenType.LPAREN] ++ ts ++
        [Symbol.token TokenType.RPAREN]).length = (ts.length + 1) + 1 := by simp
    rw [hlen, iterate_advance_last, iterate_advance_head]
  | factorTerm b ts e hd ih =>
    intro hne hr p hs _
    obtain ⟨fuel, e1, hF, he⟩ := ih hne hr p hs (fun hc => by cases hc)
    have hni : p.lookahead.TokenType ≠ TokenType.INTEGER := by
      obtain ⟨rest, hrest | hrest⟩ := derives_factor_head _ _ _ _ hd rfl
      · rw [hrest, sees_cons] at hs
        rw [symbol_token hs.1]; decide
      · rw [hrest, sees_cons] at hs
        rw [symbol_token hs.1]; decide
    refine ⟨e1, he, fun fuel1 r hloop => ⟨max fuel fuel1 + 1, ?_⟩⟩
    rw [ParseTerm_factor _ e1 p _ hni (ParseFactor_fuel_mono (Nat.le_max_left _ _) _ _ hF)]
    exact parseTermLoop_fuel_mono (Nat.le_max_right _ _) _ _ _ _ hloop
  | timesInteger b ts e d _ ih =>
    intro hne hr p hs _
    have hr1 : IntegersInRange ts := (integersInRange_append hr).1
    have hdv : (strconv.ParseInt d).2 = true := hr d (by simp)
    simp only [sees_append, sees_cons] at hs
    obtain ⟨hs1, hmul, hint, _⟩ := hs
    obtain ⟨e1, he, hk⟩ := ih hne hr1 p hs1 (fun hc => by cases hc)
    refine ⟨Expression.ArithmeticExpression e1 Operator.Multiply
      (Expression.IntLiteral (strconv.ParseInt d).1
        (Parser.advance^[ts.length] p).advance.lookahead.Position)
      (Parser.advance^[ts.length] p).lookahead.Position, by simp [Expression.erase, he], ?_⟩
    intro fuel r hloop
    apply hk (fuel + 1) r
    rw [parseTermLoop_integer fuel e1 _ d (symbol_token hmul) hint hdv]
    have hlen : (ts ++ [Symbol.token TokenType.MUL, Symbol.integer d]).length =
        (ts.length + 1) + 1 := by simp
    rw [hlen, iterate_advance_last, iterate_advance_last] at hloop
    exact hloop
  | integerTimes b d ts e _ ih =>
    intro hne hr p hs _
    have hr1 : IntegersInRange ts := (integersInRange_append hr).2
    have hdv : (strconv.ParseInt d).2 = true := hr d (by simp)
    simp only [List.cons_append, List.nil_append, sees_cons] at hs
    obtain ⟨hint, hmul, hs1⟩ := hs
    obtain ⟨fuelF, e1, hF, he⟩ := ih hne hr1 p.advance.advance hs1 (fun hc => by cases hc)
    refine ⟨Expression.ArithmeticExpression
      (Expression.IntLiteral (strconv.ParseInt d).1 p.lookahead.Position) Operator.Multiply e1
      p.advance.lookahead.Position, by simp [Expression.erase, he], ?_⟩
    intro fuel r hloop
    refine ⟨max fuelF fuel + 1 + 1, ?_⟩
    rw [ParseTerm_integer _ p d hint hdv (symbol_token hmul),
      parseTermLoop_factor _ _ e1 p.advance _ (symbol_token hmul)
        (ParseFactor_fuel_mono (Nat.le_max_left _ _) _ _ hF)]
    have hlen : ([Symbol.integer d, Symbol.token TokenType.MUL] ++ ts).length =
        (ts.length + 1) + 1 := by simp
    rw [hlen, iterate_advance_head, iterate_advance_head] at hloop
    exact parseTermLoop_fuel_mono (Nat.le_max_right _ _) _ _ _ _ hloop
  | timesFactor b ts ts1 e e1 _ _ ih ih1 =>
    intro hne hr p hs _
    have hr1 : IntegersInRange ts := (integersInRange_append (integersInRange_append hr).1).1
    have hr2 : IntegersInRange ts1 := (integersInRange_append hr).2
    simp only [List.append_assoc, List.cons_append, List.nil_append, sees_append,
      sees_cons] at hs
    obtain ⟨hs1, hmul, hs2⟩ := hs
    obtain ⟨a1, ha1, hk⟩ := ih hne hr1 p hs1 (fun hc => by cases hc)
    obtain ⟨fuelF, b1, hF, hb1⟩ := ih1 hne hr2 _ hs2 (fun hc => by cases hc)
    refine ⟨Expression.ArithmeticExpression a1 Operator.Multiply b1
      (Parser.advance^[ts.length] p).lookahead.Position, by simp [Expression.erase, ha1, hb1], ?_⟩
    intro fuel r hloop
    apply hk (max fuelF fuel + 1) r
    rw [parseTermLoop_factor _ _ b1 _ _ (symbol_token hmul)
      (ParseFactor_fuel_mono (Nat.le_max_left _ _) _ _ hF)]
    have hlen : (ts ++ [Symbol.token TokenType.MUL] ++ ts1).length =
        (ts.length + 1) + ts1.length := by simp; omega
    rw [hlen, iterate_advance_add, iterate_advance_last] at hloop
    exact parseTermLoop_fuel_mono (Nat.le_max_right _ _) _ _ _ _ hloop
  | ofFactorTerm b ts e _ ih =>
    intro hne hr p hs hnext
    obtain ⟨e1, he, hk⟩ := ih hne hr p hs (fun hc => by cases hc)
    obtain ⟨fuelT, hT⟩ := hk 1 (e1, Parser.advance^[ts.length] p)
      (parseTermLoop_exit 0 _ _ _ (hnext rfl))
    refine ⟨e1, he, fun fuel r hloop => ⟨max fuelT fuel + 1, ?_⟩⟩
    rw [ParseExpression_term _ e1 p _ (ParseTerm_fuel_mono (Nat.le_max_left _ _) _ _ hT)]
    exact parseExpressionLoop_fuel_mono (Nat.le_max_right _ _) _ _ _ hloop
  | ofIntegerTerm b ts e _ ih =>
    intro hne hr p hs hnext
    obtain ⟨e1, he, hk⟩ := ih hne hr p hs (fun hc => by cases hc)
    obtain ⟨fuelT, hT⟩ := hk 1 (e1, Parser.advance^[ts.length] p)
      (parseTermLoop_exit 0 _ _ _ (hnext rfl))
    refine ⟨e1, he, fun fuel r hloop => ⟨max fuelT fuel + 1, ?_⟩⟩
    rw [ParseExpression_term _ e1 p _ (ParseTerm_fuel_mono (Nat.le_max_left _ _) _ _ hT)]
    exact parseExpressionLoop_fuel_mono (Nat.le_max_right _ _) _ _ _ hloop
  | plusFactorTerm b ts ts1 e e1 _ _ ih ih1 =>
    intro hne hr p hs hnext
    have hr1 : IntegersInRange ts := (integersInRange_append (integersInRange_append hr).1).1
    have hr2 : IntegersInRange ts1 := (integersInRange_append hr).2
    have hlen : (ts ++ [Symbol.token TokenType.ADD] ++ ts1).length =
        (ts.length + 1) + ts1.length := by simp; omega
    have hnext1 := hnext rfl
    rw [hlen, iterate_advance_add, iterate_advance_last] at hnext1
    simp only [List.append_assoc, List.cons_append, List.nil_append, sees_append,
      sees_cons] at hs
    obtain ⟨hs1, hadd, hs2⟩ := hs
    obtain ⟨a1, ha1, hk⟩ := ih hne hr1 p hs1 (fun _ => by rw [symbol_token hadd]; decide)
    obtain ⟨b1, hb1, hk1⟩ := ih1 hne hr2 _ hs2 (fun hc => by cases hc)
    obtain ⟨fuelT, hT⟩ := hk1 1 (b1, _) (parseTermLoop_exit 0 _ _ _ hnext1)
    refine ⟨Expression.ArithmeticExpression a1 Operator.Add b1
      (Parser.advance^[ts.length] p).lookahead.Position, by simp [Expression.erase, ha1, hb1], ?_⟩
    intro fuel r hloop
    apply hk (max fuelT fuel + 1) r
    rw [parseExpressionLoop_term _ _ b1 _ _ (symbol_token hadd)
      (ParseTerm_fuel_mono (Nat.le_max_left _ _) _ _ hT)]
    rw [hlen, iterate_advance_add, iterate_advance_last] at hloop
    exact parseExpressionLoop_fuel_mono (Nat.le_max_right _ _) _ _ _ hloop
  | plusIntegerTerm b ts ts1 e e1 _ _ ih ih1 =>
    intro hne hr p hs hnext
    have hr1 : IntegersInRange ts := (integersInRange_append (integersInRange_append hr).1).1
    have hr2 : IntegersInRange ts1 := (integersInRange_append hr).2
    have hlen : (ts ++ [Symbol.token TokenType.ADD] ++ ts1).length =
        (ts.length + 1) + ts1.length := by simp; omega
    have hnext1 := hnext rfl
    rw [hlen, iterate_advance_add, iterate_advance_last] at hnext1
    simp only [List.append_assoc, List.cons_append, List.nil_append, sees_append,
      sees_cons] at hs
    obtain ⟨hs1, hadd, hs2⟩ := hs
    obtain ⟨a1, ha1, hk⟩ := ih hne hr1 p hs1 (fun _ => by rw [symbol_token hadd]; decide)
    obtain ⟨b1, hb1, hk1⟩ := ih1 hne hr2 _ hs2 (fun hc => by cases hc)
    obtain ⟨fuelT, hT⟩ := hk1 1 (b1, _) (parseTermLoop_exit 0 _ _ _ hnext1)
    refine ⟨Expression.ArithmeticExpression a1 Operator.Add b1
      (Parser.advance^[ts.length] p).lookahead.Position, by simp [Expression.erase, ha1, hb1], ?_⟩
    intro fuel r hloop
    apply hk (max fuelT fuel + 1) r
    rw [parseExpressionLoop_term _ _ b1 _ _ (symbol_token hadd)
      (ParseTerm_fuel_mono (Nat.le_max_left _ _) _ _ hT)]
    rw [hlen, iterate_advance_add, iterate_advance_last] at hloop
    exact parseExpressionLoop_fuel_mono (Nat.le_max_right _ _) _ _ _ hloop

end parser

/-! ## Parsing texts of a given form -/

namespace parser

open lexer

/-- Parse accepts every text whose tokens are a phrase of `expression` without empty pod
literals and with integer literals in range, followed by a token other than `+` and `*`:
it returns the tree of the phrase and no error. -/
theorem Parse_complete (s : String) (ts : List Symbol) (e : Expression) (next : Symbol)
    (hd : Derives false Category.expression ts e) (hr : IntegersInRange ts)
    (hs : HasTokens s (ts ++ [next]))
    (hadd : next ≠ Symbol.token TokenType.ADD) (hmul : next ≠ Symbol.token TokenType.MUL) :
    ∃ e1, Parse s = some (e1, []) ∧ e1.erase = e := by
  rw [hasTokens_iff, sees_append, sees_cons] at hs
  obtain ⟨hs1, hnext, _⟩ := hs
  have hm : (Parser.advance^[ts.length] (NewParser (NewScanner s.data))).lookahead.TokenType ≠
      TokenType.MUL :=
    type_ne_of_symbol_ne (by decide) (by decide) (by rw [hnext]; exact hmul)
  have ha : (Parser.advance^[ts.length] (NewParser (NewScanner s.data))).lookahead.TokenType ≠
      TokenType.ADD :=
    type_ne_of_symbol_ne (by decide) (by decide) (by rw [hnext]; exact hadd)
  obtain ⟨e1, he, hk⟩ := parser_complete false _ ts e hd rfl hr _ hs1 (fun _ => hm)
  obtain ⟨fuel, hrun⟩ := hk 1 _ (parseExpressionLoop_exit 0 e1 _ ha)
  refine ⟨e1, ?_, he⟩
  rw [Parse_of_run s fuel e1 _ hrun, advance_iterate_errors]
  rfl

theorem ParseInt_of_inRange (d : String) (h : (Literal.integer d).InRange) :
    strconv.ParseInt d = ((strconv.digitsValue d.data : Int), true) := by
  obtain ⟨h1, h2, h3⟩ := h
  unfold strconv.ParseInt
  cases hd : d.data with
  | nil => exact absurd hd h1
  | cons c cs =>
    rw [hd] at h2 h3
    have hc : isDigit c = true := by
      simp only [List.all_cons, Bool.and_eq_true] at h2
      exact h2.1
    have hminus : c ≠ '-' := by
      intro he; subst he; revert hc; decide
    have hplus : c ≠ '+' := by
      intro he; subst he; revert hc; decide
    simp only [List.head?_cons, Option.some.injEq, hminus, hplus, decide_False, Bool.or_self,
      Bool.false_eq_true, if_false, h2, Bool.not_true, Bool.or_false, decide_eq_true_eq,
      reduceCtorEq]
    rw [if_neg (by omega)]

theorem literal_derives (l : Literal) (h : l.InRange) :
    DerivesValue l.symbol l.expression := by
  cases l with
  | integer d =>
    have := DerivesValue.integer d
    rw [ParseInt_of_inRange d h] at this
    exact this
  | string c => exact DerivesValue.string c

theorem fields_derive (fs : List (Axis × Literal)) :
    fs ≠ [] → (∀ x ∈ fs, x.2.InRange) → ∀ f,
    DerivesFields f (fieldSymbols fs) (assignFields fs f) := by
  induction fs with
  | nil => intro h; exact absurd rfl h
  | cons x fs ih =>
    intro _ hv f
    cases fs with
    | nil =>
      exact DerivesFields.last x.1 x.2.symbol x.2.expression f
        (literal_derives x.2 (hv x (List.mem_cons_self _ _)))
    | cons y fs =>
      exact DerivesFields.more x.1 x.2.symbol x.2.expression f _ _
        (literal_derives x.2 (hv x (List.mem_cons_self _ _)))
        (ih (by simp) (fun z hz => hv z (List.mem_cons_of_mem _ hz)) _)

/-- A pod literal with at least one field, all in range, is a factor of the grammar. -/
theorem pod_derives (fs : List (Axis × Literal)) (hne : fs ≠ [])
    (hv : ∀ x ∈ fs, x.2.InRange) :
    Derives false Category.factor (podSymbols fs) (podExpression fs) :=
  Derives.pod false (fieldSymbols fs) _ (fields_derive fs hne hv _)

theorem integersInRange_nil : IntegersInRange [] := by
  intro d hd
  simp at hd

theorem integersInRange_token (t : TokenType) (ts : List Symbol) :
    IntegersInRange (Symbol.token t :: ts) ↔ IntegersInRange ts := by
  unfold IntegersInRange
  simp

theorem integersInRange_string (c : String) (ts : List Symbol) :
    IntegersInRange (Symbol.string c :: ts) ↔ IntegersInRange ts := by
  unfold IntegersInRange
  simp

theorem integersInRange_integer (d : String) (ts : List Symbol) :
    IntegersInRange (Symbol.integer d :: ts) ↔
      (strconv.ParseInt d).2 = true ∧ IntegersInRange ts := by
  unfold IntegersInRange
  simp

theorem integersInRange_append_iff (a b : List Symbol) :
    IntegersInRange (a ++ b) ↔ IntegersInRange a ∧ IntegersInRange b := by
  unfold IntegersInRange
  simp only [List.mem_append]
  constructor
  · intro h
    exact ⟨fun d hd => h d (Or.inl hd), fun d hd => h d (Or.inr hd)⟩
  · intro h d hd
    rcases hd with hd | hd
    · exact h.1 d hd
    · exact h.2 d hd

theorem integersInRange_literal (l : Literal) (h : l.InRange) (ts : List Symbol) :
    IntegersInRange (l.symbol :: ts) ↔ IntegersInRange ts := by
  cases l with
  | integer d =>
    simp only [Literal.symbol, integersInRange_integer, ParseInt_of_inRange d h, true_and]
  | string c => exact integersInRange_string c ts

theorem integersInRange_fields (fs : List (Axis × Literal)) :
    (∀ x ∈ fs, x.2.InRange) → IntegersInRange (fieldSymbols fs) := by
  induction fs with
  | nil => intro _; exact integersInRange_nil
  | cons x fs ih =>
    intro hv
    cases fs with
    | nil =>
      simp only [fieldSymbols, integersInRange_token,
        integersInRange_literal x.2 (hv x (List.mem_cons_self _ _))]
      exact integersInRange_nil
    | cons y fs =>
      simp only [fieldSymbols, List.cons_append, List.nil_append, integersInRange_token,
        integersInRange_literal x.2 (hv x (List.mem_cons_self _ _))]
      exact ih (fun z hz => hv z (List.mem_cons_of_mem _ hz))

theorem integersInRange_pod (fs : List (Axis × Literal)) (hv : ∀ x ∈ fs, x.2.InRange) :
    IntegersInRange (podSymbols fs) := by
  unfold podSymbols
  simp only [List.cons_append, List.nil_append, integersInRange_token,
    integersInRange_append_iff]
  exact ⟨integersInRange_fields fs hv, integersInRange_nil⟩

end parser

/-! ## Pod literals (C9) -/

namespace parser

open lexer

theorem lookup_none_of_not_mem (fs : List (Axis × Literal)) (a : Axis)
    (h : a ∉ fs.map Prod.fst) : fs.lookup a = none := by
  induction fs with
  | nil => rfl
  | cons x fs ih =>
    simp only [List.map_cons, List.mem_cons, not_or] at h
    rcases x with ⟨k, v⟩
    have hk : (a == k) = false := by simp [h.1]
    simp only [List.lookup, hk]
    exact ih h.2

/-- With pairwise different axes, assigning the fields from left to right gives each axis
the literal of the field that names it. -/
theorem assignFields_get (fs : List (Axis × Literal)) :
    (fs.map Prod.fst).Nodup → ∀ (f : Expression × Expression × Expression) (a : Axis),
    a.get (assignFields fs f) =
      match fs.lookup a with
      | some l => l.expression
      | none => a.get f := by
  induction fs with
  | nil => intro _ f a; rfl
  | cons x fs ih =>
    intro hnd f a
    simp only [List.map_cons, List.nodup_cons] at hnd
    rcases x with ⟨k, v⟩
    simp only [assignFields]
    rw [ih hnd.2]
    by_cases hak : a = k
    · subst hak
      have hb : (a == a) = true := by simp
      simp only [List.lookup, hb, lookup_none_of_not_mem fs a hnd.1]
      cases a <;> rfl
    · have hb : (a == k) = false := by simp [hak]
      simp only [List.lookup, hb]
      have hg : a.get (k.assign v.expression f) = a.get f := by
        cases a <;> cases k <;> first | rfl | exact absurd rfl hak
      rw [hg]

theorem podExpression_of_nodup (fs : List (Axis × Literal)) (hnd : (fs.map Prod.fst).Nodup) :
    podExpression fs =
      Expression.PodExpression (fieldOf fs Axis.cpu) (fieldOf fs Axis.memory)
        (fieldOf fs Axis.gpu) ⟨0, 0⟩ := by
  have h := assignFields_get fs hnd (Expression.nil, Expression.nil, Expression.nil)
  have h1 := h Axis.cpu
  have h2 := h Axis.memory
  have h3 := h Axis.gpu
  simp only [Axis.get] at h1 h2 h3
  unfold podExpression fieldOf
  rw [h1, h2, h3]

/-- The text `pod()` and its layouts: the loop of ParsePod is not entered, and the parser
stops in front of the closing parenthesis. -/
theorem Parse_empty_pod (s : String)
    (hs : HasTokens s [Symbol.token TokenType.POD, Symbol.token TokenType.LPAREN,
      Symbol.token TokenType.RPAREN]) :
    ∃ e, Parse s = some (e, []) ∧
      e.erase = Expression.PodExpression Expression.nil Expression.nil Expression.nil ⟨0, 0⟩ := by
  rw [hasTokens_iff] at hs
  simp only [sees_cons] at hs
  obtain ⟨h1, h2, h3, _⟩ := hs
  have hP : Parser.ParsePod 1 (NewParser (NewScanner s.data)) =
      some (Expression.PodExpression Expression.nil Expression.nil Expression.nil
        (NewParser (NewScanner s.data)).lookahead.Position,
        (NewParser (NewScanner s.data)).advance.advance) := by
    unfold Parser.ParsePod
    simp only [match_of_symbol _ _ h1, match_of_symbol _ _ h2, Bool.not_true,
      Bool.false_eq_true, if_false]
    rw [Parser.parsePodLoop]
    simp [symbol_token h3]
  have hF : Parser.ParseFactor 2 (NewParser (NewScanner s.data)) = _ :=
    (ParseFactor_pod 1 _ (symbol_token h1)).trans hP
  have hT : Parser.ParseTerm 3 (NewParser (NewScanner s.data)) = _ :=
    (ParseTerm_factor 2 _ _ _ (by rw [symbol_token h1]; decide) hF).trans
      (parseTermLoop_exit 1 _ _ _ (by rw [symbol_token h3]; decide))
  have hE : Parser.ParseExpression 4 (NewParser (NewScanner s.data)) = _ :=
    (ParseExpression_term 3 _ _ _ hT).trans
      (parseExpressionLoop_exit 2 _ _ (by rw [symbol_token h3]; decide))
  exact ⟨_, Parse_of_run s 4 _ _ hE, rfl⟩

/-- C9, as stated, fails: the field value 9223372036854775808 is an integer token, and
Parse records the error of strconv.ParseInt for it (at the zero position) and stores the
largest 64-bit value. -/
theorem pod_literal_out_of_range :
    HasTokens "pod(cpu: 9223372036854775808)"
      (podSymbols [(Axis.cpu, Literal.integer "9223372036854775808")] ++
        [Symbol.token TokenType.EOF]) ∧
    Parse "pod(cpu: 9223372036854775808)" =
      some (Expression.PodExpression (Expression.IntLiteral 9223372036854775807 ⟨0, 9⟩)
          Expression.nil Expression.nil ⟨0, 0⟩,
        [{ Message := "9223372036854775808 is not number", Found := "", Expected := [],
           Pos := ⟨0, 0⟩ }]) := by
  constructor <;> decide

/-- C9, amended: for every text whose tokens are a pod literal `pod(f1, ..., fk)`
(`k >= 0`) followed by end-of-input, whose fields name pairwise different axes and have a
string value or an integer value within the signed 64-bit range, Parse returns no error
and a PodExpression in which each named axis holds an IntLiteral with the decimal value
of the integer token or a StringLiteral with the contents of the string, and every axis
not named is absent. -/
theorem pod_literal_parses (s : String) (fs : List (Axis × Literal))
    (hv : ∀ x ∈ fs, x.2.InRange) (hnd : (fs.map Prod.fst).Nodup)
    (hs : HasTokens s (podSymbols fs ++ [Symbol.token TokenType.EOF])) :
    ∃ e, Parse s = some (e, []) ∧
      e.erase = Expression.PodExpression (fieldOf fs Axis.cpu) (fieldOf fs Axis.memory)
        (fieldOf fs Axis.gpu) ⟨0, 0⟩ := by
  cases fs with
  | nil =>
    have hs1 : HasTokens s [Symbol.token TokenType.POD, Symbol.token TokenType.LPAREN,
        Symbol.token TokenType.RPAREN] := by
      rw [hasTokens_iff] at hs ⊢
      exact ((sees_append _ _ _).mp hs).1
    exact Parse_empty_pod s hs1
  | cons x fs =>
    rw [← podExpression_of_nodup _ hnd]
    exact Parse_complete s _ _ _
      (Derives.ofFactorTerm false _ _ (Derives.factorTerm false _ _
        (pod_derives _ (by simp) hv)))
      (integersInRange_pod _ hv) hs (by decide) (by decide)

/-- The amended C9 at the text `pod(cpu: 1, memory: "2Gi")`. -/
theorem pod_literal_parses_witness :
    ∃ e, Parse "pod(cpu: 1, memory: \"2Gi\")" = some (e, []) ∧
      e.erase = Expression.PodExpression
        (fieldOf [(Axis.cpu, Literal.integer "1"), (Axis.memory, Literal.string "2Gi")]
          Axis.cpu)
        (fieldOf [(Axis.cpu, Literal.integer "1"), (Axis.memory, Literal.string "2Gi")]
          Axis.memory)
        (fieldOf [(Axis.cpu, Literal.integer "1"), (Axis.memory, Literal.string "2Gi")]
          Axis.gpu) ⟨0, 0⟩ :=
  pod_literal_parses "pod(cpu: 1, memory: \"2Gi\")"
    [(Axis.cpu, Literal.integer "1"), (Axis.memory, Literal.string "2Gi")]
    (by
      intro x hx
      simp only [List.mem_cons, List.mem_singleton, List.not_mem_nil, or_false] at hx
      rcases hx with rfl | rfl
      · exact ⟨by decide, by decide, by decide⟩
      · trivial)
    (by decide) (by decide)

end parser

/-! ## Precedence and associativity (C7, C8) -/

namespace parser

open lexer

theorem pod_factorTerm (fs : List (Axis × Literal)) (hne : fs ≠ [])
    (hv : ∀ x ∈ fs, x.2.InRange) :
    Derives false Category.factorTerm (podSymbols fs) (podExpression fs) :=
  Derives.factorTerm false _ _ (pod_derives fs hne hv)

theorem times_integer (ts : List Symbol) (e : Expression) (n : String)
    (hn : (Literal.integer n).InRange) (h : Derives false Category.factorTerm ts e) :
    Derives false Category.factorTerm
      (ts ++ [Symbol.token TokenType.MUL, Symbol.integer n])
      (Expression.ArithmeticExpression e Operator.Multiply
        (Expression.IntLiteral (strconv.digitsValue n.data) ⟨0, 0⟩) ⟨0, 0⟩) := by
  have := Derives.timesInteger false ts e n h
  rw [ParseInt_of_inRange n hn] at this
  exact this

theorem integersInRange_integer_literal (n : String) (hn : (Literal.integer n).InRange)
    (ts : List Symbol) :
    IntegersInRange (Symbol.integer n :: ts) ↔ IntegersInRange ts :=
  integersInRange_literal (Literal.integer n) hn ts

/-- C7, as stated, fails for an integer literal outside the signed 64-bit range: Parse
records the error of strconv.ParseInt. -/
theorem precedence_out_of_range :
    HasTokens "pod(cpu: 1) + pod(cpu: 2) * 9223372036854775808"
      (podSymbols [(Axis.cpu, Literal.integer "1")] ++ [Symbol.token TokenType.ADD] ++
        (podSymbols [(Axis.cpu, Literal.integer "2")] ++
          [Symbol.token TokenType.MUL, Symbol.integer "9223372036854775808"]) ++
        [Symbol.token TokenType.EOF]) ∧
    Parse "pod(cpu: 1) + pod(cpu: 2) * 9223372036854775808" =
      some (Expression.ArithmeticExpression
          (Expression.PodExpression (Expression.IntLiteral 1 ⟨0, 9⟩) Expression.nil
            Expression.nil ⟨0, 0⟩)
          Operator.Add
          (Expression.ArithmeticExpression
            (Expression.PodExpression (Expression.IntLiteral 2 ⟨0, 23⟩) Expression.nil
              Expression.nil ⟨0, 14⟩)
            Operator.Multiply (Expression.IntLiteral 9223372036854775807 ⟨0, 28⟩) ⟨0, 26⟩)
          ⟨0, 12⟩,
        [{ Message := "9223372036854775808 is not number", Found := "", Expected := [],
           Pos := ⟨0, 0⟩ }]) := by
  constructor <;> decide

/-- C7, amended: for all pod literals `A` and `B` that each have at least one field and
every integer literal `n`, all integer literals being within the signed 64-bit range,
Parse returns no errors, and a text with the tokens of `A + B * n` parses to
Add(A, Multiply(B, n)), one with those of `A * n + B` to Add(Multiply(A, n), B), and one
with those of `(A + B) * n` to Multiply(Add(A, B), n), up to positions. -/
theorem precedence_and_parentheses (s1 s2 s3 : String) (A B : List (Axis × Literal))
    (n : String) (hA : A ≠ []) (hB : B ≠ [])
    (hAv : ∀ x ∈ A, x.2.InRange) (hBv : ∀ x ∈ B, x.2.InRange)
    (hn : (Literal.integer n).InRange)
    (h1 : HasTokens s1
      (podSymbols A ++ [Symbol.token TokenType.ADD] ++
        (podSymbols B ++ [Symbol.token TokenType.MUL, Symbol.integer n]) ++
        [Symbol.token TokenType.EOF]))
    (h2 : HasTokens s2
      (podSymbols A ++ [Symbol.token TokenType.MUL, Symbol.integer n] ++
        [Symbol.token TokenType.ADD] ++ podSymbols B ++ [Symbol.token TokenType.EOF]))
    (h3 : HasTokens s3
      ([Symbol.token TokenType.LPAREN] ++
        (podSymbols A ++ [Symbol.token TokenType.ADD] ++ podSymbols B) ++
        [Symbol.token TokenType.RPAREN] ++
        [Symbol.token TokenType.MUL, Symbol.integer n] ++ [Symbol.token TokenType.EOF])) :
    (∃ e, Parse s1 = some (e, []) ∧
      e.erase = Expression.ArithmeticExpression (podExpression A) Operator.Add
        (Expression.ArithmeticExpression (podExpression B) Operator.Multiply
          (Expression.IntLiteral (strconv.digitsValue n.data) ⟨0, 0⟩) ⟨0, 0⟩) ⟨0, 0⟩) ∧
    (∃ e, Parse s2 = some (e, []) ∧
      e.erase = Expression.ArithmeticExpression
        (Expression.ArithmeticExpression (podExpression A) Operator.Multiply
          (Expression.IntLiteral (strconv.digitsValue n.data) ⟨0, 0⟩) ⟨0, 0⟩)
        Operator.Add (podExpression B) ⟨0, 0⟩) ∧
    (∃ e, Parse s3 = some (e, []) ∧
      e.erase = Expression.ArithmeticExpression
        (Expression.ArithmeticExpression (podExpression A) Operator.Add (podExpression B)
          ⟨0, 0⟩)
        Operator.Multiply (Expression.IntLiteral (strconv.digitsValue n.data) ⟨0, 0⟩)
        ⟨0, 0⟩) := by
  have dA := pod_factorTerm A hA hAv
  have dB := pod_factorTerm B hB hBv
  have rA := integersInRange_pod A hAv
  have rB := integersInRange_pod B hBv
  refine ⟨?_, ?_, ?_⟩
  · exact Parse_complete s1 _ _ _
      (Derives.plusFactorTerm false _ _ _ _ (Derives.ofFactorTerm false _ _ dA)
        (times_integer _ _ n hn dB))
      (by
        simp only [integersInRange_append_iff, integersInRange_token,
          integersInRange_integer_literal n hn]
        exact ⟨⟨rA, integersInRange_nil⟩, rB, integersInRange_nil⟩)
      h1 (by decide) (by decide)
  · exact Parse_complete s2 _ _ _
      (Derives.plusFactorTerm false _ _ _ _
        (Derives.ofFactorTerm false _ _ (times_integer _ _ n hn dA)) dB)
      (by
        simp only [integersInRange_append_iff, integersInRange_token,
          integersInRange_integer_literal n hn]
        exact ⟨⟨⟨rA, integersInRange_nil⟩, integersInRange_nil⟩, rB⟩)
      h2 (by decide) (by decide)
  · exact Parse_complete s3 _ _ _
      (Derives.ofFactorTerm false _ _ (times_integer _ _ n hn
        (Derives.factorTerm false _ _ (Derives.paren false _ _
          (Derives.plusFactorTerm false _ _ _ _ (Derives.ofFactorTerm false _ _ dA) dB)))))
      (by
        simp only [integersInRange_append_iff, integersInRange_token,
          integersInRange_integer_literal n hn]
        exact ⟨⟨⟨integersInRange_nil, ⟨rA, integersInRange_nil⟩, rB⟩, integersInRange_nil⟩,
          integersInRange_nil⟩)
      h3 (by decide) (by decide)

theorem inRange_of_digits (d : String) (h1 : d.data ≠ [])
    (h2 : d.data.all lexer.isDigit = true) (h3 : strconv.digitsValue d.data < 2 ^ 63) :
    (Literal.integer d).InRange := ⟨h1, h2, h3⟩

/-- The amended C7 at the texts `pod(cpu: 1) + pod(cpu: 2) * 3`,
`pod(cpu: 1) * 3 + pod(cpu: 2)` and `(pod(cpu: 1) + pod(cpu: 2)) * 3`. -/
theorem precedence_and_parentheses_witness :
    (∃ e, Parse "pod(cpu: 1) + pod(cpu: 2) * 3" = some (e, []) ∧
      e.erase = Expression.ArithmeticExpression
        (podExpression [(Axis.cpu, Literal.integer "1")]) Operator.Add
        (Expression.ArithmeticExpression (podExpression [(Axis.cpu, Literal.integer "2")])
          Operator.Multiply
          (Expression.IntLiteral (strconv.digitsValue "3".data) ⟨0, 0⟩) ⟨0, 0⟩) ⟨0, 0⟩) ∧
    (∃ e, Parse "pod(cpu: 1) * 3 + pod(cpu: 2)" = some (e, []) ∧
      e.erase = Expression.ArithmeticExpression
        (Expression.ArithmeticExpression (podExpression [(Axis.cpu, Literal.integer "1")])
          Operator.Multiply
          (Expression.IntLiteral (strconv.digitsValue "3".data) ⟨0, 0⟩) ⟨0, 0⟩)
        Operator.Add (podExpression [(Axis.cpu, Literal.integer "2")]) ⟨0, 0⟩) ∧
    (∃ e, Parse "(pod(cpu: 1) + pod(cpu: 2)) * 3" = some (e, []) ∧
      e.erase = Expression.ArithmeticExpression
        (Expression.ArithmeticExpression (podExpression [(Axis.cpu, Literal.integer "1")])
          Operator.Add (podExpression [(Axis.cpu, Literal.integer "2")]) ⟨0, 0⟩)
        Operator.Multiply (Expression.IntLiteral (strconv.digitsValue "3".data) ⟨0, 0⟩)
        ⟨0, 0⟩) :=
  precedence_and_parentheses "pod(cpu: 1) + pod(cpu: 2) * 3" "pod(cpu: 1) * 3 + pod(cpu: 2)"
    "(pod(cpu: 1) + pod(cpu: 2)) * 3"
    [(Axis.cpu, Literal.integer "1")] [(Axis.cpu, Literal.integer "2")] "3"
    (by decide) (by decide)
    (by
      intro x hx
      simp only [List.mem_singleton] at hx
      subst hx
      exact inRange_of_digits "1" (by decide) (by decide) (by decide))
    (by
      intro x hx
      simp only [List.mem_singleton] at hx
      subst hx
      exact inRange_of_digits "2" (by decide) (by decide) (by decide))
    (inRange_of_digits "3" (by decide) (by decide) (by decide))
    (by decide) (by decide) (by decide)

/-- C8, as stated, fails for an integer literal outside the signed 64-bit range: Parse
records the error of strconv.ParseInt. -/
theorem associativity_out_of_range :
    HasTokens "pod(cpu: 1) * 2 * 9223372036854775808"
      (podSymbols [(Axis.cpu, Literal.integer "1")] ++
        [Symbol.token TokenType.MUL, Symbol.integer "2"] ++
        [Symbol.token TokenType.MUL, Symbol.integer "9223372036854775808"] ++
        [Symbol.token TokenType.EOF]) ∧
    Parse "pod(cpu: 1) * 2 * 9223372036854775808" =
      some (Expression.ArithmeticExpression
          (Expression.ArithmeticExpression
            (Expression.PodExpression (Expression.IntLiteral 1 ⟨0, 9⟩) Expression.nil
              Expression.nil ⟨0, 0⟩)
            Operator.Multiply (Expression.IntLiteral 2 ⟨0, 14⟩) ⟨0, 12⟩)
          Operator.Multiply (Expression.IntLiteral 9223372036854775807 ⟨0, 18⟩) ⟨0, 16⟩,
        [{ Message := "9223372036854775808 is not number", Found := "", Expected := [],
           Pos := ⟨0, 0⟩ }]) := by
  constructor <;> decide

/-- C8, amended: for all pod literals `A`, `B`, `C` that each have at least one field and
integer literals `m`, `n`, all integer literals being within the signed 64-bit range,
Parse returns no errors, and a text with the tokens of `A + B + C` parses to
Add(Add(A, B), C), one with those of `A + (B + C)` to Add(A, Add(B, C)), and one with
those of `A * m * n` to Multiply(Multiply(A, m), n), up to positions. -/
theorem left_associativity (s1 s2 s3 : String) (A B C : List (Axis × Literal))
    (m n : String) (hA : A ≠ []) (hB : B ≠ []) (hC : C ≠ [])
    (hAv : ∀ x ∈ A, x.2.InRange) (hBv : ∀ x ∈ B, x.2.InRange) (hCv : ∀ x ∈ C, x.2.InRange)
    (hm : (Literal.integer m).InRange) (hn : (Literal.integer n).InRange)
    (h1 : HasTokens s1
      (podSymbols A ++ [Symbol.token TokenType.ADD] ++ podSymbols B ++
        [Symbol.token TokenType.ADD] ++ podSymbols C ++ [Symbol.token TokenType.EOF]))
    (h2 : HasTokens s2
      (podSymbols A ++ [Symbol.token TokenType.ADD] ++
        ([Symbol.token TokenType.LPAREN] ++
          (podSymbols B ++ [Symbol.token TokenType.ADD] ++ podSymbols C) ++
          [Symbol.token TokenType.RPAREN]) ++ [Symbol.token TokenType.EOF]))
    (h3 : HasTokens s3
      (podSymbols A ++ [Symbol.token TokenType.MUL, Symbol.integer m] ++
        [Symbol.token TokenType.MUL, Symbol.integer n] ++ [Symbol.token TokenType.EOF])) :
    (∃ e, Parse s1 = some (e, []) ∧
      e.erase = Expression.ArithmeticExpression
        (Expression.ArithmeticExpression (podExpression A) Operator.Add (podExpression B)
          ⟨0, 0⟩)
        Operator.Add (podExpression C) ⟨0, 0⟩) ∧
    (∃ e, Parse s2 = some (e, []) ∧
      e.erase = Expression.ArithmeticExpression (podExpression A) Operator.Add
        (Expression.ArithmeticExpression (podExpression B) Operator.Add (podExpression C)
          ⟨0, 0⟩) ⟨0, 0⟩) ∧
    (∃ e, Parse s3 = some (e, []) ∧
      e.erase = Expression.ArithmeticExpression
        (Expression.ArithmeticExpression (podExpression A) Operator.Multiply
          (Expression.IntLiteral (strconv.digitsValue m.data) ⟨0, 0⟩) ⟨0, 0⟩)
        Operator.Multiply (Expression.IntLiteral (strconv.digitsValue n.data) ⟨0, 0⟩)
        ⟨0, 0⟩) := by
  have dA := pod_factorTerm A hA hAv
  have dB := pod_factorTerm B hB hBv
  have dC := pod_factorTerm C hC hCv
  have rA := integersInRange_pod A hAv
  have rB := integersInRange_pod B hBv
  have rC := integersInRange_pod C hCv
  refine ⟨?_, ?_, ?_⟩
  · exact Parse_complete s1 _ _ _
      (Derives.plusFactorTerm false _ _ _ _
        (Derives.plusFactorTerm false _ _ _ _ (Derives.ofFactorTerm false _ _ dA) dB) dC)
      (by
        simp only [integersInRange_append_iff, integersInRange_token]
        exact ⟨⟨⟨⟨rA, integersInRange_nil⟩, rB⟩, integersInRange_nil⟩, rC⟩)
      h1 (by decide) (by decide)
  · exact Parse_complete s2 _ _ _
      (Derives.plusFactorTerm false _ _ _ _ (Derives.ofFactorTerm false _ _ dA)
        (Derives.factorTerm false _ _ (Derives.paren false _ _
          (Derives.plusFactorTerm false _ _ _ _ (Derives.ofFactorTerm false _ _ dB) dC))))
      (by
        simp only [integersInRange_append_iff, integersInRange_token]
        exact ⟨⟨rA, integersInRange_nil⟩,
          ⟨integersInRange_nil, ⟨rB, integersInRange_nil⟩, rC⟩, integersInRange_nil⟩)
      h2 (by decide) (by decide)
  · exact Parse_complete s3 _ _ _
      (Derives.ofFactorTerm false _ _ (times_integer _ _ n hn (times_integer _ _ m hm dA)))
      (by
        simp only [integersInRange_append_iff, integersInRange_token,
          integersInRange_integer_literal n hn, integersInRange_integer_literal m hm]
        exact ⟨⟨rA, integersInRange_nil⟩, integersInRange_nil⟩)
      h3 (by decide) (by decide)

/-- The amended C8 at the texts `pod(cpu: 1) + pod(cpu: 2) + pod(gpu: 3)`,
`pod(cpu: 1) + (pod(cpu: 2) + pod(gpu: 3))` and `pod(cpu: 1) * 4 * 5`. -/
theorem left_associativity_witness :
    (∃ e, Parse "pod(cpu: 1) + pod(cpu: 2) + pod(gpu: 3)" = some (e, []) ∧
      e.erase = Expression.ArithmeticExpression
        (Expression.ArithmeticExpression (podExpression [(Axis.cpu, Literal.integer "1")])
          Operator.Add (podExpression [(Axis.cpu, Literal.integer "2")]) ⟨0, 0⟩)
        Operator.Add (podExpression [(Axis.gpu, Literal.integer "3")]) ⟨0, 0⟩) ∧
    (∃ e, Parse "pod(cpu: 1) + (pod(cpu: 2) + pod(gpu: 3))" = some (e, []) ∧
      e.erase = Expression.ArithmeticExpression
        (podExpression [(Axis.cpu, Literal.integer "1")]) Operator.Add
        (Expression.ArithmeticExpression (podExpression [(Axis.cpu, Literal.integer "2")])
          Operator.Add (podExpression [(Axis.gpu, Literal.integer "3")]) ⟨0, 0⟩) ⟨0, 0⟩) ∧
    (∃ e, Parse "pod(cpu: 1) * 4 * 5" = some (e, []) ∧
      e.erase = Expression.ArithmeticExpression
        (Expression.ArithmeticExpression (podExpression [(Axis.cpu, Literal.integer "1")])
          Operator.Multiply
          (Expression.IntLiteral (strconv.digitsValue "4".data) ⟨0, 0⟩) ⟨0, 0⟩)
        Operator.Multiply (Expression.IntLiteral (strconv.digitsValue "5".data) ⟨0, 0⟩)
        ⟨0, 0⟩) :=
  left_associativity "pod(cpu: 1) + pod(cpu: 2) + pod(gpu: 3)"
    "pod(cpu: 1) + (pod(cpu: 2) + pod(gpu: 3))" "pod(cpu: 1) * 4 * 5"
    [(Axis.cpu, Literal.integer "1")] [(Axis.cpu, Literal.integer "2")]
    [(Axis.gpu, Literal.integer "3")] "4" "5"
    (by decide) (by decide) (by decide)
    (by
      intro x hx
      simp only [List.mem_singleton] at hx
      subst hx
      exact inRange_of_digits "1" (by decide) (by decide) (by decide))
    (by
      intro x hx
      simp only [List.mem_singleton] at hx
      subst hx
      exact inRange_of_digits "2" (by decide) (by decide) (by decide))
    (by
      intro x hx
      simp only [List.mem_singleton] at hx
      subst hx
      exact inRange_of_digits "3" (by decide) (by decide) (by decide))
    (inRange_of_digits "4" (by decide) (by decide) (by decide))
    (inRange_of_digits "5" (by decide) (by decide) (by decide))
    (by decide) (by decide) (by decide)

end parser

/-! ## Parser completeness fails at an empty pod (C3) -/

namespace parser

open lexer

/-- C3 at the failing input `2 * (pod() * 3)`: the text is derivable from `expression`
(as `integer "*" factor` with the factor `( pod() * 3 )`), its integer literals are within
the signed 64-bit range, and Parse returns an error.  ParsePod leaves the `)` of the
empty pod unread, so ParseFactor takes it for the `)` of the parenthesis, and the loop of
ParseTerm for the integer-led term then reads `* 3` and asks for a factor. -/
theorem parser_rejects_derivable_text :
    (∃ e, Derives true Category.expression
      [Symbol.integer "2", Symbol.token TokenType.MUL, Symbol.token TokenType.LPAREN,
        Symbol.token TokenType.POD, Symbol.token TokenType.LPAREN,
        Symbol.token TokenType.RPAREN, Symbol.token TokenType.MUL, Symbol.integer "3",
        Symbol.token TokenType.RPAREN] e) ∧
    IntegersInRange
      [Symbol.integer "2", Symbol.token TokenType.MUL, Symbol.token TokenType.LPAREN,
        Symbol.token TokenType.POD, Symbol.token TokenType.LPAREN,
        Symbol.token TokenType.RPAREN, Symbol.token TokenType.MUL, Symbol.integer "3",
        Symbol.token TokenType.RPAREN] ∧
    HasTokens "2 * (pod() * 3)"
      [Symbol.integer "2", Symbol.token TokenType.MUL, Symbol.token TokenType.LPAREN,
        Symbol.token TokenType.POD, Symbol.token TokenType.LPAREN,
        Symbol.token TokenType.RPAREN, Symbol.token TokenType.MUL, Symbol.integer "3",
        Symbol.token TokenType.RPAREN, Symbol.token TokenType.EOF] ∧
    Parse "2 * (pod() * 3)" =
      some (Expression.ArithmeticExpression
          (Expression.ArithmeticExpression (Expression.IntLiteral 2 ⟨0, 0⟩) Operator.Multiply
            (Expression.PodExpression Expression.nil Expression.nil Expression.nil ⟨0, 5⟩)
            ⟨0, 2⟩)
          Operator.Multiply Expression.nil ⟨0, 11⟩,
        [{ Message := "", Found := "3", Expected := ["(", "pod"], Pos := ⟨0, 13⟩ }]) := by
  refine ⟨⟨_, Derives.ofIntegerTerm true _ _
      (Derives.integerTimes true "2" _ _
        (Derives.paren true _ _
          (Derives.ofFactorTerm true _ _
            (Derives.timesInteger true _ _ "3"
              (Derives.factorTerm true _ _ Derives.emptyPod)))))⟩, ?_, by decide, by decide⟩
  · intro d hd
    simp only [List.mem_cons, Symbol.integer.injEq, reduceCtorEq, false_or, List.mem_singleton,
      List.not_mem_nil, or_false] at hd
    rcases hd with rfl | rfl <;> decide

end parser

/-! ## The materializer -/

namespace podgen

open parser corev1

theorem ParseQuantity_fst (pq : String → Except String resource.Quantity) (c : PodGenerator)
    (e : Expression) : (c.ParseQuantity pq e).1 = specQuantity pq e := by
  cases e with
  | IntLiteral v p => simp [PodGenerator.ParseQuantity, specQuantity, resource.NewScaledQuantity]
  | StringLiteral v p =>
    simp only [PodGenerator.ParseQuantity, specQuantity]
    cases pq v <;> rfl
  | nil => rfl
  | ArithmeticExpression _ _ _ _ => rfl
  | PodExpression _ _ _ _ => rfl

theorem ParseQuantity_pods (pq : String → Except String resource.Quantity) (c : PodGenerator)
    (e : Expression) :
    (c.ParseQuantity pq e).2.pods = c.pods ∧
    (c.ParseQuantity pq e).2.currentPodIndex = c.currentPodIndex := by
  cases e with
  | IntLiteral v p => exact ⟨rfl, rfl⟩
  | StringLiteral v p =>
    simp only [PodGenerator.ParseQuantity]
    cases pq v <;> exact ⟨rfl, rfl⟩
  | nil => exact ⟨rfl, rfl⟩
  | ArithmeticExpression _ _ _ _ => exact ⟨rfl, rfl⟩
  | PodExpression _ _ _ _ => exact ⟨rfl, rfl⟩

/-- PodgenPodExpression appends one pod with one container, whose requests are the
quantities of the three fields. -/
theorem PodgenPodExpression_pods (pq : String → Except String resource.Quantity)
    (c : PodGenerator) (CPU Memory GPU : Expression) :
    (c.PodgenPodExpression pq CPU Memory GPU).pods =
      c.pods ++ [{ APIVersion := "v1", Kind := "Pod",
                   Name := "pod-" ++ toString c.currentPodIndex,
                   Containers := [{ Name := "container", Image := "container",
                                    Requests := (setRequest (setRequest (setRequest []
                                      "cpu" (specQuantity pq CPU))
                                      "memory" (specQuantity pq Memory))
                                      "nvidia.com/gpu" (specQuantity pq GPU)) }] }] ∧
    (c.PodgenPodExpression pq CPU Memory GPU).currentPodIndex = c.currentPodIndex + 1 := by
  unfold PodGenerator.PodgenPodExpression
  simp only [ParseQuantity_fst, (ParseQuantity_pods pq _ _).1, (ParseQuantity_pods pq _ _).2,
    and_self]

theorem PodgenExpression_multiply (pq : String → Except String resource.Quantity)
    (LHS RHS : Expression) (position : lexer.Position) (c : PodGenerator) :
    PodGenerator.PodgenExpression pq
      (Expression.ArithmeticExpression LHS Operator.Multiply RHS position) c =
      match asIntLiteral LHS with
      | some value => Nat.iterate (PodGenerator.PodgenExpression pq RHS) value.toNat c
      | none =>
        match asIntLiteral RHS with
        | some value => Nat.iterate (PodGenerator.PodgenExpression pq LHS) value.toNat c
        | none =>
          { c with errors := c.errors ++
              [{ Message := "one of [lhs, rhs] must be an integer in a multiply expression",
                 Pos := position }] } := by
  cases LHS <;> cases RHS <;> rfl

theorem requestMaps_append (a b : List Pod) :
    requestMaps (a ++ b) = requestMaps a ++ requestMaps b := by
  simp [requestMaps]

theorem iterate_requestMaps (f : PodGenerator → PodGenerator) (r : List (List ResourceList))
    (hf : ∀ c, requestMaps (f c).pods = requestMaps c.pods ++ r) (n : Nat) :
    ∀ c, requestMaps (Nat.iterate f n c).pods =
      requestMaps c.pods ++ (List.replicate n r).flatten := by
  induction n with
  | zero => intro c; simp
  | succ n ih =>
    intro c
    rw [Function.iterate_succ_apply, ih, hf, List.replicate_succ, List.flatten_cons,
      List.append_assoc]

/-- The request maps that an expression adds to the pods of the generator are those of
Podgen for the expression alone. -/
theorem PodgenExpression_requestMaps (pq : String → Except String resource.Quantity)
    (e : Expression) :
    ∀ c, requestMaps (PodGenerator.PodgenExpression pq e c).pods =
      requestMaps c.pods ++ requestMaps (Podgen pq e).1 := by
  induction e with
  | nil => intro c; simp [PodGenerator.PodgenExpression, Podgen, requestMaps]
  | IntLiteral v p => intro c; simp [PodGenerator.PodgenExpression, Podgen, requestMaps]
  | StringLiteral v p => intro c; simp [PodGenerator.PodgenExpression, Podgen, requestMaps]
  | PodExpression CPU Memory GPU p _ _ _ =>
    intro c
    simp only [PodGenerator.PodgenExpression, Podgen, (PodgenPodExpression_pods pq _ _ _ _).1,
      requestMaps_append]
    simp [requestMaps]
  | ArithmeticExpression LHS op RHS p ihl ihr =>
    intro c
    cases op with
    | Add =>
      simp only [PodGenerator.PodgenExpression, Podgen]
      rw [ihr, ihl, ihr (PodGenerator.PodgenExpression pq LHS _), ihl, List.append_assoc]
      simp [requestMaps]
    | Multiply =>
      simp only [Podgen, PodgenExpression_multiply]
      cases asIntLiteral LHS with
      | some v =>
        simp only []
        rw [iterate_requestMaps _ _ ihr, iterate_requestMaps _ _ ihr]
        simp [requestMaps]
      | none =>
        cases asIntLiteral RHS with
        | some v =>
          simp only []
          rw [iterate_requestMaps _ _ ihl, iterate_requestMaps _ _ ihl]
          simp [requestMaps]
        | none => simp [requestMaps]

theorem requestMaps_length (pods : List Pod) : (requestMaps pods).length = pods.length := by
  simp [requestMaps]

theorem flatten_replicate_nil {α : Type} (n : Nat) :
    (List.replicate n ([] : List α)).flatten = [] := by
  induction n with
  | zero => rfl
  | succ n ih => rw [List.replicate_succ, List.flatten_cons, ih]; rfl

theorem length_flatten_replicate {α : Type} (n : Nat) (l : List α) :
    ((List.replicate n l).flatten).length = n * l.length := by
  induction n with
  | zero => simp
  | succ n ih =>
    rw [List.replicate_succ, List.flatten_cons, List.length_append, ih, Nat.succ_mul]
    omega

/-- The request maps of a product with an integer literal on the right. -/
theorem multiply_right_requestMaps (pq : String → Except String resource.Quantity)
    (E : Expression) (n : Nat) (pos pos1 : lexer.Position) :
    requestMaps (Podgen pq (Expression.ArithmeticExpression E Operator.Multiply
        (Expression.IntLiteral (n : Int) pos1) pos)).1 =
      (List.replicate n (requestMaps (Podgen pq E).1)).flatten := by
  simp only [Podgen, PodgenExpression_multiply]
  cases hE : asIntLiteral E with
  | some v =>
    simp only []
    rw [iterate_requestMaps _ [] (fun c => by simp [PodGenerator.PodgenExpression])]
    have hk : requestMaps (PodGenerator.PodgenExpression pq E
        { errors := [], pods := [], currentPodIndex := 0 }).pods = [] := by
      cases E <;> simp [asIntLiteral] at hE
      simp [PodGenerator.PodgenExpression, requestMaps]
    rw [hk, flatten_replicate_nil, flatten_replicate_nil]
    rfl
  | none =>
    simp only [asIntLiteral, Int.toNat_ofNat]
    rw [iterate_requestMaps _ _ (PodgenExpression_requestMaps pq E)]
    simp [requestMaps, Podgen]

/-- The request maps of a product with an integer literal on the left. -/
theorem multiply_left_requestMaps (pq : String → Except String resource.Quantity)
    (E : Expression) (n : Nat) (pos pos1 : lexer.Position) :
    requestMaps (Podgen pq (Expression.ArithmeticExpression
        (Expression.IntLiteral (n : Int) pos1) Operator.Multiply E pos)).1 =
      (List.replicate n (requestMaps (Podgen pq E).1)).flatten := by
  simp only [Podgen, PodgenExpression_multiply, asIntLiteral, Int.toNat_ofNat]
  rw [iterate_requestMaps _ _ (PodgenExpression_requestMaps pq E)]
  simp [requestMaps, Podgen]

end podgen

/-! ## Multiplication on trees (C5) and the unit of a PodSpec (C10) -/

namespace podgen

open parser corev1

/-- C5: for every expression tree `E` and every integer `n >= 0`, Podgen applied to
Multiply(E, IntLiteral n) and to Multiply(IntLiteral n, E) emits exactly `n * k` units,
`k` being the number of units that Podgen emits for `E` alone, and their request maps
are `n` consecutive copies of the list of request maps of `E`; for `n = 0` no unit is
emitted. -/
theorem multiply_on_trees (parseQuantity : String → Except String resource.Quantity)
    (E : Expression) (n : Nat) (pos pos1 : lexer.Position) :
    requestMaps (Podgen parseQuantity (Expression.ArithmeticExpression E Operator.Multiply
        (Expression.IntLiteral (n : Int) pos1) pos)).1 =
      (List.replicate n (requestMaps (Podgen parseQuantity E).1)).flatten ∧
    requestMaps (Podgen parseQuantity (Expression.ArithmeticExpression
        (Expression.IntLiteral (n : Int) pos1) Operator.Multiply E pos)).1 =
      (List.replicate n (requestMaps (Podgen parseQuantity E).1)).flatten ∧
    (Podgen parseQuantity (Expression.ArithmeticExpression E Operator.Multiply
        (Expression.IntLiteral (n : Int) pos1) pos)).1.length =
      n * (Podgen parseQuantity E).1.length ∧
    (Podgen parseQuantity (Expression.ArithmeticExpression
        (Expression.IntLiteral (n : Int) pos1) Operator.Multiply E pos)).1.length =
      n * (Podgen parseQuantity E).1.length ∧
    (n = 0 →
      (Podgen parseQuantity (Expression.ArithmeticExpression E Operator.Multiply
        (Expression.IntLiteral (n : Int) pos1) pos)).1 = [] ∧
      (Podgen parseQuantity (Expression.ArithmeticExpression
        (Expression.IntLiteral (n : Int) pos1) Operator.Multiply E pos)).1 = []) := by
  have h1 := multiply_right_requestMaps parseQuantity E n pos pos1
  have h2 := multiply_left_requestMaps parseQuantity E n pos pos1
  have l1 : (Podgen parseQuantity (Expression.ArithmeticExpression E Operator.Multiply
      (Expression.IntLiteral (n : Int) pos1) pos)).1.length =
      n * (Podgen parseQuantity E).1.length := by
    rw [← requestMaps_length, h1, length_flatten_replicate, requestMaps_length]
  have l2 : (Podgen parseQuantity (Expression.ArithmeticExpression
      (Expression.IntLiteral (n : Int) pos1) Operator.Multiply E pos)).1.length =
      n * (Podgen parseQuantity E).1.length := by
    rw [← requestMaps_length, h2, length_flatten_replicate, requestMaps_length]
  refine ⟨h1, h2, l1, l2, fun h0 => ⟨?_, ?_⟩⟩
  · subst h0
    rw [Nat.zero_mul] at l1
    exact List.length_eq_zero.mp l1
  · subst h0
    rw [Nat.zero_mul] at l2
    exact List.length_eq_zero.mp l2

theorem specQuantity_axisRequest (pq : String → Except String resource.Quantity)
    (field : Expression) : AxisRequest pq field (specQuantity pq field) := by
  cases field with
  | nil => simp [AxisRequest, specQuantity]
  | IntLiteral v p => simp [AxisRequest, specQuantity]
  | StringLiteral s p =>
    have hq : ∀ q, pq s = Except.ok q → specQuantity pq (Expression.StringLiteral s p) = some q := by
      intro q h
      simp only [specQuantity, h]
    have hn : (specQuantity pq (Expression.StringLiteral s p)).isSome = true →
        ∃ q, pq s = Except.ok q := by
      intro h
      cases h1 : pq s with
      | error err => simp [specQuantity, h1] at h
      | ok q0 => exact ⟨q0, rfl⟩
    refine ⟨⟨fun hs => ?_, fun hs => ?_⟩, ?_, ?_⟩
    · obtain ⟨q, h⟩ := hn hs
      exact Or.inr ⟨s, p, q, rfl, h⟩
    · rcases hs with ⟨v, p1, hv⟩ | ⟨s1, p1, q, hs, h⟩
      · cases hv
      · cases hs
        rw [hq q h]
        rfl
    · intro v p1 hv
      cases hv
    · intro s1 p1 q hs h
      cases hs
      exact hq q h
  | ArithmeticExpression _ _ _ _ => simp [AxisRequest, specQuantity]
  | PodExpression _ _ _ _ => simp [AxisRequest, specQuantity]

theorem lookup_cons_ne (name k : String) (v : resource.Quantity) (l : ResourceList)
    (h : name ≠ k) : List.lookup name ((k, v) :: l) = List.lookup name l := by
  have hb : (name == k) = false := by simp [h]
  simp [List.lookup, hb]

/-- The request map that PodgenPodExpression builds from the three quantities. -/
theorem requests_lookup (a b c : Option resource.Quantity) :
    (setRequest (setRequest (setRequest [] "cpu" a) "memory" b) "nvidia.com/gpu" c).lookup
        "cpu" = a ∧
    (setRequest (setRequest (setRequest [] "cpu" a) "memory" b) "nvidia.com/gpu" c).lookup
        "memory" = b ∧
    (setRequest (setRequest (setRequest [] "cpu" a) "memory" b) "nvidia.com/gpu" c).lookup
        "nvidia.com/gpu" = c ∧
    (∀ name : String, name ≠ "cpu" → name ≠ "memory" → name ≠ "nvidia.com/gpu" →
      (setRequest (setRequest (setRequest [] "cpu" a) "memory" b) "nvidia.com/gpu" c).lookup
        name = none) ∧
    ((setRequest (setRequest (setRequest [] "cpu" a) "memory" b) "nvidia.com/gpu" c).map
      Prod.fst).Nodup ∧
    (a = none → b = none → c = none →
      setRequest (setRequest (setRequest [] "cpu" a) "memory" b) "nvidia.com/gpu" c = []) := by
  cases a <;> cases b <;> cases c <;>
    simp [setRequest, ResourceList.set, List.lookup, List.filter] <;>
    intro name h1 h2 h3 <;>
    simp [beq_eq_false_iff_ne.mpr h1, beq_eq_false_iff_ne.mpr h2, beq_eq_false_iff_ne.mpr h3]

/-- C10: for every PodExpression `p`, Podgen emits exactly one unit, with exactly one
container; the request map of that container has the axis cpu, memory or nvidia.com/gpu
exactly when the corresponding field of `p` is an IntLiteral or a StringLiteral that
parses as a quantity, an IntLiteral `v` gives the quantity exactly `v` (a StringLiteral
the quantity it parses to), the map has no other axis and no axis twice, and a pod with
no fields gives the empty request map. -/
theorem pod_materialization (parseQuantity : String → Except String resource.Quantity)
    (CPU Memory GPU : Expression) (position : lexer.Position) :
    ∃ unit container,
      (Podgen parseQuantity (Expression.PodExpression CPU Memory GPU position)).1 = [unit] ∧
      unit.Containers = [container] ∧
      AxisRequest parseQuantity CPU (container.Requests.lookup "cpu") ∧
      AxisRequest parseQuantity Memory (container.Requests.lookup "memory") ∧
      AxisRequest parseQuantity GPU (container.Requests.lookup "nvidia.com/gpu") ∧
      (∀ name : String, name ≠ "cpu" → name ≠ "memory" → name ≠ "nvidia.com/gpu" →
        container.Requests.lookup name = none) ∧
      (container.Requests.map Prod.fst).Nodup ∧
      (CPU = Expression.nil → Memory = Expression.nil → GPU = Expression.nil →
        container.Requests = []) := by
  have h := (PodgenPodExpression_pods parseQuantity emptyGenerator CPU Memory GPU).1
  have hl := requests_lookup (specQuantity parseQuantity CPU) (specQuantity parseQuantity Memory)
    (specQuantity parseQuantity GPU)
  refine ⟨{ APIVersion := "v1", Kind := "Pod", Name := "pod-0", Containers := [_] },
    { Name := "container", Image := "container",
      Requests := (setRequest (setRequest (setRequest [] "cpu"
        (specQuantity parseQuantity CPU)) "memory" (specQuantity parseQuantity Memory))
        "nvidia.com/gpu" (specQuantity parseQuantity GPU)) },
    ?_, rfl, ?_, ?_, ?_, hl.2.2.2.1, hl.2.2.2.2.1, ?_⟩
  · show (PodGenerator.PodgenExpression parseQuantity
      (Expression.PodExpression CPU Memory GPU position) emptyGenerator).pods = _
    rw [PodGenerator.PodgenExpression, h]
    rfl
  · rw [hl.1]
    exact specQuantity_axisRequest parseQuantity CPU
  · rw [hl.2.1]
    exact specQuantity_axisRequest parseQuantity Memory
  · rw [hl.2.2.1]
    exact specQuantity_axisRequest parseQuantity GPU
  · intro h1 h2 h3
    subst h1 h2 h3
    rfl

end podgen

/-! ## The pre-filter (C6) -/

namespace kubesurvival

open nodesource corev1

theorem cmp_pos_iff (q y : resource.Quantity) : resource.Quantity.Cmp q y > 0 ↔ ¬ q ≤ y := by
  unfold resource.Quantity.Cmp
  by_cases h1 : q < y
  · simp [h1, le_of_lt h1]
  · by_cases h2 : q = y
    · simp [h2]
    · have h3 : ¬ q ≤ y := fun h => h1 (lt_of_le_of_ne h h2)
      simp [h1, h2, h3]

theorem allocatable_get (m : AWSNode) :
    m.Allocatable.get "cpu" = (m.VCPU : ℚ) ∧
    m.Allocatable.get "memory" = (truncate m.Memory : ℚ) * 2 ^ 30 ∧
    m.Allocatable.get "nvidia.com/gpu" = (m.GPU : ℚ) := by
  refine ⟨rfl, ?_, ?_⟩
  · show ((List.lookup "memory" m.Allocatable).getD 0) = _
    have h : List.lookup "memory" m.Allocatable = some ((truncate m.Memory : ℚ) * 2 ^ 30) := by
      simp [AWSNode.Allocatable, List.lookup]
    rw [h]
    rfl
  · show ((List.lookup "nvidia.com/gpu" m.Allocatable).getD 0) = _
    have h : List.lookup "nvidia.com/gpu" m.Allocatable = some (m.GPU : ℚ) := by
      simp [AWSNode.Allocatable, List.lookup]
    rw [h]
    rfl

theorem get_eq_demand (container : Container) (rest : List Container) (u : Pod)
    (h : u.Containers = container :: rest) (axis : String) :
    container.Requests.get axis = demand u axis := by
  unfold demand ResourceList.get
  rw [h]
  cases hl : List.lookup axis container.Requests <;> simp [hl]

theorem podFits_eq (m : AWSNode) (u : Pod) (h : u.Containers ≠ []) :
    podFits m u = some (decide (Fits m u)) := by
  cases hc : u.Containers with
  | nil => exact absurd hc h
  | cons container rest =>
    unfold podFits
    rw [hc]
    simp only [cmp_pos_iff, (allocatable_get m).1, (allocatable_get m).2.1,
      (allocatable_get m).2.2, get_eq_demand container rest u hc]
    unfold Fits
    by_cases h1 : demand u "cpu" ≤ (m.VCPU : ℚ)
    · by_cases h2 : demand u "memory" ≤ (truncate m.Memory : ℚ) * 2 ^ 30
      · by_cases h3 : demand u "nvidia.com/gpu" ≤ (m.GPU : ℚ)
        · simp [h1, h2, h3]
        · simp [h1, h2, h3]
      · simp [h1, h2]
    · simp [h1]

theorem nodeHasEnoughResources_eq (m : AWSNode) (pods : List Pod)
    (h : ∀ pod ∈ pods, pod.Containers ≠ []) :
    nodeHasEnoughResources m pods = some (decide (∀ u ∈ pods, Fits m u)) := by
  induction pods with
  | nil => simp [nodeHasEnoughResources]
  | cons pod pods ih =>
    have h1 := podFits_eq m pod (h pod (List.mem_cons_self _ _))
    have h2 := ih (fun u hu => h u (List.mem_cons_of_mem _ hu))
    unfold nodeHasEnoughResources
    rw [h1]
    by_cases hf : Fits m pod
    · simp [hf, h2]
    · simp [hf]

/-- C6: for every list of machines and every list of units (each unit carrying its
request map in a first container), filterNodeTypes returns, in the order of the catalog,
exactly the machines `m` such that every unit `u` has `u.cpu <= m.cpu`,
`u.memory <= m.memory` (the memory of the machine taken as whole GiB) and
`u.gpu <= m.gpu`; the comparisons are non-strict and an axis missing from a unit counts
as zero. -/
theorem filterNodeTypes_retains_fitting (nodeTypes : List AWSNode) (pods : List Pod)
    (h : ∀ pod ∈ pods, pod.Containers ≠ []) :
    filterNodeTypes nodeTypes pods =
      some (nodeTypes.filter (fun m => decide (∀ u ∈ pods, Fits m u))) := by
  induction nodeTypes with
  | nil => rfl
  | cons m ms ih =>
    unfold filterNodeTypes
    rw [nodeHasEnoughResources_eq m pods h, ih]
    by_cases hf : ∀ u ∈ pods, Fits m u
    · have hd : decide (∀ u ∈ pods, Fits m u) = true := decide_eq_true hf
      simp only [List.filter, hd, if_true]
    · have hd : decide (∀ u ∈ pods, Fits m u) = false := decide_eq_false hf
      simp only [List.filter, hd]
      rfl

theorem filterNodeTypes_retains_fitting_witness :
    (∀ pod ∈ [unitOf [("cpu", (2 : ℚ)), ("memory", (8589934592 : ℚ))], unitOf []],
      pod.Containers ≠ []) ∧
    filterNodeTypes [dollarNode, { dollarNode with VCPU := 1 }]
        [unitOf [("cpu", (2 : ℚ)), ("memory", (8589934592 : ℚ))], unitOf []] =
      some ([dollarNode, { dollarNode with VCPU := 1 }].filter (fun (m : AWSNode) =>
        decide (∀ u ∈ [unitOf [("cpu", (2 : ℚ)), ("memory", (8589934592 : ℚ))], unitOf []],
          Fits m u))) :=
  ⟨by simp [unitOf], filterNodeTypes_retains_fitting _ _ (by simp [unitOf])⟩

/-- A unit equal to the capacity of a machine keeps it; a machine with less is dropped. -/
theorem filterNodeTypes_example :
    filterNodeTypes [dollarNode, { dollarNode with VCPU := 1 }]
        [unitOf [("cpu", (2 : ℚ)), ("memory", (8589934592 : ℚ))], unitOf []] = some [dollarNode] := by
  simp [filterNodeTypes, nodeHasEnoughResources, podFits, unitOf, dollarNode,
    ResourceList.get, AWSNode.Allocatable, List.lookup, cmp_pos_iff, truncate]
  norm_num

end kubesurvival

/-! ## The materializer does not look at positions -/

namespace podgen

open parser corev1

theorem similar_refl (c : PodGenerator) : c.Similar c := ⟨rfl, rfl, rfl⟩

theorem ParseQuantity_erase (pq : String → Except String resource.Quantity)
    (c d : PodGenerator) (h : c.Similar d) (e : Expression) :
    (c.ParseQuantity pq e).1 = (d.ParseQuantity pq e.erase).1 ∧
    (c.ParseQuantity pq e).2.Similar (d.ParseQuantity pq e.erase).2 := by
  obtain ⟨h1, h2, h3⟩ := h
  cases e with
  | IntLiteral v p => exact ⟨rfl, h1, h2, h3⟩
  | StringLiteral v p =>
    simp only [PodGenerator.ParseQuantity, Expression.erase]
    cases pq v with
    | error err =>
      refine ⟨rfl, h1, h2, ?_⟩
      simp only [List.map_append, h3, List.map_cons, List.map_nil]
    | ok q => exact ⟨rfl, h1, h2, h3⟩
  | nil => exact ⟨rfl, h1, h2, h3⟩
  | ArithmeticExpression _ _ _ _ => exact ⟨rfl, h1, h2, h3⟩
  | PodExpression _ _ _ _ => exact ⟨rfl, h1, h2, h3⟩

theorem PodgenPodExpression_erase (pq : String → Except String resource.Quantity)
    (c d : PodGenerator) (h : c.Similar d) (CPU Memory GPU : Expression) :
    (c.PodgenPodExpression pq CPU Memory GPU).Similar
      (d.PodgenPodExpression pq CPU.erase Memory.erase GPU.erase) := by
  have a1 := ParseQuantity_erase pq c d h CPU
  have a2 := ParseQuantity_erase pq _ _ a1.2 Memory
  have a3 := ParseQuantity_erase pq _ _ a2.2 GPU
  obtain ⟨b1, b2, b3⟩ := a3.2
  unfold PodGenerator.PodgenPodExpression
  refine ⟨?_, ?_, ?_⟩
  · simp only [a1.1, a2.1, a3.1, b1, b2]
  · simp only [b2]
  · exact b3

theorem iterate_similar (f g : PodGenerator → PodGenerator)
    (h : ∀ c d, c.Similar d → (f c).Similar (g d)) (n : Nat) :
    ∀ c d, c.Similar d → (Nat.iterate f n c).Similar (Nat.iterate g n d) := by
  induction n with
  | zero => intro c d hcd; exact hcd
  | succ n ih =>
    intro c d hcd
    rw [Function.iterate_succ_apply, Function.iterate_succ_apply]
    exact ih _ _ (h c d hcd)

theorem asIntLiteral_erase (e : Expression) : asIntLiteral e.erase = asIntLiteral e := by
  cases e <;> rfl

/-- The pods, the counter and the messages of the errors do not depend on the positions
in the tree. -/
theorem PodgenExpression_erase (pq : String → Except String resource.Quantity)
    (e : Expression) :
    ∀ c d, c.Similar d →
      (PodGenerator.PodgenExpression pq e c).Similar
        (PodGenerator.PodgenExpression pq e.erase d) := by
  induction e with
  | nil => intro c d h; exact h
  | IntLiteral v p => intro c d h; exact h
  | StringLiteral v p => intro c d h; exact h
  | PodExpression CPU Memory GPU p _ _ _ =>
    intro c d h
    simp only [Expression.erase, PodGenerator.PodgenExpression]
    exact PodgenPodExpression_erase pq c d h CPU Memory GPU
  | ArithmeticExpression LHS op RHS p ihl ihr =>
    intro c d h
    cases op with
    | Add =>
      simp only [Expression.erase, PodGenerator.PodgenExpression]
      exact ihr _ _ (ihl _ _ h)
    | Multiply =>
      simp only [Expression.erase, PodgenExpression_multiply, asIntLiteral_erase]
      cases asIntLiteral LHS with
      | some v => exact iterate_similar _ _ ihr _ c d h
      | none =>
        cases asIntLiteral RHS with
        | some v => exact iterate_similar _ _ ihl _ c d h
        | none =>
          obtain ⟨h1, h2, h3⟩ := h
          refine ⟨h1, h2, ?_⟩
          simp only [List.map_append, h3, List.map_cons, List.map_nil]

/-- Two trees that are equal up to positions materialize to the same pods, and one has
no errors exactly when the other has none. -/
theorem Podgen_of_erase_eq (pq : String → Except String resource.Quantity)
    (e1 e2 : Expression) (h : e1.erase = e2.erase) :
    (Podgen pq e1).1 = (Podgen pq e2).1 ∧
    ((Podgen pq e1).2 = [] ↔ (Podgen pq e2).2 = []) := by
  have a1 := PodgenExpression_erase pq e1 _ _ (similar_refl emptyGenerator)
  have a2 := PodgenExpression_erase pq e2 _ _ (similar_refl emptyGenerator)
  rw [h] at a1
  obtain ⟨b1, _, b3⟩ := a1
  obtain ⟨c1, _, c3⟩ := a2
  refine ⟨b1.trans c1.symm, ?_⟩
  have hm : (Podgen pq e1).2.map Error.Message = (Podgen pq e2).2.map Error.Message :=
    b3.trans c3.symm
  constructor
  · intro h0
    rw [h0] at hm
    exact List.map_eq_nil_iff.mp hm.symm
  · intro h0
    rw [h0] at hm
    exact List.map_eq_nil_iff.mp hm

theorem ParseQuantity_errors (pq : String → Except String resource.Quantity)
    (c : PodGenerator) (e : Expression) :
    (c.ParseQuantity pq e).2.errors =
      c.errors ++ (emptyGenerator.ParseQuantity pq e).2.errors := by
  cases e with
  | IntLiteral v p => simp [PodGenerator.ParseQuantity, emptyGenerator]
  | StringLiteral v p =>
    simp only [PodGenerator.ParseQuantity, emptyGenerator]
    cases pq v <;> simp
  | nil => simp [PodGenerator.ParseQuantity, emptyGenerator]
  | ArithmeticExpression _ _ _ _ => simp [PodGenerator.ParseQuantity, emptyGenerator]
  | PodExpression _ _ _ _ => simp [PodGenerator.ParseQuantity, emptyGenerator]

theorem PodgenPodExpression_errors (pq : String → Except String resource.Quantity)
    (c : PodGenerator) (CPU Memory GPU : Expression) :
    (c.PodgenPodExpression pq CPU Memory GPU).errors =
      c.errors ++ (emptyGenerator.PodgenPodExpression pq CPU Memory GPU).errors := by
  unfold PodGenerator.PodgenPodExpression
  simp only []
  rw [ParseQuantity_errors pq _ GPU, ParseQuantity_errors pq _ Memory,
    ParseQuantity_errors pq c CPU]
  conv_rhs =>
    rw [ParseQuantity_errors pq _ GPU, ParseQuantity_errors pq _ Memory]
  simp [List.append_assoc]

theorem iterate_errors (f : PodGenerator → PodGenerator) (r : List Error)
    (hf : ∀ c, (f c).errors = c.errors ++ r) (n : Nat) :
    ∀ c, (Nat.iterate f n c).errors = c.errors ++ (List.replicate n r).flatten := by
  induction n with
  | zero => intro c; simp
  | succ n ih =>
    intro c
    rw [Function.iterate_succ_apply, ih, hf, List.replicate_succ, List.flatten_cons,
      List.append_assoc]

/-- The errors that an expression adds to those of the generator are the errors of
Podgen for the expression alone. -/
theorem PodgenExpression_errors (pq : String → Except String resource.Quantity)
    (e : Expression) :
    ∀ c, (PodGenerator.PodgenExpression pq e c).errors = c.errors ++ (Podgen pq e).2 := by
  induction e with
  | nil => intro c; simp [PodGenerator.PodgenExpression, Podgen]
  | IntLiteral v p => intro c; simp [PodGenerator.PodgenExpression, Podgen]
  | StringLiteral v p => intro c; simp [PodGenerator.PodgenExpression, Podgen]
  | PodExpression CPU Memory GPU p _ _ _ =>
    intro c
    simp only [PodGenerator.PodgenExpression, Podgen]
    exact PodgenPodExpression_errors pq c CPU Memory GPU
  | ArithmeticExpression LHS op RHS p ihl ihr =>
    intro c
    cases op with
    | Add =>
      simp only [PodGenerator.PodgenExpression, Podgen]
      rw [ihr, ihl, ihr (PodGenerator.PodgenExpression pq LHS _), ihl, List.append_assoc]
      simp
    | Multiply =>
      simp only [Podgen, PodgenExpression_multiply]
      cases asIntLiteral LHS with
      | some v =>
        simp only []
        rw [iterate_errors _ _ ihr, iterate_errors _ _ ihr]
        simp
      | none =>
        cases asIntLiteral RHS with
        | some v =>
          simp only []
          rw [iterate_errors _ _ ihl, iterate_errors _ _ ihl]
          simp
        | none => simp

/-- The errors of a product with an integer literal on the right are those of the other
side, once for each repetition. -/
theorem multiply_right_errors (pq : String → Except String resource.Quantity)
    (E : Expression) (n : Nat) (pos pos1 : lexer.Position) :
    (Podgen pq (Expression.ArithmeticExpression E Operator.Multiply
        (Expression.IntLiteral (n : Int) pos1) pos)).2 =
      (List.replicate n (Podgen pq E).2).flatten := by
  simp only [Podgen, PodgenExpression_multiply]
  cases hE : asIntLiteral E with
  | some v =>
    simp only []
    rw [iterate_errors _ [] (fun c => by simp [PodGenerator.PodgenExpression])]
    have hk : (PodGenerator.PodgenExpression pq E
        { errors := [], pods := [], currentPodIndex := 0 }).errors = [] := by
      cases E <;> simp [asIntLiteral] at hE
      simp [PodGenerator.PodgenExpression]
    rw [hk, flatten_replicate_nil, flatten_replicate_nil]
    rfl
  | none =>
    simp only [asIntLiteral, Int.toNat_ofNat]
    rw [iterate_errors _ _ (PodgenExpression_errors pq E)]
    simp [Podgen]

end podgen

/-! ## Replication from text (C4) -/

namespace podgen

open parser lexer corev1

theorem multiply_shape (t a : Expression) (v : Int)
    (h : t.erase = Expression.ArithmeticExpression a Operator.Multiply
      (Expression.IntLiteral v ⟨0, 0⟩) ⟨0, 0⟩) :
    ∃ t1 p1 p, t = Expression.ArithmeticExpression t1 Operator.Multiply
      (Expression.IntLiteral v p1) p ∧ t1.erase = a := by
  cases t with
  | nil => simp [Expression.erase] at h
  | IntLiteral _ _ => simp [Expression.erase] at h
  | StringLiteral _ _ => simp [Expression.erase] at h
  | PodExpression _ _ _ _ => simp [Expression.erase] at h
  | ArithmeticExpression l op r p =>
    simp only [Expression.erase, Expression.ArithmeticExpression.injEq] at h
    obtain ⟨h1, h2, h3, _⟩ := h
    subst h2
    cases r with
    | nil => simp [Expression.erase] at h3
    | StringLiteral _ _ => simp [Expression.erase] at h3
    | PodExpression _ _ _ _ => simp [Expression.erase] at h3
    | ArithmeticExpression _ _ _ _ => simp [Expression.erase] at h3
    | IntLiteral w p1 =>
      simp only [Expression.erase, Expression.IntLiteral.injEq] at h3
      obtain ⟨h4, _⟩ := h3
      subst h4
      exact ⟨l, p1, p, rfl, h1⟩

/-- C4, as stated, fails for an integer literal `n` outside the signed 64-bit range:
`pod(cpu: 1)` parses without errors, and Parse records the error of strconv.ParseInt for
`pod(cpu: 1) * 9223372036854775808`. -/
theorem replication_out_of_range :
    Parse "pod(cpu: 1)" =
      some (Expression.PodExpression (Expression.IntLiteral 1 ⟨0, 9⟩) Expression.nil
        Expression.nil ⟨0, 0⟩, []) ∧
    HasTokens "pod(cpu: 1) * 9223372036854775808"
      (podSymbols [(Axis.cpu, Literal.integer "1")] ++
        [Symbol.token TokenType.MUL, Symbol.integer "9223372036854775808"] ++
        [Symbol.token TokenType.EOF]) ∧
    Parse "pod(cpu: 1) * 9223372036854775808" =
      some (Expression.ArithmeticExpression
          (Expression.PodExpression (Expression.IntLiteral 1 ⟨0, 9⟩) Expression.nil
            Expression.nil ⟨0, 0⟩)
          Operator.Multiply (Expression.IntLiteral 9223372036854775807 ⟨0, 14⟩) ⟨0, 12⟩,
        [{ Message := "9223372036854775808 is not number", Found := "", Expected := [],
           Pos := ⟨0, 0⟩ }]) := by
  refine ⟨?_, ?_, ?_⟩ <;> decide

/-- C4, amended: for every text whose tokens are those of `E * n`, where `E` is a factor
of the grammar in which every pod literal has at least one field, `n` is an integer
literal and all integer literals of the text are within the signed 64-bit range, `E` on
its own and `E * n` parse without errors; if the tree of `E` materializes without errors,
so does the tree of `E * n`, and the latter materializes to exactly `n * k` units, `k`
being the number of units of `E`, whose request maps are `n` consecutive repetitions of
the request maps of `E`. -/
theorem replication_from_text (parseQuantity : String → Except String resource.Quantity)
    (sE sT : String) (tsE : List Symbol) (eE : Expression) (n : String)
    (hE : Derives false Category.factor tsE eE) (hr : IntegersInRange tsE)
    (hn : (Literal.integer n).InRange)
    (hsE : HasTokens sE (tsE ++ [Symbol.token TokenType.EOF]))
    (hsT : HasTokens sT (tsE ++ [Symbol.token TokenType.MUL, Symbol.integer n] ++
      [Symbol.token TokenType.EOF])) :
    ∃ tE tT, Parse sE = some (tE, []) ∧ Parse sT = some (tT, []) ∧
      ((Podgen parseQuantity tE).2 = [] → (Podgen parseQuantity tT).2 = []) ∧
      (Podgen parseQuantity tT).1.length =
        strconv.digitsValue n.data * (Podgen parseQuantity tE).1.length ∧
      requestMaps (Podgen parseQuantity tT).1 =
        (List.replicate (strconv.digitsValue n.data)
          (requestMaps (Podgen parseQuantity tE).1)).flatten := by
  obtain ⟨tE, hpE, heE⟩ := Parse_complete sE tsE eE _
    (Derives.ofFactorTerm false _ _ (Derives.factorTerm false _ _ hE)) hr hsE
    (by decide) (by decide)
  obtain ⟨tT, hpT, heT⟩ := Parse_complete sT _ _ _
    (Derives.ofFactorTerm false _ _
      (times_integer tsE eE n hn (Derives.factorTerm false _ _ hE)))
    (by
      simp only [integersInRange_append_iff, integersInRange_token,
        integersInRange_integer_literal n hn]
      exact ⟨hr, integersInRange_nil⟩)
    hsT (by decide) (by decide)
  obtain ⟨t1, p1, p, ht, h1⟩ := multiply_shape tT eE _ heT
  have hsame := Podgen_of_erase_eq parseQuantity t1 tE (h1.trans heE.symm)
  have hmaps := multiply_right_requestMaps parseQuantity t1 (strconv.digitsValue n.data) p p1
  have herrs := multiply_right_errors parseQuantity t1 (strconv.digitsValue n.data) p p1
  refine ⟨tE, tT, hpE, hpT, ?_, ?_, ?_⟩
  · intro h0
    rw [ht, herrs, hsame.2.mpr h0]
    exact flatten_replicate_nil _
  · rw [ht, ← requestMaps_length, hmaps, length_flatten_replicate, requestMaps_length,
      hsame.1]
  · rw [ht, hmaps, hsame.1]

/-- The amended C4 at the texts `pod(cpu: 1)` and `pod(cpu: 1) * 3`, with a parser of
quantities that accepts no string. -/
theorem replication_from_text_witness :
    ∃ tE tT, Parse "pod(cpu: 1)" = some (tE, []) ∧ Parse "pod(cpu: 1) * 3" = some (tT, []) ∧
      ((Podgen (fun _ => Except.error "") tE).2 = [] →
        (Podgen (fun _ => Except.error "") tT).2 = []) ∧
      (Podgen (fun _ => Except.error "") tT).1.length =
        strconv.digitsValue "3".data * (Podgen (fun _ => Except.error "") tE).1.length ∧
      requestMaps (Podgen (fun _ => Except.error "") tT).1 =
        (List.replicate (strconv.digitsValue "3".data)
          (requestMaps (Podgen (fun _ => Except.error "") tE).1)).flatten :=
  replication_from_text (fun _ => Except.error "") "pod(cpu: 1)" "pod(cpu: 1) * 3"
    (podSymbols [(Axis.cpu, Literal.integer "1")])
    (podExpression [(Axis.cpu, Literal.integer "1")]) "3"
    (pod_derives _ (by decide)
      (by
        intro x hx
        simp only [List.mem_singleton] at hx
        subst hx
        exact inRange_of_digits "1" (by decide) (by decide) (by decide)))
    (integersInRange_pod _
      (by
        intro x hx
        simp only [List.mem_singleton] at hx
        subst hx
        exact inRange_of_digits "1" (by decide) (by decide) (by decide)))
    (inRange_of_digits "3" (by decide) (by decide) (by decide))
    (by decide) (by decide)

end podgen

/-! ## Soundness of the parser: the steps -/

namespace parser

open lexer

theorem reads_nil (p : Parser) : p.Reads [] p :=
  ⟨sees_nil p, rfl, by simp⟩

theorem symbol_ne_eof (t : Token) (h : t.TokenType ≠ TokenType.EOF) :
    symbol t ≠ Symbol.token TokenType.EOF :=
  fun hs => h (symbol_token hs)

theorem symbol_type (t : Token) (k : TokenType) (h : t.TokenType = k)
    (h1 : k ≠ TokenType.INTEGER) (h2 : k ≠ TokenType.STRING) : symbol t = Symbol.token k := by
  subst h
  exact symbol_of_type h1 h2

theorem reads_one (p : Parser) (h : p.lookahead.TokenType ≠ TokenType.EOF) :
    p.Reads [symbol p.lookahead] p.advance := by
  refine ⟨?_, rfl, ?_⟩
  · rw [sees_cons]
    exact ⟨rfl, sees_nil _⟩
  · simp only [List.mem_singleton]
    exact fun hs => symbol_ne_eof _ h hs.symm

theorem reads_token (p : Parser) (k : TokenType) (h : p.lookahead.TokenType = k)
    (h0 : k ≠ TokenType.EOF) (h1 : k ≠ TokenType.INTEGER) (h2 : k ≠ TokenType.STRING) :
    p.Reads [Symbol.token k] p.advance := by
  have := reads_one p (by rw [h]; exact h0)
  rw [symbol_type _ k h h1 h2] at this
  exact this

theorem reads_append (p q r : Parser) (a b : List Symbol) (h1 : p.Reads a q)
    (h2 : q.Reads b r) : p.Reads (a ++ b) r := by
  obtain ⟨s1, e1, n1⟩ := h1
  obtain ⟨s2, e2, n2⟩ := h2
  refine ⟨?_, ?_, ?_⟩
  · rw [sees_append, ← e1]
    exact ⟨s1, s2⟩
  · rw [List.length_append, iterate_advance_add, ← e1]
    exact e2
  · simp only [List.mem_append, not_or]
    exact ⟨n1, n2⟩

theorem reads_errors (p q : Parser) (ts : List Symbol) (h : p.Reads ts q) :
    q.Errors = p.Errors := by
  obtain ⟨_, e, _⟩ := h
  rw [e, advance_iterate_errors]

theorem clean_advance (p : Parser) : p.advance.clean = p.clean.advance := rfl

theorem clean_addError (p : Parser) (e : ParseError) : (p.addError e).clean = p.clean := by
  unfold Parser.addError
  split <;> rfl

theorem noEmptyClose_addError (p : Parser) (e : ParseError) (h : p.NoEmptyClose) :
    (p.addError e).NoEmptyClose := by
  unfold Parser.NoEmptyClose
  rw [clean_addError]
  exact h

theorem noEmptyClose_advance (p : Parser) (h : p.NoEmptyClose)
    (hne : p.lookahead.TokenType ≠ TokenType.EOF) : p.advance.NoEmptyClose := by
  have key : ∀ k, Parser.advance^[k] p.advance.clean = Parser.advance^[k + 1] p.clean :=
    fun k => (iterate_advance_head k p.clean).symm
  intro i hi hl
  rw [key] at hl ⊢
  refine h (i + 1) (fun j hj => ?_) hl
  cases j with
  | zero => exact hne
  | succ j =>
    rw [← key]
    exact hi j (by omega)

theorem noEmptyClose_here (p : Parser) (h : p.NoEmptyClose)
    (hl : p.lookahead.TokenType = TokenType.LPAREN ∨ p.lookahead.TokenType = TokenType.COMMA) :
    p.advance.lookahead.TokenType ≠ TokenType.RPAREN := by
  refine h 0 (fun j hj => ?_) hl
  have hj0 : j = 0 := by omega
  subst hj0
  show p.lookahead.TokenType ≠ TokenType.EOF
  rcases hl with hl | hl <;> rw [hl] <;> decide

theorem noEmptyClose_reads (ts : List Symbol) :
    ∀ (p q : Parser), p.NoEmptyClose → p.Reads ts q → q.NoEmptyClose := by
  induction ts with
  | nil =>
    intro p q h hr
    rw [hr.2.1]
    exact h
  | cons t ts ih =>
    intro p q h hr
    obtain ⟨hs, he, hn⟩ := hr
    rw [sees_cons] at hs
    have hne : p.lookahead.TokenType ≠ TokenType.EOF := by
      intro h0
      apply hn
      rw [← hs.1, symbol_type _ _ h0 (by decide) (by decide)]
      exact List.mem_cons_self _ _
    refine ih p.advance q (noEmptyClose_advance p h hne) ⟨hs.2, ?_, ?_⟩
    · rw [he, List.length_cons, iterate_advance_head]
    · exact fun hm => hn (List.mem_cons_of_mem _ hm)

theorem match_errors (p : Parser) (t : TokenType) : (p.match_ [t]).2.Errors = p.Errors := by
  rw [match_single]
  split <;> rfl

/-- A call of `match` followed by the report of a failure: without errors afterwards, the
token was there and has been read. -/
theorem match_sound (p : Parser) (t : TokenType) (e : Token → ParseError)
    (h : (if (!(p.match_ [t]).1.2) = true then (p.match_ [t]).2.addError (e (p.match_ [t]).1.1)
      else (p.match_ [t]).2).Errors = []) :
    p.lookahead.TokenType = t ∧
    (if (!(p.match_ [t]).1.2) = true then (p.match_ [t]).2.addError (e (p.match_ [t]).1.1)
      else (p.match_ [t]).2) = p.advance ∧ (p.match_ [t]).1.1 = p.lookahead := by
  by_cases ht : p.lookahead.TokenType = t
  · rw [match_of_type p t ht]
    exact ⟨ht, rfl, rfl⟩
  · have hm : p.match_ [t] = ((p.lookahead, false), p) := by
      rw [match_single, if_neg (fun h1 => ht h1.symm)]
    rw [hm] at h
    exact absurd h (addError_ne_nil _ _)

theorem symbol_of_integer (t : Token) (h : t.TokenType = TokenType.INTEGER) :
    symbol t = Symbol.integer t.Lexeme := by
  unfold symbol
  rw [if_pos h]

theorem symbol_of_string (t : Token) (h : t.TokenType = TokenType.STRING) :
    symbol t = Symbol.string t.Lexeme := by
  unfold symbol
  rw [if_neg (by rw [h]; decide), if_pos h]

theorem ParseInteger_sound (p : Parser) (h : (p.ParseInteger).2.Errors = []) :
    p.lookahead.TokenType = TokenType.INTEGER ∧
    (strconv.ParseInt p.lookahead.Lexeme).2 = true ∧
    p.ParseInteger =
      (Expression.IntLiteral (strconv.ParseInt p.lookahead.Lexeme).1 p.lookahead.Position,
        p.advance) := by
  unfold Parser.ParseInteger at h ⊢
  simp only [] at h ⊢
  by_cases hv : (strconv.ParseInt (p.match_ [TokenType.INTEGER]).1.1.Lexeme).2 = true
  · simp only [hv, Bool.not_true, Bool.false_eq_true, if_false] at h ⊢
    obtain ⟨h1, h2, h3⟩ := match_sound p TokenType.INTEGER
      (fun tok => newParseError tok.Lexeme ["INTEGER"] tok.Position) h
    rw [h3] at hv
    refine ⟨h1, hv, ?_⟩
    rw [h2, h3]
  · simp only [hv, Bool.not_false, if_true] at h
    exact absurd h (addError_ne_nil _ _)

theorem ParseString_sound (p : Parser) (h : (p.ParseString).2.Errors = []) :
    p.lookahead.TokenType = TokenType.STRING ∧
    p.ParseString =
      (Expression.StringLiteral p.lookahead.Lexeme p.lookahead.Position, p.advance) := by
  unfold Parser.ParseString at h ⊢
  simp only [] at h ⊢
  obtain ⟨h1, h2, h3⟩ := match_sound p TokenType.STRING
    (fun tok => newParseError tok.Lexeme ["STRING"] tok.Position) h
  refine ⟨h1, ?_⟩
  rw [h2, h3]

theorem ParseStringOrInteger_sound (p : Parser) (h : (p.ParseStringOrInteger).2.Errors = []) :
    (p.ParseStringOrInteger).2 = p.advance ∧
    DerivesValue (symbol p.lookahead) (p.ParseStringOrInteger).1.erase ∧
    p.lookahead.TokenType ≠ TokenType.EOF := by
  unfold Parser.ParseStringOrInteger at h ⊢
  by_cases hs : p.lookahead.TokenType = TokenType.STRING
  · rw [if_pos hs] at h ⊢
    obtain ⟨_, h2⟩ := ParseString_sound p h
    rw [h2, symbol_of_string _ hs]
    exact ⟨rfl, DerivesValue.string _, by rw [hs]; decide⟩
  · rw [if_neg hs] at h ⊢
    by_cases hi : p.lookahead.TokenType = TokenType.INTEGER
    · rw [if_pos hi] at h ⊢
      obtain ⟨_, _, h2⟩ := ParseInteger_sound p h
      rw [h2, symbol_of_integer _ hi]
      exact ⟨rfl, DerivesValue.integer _, by rw [hi]; decide⟩
    · rw [if_neg hi] at h
      exact absurd h (addError_ne_nil _ _)

/-- A field of a pod after its keyword, without errors afterwards: a colon and a value
have been read. -/
theorem parseField_sound (p : Parser) (h : (p.parseField).2.Errors = []) :
    ∃ t, p.Reads [Symbol.token TokenType.COLON, t] (p.parseField).2 ∧
      DerivesValue t (p.parseField).1.erase := by
  unfold Parser.parseField at h ⊢
  simp only [] at h ⊢
  have h0 := h
  obtain ⟨a1, a2, a3⟩ := ParseStringOrInteger_sound _ h
  rw [a1, advance_errors] at h0
  obtain ⟨b1, b2, _⟩ := match_sound p TokenType.COLON
    (fun tok => newParseError tok.Lexeme [":"] tok.Position) h0
  rw [b2] at a1 a2 a3 ⊢
  refine ⟨symbol p.advance.lookahead, ?_, a2⟩
  rw [a1]
  exact reads_append _ _ _ [_] [_]
    (reads_token p _ b1 (by decide) (by decide) (by decide)) (reads_one _ a3)

end parser

/-! ## Soundness of the parser: pod literals -/

namespace parser

open lexer

theorem match_noEmptyClose (p : Parser) (t : TokenType) (ht : t ≠ TokenType.EOF)
    (h : p.NoEmptyClose) : (p.match_ [t]).2.NoEmptyClose := by
  rw [match_single]
  split
  · rename_i h1
    exact noEmptyClose_advance p h (by rw [← h1]; exact ht)
  · exact h

theorem ite_noEmptyClose (c : Prop) [Decidable c] (p : Parser) (e : ParseError)
    (h : p.NoEmptyClose) : (if c then p.addError e else p).NoEmptyClose := by
  split
  · exact noEmptyClose_addError p e h
  · exact h

theorem ParseInteger_noEmptyClose (p : Parser) (h : p.NoEmptyClose) :
    (p.ParseInteger).2.NoEmptyClose := by
  unfold Parser.ParseInteger
  exact ite_noEmptyClose _ _ _
    (ite_noEmptyClose _ _ _ (match_noEmptyClose p _ (by decide) h))

theorem ParseString_noEmptyClose (p : Parser) (h : p.NoEmptyClose) :
    (p.ParseString).2.NoEmptyClose := by
  unfold Parser.ParseString
  exact ite_noEmptyClose _ _ _ (match_noEmptyClose p _ (by decide) h)

theorem ParseStringOrInteger_noEmptyClose (p : Parser) (h : p.NoEmptyClose) :
    (p.ParseStringOrInteger).2.NoEmptyClose := by
  unfold Parser.ParseStringOrInteger
  split
  · exact ParseString_noEmptyClose p h
  · split
    · exact ParseInteger_noEmptyClose p h
    · exact noEmptyClose_addError p _ h

theorem parseField_noEmptyClose (p : Parser) (h : p.NoEmptyClose) :
    (p.parseField).2.NoEmptyClose := by
  unfold Parser.parseField
  exact ParseStringOrInteger_noEmptyClose _
    (ite_noEmptyClose _ _ _ (match_noEmptyClose p _ (by decide) h))

theorem keyword_facts (a : Axis) :
    a.keyword ≠ TokenType.EOF ∧ a.keyword ≠ TokenType.INTEGER ∧ a.keyword ≠ TokenType.STRING := by
  cases a <;> decide

theorem erase_pod (cpu memory gpu : Expression) (pos : Position) (a : Axis) (v : Expression) :
    (Expression.PodExpression (a.assign v (cpu, memory, gpu)).1
      (a.assign v (cpu, memory, gpu)).2.1 (a.assign v (cpu, memory, gpu)).2.2 pos).erase =
    Expression.PodExpression (a.assign v.erase (cpu.erase, memory.erase, gpu.erase)).1
      (a.assign v.erase (cpu.erase, memory.erase, gpu.erase)).2.1
      (a.assign v.erase (cpu.erase, memory.erase, gpu.erase)).2.2 ⟨0, 0⟩ := by
  cases a <;> rfl

/-- The loop of ParsePod: when it ends without errors, having started at a token other
than `)`, it has read a list of fields and the closing parenthesis. -/
theorem parsePodLoop_sound (fuel : Nat) :
    ∀ (cpu memory gpu : Expression) (pos : Position) (p q : Parser) (e : Expression),
      Parser.parsePodLoop fuel cpu memory gpu pos p = some (e, q) → p.NoEmptyClose →
      q.NoEmptyClose ∧ (q.Errors = [] → p.Errors = []) ∧
      (q.Errors = [] → p.lookahead.TokenType ≠ TokenType.RPAREN →
        ∃ ts f, p.Reads (ts ++ [Symbol.token TokenType.RPAREN]) q ∧
          DerivesFields (cpu.erase, memory.erase, gpu.erase) ts f ∧
          e.erase = Expression.PodExpression f.1 f.2.1 f.2.2 ⟨0, 0⟩) := by
  induction fuel with
  | zero =>
    intro cpu memory gpu pos p q e h
    simp [Parser.parsePodLoop] at h
  | succ fuel ih =>
    intro cpu memory gpu pos p q e h hg
    by_cases hr : p.lookahead.TokenType = TokenType.RPAREN
    · simp only [Parser.parsePodLoop, hr, ne_eq, not_true_eq_false, if_false, Option.some.injEq,
        Prod.mk.injEq] at h
      obtain ⟨_, h2⟩ := h
      subst h2
      exact ⟨hg, fun h0 => h0, fun _ hne => absurd hr hne⟩
    · by_cases hk : ∃ a : Axis, p.lookahead.TokenType = a.keyword
      · obtain ⟨a, ha⟩ := hk
        obtain ⟨k0, k1, k2⟩ := keyword_facts a
        rw [parsePodLoop_step fuel a p ha, match_of_type p _ ha] at h
        have hg1 : p.advance.NoEmptyClose := noEmptyClose_advance p hg (by rw [ha]; exact k0)
        have hg2 := parseField_noEmptyClose _ hg1
        have hkw : p.Reads [Symbol.token a.keyword] p.advance := reads_token p _ ha k0 k1 k2
        generalize hF : p.advance.parseField = F at h hg2
        have hfield : F.2.Errors = [] →
            ∃ t, p.advance.Reads [Symbol.token TokenType.COLON, t] F.2 ∧
              DerivesValue t F.1.erase := by
          intro h0
          rw [← hF] at h0 ⊢
          exact parseField_sound _ h0
        unfold Parser.afterField at h
        by_cases hR : F.2.lookahead.TokenType = TokenType.RPAREN
        · simp only [hR, if_true, Option.some.injEq, Prod.mk.injEq] at h
          obtain ⟨h1, h2⟩ := h
          rw [match_of_type _ _ hR] at h2
          simp only [] at h2
          subst h1 h2
          refine ⟨noEmptyClose_advance _ hg2 (by rw [hR]; decide), ?_, ?_⟩
          · intro h0
            rw [advance_errors] at h0
            obtain ⟨t, hrd, _⟩ := hfield h0
            rw [← reads_errors _ _ _ hkw, ← reads_errors _ _ _ hrd]
            exact h0
          · intro h0 _
            rw [advance_errors] at h0
            obtain ⟨t, hrd, hv⟩ := hfield h0
            refine ⟨[Symbol.token a.keyword, Symbol.token TokenType.COLON, t], _, ?_,
              DerivesFields.last a t _ _ hv, erase_pod _ _ _ _ _ _⟩
            exact reads_append _ _ _ ([_] ++ [_, _]) [_]
              (reads_append _ _ _ [_] [_, _] hkw hrd)
              (reads_token _ _ hR (by decide) (by decide) (by decide))
        · by_cases hC : F.2.lookahead.TokenType = TokenType.COMMA
          · simp only [hR, hC, if_true, if_false] at h
            rw [match_of_type _ _ hC] at h
            simp only [] at h
            have hg3 : F.2.advance.NoEmptyClose :=
              noEmptyClose_advance _ hg2 (by rw [hC]; decide)
            have hne : F.2.advance.lookahead.TokenType ≠ TokenType.RPAREN :=
              noEmptyClose_here _ hg2 (Or.inr hC)
            obtain ⟨i1, i2, i3⟩ := ih _ _ _ _ _ _ _ h hg3
            have hcomma : F.2.Reads [Symbol.token TokenType.COMMA] F.2.advance :=
              reads_token _ _ hC (by decide) (by decide) (by decide)
            refine ⟨i1, ?_, ?_⟩
            · intro h0
              have h1 := i2 h0
              rw [advance_errors] at h1
              obtain ⟨t, hrd, _⟩ := hfield h1
              rw [← reads_errors _ _ _ hkw, ← reads_errors _ _ _ hrd]
              exact h1
            · intro h0 _
              have h1 := i2 h0
              rw [advance_errors] at h1
              obtain ⟨t, hrd, hv⟩ := hfield h1
              obtain ⟨ts, f, j1, j2, j3⟩ := i3 h0 hne
              rw [assign_erase] at j2
              refine ⟨[Symbol.token a.keyword, Symbol.token TokenType.COLON, t,
                Symbol.token TokenType.COMMA] ++ ts, f, ?_,
                DerivesFields.more a t _ _ f ts hv j2, j3⟩
              have := reads_append _ _ _ ([_] ++ [_, _] ++ [_]) _
                (reads_append _ _ _ ([_] ++ [_, _]) [_]
                  (reads_append _ _ _ [_] [_, _] hkw hrd) hcomma) j1
              simpa using this
          · simp only [hR, hC, if_false, Option.some.injEq, Prod.mk.injEq] at h
            obtain ⟨_, h2⟩ := h
            subst h2
            exact ⟨noEmptyClose_addError _ _ hg2, fun h0 => absurd h0 (addError_ne_nil _ _),
              fun h0 => absurd h0 (addError_ne_nil _ _)⟩
      · have hM : p.lookahead.TokenType ≠ TokenType.MEMORY := fun h1 => hk ⟨Axis.memory, h1⟩
        have hC : p.lookahead.TokenType ≠ TokenType.CPU := fun h1 => hk ⟨Axis.cpu, h1⟩
        have hG : p.lookahead.TokenType ≠ TokenType.GPU := fun h1 => hk ⟨Axis.gpu, h1⟩
        simp only [Parser.parsePodLoop, hr, hM, hC, hG, ne_eq, not_false_eq_true, if_true,
          if_false, Option.some.injEq, Prod.mk.injEq] at h
        obtain ⟨_, h2⟩ := h
        subst h2
        exact ⟨noEmptyClose_addError _ _ hg, fun h0 => absurd h0 (addError_ne_nil _ _),
          fun h0 => absurd h0 (addError_ne_nil _ _)⟩

/-- ParsePod: when it ends without errors it has read a pod literal with at least one
field, and returns its tree. -/
theorem ParsePod_sound (fuel : Nat) (p q : Parser) (e : Expression)
    (h : Parser.ParsePod fuel p = some (e, q)) (hg : p.NoEmptyClose) :
    q.NoEmptyClose ∧ (q.Errors = [] →
      ∃ ts, p.Reads ts q ∧ Derives false Category.factor ts e.erase) := by
  unfold Parser.ParsePod at h
  simp only [] at h
  have hg1 := ite_noEmptyClose ((!(p.match_ [TokenType.POD]).1.2) = true) _
    (newParseError (p.match_ [TokenType.POD]).1.1.Lexeme ["pod"]
      (p.match_ [TokenType.POD]).1.1.Position)
    (match_noEmptyClose p TokenType.POD (by decide) hg)
  have hpod := match_sound p TokenType.POD
    (fun tok => newParseError tok.Lexeme ["pod"] tok.Position)
  generalize (if (!(p.match_ [TokenType.POD]).1.2) = true then
    (p.match_ [TokenType.POD]).2.addError
      (newParseError (p.match_ [TokenType.POD]).1.1.Lexeme ["pod"]
        (p.match_ [TokenType.POD]).1.1.Position)
    else (p.match_ [TokenType.POD]).2) = p1 at h hg1 hpod
  have hg2 := ite_noEmptyClose ((!(p1.match_ [TokenType.LPAREN]).1.2) = true) _
    (newParseError (p1.match_ [TokenType.LPAREN]).1.1.Lexeme ["("]
      (p1.match_ [TokenType.LPAREN]).1.1.Position)
    (match_noEmptyClose p1 TokenType.LPAREN (by decide) hg1)
  have hlp := match_sound p1 TokenType.LPAREN
    (fun tok => newParseError tok.Lexeme ["("] tok.Position)
  generalize (if (!(p1.match_ [TokenType.LPAREN]).1.2) = true then
    (p1.match_ [TokenType.LPAREN]).2.addError
      (newParseError (p1.match_ [TokenType.LPAREN]).1.1.Lexeme ["("]
        (p1.match_ [TokenType.LPAREN]).1.1.Position)
    else (p1.match_ [TokenType.LPAREN]).2) = p2 at h hg2 hlp
  obtain ⟨i1, i2, i3⟩ := parsePodLoop_sound fuel _ _ _ _ _ _ _ h hg2
  refine ⟨i1, fun h0 => ?_⟩
  have e2 := i2 h0
  obtain ⟨a1, a2, _⟩ := hlp e2
  have e1 : p1.Errors = [] := by
    rw [a2, advance_errors] at e2
    exact e2
  obtain ⟨b1, b2, _⟩ := hpod e1
  have hne : p2.lookahead.TokenType ≠ TokenType.RPAREN := by
    rw [a2]
    exact noEmptyClose_here p1 hg1 (Or.inl a1)
  obtain ⟨ts, f, j1, j2, j3⟩ := i3 h0 hne
  refine ⟨[Symbol.token TokenType.POD, Symbol.token TokenType.LPAREN] ++ ts ++
    [Symbol.token TokenType.RPAREN], ?_, ?_⟩
  · have r1 : p.Reads [Symbol.token TokenType.POD] p1 := by
      rw [b2]
      exact reads_token p _ b1 (by decide) (by decide) (by decide)
    have r2 : p1.Reads [Symbol.token TokenType.LPAREN] p2 := by
      rw [a2]
      exact reads_token p1 _ a1 (by decide) (by decide) (by decide)
    have := reads_append _ _ _ ([_] ++ [_]) _ (reads_append _ _ _ [_] [_] r1 r2) j1
    simpa using this
  · rw [j3]
    exact Derives.pod false ts f j2

end parser

/-! ## Soundness of the parser: expressions -/

namespace parser

open lexer

theorem erase_arithmetic (l r : Expression) (op : Operator) (pos : Position) :
    (Expression.ArithmeticExpression l op r pos).erase =
      Expression.ArithmeticExpression l.erase op r.erase ⟨0, 0⟩ := rfl

/-- Soundness of the parser: when one of its functions ends without errors, on tokens
among which no `)` comes right after a `(` or a `,`, it has read a phrase of its
nonterminal, none of whose pod literals is without fields, and it returns the tree of
that phrase.  For the two loops, `result` being the tree of the tokens `ts0` read before
the loop, the loop returns the tree of `ts0` followed by what it has read. -/
theorem parser_sound (fuel : Nat) :
    (∀ (p q : Parser) (e : Expression), Parser.ParseExpression fuel p = some (e, q) →
      p.NoEmptyClose → q.NoEmptyClose ∧ (q.Errors = [] →
        ∃ ts, p.Reads ts q ∧ Derives false Category.expression ts e.erase)) ∧
    (∀ (result : Expression) (p q : Parser) (e : Expression),
      Parser.parseExpressionLoop fuel result p = some (e, q) →
      p.NoEmptyClose → q.NoEmptyClose ∧ (q.Errors = [] →
        ∃ ts, p.Reads ts q ∧ ∀ ts0, Derives false Category.expression ts0 result.erase →
          Derives false Category.expression (ts0 ++ ts) e.erase)) ∧
    (∀ (p q : Parser) (e : Expression), Parser.ParseTerm fuel p = some (e, q) →
      p.NoEmptyClose → q.NoEmptyClose ∧ (q.Errors = [] →
        ∃ ts, p.Reads ts q ∧ (Derives false Category.integerTerm ts e.erase ∨
          Derives false Category.factorTerm ts e.erase))) ∧
    (∀ (b : Bool) (result : Expression) (p q : Parser) (e : Expression),
      Parser.parseTermLoop fuel b result p = some (e, q) →
      p.NoEmptyClose → q.NoEmptyClose ∧ (q.Errors = [] →
        ∃ ts, p.Reads ts q ∧
          (b = false → ∀ ts0, Derives false Category.factorTerm ts0 result.erase →
            Derives false Category.factorTerm (ts0 ++ ts) e.erase) ∧
          (b = true → ∀ ts0, Derives false Category.integerTerm ts0 result.erase →
            Derives false Category.integerTerm (ts0 ++ ts) e.erase) ∧
          (b = true → ∀ d, result.erase = Expression.IntLiteral (strconv.ParseInt d).1 ⟨0, 0⟩ →
            p.lookahead.TokenType = TokenType.MUL →
            Derives false Category.integerTerm ([Symbol.integer d] ++ ts) e.erase))) ∧
    (∀ (p q : Parser) (e : Expression), Parser.ParseFactor fuel p = some (e, q) →
      p.NoEmptyClose → q.NoEmptyClose ∧ (q.Errors = [] →
        ∃ ts, p.Reads ts q ∧ Derives false Category.factor ts e.erase)) := by
  induction fuel with
  | zero =>
    refine ⟨?_, ?_, ?_, ?_, ?_⟩ <;> intros <;> rename_i h _ <;>
      simp [Parser.ParseExpression, Parser.parseExpressionLoop, Parser.ParseTerm,
        Parser.parseTermLoop, Parser.ParseFactor] at h
  | succ fuel ih =>
    obtain ⟨ihE, ihEL, ihT, ihTL, ihF⟩ := ih
    refine ⟨?_, ?_, ?_, ?_, ?_⟩
    · -- ParseExpression
      intro p q e h hg
      rw [Parser.ParseExpression] at h
      cases hT : Parser.ParseTerm fuel p with
      | none => rw [hT] at h; simp at h
      | some r =>
        obtain ⟨res, p1⟩ := r
        rw [hT] at h
        simp only [] at h
        obtain ⟨g1, s1⟩ := ihT _ _ _ hT hg
        obtain ⟨g2, s2⟩ := ihEL _ _ _ _ h g1
        refine ⟨g2, fun h0 => ?_⟩
        obtain ⟨ts2, r2, d2⟩ := s2 h0
        obtain ⟨ts1, r1, d1⟩ := s1 (by rw [← reads_errors _ _ _ r2]; exact h0)
        refine ⟨ts1 ++ ts2, reads_append _ _ _ _ _ r1 r2, d2 ts1 ?_⟩
        rcases d1 with d1 | d1
        · exact Derives.ofIntegerTerm false _ _ d1
        · exact Derives.ofFactorTerm false _ _ d1
    · -- the loop of ParseExpression
      intro result p q e h hg
      rw [Parser.parseExpressionLoop] at h
      by_cases ha : p.lookahead.TokenType = TokenType.ADD
      · simp only [ha, if_true] at h
        rw [match_of_type p _ ha] at h
        simp only [] at h
        have hg0 : p.advance.NoEmptyClose := noEmptyClose_advance p hg (by rw [ha]; decide)
        cases hT : Parser.ParseTerm fuel p.advance with
        | none => rw [hT] at h; simp at h
        | some r =>
          obtain ⟨rhs, p1⟩ := r
          rw [hT] at h
          simp only [] at h
          obtain ⟨g1, s1⟩ := ihT _ _ _ hT hg0
          obtain ⟨g2, s2⟩ := ihEL _ _ _ _ h g1
          refine ⟨g2, fun h0 => ?_⟩
          obtain ⟨ts2, r2, d2⟩ := s2 h0
          obtain ⟨ts1, r1, d1⟩ := s1 (by rw [← reads_errors _ _ _ r2]; exact h0)
          have r0 : p.Reads [Symbol.token TokenType.ADD] p.advance :=
            reads_token p _ ha (by decide) (by decide) (by decide)
          refine ⟨[Symbol.token TokenType.ADD] ++ ts1 ++ ts2,
            reads_append _ _ _ _ _ (reads_append _ _ _ _ _ r0 r1) r2, fun ts0 d0 => ?_⟩
          have d3 : Derives false Category.expression
              (ts0 ++ [Symbol.token TokenType.ADD] ++ ts1)
              (Expression.ArithmeticExpression result Operator.Add rhs
                p.lookahead.Position).erase := by
            rw [erase_arithmetic]
            rcases d1 with d1 | d1
            · exact Derives.plusIntegerTerm false _ _ _ _ d0 d1
            · exact Derives.plusFactorTerm false _ _ _ _ d0 d1
          have := d2 _ d3
          simpa [List.append_assoc] using this
      · simp only [ha, if_false, Option.some.injEq, Prod.mk.injEq] at h
        obtain ⟨h1, h2⟩ := h
        subst h1 h2
        refine ⟨hg, fun _ => ⟨[], reads_nil _, fun ts0 d0 => ?_⟩⟩
        rw [List.append_nil]
        exact d0
    · -- ParseTerm
      intro p q e h hg
      rw [Parser.ParseTerm] at h
      by_cases hi : p.lookahead.TokenType = TokenType.INTEGER
      · simp only [hi, if_true] at h
        have hg1 := ite_noEmptyClose ((p.ParseInteger).2.lookahead.TokenType ≠ TokenType.MUL) _
          (newParseError (p.ParseInteger).2.lookahead.Lexeme ["*"]
            (p.ParseInteger).2.lookahead.Position)
          (ParseInteger_noEmptyClose p hg)
        have hmul : (if (p.ParseInteger).2.lookahead.TokenType ≠ TokenType.MUL then
            (p.ParseInteger).2.addError
              (newParseError (p.ParseInteger).2.lookahead.Lexeme ["*"]
                (p.ParseInteger).2.lookahead.Position)
            else (p.ParseInteger).2).Errors = [] →
            (p.ParseInteger).2.lookahead.TokenType = TokenType.MUL ∧
            (if (p.ParseInteger).2.lookahead.TokenType ≠ TokenType.MUL then
            (p.ParseInteger).2.addError
              (newParseError (p.ParseInteger).2.lookahead.Lexeme ["*"]
                (p.ParseInteger).2.lookahead.Position)
            else (p.ParseInteger).2) = (p.ParseInteger).2 := by
          intro h0
          by_cases hm : (p.ParseInteger).2.lookahead.TokenType = TokenType.MUL
          · exact ⟨hm, by rw [if_neg (not_not.mpr hm)]⟩
          · rw [if_pos hm] at h0
            exact absurd h0 (addError_ne_nil _ _)
        generalize (if (p.ParseInteger).2.lookahead.TokenType ≠ TokenType.MUL then
            (p.ParseInteger).2.addError
              (newParseError (p.ParseInteger).2.lookahead.Lexeme ["*"]
                (p.ParseInteger).2.lookahead.Position)
            else (p.ParseInteger).2) = p1 at h hg1 hmul
        obtain ⟨g2, s2⟩ := ihTL _ _ _ _ _ h hg1
        refine ⟨g2, fun h0 => ?_⟩
        obtain ⟨ts2, r2, _, _, d2⟩ := s2 h0
        have e1 : p1.Errors = [] := by rw [← reads_errors _ _ _ r2]; exact h0
        obtain ⟨m1, m2⟩ := hmul e1
        rw [m2] at e1
        obtain ⟨_, _, a3⟩ := ParseInteger_sound p e1
        rw [m2, a3] at r2
        rw [a3] at m1
        have hd := d2 rfl p.lookahead.Lexeme (by rw [a3]; rfl) (by rw [m2, a3]; exact m1)
        have r0 : p.Reads [Symbol.integer p.lookahead.Lexeme] p.advance := by
          have := reads_one p (by rw [hi]; decide)
          rw [symbol_of_integer _ hi] at this
          exact this
        exact ⟨[Symbol.integer p.lookahead.Lexeme] ++ ts2, reads_append _ _ _ _ _ r0 r2,
          Or.inl hd⟩
      · simp only [hi, if_false] at h
        cases hF : Parser.ParseFactor fuel p with
        | none => rw [hF] at h; simp at h
        | some r =>
          obtain ⟨res, p1⟩ := r
          rw [hF] at h
          simp only [] at h
          obtain ⟨g1, s1⟩ := ihF _ _ _ hF hg
          obtain ⟨g2, s2⟩ := ihTL _ _ _ _ _ h g1
          refine ⟨g2, fun h0 => ?_⟩
          obtain ⟨ts2, r2, d2, _, _⟩ := s2 h0
          obtain ⟨ts1, r1, d1⟩ := s1 (by rw [← reads_errors _ _ _ r2]; exact h0)
          exact ⟨ts1 ++ ts2, reads_append _ _ _ _ _ r1 r2,
            Or.inr (d2 rfl ts1 (Derives.factorTerm false _ _ d1))⟩
    · -- the loop of ParseTerm
      intro b result p q e h hg
      rw [Parser.parseTermLoop] at h
      by_cases hm : p.lookahead.TokenType = TokenType.MUL
      · simp only [hm, if_true] at h
        rw [match_of_type p _ hm] at h
        simp only [] at h
        have hg0 : p.advance.NoEmptyClose := noEmptyClose_advance p hg (by rw [hm]; decide)
        have r0 : p.Reads [Symbol.token TokenType.MUL] p.advance :=
          reads_token p _ hm (by decide) (by decide) (by decide)
        cases b with
        | true =>
          simp only [if_true] at h
          cases hF : Parser.ParseFactor fuel p.advance with
          | none => rw [hF] at h; simp at h
          | some r =>
            obtain ⟨rhs, p1⟩ := r
            rw [hF] at h
            simp only [] at h
            obtain ⟨g1, s1⟩ := ihF _ _ _ hF hg0
            obtain ⟨g2, s2⟩ := ihTL _ _ _ _ _ h g1
            refine ⟨g2, fun h0 => ?_⟩
            obtain ⟨ts2, r2, _, d2, _⟩ := s2 h0
            obtain ⟨ts1, r1, d1⟩ := s1 (by rw [← reads_errors _ _ _ r2]; exact h0)
            refine ⟨[Symbol.token TokenType.MUL] ++ ts1 ++ ts2,
              reads_append _ _ _ _ _ (reads_append _ _ _ _ _ r0 r1) r2,
              fun hb => absurd hb (by decide), fun _ ts0 d0 => ?_, fun _ d hd _ => ?_⟩
            · have d3 : Derives false Category.integerTerm
                  (ts0 ++ [Symbol.token TokenType.MUL] ++ ts1)
                  (Expression.ArithmeticExpression result Operator.Multiply rhs
                    p.lookahead.Position).erase := by
                rw [erase_arithmetic]
                exact Derives.timesFactor false _ _ _ _ d0 d1
              have := d2 rfl _ d3
              simpa [List.append_assoc] using this
            · have d3 : Derives false Category.integerTerm
                  ([Symbol.integer d, Symbol.token TokenType.MUL] ++ ts1)
                  (Expression.ArithmeticExpression result Operator.Multiply rhs
                    p.lookahead.Position).erase := by
                rw [erase_arithmetic, hd]
                exact Derives.integerTimes false d _ _ d1
              have := d2 rfl _ d3
              simpa [List.append_assoc] using this
        | false =>
          simp only [Bool.false_eq_true, if_false] at h
          have hg1 := ParseInteger_noEmptyClose _ hg0
          obtain ⟨g2, s2⟩ := ihTL _ _ _ _ _ h hg1
          refine ⟨g2, fun h0 => ?_⟩
          obtain ⟨ts2, r2, d2, _, _⟩ := s2 h0
          have e1 : (p.advance.ParseInteger).2.Errors = [] := by
            rw [← reads_errors _ _ _ r2]; exact h0
          obtain ⟨a1, _, a3⟩ := ParseInteger_sound _ e1
          rw [a3] at r2 d2
          have r1 : p.advance.Reads [Symbol.integer p.advance.lookahead.Lexeme]
              p.advance.advance := by
            have := reads_one p.advance (by rw [a1]; decide)
            rw [symbol_of_integer _ a1] at this
            exact this
          refine ⟨[Symbol.token TokenType.MUL] ++ [Symbol.integer p.advance.lookahead.Lexeme]
              ++ ts2,
            reads_append _ _ _ _ _ (reads_append _ _ _ _ _ r0 r1) r2,
            fun _ ts0 d0 => ?_, fun hb => absurd hb (by decide), fun hb => absurd hb (by decide)⟩
          have d3 := Derives.timesInteger false ts0 result.erase
            p.advance.lookahead.Lexeme d0
          have := d2 rfl _ d3
          simpa [List.append_assoc] using this
      · simp only [hm, if_false, Option.some.injEq, Prod.mk.injEq] at h
        obtain ⟨h1, h2⟩ := h
        subst h1 h2
        refine ⟨hg, fun _ => ⟨[], reads_nil _, fun _ ts0 d0 => ?_, fun _ ts0 d0 => ?_,
          fun _ _ _ hmul => absurd hmul hm⟩⟩
        · rw [List.append_nil]
          exact d0
        · rw [List.append_nil]
          exact d0
    · -- ParseFactor
      intro p q e h hg
      rw [Parser.ParseFactor] at h
      by_cases hl : p.lookahead.TokenType = TokenType.LPAREN
      · simp only [hl, if_true] at h
        rw [match_of_type p _ hl] at h
        simp only [] at h
        have hg0 : p.advance.NoEmptyClose := noEmptyClose_advance p hg (by rw [hl]; decide)
        cases hE : Parser.ParseExpression fuel p.advance with
        | none => rw [hE] at h; simp at h
        | some r =>
          obtain ⟨expr, p1⟩ := r
          rw [hE] at h
          simp only [Option.some.injEq, Prod.mk.injEq] at h
          obtain ⟨h1, h2⟩ := h
          subst h1
          obtain ⟨g1, s1⟩ := ihE _ _ _ hE hg0
          have hg2 := ite_noEmptyClose ((!(p1.match_ [TokenType.RPAREN]).1.2) = true) _
            (newParseError (p1.match_ [TokenType.RPAREN]).1.1.Lexeme [")"]
              (p1.match_ [TokenType.RPAREN]).1.1.Position)
            (match_noEmptyClose p1 TokenType.RPAREN (by decide) g1)
          have hrp := match_sound p1 TokenType.RPAREN
            (fun tok => newParseError tok.Lexeme [")"] tok.Position)
          rw [h2] at hg2 hrp
          refine ⟨hg2, fun h0 => ?_⟩
          obtain ⟨b1, b2, _⟩ := hrp h0
          have e1 : p1.Errors = [] := by
            rw [b2, advance_errors] at h0
            exact h0
          obtain ⟨ts1, r1, d1⟩ := s1 e1
          have r0 : p.Reads [Symbol.token TokenType.LPAREN] p.advance :=
            reads_token p _ hl (by decide) (by decide) (by decide)
          have r2 : p1.Reads [Symbol.token TokenType.RPAREN] q := by
            rw [b2]
            exact reads_token p1 _ b1 (by decide) (by decide) (by decide)
          exact ⟨[Symbol.token TokenType.LPAREN] ++ ts1 ++ [Symbol.token TokenType.RPAREN],
            reads_append _ _ _ _ _ (reads_append _ _ _ _ _ r0 r1) r2,
            Derives.paren false _ _ d1⟩
      · by_cases hp : p.lookahead.TokenType = TokenType.POD
        · simp only [hl, hp, if_true, if_false] at h
          exact ParsePod_sound fuel p q e h hg
        · simp only [hl, hp, if_false, Option.some.injEq, Prod.mk.injEq] at h
          obtain ⟨_, h2⟩ := h
          subst h2
          exact ⟨noEmptyClose_addError _ _ hg, fun h0 => absurd h0 (addError_ne_nil _ _)⟩

end parser

/-! ## Soundness of Parse (C2) -/

namespace parser

open lexer

theorem pending_of_no_eof (i : Nat) :
    ∀ p : Parser, (∀ j, j ≤ i → (Parser.advance^[j] p).lookahead.TokenType ≠ TokenType.EOF) →
      i + 1 ≤ p.pending := by
  induction i with
  | zero =>
    intro p h
    exact lookahead_pending_pos p (h 0 (le_refl _))
  | succ i ih =>
    intro p h
    have h0 : p.lookahead.TokenType ≠ TokenType.EOF := h 0 (Nat.zero_le _)
    have h1 := ih p.advance (fun j hj => by
      rw [← iterate_advance_head]
      exact h (j + 1) (by omega))
    have h2 := advance_pending p
    rw [if_neg h0] at h2
    omega

theorem noEmptyClose_upcoming (n : Nat) :
    ∀ p : Parser, noEmptyClose (p.upcoming (n + 1)) = true → ∀ i, i < n →
      closesEmpty (symbol (Parser.advance^[i] p).lookahead)
        (symbol (Parser.advance^[i + 1] p).lookahead) = false := by
  induction n with
  | zero => intro p _ i hi; omega
  | succ n ih =>
    intro p h i hi
    simp only [Parser.upcoming, noEmptyClose, Bool.and_eq_true] at h
    cases i with
    | zero => simpa using h.1
    | succ i =>
      rw [iterate_advance_head, iterate_advance_head]
      exact ih p.advance (by simpa [Parser.upcoming, noEmptyClose] using h.2) i (by omega)

theorem closesEmpty_type (a b : Token) (h : closesEmpty (symbol a) (symbol b) = false)
    (ha : a.TokenType = TokenType.LPAREN ∨ a.TokenType = TokenType.COMMA) :
    b.TokenType ≠ TokenType.RPAREN := by
  intro hb
  have h1 : symbol b = Symbol.token TokenType.RPAREN :=
    symbol_type _ _ hb (by decide) (by decide)
  have h2 : symbol a = Symbol.token TokenType.LPAREN ∨
      symbol a = Symbol.token TokenType.COMMA := by
    rcases ha with ha | ha
    · exact Or.inl (symbol_type _ _ ha (by decide) (by decide))
    · exact Or.inr (symbol_type _ _ ha (by decide) (by decide))
  simp [closesEmpty, h1, h2] at h

/-- A text without a `)` right after a `(` or a `,` gives the parser such tokens. -/
theorem NewParser_noEmptyClose (s : String) (h : NoEmptyClose s) :
    (NewParser (NewScanner s.data)).NoEmptyClose := by
  intro i hi hl
  have hc : (NewParser (NewScanner s.data)).clean = NewParser (NewScanner s.data) := rfl
  rw [hc] at hi hl ⊢
  have h1 := pending_of_no_eof i _ hi
  have h2 := NewParser_pending s
  unfold NoEmptyClose tokenSymbols at h
  rw [← NewParser_upcoming] at h
  exact closesEmpty_type _ _ (noEmptyClose_upcoming s.length _ h i (by omega)) hl

theorem derives_of_false (b0 : Bool) (c : Category) (ts : List Symbol) (e : Expression)
    (h : Derives b0 c ts e) : b0 = false → ∀ b, Derives b c ts e := by
  induction h with
  | emptyPod => intro h0; cases h0
  | pod _ ts f hf => intro _ b; exact Derives.pod b ts f hf
  | paren _ ts e _ ih => intro h0 b; exact Derives.paren b ts e (ih h0 b)
  | factorTerm _ ts e _ ih => intro h0 b; exact Derives.factorTerm b ts e (ih h0 b)
  | timesInteger _ ts e d _ ih => intro h0 b; exact Derives.timesInteger b ts e d (ih h0 b)
  | integerTimes _ d ts e _ ih => intro h0 b; exact Derives.integerTimes b d ts e (ih h0 b)
  | timesFactor _ ts ts1 e e1 _ _ ih ih1 =>
    intro h0 b; exact Derives.timesFactor b ts ts1 e e1 (ih h0 b) (ih1 h0 b)
  | ofFactorTerm _ ts e _ ih => intro h0 b; exact Derives.ofFactorTerm b ts e (ih h0 b)
  | ofIntegerTerm _ ts e _ ih => intro h0 b; exact Derives.ofIntegerTerm b ts e (ih h0 b)
  | plusFactorTerm _ ts ts1 e e1 _ _ ih ih1 =>
    intro h0 b; exact Derives.plusFactorTerm b ts ts1 e e1 (ih h0 b) (ih1 h0 b)
  | plusIntegerTerm _ ts ts1 e e1 _ _ ih ih1 =>
    intro h0 b; exact Derives.plusIntegerTerm b ts ts1 e e1 (ih h0 b) (ih1 h0 b)

theorem value_not_token (t : Symbol) (v : Expression) (h : DerivesValue t v)
    (k : TokenType) : t ≠ Symbol.token k := by
  cases h <;> simp

theorem fields_no_parenthesis (f f1 : Expression × Expression × Expression)
    (ts : List Symbol) (h : DerivesFields f ts f1) :
    ts.count (Symbol.token TokenType.LPAREN) = 0 ∧
    ts.count (Symbol.token TokenType.RPAREN) = 0 := by
  induction h with
  | last a t v f hv =>
    have h1 := value_not_token t v hv TokenType.LPAREN
    have h2 := value_not_token t v hv TokenType.RPAREN
    cases a <;> simp [Axis.keyword, List.count_cons, h1, h2]
  | more a t v f f1 ts hv _ ih =>
    have h1 := value_not_token t v hv TokenType.LPAREN
    have h2 := value_not_token t v hv TokenType.RPAREN
    cases a <;> simp [Axis.keyword, List.count_cons, h1, h2, ih.1, ih.2]

/-- In every phrase of the grammar the parentheses are balanced in number. -/
theorem derives_balanced (b : Bool) (c : Category) (ts : List Symbol) (e : Expression)
    (h : Derives b c ts e) :
    ts.count (Symbol.token TokenType.LPAREN) = ts.count (Symbol.token TokenType.RPAREN) := by
  induction h with
  | emptyPod => decide
  | pod _ ts f hf =>
    have := fields_no_parenthesis _ _ _ hf
    simp [List.count_cons, List.count_append, this.1, this.2]
  | paren _ ts e _ ih => simp [List.count_cons, List.count_append, ih]
  | factorTerm _ ts e _ ih => exact ih
  | timesInteger _ ts e d _ ih => simp [List.count_cons, List.count_append, ih]
  | integerTimes _ d ts e _ ih => simp [List.count_cons, List.count_append, ih]
  | timesFactor _ ts ts1 e e1 _ _ ih ih1 => simp [List.count_cons, List.count_append, ih, ih1]
  | ofFactorTerm _ ts e _ ih => exact ih
  | ofIntegerTerm _ ts e _ ih => exact ih
  | plusFactorTerm _ ts ts1 e e1 _ _ ih ih1 =>
    simp [List.count_cons, List.count_append, ih, ih1]
  | plusIntegerTerm _ ts ts1 e e1 _ _ ih ih1 =>
    simp [List.count_cons, List.count_append, ih, ih1]

/-- C2, as stated, fails: Parse never looks for the end of input.  For `pod(cpu: 1))` it
returns the tree of the pod literal and no error, while the tokens of the text before its
end, which include the second `)`, are not an `expression` of the grammar. -/
theorem trailing_token_ignored :
    Parse "pod(cpu: 1))" =
      some (Expression.PodExpression (Expression.IntLiteral 1 ⟨0, 9⟩) Expression.nil
        Expression.nil ⟨0, 0⟩, []) ∧
    HasTokens "pod(cpu: 1))"
      [Symbol.token TokenType.POD, Symbol.token TokenType.LPAREN, Symbol.token TokenType.CPU,
        Symbol.token TokenType.COLON, Symbol.integer "1", Symbol.token TokenType.RPAREN,
        Symbol.token TokenType.RPAREN, Symbol.token TokenType.EOF] ∧
    ¬ ∃ e, Derives true Category.expression
      [Symbol.token TokenType.POD, Symbol.token TokenType.LPAREN, Symbol.token TokenType.CPU,
        Symbol.token TokenType.COLON, Symbol.integer "1", Symbol.token TokenType.RPAREN,
        Symbol.token TokenType.RPAREN] e := by
  refine ⟨by decide, by decide, ?_⟩
  rintro ⟨e, h⟩
  have := derives_balanced _ _ _ _ h
  revert this
  decide

/-- C2, amended: for every input text `s` among whose tokens no `)` comes right after a
`(` or a `,`, if Parse returns the tree `e` and an empty error list, then the token
stream of `s` starts with exactly one `expression` of the grammar, not reaching the end
of input, and `e` is the tree of that expression up to positions; no pod literal of it is
without fields.  Nothing is said of the tokens after that expression. -/
theorem parse_sound (s : String) (e : Expression) (h : Parse s = some (e, []))
    (hn : NoEmptyClose s) :
    ∃ ts, HasTokens s ts ∧ Symbol.token TokenType.EOF ∉ ts ∧
      ∀ b, Derives b Category.expression ts e.erase := by
  unfold Parse at h
  cases hE : Parser.ParseExpression (3 * s.length + 3) (NewParser (NewScanner s.data)) with
  | none => rw [hE] at h; simp at h
  | some r =>
    obtain ⟨e1, q⟩ := r
    rw [hE] at h
    simp only [Option.some.injEq, Prod.mk.injEq] at h
    obtain ⟨h1, h2⟩ := h
    subst h1
    obtain ⟨_, hs⟩ := (parser_sound _).1 _ _ _ hE (NewParser_noEmptyClose s hn)
    obtain ⟨ts, hr, hd⟩ := hs h2
    exact ⟨ts, (hasTokens_iff s ts).mpr hr.1, hr.2.2, derives_of_false _ _ _ _ hd rfl⟩

/-- The amended C2 at the text `pod(cpu: 1) * 2`. -/
theorem parse_sound_witness :
    ∃ ts, HasTokens "pod(cpu: 1) * 2" ts ∧ Symbol.token TokenType.EOF ∉ ts ∧
      ∀ b, Derives b Category.expression ts
        (Expression.ArithmeticExpression
          (Expression.PodExpression (Expression.IntLiteral 1 ⟨0, 9⟩) Expression.nil
            Expression.nil ⟨0, 0⟩)
          Operator.Multiply (Expression.IntLiteral 2 ⟨0, 14⟩) ⟨0, 12⟩).erase :=
  parse_sound "pod(cpu: 1) * 2" _ (by decide) (by decide)

end parser

/-! ## Diagnostics of the materializer (C11, C12) -/

namespace podgen

open parser corev1

theorem asIntLiteral_none (e : Expression) (h : ∀ v p, e ≠ Expression.IntLiteral v p) :
    asIntLiteral e = none := by
  cases e with
  | IntLiteral v p => exact absurd rfl (h v p)
  | nil => rfl
  | StringLiteral _ _ => rfl
  | ArithmeticExpression _ _ _ _ => rfl
  | PodExpression _ _ _ _ => rfl

/-- C11: for every Multiply node neither of whose sides is an IntLiteral, the evaluation
of the node, in whatever state the generator is, adds exactly one error, with the message
"one of [lhs, rhs] must be an integer in a multiply expression" and the position of the
node, and changes nothing else: no unit is emitted and no error comes from inside the
subtree.  Podgen of such a node alone returns no unit and that one error. -/
theorem multiply_type_error (parseQuantity : String → Except String resource.Quantity)
    (LHS RHS : Expression) (position : lexer.Position) (c : PodGenerator)
    (hl : ∀ v p, LHS ≠ Expression.IntLiteral v p)
    (hr : ∀ v p, RHS ≠ Expression.IntLiteral v p) :
    PodGenerator.PodgenExpression parseQuantity
        (Expression.ArithmeticExpression LHS Operator.Multiply RHS position) c =
      { errors := c.errors ++ [multiplyError position], pods := c.pods,
        currentPodIndex := c.currentPodIndex } ∧
    Podgen parseQuantity (Expression.ArithmeticExpression LHS Operator.Multiply RHS position) =
      ([], [multiplyError position]) := by
  have h : ∀ c : PodGenerator, PodGenerator.PodgenExpression parseQuantity
      (Expression.ArithmeticExpression LHS Operator.Multiply RHS position) c =
      { errors := c.errors ++ [multiplyError position], pods := c.pods,
        currentPodIndex := c.currentPodIndex } := by
    intro c
    rw [PodgenExpression_multiply, asIntLiteral_none LHS hl, asIntLiteral_none RHS hr]
    rfl
  refine ⟨h c, ?_⟩
  unfold Podgen
  rw [h]
  rfl

/-- C11 at the tree of `pod(cpu: "x") * pod()`: one error at the position of the `*`,
no unit, and no error for the malformed quantity "x" inside the subtree. -/
theorem multiply_type_error_witness :
    PodGenerator.PodgenExpression (fun _ => Except.error "")
        (Expression.ArithmeticExpression
          (Expression.PodExpression (Expression.StringLiteral "x" ⟨0, 9⟩) Expression.nil
            Expression.nil ⟨0, 0⟩)
          Operator.Multiply
          (Expression.PodExpression Expression.nil Expression.nil Expression.nil ⟨0, 17⟩)
          ⟨0, 15⟩) emptyGenerator =
      { errors := emptyGenerator.errors ++ [multiplyError ⟨0, 15⟩], pods := emptyGenerator.pods,
        currentPodIndex := emptyGenerator.currentPodIndex } ∧
    Podgen (fun _ => Except.error "")
        (Expression.ArithmeticExpression
          (Expression.PodExpression (Expression.StringLiteral "x" ⟨0, 9⟩) Expression.nil
            Expression.nil ⟨0, 0⟩)
          Operator.Multiply
          (Expression.PodExpression Expression.nil Expression.nil Expression.nil ⟨0, 17⟩)
          ⟨0, 15⟩) =
      ([], [multiplyError ⟨0, 15⟩]) :=
  multiply_type_error _ _ _ _ _ (by intro v p h; cases h) (by intro v p h; cases h)

theorem ParseQuantity_malformed (pq : String → Except String resource.Quantity)
    (c : PodGenerator) (s : String) (p : lexer.Position) (err : String)
    (h : pq s = Except.error err) :
    (c.ParseQuantity pq (Expression.StringLiteral s p)).2.errors =
      c.errors ++ [{ Message := err, Pos := p }] := by
  simp only [PodGenerator.ParseQuantity, h]

theorem specQuantity_malformed (pq : String → Except String resource.Quantity)
    (s : String) (p : lexer.Position) (err : String) (h : pq s = Except.error err) :
    specQuantity pq (Expression.StringLiteral s p) = specQuantity pq Expression.nil := by
  simp only [specQuantity, h]

/-- The errors of PodgenPodExpression: those of the three fields, in the order cpu,
memory, gpu. -/
theorem PodgenPodExpression_field_errors (pq : String → Except String resource.Quantity)
    (c : PodGenerator) (CPU Memory GPU : Expression) :
    (c.PodgenPodExpression pq CPU Memory GPU).errors =
      c.errors ++ (emptyGenerator.ParseQuantity pq CPU).2.errors ++
        (emptyGenerator.ParseQuantity pq Memory).2.errors ++
        (emptyGenerator.ParseQuantity pq GPU).2.errors := by
  unfold PodGenerator.PodgenPodExpression
  simp only []
  rw [ParseQuantity_errors pq _ GPU, ParseQuantity_errors pq _ Memory,
    ParseQuantity_errors pq c CPU]

theorem mem_field_errors (pq : String → Except String resource.Quantity)
    (CPU Memory GPU : Expression) (position : lexer.Position) (a : Axis) (s : String)
    (p : lexer.Position) (err : String)
    (hf : a.get (CPU, Memory, GPU) = Expression.StringLiteral s p)
    (hq : pq s = Except.error err) :
    ({ Message := err, Pos := p } : Error) ∈
      (Podgen pq (Expression.PodExpression CPU Memory GPU position)).2 := by
  have h : (Podgen pq (Expression.PodExpression CPU Memory GPU position)).2 =
      (emptyGenerator.PodgenPodExpression pq CPU Memory GPU).errors := rfl
  rw [h, PodgenPodExpression_field_errors]
  have hm := ParseQuantity_malformed pq emptyGenerator s p err hq
  cases a with
  | cpu =>
    simp only [Axis.get] at hf
    rw [hf, hm]
    simp [emptyGenerator]
  | memory =>
    simp only [Axis.get] at hf
    rw [hf, hm]
    simp [emptyGenerator]
  | gpu =>
    simp only [Axis.get] at hf
    rw [hf, hm]
    simp [emptyGenerator]

theorem Podgen_pod (pq : String → Except String resource.Quantity)
    (CPU Memory GPU : Expression) (position : lexer.Position) :
    (Podgen pq (Expression.PodExpression CPU Memory GPU position)).1 =
      [{ APIVersion := "v1", Kind := "Pod", Name := "pod-0",
         Containers := [{ Name := "container", Image := "container",
                          Requests := (setRequest (setRequest (setRequest []
                            "cpu" (specQuantity pq CPU))
                            "memory" (specQuantity pq Memory))
                            "nvidia.com/gpu" (specQuantity pq GPU)) }] }] := by
  have h := (PodgenPodExpression_pods pq emptyGenerator CPU Memory GPU).1
  show (PodGenerator.PodgenExpression pq
    (Expression.PodExpression CPU Memory GPU position) emptyGenerator).pods = _
  rw [PodGenerator.PodgenExpression, h]
  rfl

/-- C12: for every PodExpression one of whose fields, that of the axis `a`, is a
StringLiteral whose text is not a valid quantity, Podgen records an error with the text
of the failure and the position of that literal, and still emits the unit: exactly one
unit with one container, whose request map has no entry for the axis `a` and is the
request map of the same pod with that field absent, so that the other axes are as they
would be without the malformed field. -/
theorem malformed_quantity (parseQuantity : String → Except String resource.Quantity)
    (CPU Memory GPU : Expression) (position : lexer.Position) (a : Axis) (s : String)
    (p : lexer.Position) (err : String)
    (hf : a.get (CPU, Memory, GPU) = Expression.StringLiteral s p)
    (hq : parseQuantity s = Except.error err) :
    ({ Message := err, Pos := p } : Error) ∈
      (Podgen parseQuantity (Expression.PodExpression CPU Memory GPU position)).2 ∧
    ∃ unit container,
      (Podgen parseQuantity (Expression.PodExpression CPU Memory GPU position)).1 = [unit] ∧
      unit.Containers = [container] ∧
      container.Requests.lookup (resourceName a) = none ∧
      (Podgen parseQuantity (Expression.PodExpression
        (a.assign Expression.nil (CPU, Memory, GPU)).1
        (a.assign Expression.nil (CPU, Memory, GPU)).2.1
        (a.assign Expression.nil (CPU, Memory, GPU)).2.2 position)).1 = [unit] := by
  refine ⟨mem_field_errors parseQuantity CPU Memory GPU position a s p err hf hq, ?_⟩
  have hs := specQuantity_malformed parseQuantity s p err hq
  have hl := requests_lookup (specQuantity parseQuantity CPU)
    (specQuantity parseQuantity Memory) (specQuantity parseQuantity GPU)
  refine ⟨_, _, Podgen_pod parseQuantity CPU Memory GPU position, rfl, ?_, ?_⟩
  · cases a with
    | cpu =>
      simp only [Axis.get] at hf
      rw [resourceName, hl.1, hf, hs]
      rfl
    | memory =>
      simp only [Axis.get] at hf
      rw [resourceName, hl.2.1, hf, hs]
      rfl
    | gpu =>
      simp only [Axis.get] at hf
      rw [resourceName, hl.2.2.1, hf, hs]
      rfl
  · rw [Podgen_pod]
    cases a with
    | cpu =>
      simp only [Axis.get] at hf
      simp only [Axis.assign, hf, hs]
    | memory =>
      simp only [Axis.get] at hf
      simp only [Axis.assign, hf, hs]
    | gpu =>
      simp only [Axis.get] at hf
      simp only [Axis.assign, hf, hs]

/-- C12 at the tree of `pod(cpu: 1, memory: "x")` with a parser of quantities that
accepts no string. -/
theorem malformed_quantity_witness :
    ({ Message := "bad", Pos := ⟨0, 20⟩ } : Error) ∈
      (Podgen (fun _ => Except.error "bad") (Expression.PodExpression
        (Expression.IntLiteral 1 ⟨0, 9⟩) (Expression.StringLiteral "x" ⟨0, 20⟩)
        Expression.nil ⟨0, 0⟩)).2 ∧
    ∃ unit container,
      (Podgen (fun _ => Except.error "bad") (Expression.PodExpression
        (Expression.IntLiteral 1 ⟨0, 9⟩) (Expression.StringLiteral "x" ⟨0, 20⟩)
        Expression.nil ⟨0, 0⟩)).1 = [unit] ∧
      unit.Containers = [container] ∧
      container.Requests.lookup (resourceName Axis.memory) = none ∧
      (Podgen (fun _ => Except.error "bad") (Expression.PodExpression
        (Axis.memory.assign Expression.nil (Expression.IntLiteral 1 ⟨0, 9⟩,
          Expression.StringLiteral "x" ⟨0, 20⟩, Expression.nil)).1
        (Axis.memory.assign Expression.nil (Expression.IntLiteral 1 ⟨0, 9⟩,
          Expression.StringLiteral "x" ⟨0, 20⟩, Expression.nil)).2.1
        (Axis.memory.assign Expression.nil (Expression.IntLiteral 1 ⟨0, 9⟩,
          Expression.StringLiteral "x" ⟨0, 20⟩, Expression.nil)).2.2 ⟨0, 0⟩)).1 = [unit] :=
  malformed_quantity (fun _ => Except.error "bad") _ _ _ _ Axis.memory "x" ⟨0, 20⟩ "bad"
    rfl rfl

end podgen

/-! ## The rounds of the search -/

namespace kubesurvival

open nodesource corev1

/-- The loop with the record of its rounds returns what `countLoop` returns. -/
theorem countLoopLog_fst (fl : ℚ → ℚ) (Simulate : List Pod → List AWSNode → Except String Bool)
    (pods : List Pod) (m : AWSNode) :
    ∀ (fuel : Nat) (res : Option Result) (c : Nat),
      (countLoopLog fl Simulate pods m fuel res c).map Prod.fst =
        countLoop fl Simulate pods m fuel res c := by
  intro fuel
  induction fuel with
  | zero => intro res c; rfl
  | succ fuel ih =>
    intro res c
    unfold countLoopLog countLoop
    by_cases ht : tooExpensive res (totalPricePerMonth fl c m) = true
    · simp [ht]
    · simp only [ht, Bool.false_eq_true, if_false]
      cases hsim : Simulate pods (List.replicate c m) with
      | error err => rfl
      | ok b =>
        cases b with
        | true => rfl
        | false =>
          simp only []
          rw [← ih res (nextNodeCount c)]
          cases countLoopLog fl Simulate pods m fuel res (nextNodeCount c) with
          | none => rfl
          | some r => rfl

theorem mainLoopLog_fst (fl : ℚ → ℚ) (Simulate : List Pod → List AWSNode → Except String Bool)
    (pods : List Pod) (fuel : Nat) :
    ∀ (nodeTypes : List AWSNode) (res : Option Result),
      (mainLoopLog fl Simulate pods fuel nodeTypes res).map Prod.fst =
        mainLoop fl Simulate pods fuel nodeTypes res := by
  intro nodeTypes
  induction nodeTypes with
  | nil => intro res; rfl
  | cons m ms ih =>
    intro res
    unfold mainLoopLog mainLoop
    rw [← countLoopLog_fst]
    cases h : countLoopLog fl Simulate pods m fuel res 2 with
    | none => rfl
    | some r =>
      obtain ⟨out, log⟩ := r
      cases out with
      | error err => rfl
      | ok res1 =>
        simp only [Option.map]
        rw [← ih res1]
        cases mainLoopLog fl Simulate pods fuel ms res1 with
        | none => rfl
        | some r1 => rfl

end kubesurvival

namespace kubesurvival

open nodesource corev1

theorem le_nextNodeCount (c : Nat) : c ≤ nextNodeCount c := by
  rw [nextNodeCount_eq]
  omega

/-- The rounds of the inner loop for one node type. -/
theorem countLoopLog_spec (fl : ℚ → ℚ) (Simulate : List Pod → List AWSNode → Except String Bool)
    (pods : List Pod) (m : AWSNode) :
    ∀ (fuel : Nat) (res : Option Result) (c : Nat) (out : Except String (Option Result))
      (log : List Attempt),
      countLoopLog fl Simulate pods m fuel res c = some (out, log) →
      (∀ a ∈ log, a.Faithful fl Simulate pods ∧ a.nodeType = m ∧ a.best = res ∧
        c ≤ a.nodeCount) ∧
      (∃ a rest, log = a :: rest ∧ a.nodeCount = c) ∧
      (∀ res1, out = Except.ok res1 →
        (∀ a ∈ log, a.verdict = Verdict.succeeded → res1 = (a.next fl)) ∧
        (res1 = res ∨ ∃ a ∈ log, a.verdict = Verdict.succeeded ∧ res1 = (a.next fl))) := by
  intro fuel
  induction fuel with
  | zero => intro res c out log h; simp [countLoopLog] at h
  | succ fuel ih =>
    intro res c out log h
    unfold countLoopLog at h
    by_cases ht : tooExpensive res (totalPricePerMonth fl c m) = true
    · simp only [ht, if_true, Option.some.injEq, Prod.mk.injEq] at h
      obtain ⟨h1, h2⟩ := h
      subst h1 h2
      refine ⟨?_, ⟨_, _, rfl, rfl⟩, ?_⟩
      · intro a ha
        simp only [List.mem_singleton] at ha
        subst ha
        exact ⟨by simp [Attempt.Faithful, Attempt.price, ht], rfl, rfl, le_refl _⟩
      · intro res1 h1
        simp only [Except.ok.injEq] at h1
        subst h1
        refine ⟨?_, Or.inl rfl⟩
        intro a ha hv
        simp only [List.mem_singleton] at ha
        subst ha
        cases hv
    · simp only [ht, Bool.false_eq_true, if_false] at h
      cases hsim : Simulate pods (List.replicate c m) with
      | error err =>
        rw [hsim] at h
        simp only [Option.some.injEq, Prod.mk.injEq] at h
        obtain ⟨h1, h2⟩ := h
        subst h1 h2
        refine ⟨?_, ⟨_, _, rfl, rfl⟩, ?_⟩
        · intro a ha
          simp only [List.mem_singleton] at ha
          subst ha
          exact ⟨by simp [Attempt.Faithful, Attempt.price, ht, hsim], rfl, rfl, le_refl _⟩
        · intro res1 h1
          cases h1
      | ok b =>
        cases b with
        | true =>
          rw [hsim] at h
          simp only [Option.some.injEq, Prod.mk.injEq] at h
          obtain ⟨h1, h2⟩ := h
          subst h1 h2
          refine ⟨?_, ⟨_, _, rfl, rfl⟩, ?_⟩
          · intro a ha
            simp only [List.mem_singleton] at ha
            subst ha
            exact ⟨by simp [Attempt.Faithful, Attempt.price, ht, hsim], rfl, rfl, le_refl _⟩
          · intro res1 h1
            simp only [Except.ok.injEq] at h1
            subst h1
            refine ⟨?_, Or.inr ⟨_, List.mem_singleton.mpr rfl, rfl, rfl⟩⟩
            intro a ha _
            simp only [List.mem_singleton] at ha
            subst ha
            rfl
        | false =>
          rw [hsim] at h
          simp only [] at h
          cases hrec : countLoopLog fl Simulate pods m fuel res (nextNodeCount c) with
          | none => rw [hrec] at h; simp at h
          | some r =>
            obtain ⟨out1, log1⟩ := r
            rw [hrec] at h
            simp only [Option.some.injEq, Prod.mk.injEq] at h
            obtain ⟨h1, h2⟩ := h
            subst h1 h2
            obtain ⟨i1, _, i3⟩ := ih _ _ _ _ hrec
            refine ⟨?_, ⟨_, _, rfl, rfl⟩, ?_⟩
            · intro a ha
              rcases List.mem_cons.mp ha with ha | ha
              · subst ha
                exact ⟨by simp [Attempt.Faithful, Attempt.price, ht, hsim], rfl, rfl,
                  le_refl _⟩
              · obtain ⟨j1, j2, j3, j4⟩ := i1 a ha
                exact ⟨j1, j2, j3, le_trans (le_nextNodeCount c) j4⟩
            · intro res1 h1
              obtain ⟨k1, k2⟩ := i3 res1 h1
              refine ⟨?_, ?_⟩
              · intro a ha hv
                rcases List.mem_cons.mp ha with ha | ha
                · subst ha
                  cases hv
                · exact k1 a ha hv
              · rcases k2 with k2 | ⟨a, ha, hv, hn⟩
                · exact Or.inl k2
                · exact Or.inr ⟨a, List.mem_cons_of_mem _ ha, hv, hn⟩

end kubesurvival

namespace kubesurvival

open nodesource corev1

theorem not_tooExpensive (r0 : Result) (x : ℚ) (h : ¬ tooExpensive (some r0) x = true) :
    x ≤ r0.TotalPricePerMonth := by
  simp only [tooExpensive, gt_iff_lt, decide_eq_true_eq, not_lt] at h
  exact h

theorem next_succeeded (fl : ℚ → ℚ) (a : Attempt) (h : a.verdict = Verdict.succeeded) :
    a.next fl = some (Result.mk a.nodeType.InstanceType a.nodeCount (a.price fl)) := by
  unfold Attempt.next
  rw [if_pos h]

/-- A round that succeeds is not more expensive than the best so far. -/
theorem succeeded_price (fl : ℚ → ℚ) (Simulate : List Pod → List AWSNode → Except String Bool)
    (pods : List Pod) (a : Attempt) (hf : a.Faithful fl Simulate pods)
    (hv : a.verdict = Verdict.succeeded) (r0 : Result) (hb : a.best = some r0) :
    (a.price fl) ≤ r0.TotalPricePerMonth := by
  apply not_tooExpensive
  rw [← hb]
  intro ht
  have := hf.1.mpr ht
  rw [hv] at this
  cases this

/-- The rounds of the whole search: every round is recorded as the code runs it, with a
node type of the list and at least two nodes; the emitted result is not more expensive
than any earlier value of the best so far nor than any fleet whose simulation succeeded,
and it is the initial value or the fleet of a round that succeeded. -/
theorem mainLoopLog_spec (fl : ℚ → ℚ) (Simulate : List Pod → List AWSNode → Except String Bool)
    (pods : List Pod) (fuel : Nat) :
    ∀ (nodeTypes : List AWSNode) (res : Option Result) (out : Except String (Option Result))
      (log : List Attempt),
      mainLoopLog fl Simulate pods fuel nodeTypes res = some (out, log) →
      (∀ a ∈ log, a.Faithful fl Simulate pods ∧ a.nodeType ∈ nodeTypes ∧ 2 ≤ a.nodeCount) ∧
      (∀ r, out = Except.ok (some r) →
        (∀ r0, res = some r0 → r.TotalPricePerMonth ≤ r0.TotalPricePerMonth) ∧
        (∀ a ∈ log,
          (∀ r0, a.best = some r0 → r.TotalPricePerMonth ≤ r0.TotalPricePerMonth) ∧
          (a.verdict = Verdict.succeeded → r.TotalPricePerMonth ≤ (a.price fl))) ∧
        (some r = res ∨ ∃ a ∈ log, a.verdict = Verdict.succeeded ∧ some r = (a.next fl))) := by
  intro nodeTypes
  induction nodeTypes with
  | nil =>
    intro res out log h
    simp only [mainLoopLog, Option.some.injEq, Prod.mk.injEq] at h
    obtain ⟨h1, h2⟩ := h
    subst h1 h2
    refine ⟨fun a ha => absurd ha (List.not_mem_nil a), fun r hr => ?_⟩
    simp only [Except.ok.injEq] at hr
    subst hr
    exact ⟨fun r0 h0 => by cases h0; exact le_refl _,
      fun a ha => absurd ha (List.not_mem_nil a), Or.inl rfl⟩
  | cons m ms ih =>
    intro res out log h
    unfold mainLoopLog at h
    cases hc : countLoopLog fl Simulate pods m fuel res 2 with
    | none => rw [hc] at h; simp at h
    | some c1 =>
      obtain ⟨out1, log1⟩ := c1
      obtain ⟨c1, _, c3⟩ := countLoopLog_spec fl Simulate pods m fuel res 2 out1 log1 hc
      rw [hc] at h
      cases out1 with
      | error err =>
        simp only [Option.some.injEq, Prod.mk.injEq] at h
        obtain ⟨h1, h2⟩ := h
        subst h1 h2
        refine ⟨fun a ha => ?_, fun r hr => by cases hr⟩
        obtain ⟨j1, j2, _, j4⟩ := c1 a ha
        exact ⟨j1, by rw [j2]; exact List.mem_cons_self _ _, j4⟩
      | ok res1 =>
        simp only [] at h
        cases hm : mainLoopLog fl Simulate pods fuel ms res1 with
        | none => rw [hm] at h; simp at h
        | some m1 =>
          obtain ⟨out2, log2⟩ := m1
          rw [hm] at h
          simp only [Option.some.injEq, Prod.mk.injEq] at h
          obtain ⟨h1, h2⟩ := h
          subst h1 h2
          obtain ⟨i1, i2⟩ := ih res1 out2 log2 hm
          obtain ⟨k1, k2⟩ := c3 res1 rfl
          refine ⟨fun a ha => ?_, fun r hr => ?_⟩
          · rcases List.mem_append.mp ha with ha | ha
            · obtain ⟨j1, j2, _, j4⟩ := c1 a ha
              exact ⟨j1, by rw [j2]; exact List.mem_cons_self _ _, j4⟩
            · obtain ⟨j1, j2, j3⟩ := i1 a ha
              exact ⟨j1, List.mem_cons_of_mem _ j2, j3⟩
          · obtain ⟨l1, l2, l3⟩ := i2 r hr
            have hres : ∀ r0, res = some r0 →
                r.TotalPricePerMonth ≤ r0.TotalPricePerMonth := by
              intro r0 h0
              rcases k2 with k2 | ⟨a, ha, hv, hn⟩
              · exact l1 r0 (by rw [k2, h0])
              · obtain ⟨j1, _, j3, _⟩ := c1 a ha
                have hp := succeeded_price fl Simulate pods a j1 hv r0 (by rw [j3, h0])
                rw [next_succeeded fl a hv] at hn
                exact le_trans (l1 _ hn) hp
            refine ⟨hres, fun a ha => ?_, ?_⟩
            · rcases List.mem_append.mp ha with ha | ha
              · obtain ⟨_, _, j3, _⟩ := c1 a ha
                refine ⟨fun r0 h0 => hres r0 (by rw [← j3, h0]), fun hv => ?_⟩
                have hn := k1 a ha hv
                rw [next_succeeded fl a hv] at hn
                exact l1 _ hn
              · exact l2 a ha
            · rcases l3 with l3 | ⟨a, ha, hv, hn⟩
              · rcases k2 with k2 | ⟨a, ha, hv, hn⟩
                · exact Or.inl (by rw [l3, k2])
                · exact Or.inr ⟨a, List.mem_append_left _ ha, hv, by rw [l3, hn]⟩
              · exact Or.inr ⟨a, List.mem_append_right _ ha, hv, hn⟩

end kubesurvival

/-! ## The best so far and the emitted result (C13, C14, C16, C17) -/

namespace kubesurvival

open nodesource corev1

theorem threads_append (fl : ℚ → ℚ) (log1 log2 : List Attempt) :
    ∀ (res mid final : Option Result), Threads fl res log1 mid → Threads fl mid log2 final →
      Threads fl res (log1 ++ log2) final := by
  induction log1 with
  | nil =>
    intro res mid final h1 h2
    simp only [Threads] at h1
    subst h1
    exact h2
  | cons a log1 ih =>
    intro res mid final h1 h2
    exact ⟨h1.1, ih _ _ _ h1.2 h2⟩

theorem next_of_not_succeeded (fl : ℚ → ℚ) (a : Attempt) (h : a.verdict ≠ Verdict.succeeded) :
    (a.next fl) = a.best := by
  unfold Attempt.next
  rw [if_neg h]

theorem countLoopLog_threads (fl : ℚ → ℚ) (Simulate : List Pod → List AWSNode → Except String Bool)
    (pods : List Pod) (m : AWSNode) :
    ∀ (fuel : Nat) (res : Option Result) (c : Nat) (final : Option Result)
      (log : List Attempt),
      countLoopLog fl Simulate pods m fuel res c = some (Except.ok final, log) →
      Threads fl res log final := by
  intro fuel
  induction fuel with
  | zero => intro res c final log h; simp [countLoopLog] at h
  | succ fuel ih =>
    intro res c final log h
    unfold countLoopLog at h
    by_cases ht : tooExpensive res (totalPricePerMonth fl c m) = true
    · simp only [ht, if_true, Option.some.injEq, Prod.mk.injEq, Except.ok.injEq] at h
      obtain ⟨h1, h2⟩ := h
      subst h1 h2
      exact ⟨rfl, rfl⟩
    · simp only [ht, Bool.false_eq_true, if_false] at h
      cases hsim : Simulate pods (List.replicate c m) with
      | error err =>
        rw [hsim] at h
        simp at h
      | ok b =>
        cases b with
        | true =>
          rw [hsim] at h
          simp only [Option.some.injEq, Prod.mk.injEq, Except.ok.injEq] at h
          obtain ⟨h1, h2⟩ := h
          subst h1 h2
          exact ⟨rfl, rfl⟩
        | false =>
          rw [hsim] at h
          simp only [] at h
          cases hrec : countLoopLog fl Simulate pods m fuel res (nextNodeCount c) with
          | none => rw [hrec] at h; simp at h
          | some r =>
            obtain ⟨out1, log1⟩ := r
            rw [hrec] at h
            simp only [Option.some.injEq, Prod.mk.injEq] at h
            obtain ⟨h1, h2⟩ := h
            subst h1 h2
            exact ⟨rfl, ih _ _ _ _ hrec⟩

theorem mainLoopLog_threads (fl : ℚ → ℚ) (Simulate : List Pod → List AWSNode → Except String Bool)
    (pods : List Pod) (fuel : Nat) :
    ∀ (nodeTypes : List AWSNode) (res final : Option Result) (log : List Attempt),
      mainLoopLog fl Simulate pods fuel nodeTypes res = some (Except.ok final, log) →
      Threads fl res log final := by
  intro nodeTypes
  induction nodeTypes with
  | nil =>
    intro res final log h
    simp only [mainLoopLog, Option.some.injEq, Prod.mk.injEq, Except.ok.injEq] at h
    obtain ⟨h1, h2⟩ := h
    subst h1 h2
    exact rfl
  | cons m ms ih =>
    intro res final log h
    unfold mainLoopLog at h
    cases hc : countLoopLog fl Simulate pods m fuel res 2 with
    | none => rw [hc] at h; simp at h
    | some c1 =>
      obtain ⟨out1, log1⟩ := c1
      rw [hc] at h
      cases out1 with
      | error err => simp at h
      | ok res1 =>
        simp only [] at h
        cases hm : mainLoopLog fl Simulate pods fuel ms res1 with
        | none => rw [hm] at h; simp at h
        | some m1 =>
          obtain ⟨out2, log2⟩ := m1
          rw [hm] at h
          simp only [Option.some.injEq, Prod.mk.injEq] at h
          obtain ⟨h1, h2⟩ := h
          subst h1 h2
          exact threads_append fl _ _ _ _ _ (countLoopLog_threads fl _ _ _ _ _ _ _ _ hc)
            (ih _ _ _ hm)

/-- C13, as stated, fails: with two node types at the same price and a simulator that
succeeds at 2 nodes, the second round replaces the best so far, the fleet of the first
node type, by the fleet of the second, whose monthly price is equal and not strictly
less.  The prices of this run are whole numbers below 2^53, on which the arithmetic of
float64 is exact: the rounding is the identity. -/
theorem replacement_at_equal_price :
    mainLoopLog id (succeedsFrom 2) [] 1 [dollarNode, dollarNode2] none =
      some (Except.ok (some (Result.mk "n" 2 1488)),
        [⟨dollarNode, 2, none, Verdict.succeeded⟩,
         ⟨dollarNode2, 2, some (Result.mk "m" 2 1488), Verdict.succeeded⟩]) ∧
    (Attempt.mk dollarNode2 2 (some (Result.mk "m" 2 1488)) Verdict.succeeded).next id ≠
      some (Result.mk "m" 2 1488) ∧
    ¬ (Attempt.mk dollarNode2 2 (some (Result.mk "m" 2 1488)) Verdict.succeeded).price id <
      1488 := by
  refine ⟨?_, ?_, ?_⟩
  · simp only [mainLoopLog, countLoopLog, tooExpensive, succeedsFrom, List.length_replicate]
    norm_num [totalPricePerMonth, AWSNode.GetHourlyPrice, dollarNode, dollarNode2]
  · simp [Attempt.next, dollarNode2, dollarNode]
  · norm_num [Attempt.price, totalPricePerMonth, AWSNode.GetHourlyPrice, dollarNode,
      dollarNode2]

/-- C13, amended: at every round of the search in main, the best so far changes only if
the simulation of the fleet of that round succeeded; it is then replaced by that fleet,
and the slot was empty or the monthly price of the fleet is less than or equal to that of
the current best (not strictly less: a fleet at an equal price replaces it).  The rounds
pass the best so far from one to the next, from the initial value to the final one.  The
monthly prices are those that main computes and compares, in float64: the product
`float64(count) * hourly * 24 * 31` with every operation rounded, for every rounding `fl`. -/
theorem replacement_only_if_not_dearer (fl : ℚ → ℚ)
    (Simulate : List Pod → List AWSNode → Except String Bool) (pods : List Pod)
    (fuel : Nat) (nodeTypes : List AWSNode) (res : Option Result)
    (out : Except String (Option Result)) (log : List Attempt)
    (hrun : mainLoopLog fl Simulate pods fuel nodeTypes res = some (out, log)) :
    (∀ a ∈ log,
      (a.next fl ≠ a.best → a.verdict = Verdict.succeeded) ∧
      (a.verdict = Verdict.succeeded →
        (a.next fl) = some (Result.mk a.nodeType.InstanceType a.nodeCount (a.price fl)) ∧
        (a.best = none ∨ ∃ r0, a.best = some r0 ∧ (a.price fl) ≤ r0.TotalPricePerMonth))) ∧
    (∀ final, out = Except.ok final → Threads fl res log final) := by
  obtain ⟨h1, _⟩ := mainLoopLog_spec fl Simulate pods fuel nodeTypes res out log hrun
  refine ⟨fun a ha => ⟨fun hne => ?_, fun hv => ⟨next_succeeded fl a hv, ?_⟩⟩,
    fun final hf => ?_⟩
  · by_contra hv
    exact hne (next_of_not_succeeded fl a hv)
  · cases hb : a.best with
    | none => exact Or.inl rfl
    | some r0 => exact Or.inr ⟨r0, rfl, succeeded_price fl Simulate pods a (h1 a ha).1 hv r0 hb⟩
  · subst hf
    exact mainLoopLog_threads fl Simulate pods fuel nodeTypes res final log hrun

/-- The amended C13 at the search with two node types at the same price. -/
theorem replacement_only_if_not_dearer_witness :
    (∀ a ∈ [Attempt.mk dollarNode 2 none Verdict.succeeded,
          ⟨dollarNode2, 2, some (Result.mk "m" 2 1488), Verdict.succeeded⟩],
      (a.next id ≠ a.best → a.verdict = Verdict.succeeded) ∧
      (a.verdict = Verdict.succeeded →
        (a.next id) = some (Result.mk a.nodeType.InstanceType a.nodeCount (a.price id)) ∧
        (a.best = none ∨ ∃ r0, a.best = some r0 ∧ (a.price id) ≤ r0.TotalPricePerMonth))) ∧
    (∀ final,
      Except.ok (some (Result.mk "n" 2 (1488 : ℚ))) = (Except.ok final : Except String _) →
      Threads id none [Attempt.mk dollarNode 2 none Verdict.succeeded,
          ⟨dollarNode2, 2, some (Result.mk "m" 2 1488), Verdict.succeeded⟩] final) :=
  replacement_only_if_not_dearer id (succeedsFrom 2) [] 1 [dollarNode, dollarNode2] none _ _
    (by
      simp only [mainLoopLog, countLoopLog, tooExpensive, succeedsFrom, List.length_replicate]
      norm_num [totalPricePerMonth, AWSNode.GetHourlyPrice, dollarNode, dollarNode2])

/-- C14, as stated, fails: with one node type at one dollar per hour and a simulator that
succeeds from 3 nodes on, the driver simulates the fleet of 2 nodes, rejects it because
the simulation fails, and emits the fleet of 3 nodes at 2232 dollars, which is not
cheaper than the rejected fleet of 2 nodes at 1488 dollars.  The prices of this run are
whole numbers below 2^53, on which the arithmetic of float64 is exact: the rounding is the
identity. -/
theorem result_dearer_than_failed_attempt :
    mainLoopLog id (succeedsFrom 3) [] 2 [dollarNode] none =
      some (Except.ok (some (Result.mk "m" 3 2232)),
        [⟨dollarNode, 2, none, Verdict.failed⟩, ⟨dollarNode, 3, none, Verdict.succeeded⟩]) ∧
    succeedsFrom 3 [] (List.replicate 2 dollarNode) = Except.ok false ∧
    ¬ (Result.mk "m" 3 2232).TotalPricePerMonth < totalPricePerMonth id 2 dollarNode := by
  refine ⟨?_, ?_, ?_⟩
  · simp only [mainLoopLog, countLoopLog, tooExpensive, nextNodeCount_eq, succeedsFrom,
      List.length_replicate]
    norm_num [totalPricePerMonth, AWSNode.GetHourlyPrice, dollarNode]
  · simp [succeedsFrom]
  · norm_num [totalPricePerMonth, AWSNode.GetHourlyPrice, dollarNode]

/-- C14, amended: whenever the search driver emits a result, the monthly price of the
result is strictly lower than that of every fleet that the driver rejected without
simulating it (the fleets at which it left the inner loop because they cost more than the
best so far), and not higher than that of every fleet whose simulation succeeded.  Nothing
of the kind holds for the fleets whose simulation failed.  The monthly prices are those
that main computes and compares, in float64: the product
`float64(count) * hourly * 24 * 31` with every operation rounded, for every rounding `fl`. -/
theorem result_below_pruned_fleets (fl : ℚ → ℚ)
    (Simulate : List Pod → List AWSNode → Except String Bool) (pods : List Pod)
    (fuel : Nat) (nodeTypes : List AWSNode) (r : Result) (log : List Attempt)
    (hemit :
      mainLoopLog fl Simulate pods fuel nodeTypes none = some (Except.ok (some r), log)) :
    ∀ a ∈ log,
      (a.verdict = Verdict.pruned → r.TotalPricePerMonth < (a.price fl)) ∧
      (a.verdict = Verdict.succeeded → r.TotalPricePerMonth ≤ (a.price fl)) := by
  obtain ⟨h1, h2⟩ := mainLoopLog_spec fl Simulate pods fuel nodeTypes none _ log hemit
  obtain ⟨_, h3, _⟩ := h2 r rfl
  intro a ha
  refine ⟨fun hv => ?_, (h3 a ha).2⟩
  have ht := (h1 a ha).1.1.mp hv
  cases hb : a.best with
  | none => rw [hb] at ht; simp [tooExpensive] at ht
  | some r0 =>
    rw [hb] at ht
    simp only [tooExpensive, gt_iff_lt, decide_eq_true_eq] at ht
    exact lt_of_le_of_lt ((h3 a ha).1 r0 hb) ht

/-- The amended C14 at the search with two node types, the second twice as expensive: its
fleet of 2 nodes is rejected without simulation, and the result is strictly cheaper. -/
theorem result_below_pruned_fleets_witness :
    ((Attempt.mk { dollarNode with OnDemandPrice := 2 } 2 (some (Result.mk "m" 2 1488))
        Verdict.pruned).verdict = Verdict.pruned →
      (Result.mk "m" 2 1488).TotalPricePerMonth <
        (Attempt.mk { dollarNode with OnDemandPrice := 2 } 2 (some (Result.mk "m" 2 1488))
          Verdict.pruned).price id) ∧
    ((Attempt.mk { dollarNode with OnDemandPrice := 2 } 2 (some (Result.mk "m" 2 1488))
        Verdict.pruned).verdict = Verdict.succeeded →
      (Result.mk "m" 2 1488).TotalPricePerMonth ≤
        (Attempt.mk { dollarNode with OnDemandPrice := 2 } 2 (some (Result.mk "m" 2 1488))
          Verdict.pruned).price id) :=
  result_below_pruned_fleets id (succeedsFrom 2) [] 1
    [dollarNode, { dollarNode with OnDemandPrice := 2 }] (Result.mk "m" 2 1488)
    [Attempt.mk dollarNode 2 none Verdict.succeeded,
      ⟨{ dollarNode with OnDemandPrice := 2 }, 2, some (Result.mk "m" 2 1488),
        Verdict.pruned⟩]
    (by
      simp only [mainLoopLog, countLoopLog, tooExpensive, succeedsFrom, List.length_replicate]
      norm_num [totalPricePerMonth, AWSNode.GetHourlyPrice, dollarNode])
    _ (List.mem_cons_of_mem _ (List.mem_singleton.mpr rfl))

/-- The rounds of the search, node type by node type: the rounds of each node type that
the search reaches start with the round for 2 nodes. -/
theorem mainLoopLog_segments (fl : ℚ → ℚ) (Simulate : List Pod → List AWSNode → Except String Bool)
    (pods : List Pod) (fuel : Nat) :
    ∀ (nodeTypes : List AWSNode) (res : Option Result) (out : Except String (Option Result))
      (log : List Attempt),
      mainLoopLog fl Simulate pods fuel nodeTypes res = some (out, log) →
      ∃ segments : List (List Attempt), log = segments.flatten ∧
        List.Forall₂ (fun m segment => ∃ a rest, segment = a :: rest ∧ a.nodeCount = 2 ∧
            ∀ b ∈ segment, b.nodeType = m)
          (nodeTypes.take segments.length) segments := by
  intro nodeTypes
  induction nodeTypes with
  | nil =>
    intro res out log h
    simp only [mainLoopLog, Option.some.injEq, Prod.mk.injEq] at h
    exact ⟨[], h.2.symm, List.Forall₂.nil⟩
  | cons m ms ih =>
    intro res out log h
    unfold mainLoopLog at h
    cases hc : countLoopLog fl Simulate pods m fuel res 2 with
    | none => rw [hc] at h; simp at h
    | some c1 =>
      obtain ⟨out1, log1⟩ := c1
      obtain ⟨c1, ⟨a, rest, c2, c3⟩, _⟩ := countLoopLog_spec fl Simulate pods m fuel res 2 out1 log1 hc
      have hseg : ∃ a rest, log1 = a :: rest ∧ a.nodeCount = 2 ∧ ∀ b ∈ log1, b.nodeType = m :=
        ⟨a, rest, c2, c3, fun b hb => (c1 b hb).2.1⟩
      rw [hc] at h
      cases out1 with
      | error err =>
        simp only [Option.some.injEq, Prod.mk.injEq] at h
        refine ⟨[log1], by simp [h.2.symm], ?_⟩
        exact List.Forall₂.cons hseg List.Forall₂.nil
      | ok res1 =>
        simp only [] at h
        cases hm : mainLoopLog fl Simulate pods fuel ms res1 with
        | none => rw [hm] at h; simp at h
        | some m1 =>
          obtain ⟨out2, log2⟩ := m1
          rw [hm] at h
          simp only [Option.some.injEq, Prod.mk.injEq] at h
          obtain ⟨segments, i1, i2⟩ := ih res1 out2 log2 hm
          refine ⟨log1 :: segments, by rw [← h.2, i1]; rfl, ?_⟩
          exact List.Forall₂.cons hseg i2

/-- C16: for every node type that the search reaches, the first node count that it
considers is 2 (the rounds of the search are those of the node types in the order of the
list, and the rounds of each node type start with the round for 2 nodes); every fleet that
the search considers has at least 2 nodes, and every result that it emits has a node
count of at least 2. -/
theorem no_single_node_fleet (fl : ℚ → ℚ)
    (Simulate : List Pod → List AWSNode → Except String Bool) (pods : List Pod)
    (fuel : Nat) (nodeTypes : List AWSNode) (out : Except String (Option Result))
    (log : List Attempt)
    (hrun : mainLoopLog fl Simulate pods fuel nodeTypes none = some (out, log)) :
    (∃ segments : List (List Attempt), log = segments.flatten ∧
      List.Forall₂ (fun m segment => ∃ a rest, segment = a :: rest ∧ a.nodeCount = 2 ∧
          ∀ b ∈ segment, b.nodeType = m)
        (nodeTypes.take segments.length) segments) ∧
    (∀ a ∈ log, 2 ≤ a.nodeCount) ∧
    (∀ r, out = Except.ok (some r) → 2 ≤ r.NodeCount) := by
  obtain ⟨h1, h2⟩ := mainLoopLog_spec fl Simulate pods fuel nodeTypes none out log hrun
  refine ⟨mainLoopLog_segments fl Simulate pods fuel nodeTypes none out log hrun,
    fun a ha => (h1 a ha).2.2, fun r hr => ?_⟩
  obtain ⟨_, _, h3⟩ := h2 r hr
  rcases h3 with h3 | ⟨a, ha, hv, hn⟩
  · cases h3
  · rw [next_succeeded fl a hv] at hn
    simp only [Option.some.injEq] at hn
    rw [hn]
    exact (h1 a ha).2.2

/-- C16 at the search with one node type and a simulator that succeeds from 3 nodes on. -/
theorem no_single_node_fleet_witness :
    (∃ segments : List (List Attempt),
      [Attempt.mk dollarNode 2 none Verdict.failed, ⟨dollarNode, 3, none, Verdict.succeeded⟩] =
        segments.flatten ∧
      List.Forall₂ (fun m segment => ∃ a rest, segment = a :: rest ∧ a.nodeCount = 2 ∧
          ∀ b ∈ segment, b.nodeType = m)
        ([dollarNode].take segments.length) segments) ∧
    (∀ a ∈ [Attempt.mk dollarNode 2 none Verdict.failed,
        ⟨dollarNode, 3, none, Verdict.succeeded⟩], 2 ≤ a.nodeCount) ∧
    (∀ r, (Except.ok (some (Result.mk "m" 3 2232)) : Except String _) = Except.ok (some r) →
      2 ≤ r.NodeCount) :=
  no_single_node_fleet id (succeedsFrom 3) [] 2 [dollarNode] _ _
    (by
      simp only [mainLoopLog, countLoopLog, tooExpensive, nextNodeCount_eq, succeedsFrom,
        List.length_replicate]
      norm_num [totalPricePerMonth, AWSNode.GetHourlyPrice, dollarNode])

end kubesurvival

/-! ## The monthly price (C17) and the termination of the search (C15) -/

namespace kubesurvival

open nodesource corev1

theorem roundCents_example : roundCents (142848 / 1000) = 14285 := by
  have h : Rat.floor ((142848 / 1000 : ℚ) * 100) = 14284 := by
    show ⌊((142848 / 1000 : ℚ) * 100)⌋ = 14284
    rw [Int.floor_eq_iff]
    norm_num
  have ht : Int.toNat 14284 = 14284 := rfl
  unfold roundCents
  simp only [h, ht]
  norm_num

theorem formatPrice_example : formatPrice (142848 / 1000) = "142.85" := by
  unfold formatPrice
  rw [roundCents_example]
  decide

/-- C17: every result that the search emits has
`TotalPricePerMonth = hourly price * NodeCount * 24 * 31` for a node type of the list with
the name of the result.  The product is the one that main computes,
`totalPricePerMonth fl NodeCount m`, for every rounding `fl` of its float64 operations; in
exact arithmetic, which is what the claim speaks of (`fl` leaves every number as it is), it
is the product of the four numbers.  For the catalog with m5.large at 0.096 dollars per
hour and a simulator that succeeds at 2 nodes the result in exact arithmetic is
(m5.large, 2, 142.848), which `%.2f` prints as 142.85. -/
theorem monthly_price (fl : ℚ → ℚ)
    (Simulate : List Pod → List AWSNode → Except String Bool) (pods : List Pod)
    (fuel : Nat) (nodeTypes : List AWSNode) (r : Result)
    (hemit : mainLoop fl Simulate pods fuel nodeTypes none = some (Except.ok (some r))) :
    (∃ m ∈ nodeTypes, r.InstanceType = m.InstanceType ∧
      r.TotalPricePerMonth = totalPricePerMonth fl r.NodeCount m ∧
      ((∀ x, fl x = x) →
        r.TotalPricePerMonth = m.GetHourlyPrice * (r.NodeCount : ℚ) * 24 * 31)) ∧
    (∀ (Simulate1 : List Pod → List AWSNode → Except String Bool) (pods1 : List Pod)
        (fuel1 : Nat),
      Simulate1 pods1 (List.replicate 2 m5large) = Except.ok true →
      mainLoop id Simulate1 pods1 (fuel1 + 1) [m5large] none =
        some (Except.ok (some (Result.mk "m5.large" 2 (142848 / 1000))))) ∧
    formatPrice (142848 / 1000) = "142.85" := by
  refine ⟨?_, ?_, formatPrice_example⟩
  · rw [← mainLoopLog_fst] at hemit
    cases hl : mainLoopLog fl Simulate pods fuel nodeTypes none with
    | none => rw [hl] at hemit; simp at hemit
    | some x =>
      obtain ⟨out, log⟩ := x
      rw [hl] at hemit
      simp only [Option.map, Option.some.injEq] at hemit
      subst hemit
      obtain ⟨h1, h2⟩ := mainLoopLog_spec fl Simulate pods fuel nodeTypes none _ log hl
      obtain ⟨_, _, h3⟩ := h2 r rfl
      rcases h3 with h3 | ⟨a, ha, hv, hn⟩
      · cases h3
      · rw [next_succeeded fl a hv] at hn
        simp only [Option.some.injEq] at hn
        refine ⟨a.nodeType, (h1 a ha).2.1, by rw [hn], by rw [hn]; rfl, fun hfl => ?_⟩
        rw [hn]
        simp only [Attempt.price, totalPricePerMonth, hfl]
        ring
  · intro Simulate1 pods1 fuel1 hs
    simp only [mainLoop, countLoop, tooExpensive, hs]
    norm_num [totalPricePerMonth, AWSNode.GetHourlyPrice, m5large]

/-- C17 at the search in exact arithmetic with one node type at one dollar per hour and a
simulator that succeeds from 3 nodes on. -/
theorem monthly_price_witness :
    (∃ m ∈ [dollarNode], (Result.mk "m" 3 2232).InstanceType = m.InstanceType ∧
      (Result.mk "m" 3 2232).TotalPricePerMonth =
        totalPricePerMonth id (Result.mk "m" 3 2232).NodeCount m ∧
      ((∀ x : ℚ, id x = x) →
        (Result.mk "m" 3 2232).TotalPricePerMonth =
          m.GetHourlyPrice * ((Result.mk "m" 3 2232).NodeCount : ℚ) * 24 * 31)) ∧
    (∀ (Simulate1 : List Pod → List AWSNode → Except String Bool) (pods1 : List Pod)
        (fuel1 : Nat),
      Simulate1 pods1 (List.replicate 2 m5large) = Except.ok true →
      mainLoop id Simulate1 pods1 (fuel1 + 1) [m5large] none =
        some (Except.ok (some (Result.mk "m5.large" 2 (142848 / 1000))))) ∧
    formatPrice (142848 / 1000) = "142.85" :=
  monthly_price id (succeedsFrom 3) [] 2 [dollarNode] (Result.mk "m" 3 2232)
    (by
      simp only [mainLoop, countLoop, tooExpensive, nextNodeCount_eq, succeedsFrom,
        List.length_replicate]
      norm_num [totalPricePerMonth, AWSNode.GetHourlyPrice, dollarNode])

theorem countLoop_neverSucceeds (fl : ℚ → ℚ) (pods : List Pod) (m : AWSNode) :
    ∀ (fuel c : Nat), countLoop fl neverSucceeds pods m fuel none c = none := by
  intro fuel
  induction fuel with
  | zero => intro c; rfl
  | succ fuel ih =>
    intro c
    unfold countLoop
    simp only [tooExpensive, Bool.false_eq_true, if_false, neverSucceeds]
    exact ih _

/-- With an empty slot the inner loop ends only with a fleet or with an error of the
simulator. -/
theorem countLoop_none (fl : ℚ → ℚ) (Simulate : List Pod → List AWSNode → Except String Bool)
    (pods : List Pod) (m : AWSNode) :
    ∀ (fuel c : Nat), countLoop fl Simulate pods m fuel none c ≠ some (Except.ok none) := by
  intro fuel
  induction fuel with
  | zero => intro c h; simp [countLoop] at h
  | succ fuel ih =>
    intro c h
    unfold countLoop at h
    simp only [tooExpensive, Bool.false_eq_true, if_false] at h
    cases hsim : Simulate pods (List.replicate c m) with
    | error err => rw [hsim] at h; simp at h
    | ok b =>
      cases b with
      | true => rw [hsim] at h; simp at h
      | false =>
        rw [hsim] at h
        exact ih _ h

theorem mainLoop_some (fl : ℚ → ℚ) (Simulate : List Pod → List AWSNode → Except String Bool)
    (pods : List Pod) (fuel : Nat) :
    ∀ (nodeTypes : List AWSNode) (r : Result),
      mainLoop fl Simulate pods fuel nodeTypes (some r) ≠ some (Except.ok none) := by
  intro nodeTypes
  induction nodeTypes with
  | nil => intro r h; simp [mainLoop] at h
  | cons m ms ih =>
    intro r h
    unfold mainLoop at h
    cases hc : countLoop fl Simulate pods m fuel (some r) 2 with
    | none => rw [hc] at h; simp at h
    | some x =>
      rw [hc] at h
      cases x with
      | error err => simp at h
      | ok res1 =>
        simp only [] at h
        cases res1 with
        | none =>
          rw [← countLoopLog_fst] at hc
          cases hl : countLoopLog fl Simulate pods m fuel (some r) 2 with
          | none => rw [hl] at hc; simp at hc
          | some y =>
            obtain ⟨out, log⟩ := y
            rw [hl] at hc
            simp only [Option.map, Option.some.injEq] at hc
            subst hc
            obtain ⟨_, _, h3⟩ := countLoopLog_spec fl Simulate pods m fuel (some r) 2 _ log hl
            rcases (h3 none rfl).2 with h4 | ⟨a, _, hv, hn⟩
            · cases h4
            · rw [next_succeeded fl a hv] at hn
              cases hn
        | some r1 => exact ih r1 h

/-- C15 at the failing input, a simulator that reports failure for every fleet, with any
non-empty list of node types: whatever the fuel, the model of the search loop does not
return, since with an empty slot only a success (or an error) of the simulator ends the
inner loop `for` of the first node type, and the node count grows for ever.  For no
simulator does the search over a non-empty list end with an empty slot: the
could-not-converge signal is never given. -/
theorem search_does_not_terminate (fl : ℚ → ℚ) (pods : List Pod) (m : AWSNode)
    (ms : List AWSNode) :
    (∀ fuel, mainLoop fl neverSucceeds pods fuel (m :: ms) none = none) ∧
    (∀ (Simulate : List Pod → List AWSNode → Except String Bool) (fuel : Nat),
      mainLoop fl Simulate pods fuel (m :: ms) none ≠ some (Except.ok none)) := by
  refine ⟨fun fuel => ?_, fun Simulate fuel h => ?_⟩
  · unfold mainLoop
    rw [countLoop_neverSucceeds]
  · unfold mainLoop at h
    cases hc : countLoop fl Simulate pods m fuel none 2 with
    | none => rw [hc] at h; simp at h
    | some x =>
      rw [hc] at h
      cases x with
      | error err => simp at h
      | ok res1 =>
        simp only [] at h
        cases res1 with
        | none => exact countLoop_none fl Simulate pods m fuel 2 hc
        | some r1 => exact mainLoop_some fl Simulate pods fuel ms r1 h

end kubesurvival

/-! ## Texts of whitespace only -/

namespace lexer

theorem whitespace_facts (ch : Char) (h : isWhitespace ch = true) :
    ch ≠ eof ∧ ch ≠ '#' := by
  simp only [isWhitespace, Bool.or_eq_true, beq_iff_eq] at h
  rcases h with ((h | h) | h) | h <;> subst h <;> exact ⟨by decide, by decide⟩

theorem eof_facts : isWhitespace eof = false ∧ eof ≠ '#' ∧ isLetter eof = false ∧
    isDigit eof = false := by
  decide

theorem read_of_empty_buffer (s : Scanner) (h : s.bufferSize = 0) :
    (s.read).1.1 = (readRune s.Reader).1 ∧ (s.read).2.Reader = (readRune s.Reader).2 ∧
    (s.read).2.bufferSize = 0 := by
  unfold Scanner.read
  rw [if_neg (by omega)]
  refine ⟨?_, rfl, h⟩
  simp only [Scanner.curr]
  split <;> rfl

theorem readRune_whitespace (l : List Char) (h : l.all isWhitespace = true) :
    (readRune l).2.all isWhitespace = true ∧ (readRune l).2.length ≤ l.length - 1 ∧
    (l ≠ [] → isWhitespace (readRune l).1 = true) ∧ (l = [] → (readRune l).1 = eof) := by
  cases l with
  | nil => exact ⟨rfl, le_refl _, fun h0 => absurd rfl h0, fun _ => rfl⟩
  | cons ch rest =>
    simp only [List.all_cons, Bool.and_eq_true] at h
    obtain ⟨h1, h2⟩ := h
    unfold readRune
    by_cases hr : ch = '\r'
    · simp only [hr, if_true]
      cases rest with
      | nil => exact ⟨rfl, by simp, fun _ => by decide, fun h0 => by cases h0⟩
      | cons ch2 rest2 =>
        simp only [List.all_cons, Bool.and_eq_true] at h2
        by_cases hn : ch2 = '\n'
        · simp only [hn, ne_eq, not_true_eq_false, if_false]
          exact ⟨h2.2, by simp, fun _ => by decide, fun h0 => by cases h0⟩
        · simp only [hn, ne_eq, not_false_eq_true, if_true]
          refine ⟨?_, by simp, fun _ => by decide, fun h0 => by cases h0⟩
          simp only [List.all_cons, Bool.and_eq_true]
          exact h2
    · simp only [hr, if_false]
      exact ⟨h2, by simp, fun _ => h1, fun h0 => by cases h0⟩

theorem scanWhitespace_all (fuel : Nat) :
    ∀ s : Scanner, s.bufferSize = 0 → s.Reader.all isWhitespace = true →
      s.Reader.length < fuel →
      (Scanner.scanWhitespace fuel s).bufferSize = 0 ∧
      (Scanner.scanWhitespace fuel s).Reader = [] := by
  induction fuel with
  | zero => intro s _ _ h; omega
  | succ fuel ih =>
    intro s hb hw hl
    obtain ⟨r1, r2, r3⟩ := read_of_empty_buffer s hb
    obtain ⟨w1, w2, w3, w4⟩ := readRune_whitespace s.Reader hw
    unfold Scanner.scanWhitespace
    simp only []
    by_cases he : s.Reader = []
    · have h1 : (s.read).1.1 = eof := by rw [r1]; exact w4 he
      rw [if_pos h1]
      refine ⟨r3, ?_⟩
      rw [r2, he]
      rfl
    · have h1 : isWhitespace (s.read).1.1 = true := by rw [r1]; exact w3 he
      rw [if_neg (whitespace_facts _ h1).1]
      simp only [h1, Bool.not_true, Bool.false_eq_true, if_false]
      have hpos : 0 < s.Reader.length := List.length_pos.mpr he
      exact ih _ r3 (by rw [r2]; exact w1) (by rw [r2]; omega)

theorem scanLoop_eof (fuel inner : Nat) (pos : Position) (s : Scanner) :
    Scanner.scanLoop (fuel + 1) inner eof pos s = (⟨TokenType.EOF, "EOF", pos⟩, s) := by
  unfold Scanner.scanLoop
  rw [if_neg eof_facts.2.1]
  simp only [eof_facts.1, Bool.false_eq_true, if_false]
  unfold Scanner.scanToken
  simp only [eof_facts.2.2.1, eof_facts.2.2.2, Bool.false_eq_true, if_false, if_true]

/-- The first token of a text of whitespace only, the empty text included, is the end of
input, with the lexeme "EOF". -/
theorem Scan_whitespace (l : List Char) (h : l.all isWhitespace = true) :
    ∃ pos, ((NewScanner l).Scan).1 = ⟨TokenType.EOF, "EOF", pos⟩ := by
  have hb : (NewScanner l).bufferSize = 0 := rfl
  obtain ⟨r1, r2, r3⟩ := read_of_empty_buffer (NewScanner l) hb
  obtain ⟨w1, w2, w3, w4⟩ := readRune_whitespace l h
  have hR : (NewScanner l).Reader = l := rfl
  rw [hR] at r1 r2
  unfold Scanner.Scan
  simp only [hR, hb, Nat.add_zero]
  by_cases he : l = []
  · rw [r1, w4 he]
    exact ⟨_, by rw [scanLoop_eof]⟩
  · have h1 : isWhitespace ((NewScanner l).read).1.1 = true := by rw [r1]; exact w3 he
    have hpos : 0 < l.length := List.length_pos.mpr he
    obtain ⟨a1, a2⟩ := scanWhitespace_all (l.length + 2) ((NewScanner l).read).2 r3
      (by rw [r2]; exact w1) (by rw [r2]; omega)
    obtain ⟨b1, _, _⟩ := read_of_empty_buffer _ a1
    rw [a2] at b1
    rw [Scanner.scanLoop, if_neg (whitespace_facts _ h1).2]
    simp only [h1, if_true]
    rw [b1]
    exact ⟨_, by rw [show (readRune []).1 = eof from rfl, scanLoop_eof]⟩

end lexer

/-! ## Runs of the parser whatever the values of the integer literals -/

namespace parser

open lexer

theorem clean_iterate (n : Nat) :
    ∀ p : Parser, (Parser.advance^[n] p).clean = Parser.advance^[n] p.clean := by
  induction n with
  | zero => intro p; rfl
  | succ n ih =>
    intro p
    rw [iterate_advance_head, iterate_advance_head, ih, clean_advance]

theorem sees_of_clean_eq (q r : Parser) (ts : List Symbol) (h : q.clean = r.clean)
    (hs : r.Sees ts) : q.Sees ts := by
  unfold Parser.Sees at hs ⊢
  refine Eq.trans ?_ hs
  have h1 : q.clean.lookahead = r.clean.lookahead := by rw [h]
  have h2 : q.clean.scanner = r.clean.scanner := by rw [h]
  exact upcoming_congr _ q r h1 h2

theorem lookahead_of_clean_eq (q r : Parser) (h : q.clean = r.clean) :
    q.lookahead = r.lookahead := by
  have h1 : q.clean.lookahead = r.clean.lookahead := by rw [h]
  exact h1

theorem advance_clean_eq (q r : Parser) (h : q.clean = r.clean) :
    q.advance.clean = r.advance.clean := by
  rw [clean_advance, clean_advance, h]

theorem iterate_clean_eq (n : Nat) (q r : Parser) (h : q.clean = r.clean) :
    (Parser.advance^[n] q).clean = (Parser.advance^[n] r).clean := by
  rw [clean_iterate, clean_iterate, h]

theorem ite_clean (c : Prop) [Decidable c] (p : Parser) (e : ParseError) :
    (if c then p.addError e else p).clean = p.clean := by
  split
  · exact clean_addError p e
  · rfl

theorem ParseInteger_clean (p : Parser) (h : p.lookahead.TokenType = TokenType.INTEGER) :
    (p.ParseInteger).2.clean = p.advance.clean := by
  unfold Parser.ParseInteger
  simp only [match_of_type p _ h, Bool.not_true, Bool.false_eq_true, if_false]
  exact ite_clean _ _ _

theorem ParseString_clean (p : Parser) (h : p.lookahead.TokenType = TokenType.STRING) :
    (p.ParseString).2.clean = p.advance.clean := by
  unfold Parser.ParseString
  simp only [match_of_type p _ h, Bool.not_true, Bool.false_eq_true, if_false]

theorem literal_type (l : Literal) (t : Token) (h : symbol t = l.symbol) :
    t.TokenType = TokenType.STRING ∨ t.TokenType = TokenType.INTEGER := by
  cases l with
  | integer d => exact Or.inr (symbol_integer h).1
  | string c => exact Or.inl (symbol_string h).1

theorem ParseStringOrInteger_clean (p : Parser)
    (h : p.lookahead.TokenType = TokenType.STRING ∨
      p.lookahead.TokenType = TokenType.INTEGER) :
    (p.ParseStringOrInteger).2.clean = p.advance.clean := by
  unfold Parser.ParseStringOrInteger
  rcases h with h | h
  · rw [if_pos h]
    exact ParseString_clean p h
  · rw [if_neg (by rw [h]; decide), if_pos h]
    exact ParseInteger_clean p h

theorem parseField_clean (p : Parser) (l : Literal)
    (h : p.Sees [Symbol.token TokenType.COLON, l.symbol]) :
    (p.parseField).2.clean = p.advance.advance.clean := by
  rw [sees_cons, sees_cons] at h
  obtain ⟨h1, h2, _⟩ := h
  unfold Parser.parseField
  simp only [match_of_symbol p _ h1, Bool.not_true, Bool.false_eq_true, if_false]
  exact ParseStringOrInteger_clean _ (literal_type l _ h2)

/-- The loop of ParsePod on a list of fields, whatever their values: it ends after the
closing parenthesis. -/
theorem parsePodLoop_reads (fs : List (Axis × Literal)) :
    fs ≠ [] → ∀ (p : Parser) (pos : Position) (cpu memory gpu : Expression),
      p.Sees (fieldSymbols fs ++ [Symbol.token TokenType.RPAREN]) →
      ∃ fuel e q, Parser.parsePodLoop fuel cpu memory gpu pos p = some (e, q) ∧
        q.clean = (Parser.advance^[(fieldSymbols fs).length + 1] p).clean := by
  induction fs with
  | nil => intro h; exact absurd rfl h
  | cons x fs ih =>
    intro _ p pos cpu memory gpu hs
    cases fs with
    | nil =>
      simp only [fieldSymbols, List.cons_append, List.nil_append, sees_cons] at hs
      obtain ⟨h1, h2, h3, h4, _⟩ := hs
      have hf := parseField_clean p.advance x.2
        (by simp only [sees_cons]; exact ⟨h2, h3, sees_nil _⟩)
      have hl : (p.advance.parseField).2.lookahead.TokenType = TokenType.RPAREN := by
        rw [lookahead_of_clean_eq _ _ hf]
        exact symbol_token h4
      have hrun : Parser.parsePodLoop 1 cpu memory gpu pos p =
          some (Expression.PodExpression
            (x.1.assign (p.advance.parseField).1 (cpu, memory, gpu)).1
            (x.1.assign (p.advance.parseField).1 (cpu, memory, gpu)).2.1
            (x.1.assign (p.advance.parseField).1 (cpu, memory, gpu)).2.2 pos,
            (p.advance.parseField).2.advance) := by
        rw [parsePodLoop_step 0 x.1 p (symbol_token h1), match_of_symbol p _ h1]
        simp only [Parser.afterField, hl, if_true, match_of_type _ _ hl]
      exact ⟨1, _, _, hrun, advance_clean_eq _ _ hf⟩
    | cons y fs =>
      simp only [fieldSymbols, List.cons_append, List.nil_append, sees_cons] at hs
      obtain ⟨h1, h2, h3, h4, h5⟩ := hs
      have hf := parseField_clean p.advance x.2
        (by simp only [sees_cons]; exact ⟨h2, h3, sees_nil _⟩)
      have hl : (p.advance.parseField).2.lookahead.TokenType = TokenType.COMMA := by
        rw [lookahead_of_clean_eq _ _ hf]
        exact symbol_token h4
      have hc := advance_clean_eq _ _ hf
      obtain ⟨fuel, e, q, hrun, hq⟩ := ih (by simp) (p.advance.parseField).2.advance pos
        (x.1.assign (p.advance.parseField).1 (cpu, memory, gpu)).1
        (x.1.assign (p.advance.parseField).1 (cpu, memory, gpu)).2.1
        (x.1.assign (p.advance.parseField).1 (cpu, memory, gpu)).2.2
        (sees_of_clean_eq _ _ _ hc h5)
      refine ⟨fuel + 1, e, q, ?_, ?_⟩
      · rw [parsePodLoop_step fuel x.1 p (symbol_token h1), match_of_symbol p _ h1]
        simp only [Parser.afterField, hl, match_of_type _ _ hl]
        rw [if_neg (by decide)]
        simp only [if_true]
        exact hrun
      · rw [hq, iterate_clean_eq _ _ _ hc]
        simp only [fieldSymbols, List.cons_append, List.nil_append, List.length_cons]
        rfl

/-- ParsePod on a pod literal with at least one field, whatever the values of its fields:
it ends after the closing parenthesis. -/
theorem ParsePod_reads (fs : List (Axis × Literal)) (hne : fs ≠ []) (p : Parser)
    (hs : p.Sees (podSymbols fs)) :
    ∃ fuel e q, Parser.ParsePod fuel p = some (e, q) ∧
      q.clean = (Parser.advance^[(podSymbols fs).length] p).clean := by
  unfold podSymbols at hs
  simp only [List.cons_append, List.nil_append, sees_cons] at hs
  obtain ⟨h1, h2, h3⟩ := hs
  obtain ⟨fuel, e, q, hrun, hq⟩ := parsePodLoop_reads fs hne p.advance.advance
    p.lookahead.Position Expression.nil Expression.nil Expression.nil h3
  refine ⟨fuel, e, q, ?_, ?_⟩
  · unfold Parser.ParsePod
    simp only [match_of_symbol p _ h1, match_of_symbol p.advance _ h2, Bool.not_true,
      Bool.false_eq_true, if_false]
    exact hrun
  · rw [hq]
    simp only [podSymbols, List.cons_append, List.nil_append, List.length_cons,
      List.length_append, List.length_nil]
    rfl

end parser

/-! ## The empty input (C20) -/

namespace parser

open lexer

theorem addError_first (p : Parser) (e : ParseError) (h : p.Errors = []) :
    (p.addError e).Errors = [e] := by
  unfold Parser.addError
  rw [h]
  rfl

/-- Parse of a text whose first token is the end of input: no tree, and the one error of
ParseFactor. -/
theorem Parse_of_eof (s : String)
    (h : (NewParser (NewScanner s.data)).lookahead.TokenType = TokenType.EOF) :
    Parse s = some (Expression.nil,
      [newParseError (NewParser (NewScanner s.data)).lookahead.Lexeme ["(", "pod"]
        (NewParser (NewScanner s.data)).lookahead.Position]) := by
  have hF : Parser.ParseFactor 1 (NewParser (NewScanner s.data)) =
      some (Expression.nil, (NewParser (NewScanner s.data)).addError
        (newParseError (NewParser (NewScanner s.data)).lookahead.Lexeme ["(", "pod"]
          (NewParser (NewScanner s.data)).lookahead.Position)) := by
    rw [Parser.ParseFactor, if_neg (by rw [h]; decide), if_neg (by rw [h]; decide)]
  have hT := ParseTerm_factor 1 _ _ _ (by rw [h]; decide) hF
  rw [parseTermLoop_exit 0 _ _ _ (by rw [addError_lookahead, h]; decide)] at hT
  have hE := ParseExpression_term 2 _ _ _ hT
  rw [parseExpressionLoop_exit 1 _ _ (by rw [addError_lookahead, h]; decide)] at hE
  rw [Parse_of_run s 3 _ _ hE, addError_first _ _ rfl]

end parser

namespace kubesurvival

open parser lexer

/-- C20: for the empty text and for every text that consists of whitespace only, Parse
returns no tree (nil) and exactly one error, with the found lexeme "EOF" and the
expected set ["(", "pod"]; main then returns with the errors of the parser, so that the
materializer and the search do not run. -/
theorem empty_input (parseQuantity : String → Except String resource.Quantity) (s : String)
    (h : s.data.all isWhitespace = true) :
    ∃ pos, Parse s = some (Expression.nil,
        [{ Message := "", Found := "EOF", Expected := ["(", "pod"], Pos := pos }]) ∧
      frontEnd parseQuantity s = some (Except.error (Stopped.parseErrors
        [{ Message := "", Found := "EOF", Expected := ["(", "pod"], Pos := pos }])) := by
  obtain ⟨pos, hpos⟩ := Scan_whitespace s.data h
  have hl : (NewParser (NewScanner s.data)).lookahead = ⟨TokenType.EOF, "EOF", pos⟩ := hpos
  have hp := Parse_of_eof s (by rw [hl])
  rw [hl] at hp
  refine ⟨pos, hp, ?_⟩
  unfold frontEnd
  rw [hp]
  rfl

/-- C20 at the empty text and at a text of two blanks. -/
theorem empty_input_witness :
    (∃ pos, Parse "" = some (Expression.nil,
        [{ Message := "", Found := "EOF", Expected := ["(", "pod"], Pos := pos }]) ∧
      frontEnd (fun _ => Except.error "") "" = some (Except.error (Stopped.parseErrors
        [{ Message := "", Found := "EOF", Expected := ["(", "pod"], Pos := pos }]))) ∧
    (∃ pos, Parse "  " = some (Expression.nil,
        [{ Message := "", Found := "EOF", Expected := ["(", "pod"], Pos := pos }]) ∧
      frontEnd (fun _ => Except.error "") "  " = some (Except.error (Stopped.parseErrors
        [{ Message := "", Found := "EOF", Expected := ["(", "pod"], Pos := pos }]))) :=
  ⟨empty_input _ "" (by decide), empty_input _ "  " (by decide)⟩

end kubesurvival

/-! ## The type-shape rule of products (C18) -/

namespace parser

open lexer

theorem ParseTerm_integer_any (fuel : Nat) (p : Parser)
    (h : p.lookahead.TokenType = TokenType.INTEGER)
    (h1 : (p.ParseInteger).2.lookahead.TokenType = TokenType.MUL) :
    Parser.ParseTerm (fuel + 1) p =
      Parser.parseTermLoop fuel true (p.ParseInteger).1 (p.ParseInteger).2 := by
  rw [Parser.ParseTerm, if_pos h]
  simp only [h1, ne_eq, not_true_eq_false, if_false]

theorem parseTermLoop_integer_any (fuel : Nat) (result : Expression) (p : Parser)
    (h : p.lookahead.TokenType = TokenType.MUL) :
    Parser.parseTermLoop (fuel + 1) false result p =
      Parser.parseTermLoop fuel false
        (Expression.ArithmeticExpression result Operator.Multiply (p.advance.ParseInteger).1
          p.lookahead.Position) (p.advance.ParseInteger).2 := by
  rw [Parser.parseTermLoop, if_pos h]
  simp only [Bool.false_eq_true, if_false, match_of_type p _ h]

theorem ParseInteger_fail (p : Parser) (h : p.lookahead.TokenType ≠ TokenType.INTEGER) :
    (p.ParseInteger).2.Errors ≠ [] ∧ (p.ParseInteger).2.lookahead = p.lookahead := by
  have hm : p.match_ [TokenType.INTEGER] = ((p.lookahead, false), p) := by
    rw [match_single, if_neg (fun h1 => h h1.symm)]
  unfold Parser.ParseInteger
  simp only [hm, Bool.not_false, if_true]
  split
  · exact ⟨addError_ne_nil _ _, by rw [addError_lookahead, addError_lookahead]⟩
  · exact ⟨addError_ne_nil _ _, addError_lookahead _ _⟩

theorem ParseFactor_fail (fuel : Nat) (p : Parser)
    (h1 : p.lookahead.TokenType ≠ TokenType.LPAREN)
    (h2 : p.lookahead.TokenType ≠ TokenType.POD) :
    Parser.ParseFactor (fuel + 1) p = some (Expression.nil,
      p.addError (newParseError p.lookahead.Lexeme ["(", "pod"] p.lookahead.Position)) := by
  rw [Parser.ParseFactor, if_neg h1, if_neg h2]

theorem run_integer_times_integer (p0 : Parser) (m n : String)
    (h1 : symbol p0.lookahead = Symbol.integer m)
    (h2 : symbol p0.advance.lookahead = Symbol.token TokenType.MUL)
    (h3 : symbol p0.advance.advance.lookahead = Symbol.integer n) :
    ∃ e q, Parser.ParseExpression 4 p0 = some (e, q) ∧ q.Errors ≠ [] := by
  have t1 := (symbol_integer h1).1
  have c1 := ParseInteger_clean p0 t1
  have hT := ParseTerm_integer_any 2 p0 t1
  generalize p0.ParseInteger = r at c1 hT
  obtain ⟨e1, q1⟩ := r
  simp only [] at c1 hT
  have l1 : q1.lookahead.TokenType = TokenType.MUL := by
    rw [lookahead_of_clean_eq _ _ c1]
    exact symbol_token h2
  have l2 : q1.advance.lookahead.TokenType = TokenType.INTEGER := by
    rw [lookahead_of_clean_eq _ _ (advance_clean_eq _ _ c1)]
    exact (symbol_integer h3).1
  have n1 : q1.advance.lookahead.TokenType ≠ TokenType.LPAREN := by rw [l2]; decide
  have n2 : q1.advance.lookahead.TokenType ≠ TokenType.POD := by rw [l2]; decide
  have hF := ParseFactor_fail 0 q1.advance n1 n2
  have hne := addError_ne_nil q1.advance (newParseError q1.advance.lookahead.Lexeme
    ["(", "pod"] q1.advance.lookahead.Position)
  have hla := addError_lookahead q1.advance (newParseError q1.advance.lookahead.Lexeme
    ["(", "pod"] q1.advance.lookahead.Position)
  generalize q1.advance.addError (newParseError q1.advance.lookahead.Lexeme ["(", "pod"]
    q1.advance.lookahead.Position) = q2 at hF hne hla
  have n3 : q2.lookahead.TokenType ≠ TokenType.MUL := by rw [hla, l2]; decide
  have n4 : q2.lookahead.TokenType ≠ TokenType.ADD := by rw [hla, l2]; decide
  have hL := parseTermLoop_factor 1 e1 Expression.nil q1 q2 l1 hF
  rw [parseTermLoop_exit 0 true _ q2 n3] at hL
  have hT1 : Parser.ParseTerm 3 p0 = some (Expression.ArithmeticExpression e1
      Operator.Multiply Expression.nil q1.lookahead.Position, q2) := (hT l1).trans hL
  have hE := ParseExpression_term 3 _ p0 q2 hT1
  rw [parseExpressionLoop_exit 2 _ q2 n4] at hE
  exact ⟨_, q2, hE, hne⟩

/-- A product of two integer literals: ParseFactor finds the second integer where it
needs a factor. -/
theorem Parse_integer_times_integer (s m n : String)
    (h : HasTokens s [Symbol.integer m, Symbol.token TokenType.MUL, Symbol.integer n]) :
    ∃ e errors, Parse s = some (e, errors) ∧ errors ≠ [] := by
  rw [hasTokens_iff] at h
  simp only [sees_cons] at h
  obtain ⟨h1, h2, h3, _⟩ := h
  obtain ⟨e, q, hrun, hq⟩ := run_integer_times_integer _ m n h1 h2 h3
  exact ⟨e, q.Errors, Parse_of_run s 4 e q hrun, hq⟩

theorem run_pod_times_pod (p0 : Parser) (P : List (Axis × Literal)) (hP : P ≠ [])
    (hs1 : p0.Sees (podSymbols P))
    (h2 : symbol (Parser.advance^[(podSymbols P).length] p0).lookahead =
      Symbol.token TokenType.MUL)
    (h3 : symbol (Parser.advance^[(podSymbols P).length] p0).advance.lookahead =
      Symbol.token TokenType.POD) :
    ∃ fuel e q, Parser.ParseExpression fuel p0 = some (e, q) ∧ q.Errors ≠ [] := by
  obtain ⟨fuel, e, q, hrun, hq⟩ := ParsePod_reads P hP p0 hs1
  have hp : p0.lookahead.TokenType = TokenType.POD := by
    unfold podSymbols at hs1
    simp only [List.cons_append, List.nil_append, sees_cons] at hs1
    exact symbol_token hs1.1
  have l1 : q.lookahead.TokenType = TokenType.MUL := by
    rw [lookahead_of_clean_eq _ _ hq]
    exact symbol_token h2
  have l2 : q.advance.lookahead.TokenType = TokenType.POD := by
    rw [lookahead_of_clean_eq _ _ (advance_clean_eq _ _ hq)]
    exact symbol_token h3
  obtain ⟨f1, f2⟩ := ParseInteger_fail q.advance (by rw [l2]; decide)
  have hL := parseTermLoop_integer_any (fuel + 1) e q l1
  generalize q.advance.ParseInteger = r at f1 f2 hL
  obtain ⟨e2, q2⟩ := r
  simp only [] at f1 f2 hL
  have n3 : q2.lookahead.TokenType ≠ TokenType.MUL := by rw [f2, l2]; decide
  have n4 : q2.lookahead.TokenType ≠ TokenType.ADD := by rw [f2, l2]; decide
  have hF : Parser.ParseFactor (fuel + 2) p0 = some (e, q) := by
    rw [ParseFactor_pod _ _ hp]
    exact ParsePod_fuel_mono (Nat.le_succ fuel) _ _ hrun
  have hT := ParseTerm_factor (fuel + 2) e p0 q (by rw [hp]; decide) hF
  rw [hL, parseTermLoop_exit fuel false _ q2 n3] at hT
  have hE := ParseExpression_term (fuel + 3) _ p0 q2 hT
  rw [parseExpressionLoop_exit (fuel + 2) _ q2 n4] at hE
  exact ⟨fuel + 4, _, q2, hE, f1⟩

/-- A product of two pod literals: ParseInteger finds `pod` where it needs an integer. -/
theorem Parse_pod_times_pod (s : String) (P : List (Axis × Literal)) (hP : P ≠ [])
    (h : HasTokens s (podSymbols P ++
      [Symbol.token TokenType.MUL, Symbol.token TokenType.POD])) :
    ∃ e errors, Parse s = some (e, errors) ∧ errors ≠ [] := by
  rw [hasTokens_iff, sees_append] at h
  obtain ⟨hs1, hs2⟩ := h
  simp only [sees_cons] at hs2
  obtain ⟨h2, h3, _⟩ := hs2
  obtain ⟨fuel, e, q, hrun, hq⟩ := run_pod_times_pod _ P hP hs1 h2 h3
  exact ⟨e, q.Errors, Parse_of_run s fuel e q hrun, hq⟩

theorem podSymbols_head (fs : List (Axis × Literal)) :
    ∃ rest, podSymbols fs = Symbol.token TokenType.POD :: rest :=
  ⟨_, rfl⟩

theorem hasTokens_of_append (s : String) (a b : List Symbol) (h : HasTokens s (a ++ b)) :
    HasTokens s a := by
  rw [hasTokens_iff] at h ⊢
  exact ((sees_append _ a b).mp h).1

/-- C18: for all integer literals `m` and `n`, Parse of a text with the tokens of `m * n`
returns a non-empty error list, and for all pod literals `P` and `Q` that each have at
least one field (for `Q` also one without fields), Parse of a text with the tokens of
`P * Q` returns a non-empty error list. -/
theorem type_shape_rule (s1 s2 m n : String) (P Q : List (Axis × Literal)) (hP : P ≠ [])
    (h1 : HasTokens s1 [Symbol.integer m, Symbol.token TokenType.MUL, Symbol.integer n,
      Symbol.token TokenType.EOF])
    (h2 : HasTokens s2 (podSymbols P ++ [Symbol.token TokenType.MUL] ++ podSymbols Q ++
      [Symbol.token TokenType.EOF])) :
    (∃ e errors, Parse s1 = some (e, errors) ∧ errors ≠ []) ∧
    (∃ e errors, Parse s2 = some (e, errors) ∧ errors ≠ []) := by
  refine ⟨Parse_integer_times_integer s1 m n (hasTokens_of_append s1 _ [_] h1), ?_⟩
  obtain ⟨rest, hrest⟩ := podSymbols_head Q
  refine Parse_pod_times_pod s2 P hP
    (hasTokens_of_append s2 _ (rest ++ [Symbol.token TokenType.EOF]) ?_)
  rw [hrest] at h2
  simpa [List.append_assoc] using h2

/-- C18 at the texts `5 * 10` and `pod(cpu: 1) * pod(cpu: 1)`. -/
theorem type_shape_rule_witness :
    (∃ e errors, Parse "5 * 10" = some (e, errors) ∧ errors ≠ []) ∧
    (∃ e errors, Parse "pod(cpu: 1) * pod(cpu: 1)" = some (e, errors) ∧ errors ≠ []) :=
  type_shape_rule "5 * 10" "pod(cpu: 1) * pod(cpu: 1)" "5" "10"
    [(Axis.cpu, Literal.integer "1")] [(Axis.cpu, Literal.integer "1")]
    (by decide) (by decide) (by decide)

end parser

/-! ## An integer as an operand of `+` (C19) -/

namespace parser

open lexer

theorem NewParser_advance (sc : Scanner) : (NewParser sc).advance = NewParser (sc.Scan).2 :=
  rfl

/-- The tokens of a scanner are the look-aheads of the parser that reads from it. -/
theorem tokens_succ (k : Nat) :
    ∀ sc : Scanner,
      sc.tokens (k + 1) = sc.tokens k ++ [(Parser.advance^[k] (NewParser sc)).lookahead] := by
  induction k with
  | zero => intro sc; rfl
  | succ k ih =>
    intro sc
    rw [Scanner.tokens, ih, iterate_advance_head, NewParser_advance]
    rfl

theorem ParseTerm_integer_alone (fuel : Nat) (p : Parser) (d : String)
    (h : symbol p.lookahead = Symbol.integer d) (hd : (strconv.ParseInt d).2 = true)
    (h1 : p.advance.lookahead.TokenType ≠ TokenType.MUL) :
    Parser.ParseTerm (fuel + 2) p =
      some (Expression.IntLiteral (strconv.ParseInt d).1 p.lookahead.Position,
        p.advance.addError
          (newParseError p.advance.lookahead.Lexeme ["*"] p.advance.lookahead.Position)) := by
  rw [Parser.ParseTerm, if_pos (symbol_integer h).1]
  simp only [ParseInteger_run p d h hd, h1, ne_eq, not_false_eq_true, if_true]
  exact parseTermLoop_exit fuel true _ _ (by rw [addError_lookahead]; exact h1)

/-- A pod literal with fields in range, followed by a token other than `*`, is a term:
ParseTerm reads it and records nothing. -/
theorem ParseTerm_pod (P : List (Axis × Literal)) (hP : P ≠ []) (hPv : ∀ x ∈ P, x.2.InRange)
    (p : Parser) (hs : p.Sees (podSymbols P))
    (hm : (Parser.advance^[(podSymbols P).length] p).lookahead.TokenType ≠ TokenType.MUL) :
    ∃ fuel e, Parser.ParseTerm fuel p =
      some (e, Parser.advance^[(podSymbols P).length] p) := by
  obtain ⟨e1, _, hk⟩ := parser_complete false Category.factorTerm (podSymbols P)
    (podExpression P) (pod_factorTerm P hP hPv) rfl (integersInRange_pod P hPv) p hs
    (fun hc => by cases hc)
  obtain ⟨fuel, hrun⟩ := hk 1 _ (parseTermLoop_exit 0 false e1 _ hm)
  exact ⟨fuel, e1, hrun⟩

theorem run_integer_plus_pod (p0 : Parser) (n : String) (P : List (Axis × Literal))
    (hP : P ≠ []) (hPv : ∀ x ∈ P, x.2.InRange) (hn : (Literal.integer n).InRange)
    (he : p0.Errors = [])
    (hs : p0.Sees ([Symbol.integer n, Symbol.token TokenType.ADD] ++ podSymbols P ++
      [Symbol.token TokenType.EOF])) :
    ∃ fuel e q, Parser.ParseExpression fuel p0 = some (e, q) ∧
      q.Errors = [newParseError p0.advance.lookahead.Lexeme ["*"]
        p0.advance.lookahead.Position] ∧
      p0.advance.lookahead.TokenType = TokenType.ADD := by
  simp only [List.cons_append, List.nil_append, sees_cons] at hs
  obtain ⟨h1, h2, h3⟩ := hs
  rw [sees_append] at h3
  obtain ⟨h3, h4⟩ := h3
  rw [sees_cons] at h4
  have hd : (strconv.ParseInt n).2 = true := by rw [ParseInt_of_inRange n hn]
  have ta : p0.advance.lookahead.TokenType = TokenType.ADD := symbol_token h2
  have hE1 := addError_first p0.advance (newParseError p0.advance.lookahead.Lexeme ["*"]
    p0.advance.lookahead.Position) he
  have hla := addError_lookahead p0.advance (newParseError p0.advance.lookahead.Lexeme ["*"]
    p0.advance.lookahead.Position)
  have hcl := clean_addError p0.advance (newParseError p0.advance.lookahead.Lexeme ["*"]
    p0.advance.lookahead.Position)
  have hT := fun fuel => ParseTerm_integer_alone fuel p0 n h1 hd (by rw [ta]; decide)
  generalize p0.advance.addError (newParseError p0.advance.lookahead.Lexeme ["*"]
    p0.advance.lookahead.Position) = q1 at hE1 hla hcl hT
  have hc1 := advance_clean_eq _ _ hcl
  have hsP : q1.advance.Sees (podSymbols P) := sees_of_clean_eq _ _ _ hc1 h3
  have hend : (Parser.advance^[(podSymbols P).length] q1.advance).lookahead.TokenType =
      TokenType.EOF := by
    rw [lookahead_of_clean_eq _ _ (iterate_clean_eq _ _ _ hc1)]
    exact symbol_token h4.1
  obtain ⟨fuel, e1, hrun⟩ := ParseTerm_pod P hP hPv q1.advance hsP (by rw [hend]; decide)
  have hL := parseExpressionLoop_term (fuel + 1)
    (Expression.IntLiteral (strconv.ParseInt n).1 p0.lookahead.Position) e1 q1 _
    (by rw [hla]; exact ta) (ParseTerm_fuel_mono (Nat.le_succ fuel) _ _ hrun)
  rw [parseExpressionLoop_exit fuel _ _ (by rw [hend]; decide)] at hL
  have hE := ParseExpression_term (fuel + 2) _ p0 q1 (hT fuel)
  refine ⟨fuel + 3, _, _, hE.trans hL, ?_, ta⟩
  rw [advance_iterate_errors, advance_errors, hE1]

theorem run_pod_plus_integer (p0 : Parser) (n : String) (P : List (Axis × Literal))
    (hP : P ≠ []) (hPv : ∀ x ∈ P, x.2.InRange) (hn : (Literal.integer n).InRange)
    (he : p0.Errors = [])
    (hs : p0.Sees (podSymbols P ++ [Symbol.token TokenType.ADD, Symbol.integer n,
      Symbol.token TokenType.EOF])) :
    ∃ fuel e q, Parser.ParseExpression fuel p0 = some (e, q) ∧
      q.Errors = [newParseError
        (Parser.advance^[(podSymbols P).length + 2] p0).lookahead.Lexeme ["*"]
        (Parser.advance^[(podSymbols P).length + 2] p0).lookahead.Position] ∧
      (Parser.advance^[(podSymbols P).length + 2] p0).lookahead.TokenType =
        TokenType.EOF := by
  rw [sees_append] at hs
  obtain ⟨h1, h2⟩ := hs
  simp only [sees_cons] at h2
  obtain ⟨h2, h3, h4, _⟩ := h2
  have hd : (strconv.ParseInt n).2 = true := by rw [ParseInt_of_inRange n hn]
  have hlast : Parser.advance^[(podSymbols P).length + 2] p0 =
      (Parser.advance^[(podSymbols P).length] p0).advance.advance := by
    rw [iterate_advance_last, iterate_advance_last]
  rw [hlast]
  generalize hA : Parser.advance^[(podSymbols P).length] p0 = pA at h2 h3 h4
  have ta : pA.lookahead.TokenType = TokenType.ADD := symbol_token h2
  have te : pA.advance.advance.lookahead.TokenType = TokenType.EOF := symbol_token h4
  have eA : pA.Errors = [] := by rw [← hA, advance_iterate_errors, he]
  obtain ⟨fuel, e1, hrun⟩ := ParseTerm_pod P hP hPv p0 h1 (by rw [hA, ta]; decide)
  rw [hA] at hrun
  have hT := ParseTerm_integer_alone fuel pA.advance n h3 hd (by rw [te]; decide)
  have hE1 := addError_first pA.advance.advance
    (newParseError pA.advance.advance.lookahead.Lexeme ["*"]
      pA.advance.advance.lookahead.Position) (by rw [advance_errors, advance_errors, eA])
  have hla := addError_lookahead pA.advance.advance
    (newParseError pA.advance.advance.lookahead.Lexeme ["*"]
      pA.advance.advance.lookahead.Position)
  generalize pA.advance.advance.addError
    (newParseError pA.advance.advance.lookahead.Lexeme ["*"]
      pA.advance.advance.lookahead.Position) = q3 at hT hE1 hla
  have hL := parseExpressionLoop_term (fuel + 2) e1 _ pA q3 ta hT
  rw [parseExpressionLoop_exit (fuel + 1) _ _ (by rw [hla, te]; decide)] at hL
  have hE := ParseExpression_term (fuel + 3) e1 p0 pA
    (ParseTerm_fuel_mono (Nat.le_add_right fuel 3) _ _ hrun)
  exact ⟨fuel + 4, _, _, hE.trans hL, hE1, te⟩

/-- C19, as stated, fails for an integer literal outside the signed 64-bit range: for
`9223372036854775808 + pod(cpu: 1)` Parse records two errors, that of strconv.ParseInt
and then the expected `*` at the `+`. -/
theorem integer_operand_out_of_range :
    (Parse "9223372036854775808 + pod(cpu: 1)").map Prod.snd =
      some [{ Message := "9223372036854775808 is not number", Found := "", Expected := [],
              Pos := ⟨0, 0⟩ },
            { Message := "", Found := "+", Expected := ["*"], Pos := ⟨0, 20⟩ }] := by
  decide

/-- C19, amended: for every integer literal `n` within the signed 64-bit range and every
pod literal `P` with at least one field, the integer values of its fields within that
range, Parse of a text with the tokens of `n + P` and Parse of a text with the tokens of
`P + n` each record exactly one error, whose expected set is ["*"] and whose found lexeme
and position are those of the token right after the integer: the second token, the `+`,
in `n + P`, and the last token, the end of input, in `P + n`. -/
theorem integer_operand_of_plus (s1 s2 n : String) (P : List (Axis × Literal))
    (hP : P ≠ []) (hPv : ∀ x ∈ P, x.2.InRange) (hn : (Literal.integer n).InRange)
    (h1 : HasTokens s1 ([Symbol.integer n, Symbol.token TokenType.ADD] ++ podSymbols P ++
      [Symbol.token TokenType.EOF]))
    (h2 : HasTokens s2 (podSymbols P ++ [Symbol.token TokenType.ADD, Symbol.integer n,
      Symbol.token TokenType.EOF])) :
    (∃ e first plus, (NewScanner s1.data).tokens 2 = [first, plus] ∧
      plus.TokenType = TokenType.ADD ∧
      Parse s1 = some (e, [{ Message := "", Found := plus.Lexeme, Expected := ["*"],
                             Pos := plus.Position }])) ∧
    (∃ e before last,
      (NewScanner s2.data).tokens ((podSymbols P).length + 3) = before ++ [last] ∧
      last.TokenType = TokenType.EOF ∧
      Parse s2 = some (e, [{ Message := "", Found := last.Lexeme, Expected := ["*"],
                             Pos := last.Position }])) := by
  rw [hasTokens_iff] at h1 h2
  obtain ⟨fuel1, e1, q1, r1, x1, y1⟩ := run_integer_plus_pod _ n P hP hPv hn rfl h1
  obtain ⟨fuel2, e2, q2, r2, x2, y2⟩ := run_pod_plus_integer _ n P hP hPv hn rfl h2
  refine ⟨⟨e1, _, _, tokens_succ 1 _, y1, ?_⟩, ⟨e2, _, _, tokens_succ _ _, y2, ?_⟩⟩
  · rw [Parse_of_run s1 fuel1 e1 q1 r1, x1]
    rfl
  · rw [Parse_of_run s2 fuel2 e2 q2 r2, x2]
    rfl

/-- The amended C19 at the texts `5 + pod(cpu: 1)` and `pod(cpu: 1) + 5`. -/
theorem integer_operand_of_plus_witness :
    (∃ e first plus, (NewScanner "5 + pod(cpu: 1)".data).tokens 2 = [first, plus] ∧
      plus.TokenType = TokenType.ADD ∧
      Parse "5 + pod(cpu: 1)" =
        some (e, [{ Message := "", Found := plus.Lexeme, Expected := ["*"],
                    Pos := plus.Position }])) ∧
    (∃ e before last,
      (NewScanner "pod(cpu: 1) + 5".data).tokens
        ((podSymbols [(Axis.cpu, Literal.integer "1")]).length + 3) = before ++ [last] ∧
      last.TokenType = TokenType.EOF ∧
      Parse "pod(cpu: 1) + 5" =
        some (e, [{ Message := "", Found := last.Lexeme, Expected := ["*"],
                    Pos := last.Position }])) :=
  integer_operand_of_plus "5 + pod(cpu: 1)" "pod(cpu: 1) + 5" "5"
    [(Axis.cpu, Literal.integer "1")] (by decide)
    (by
      intro x hx
      simp only [List.mem_singleton] at hx
      subst hx
      exact inRange_of_digits "1" (by decide) (by decide) (by decide))
    (inRange_of_digits "5" (by decide) (by decide) (by decide))
    (by decide) (by decide)

/-- The errors of the two tests of the parser for an integer as an operand of `+`. -/
theorem integer_operand_examples :
    (Parse "5 + pod(cpu: 1)").map Prod.snd =
      some [{ Message := "", Found := "+", Expected := ["*"], Pos := ⟨0, 2⟩ }] ∧
    (Parse "pod(cpu: 1) + 5").map Prod.snd =
      some [{ Message := "", Found := "EOF", Expected := ["*"], Pos := ⟨0, 15⟩ }] := by
  constructor <;> decide

end parser

/-! ## Decimal numerals: strconv.ParseInt reads back what `toString` writes -/

namespace strconv

theorem digitsValue_append (a b : List Char) :
    digitsValue (a ++ b) = digitsValue a * 10 ^ b.length + digitsValue b := by
  unfold digitsValue
  induction b using List.reverseRecOn with
  | nil => simp
  | append_singleton b ch ih =>
    rw [← List.append_assoc, List.foldl_append, ih, List.foldl_append]
    simp only [List.foldl_cons, List.foldl_nil, List.length_append, List.length_singleton,
      pow_succ]
    ring

theorem digitChar_value (k : Nat) (h : k < 10) :
    (Nat.digitChar k).toNat - 48 = k ∧ lexer.isDigit (Nat.digitChar k) = true := by
  interval_cases k <;> exact ⟨by decide, by decide⟩

theorem toDigitsCore_append (fuel : Nat) :
    ∀ (n : Nat) (ds : List Char),
      Nat.toDigitsCore 10 fuel n ds = Nat.toDigitsCore 10 fuel n [] ++ ds := by
  induction fuel with
  | zero => intro n ds; simp [Nat.toDigitsCore]
  | succ fuel ih =>
    intro n ds
    simp only [Nat.toDigitsCore]
    split
    · simp
    · rw [ih _ (_ :: ds), ih _ [_]]
      simp

theorem toDigitsCore_value (fuel : Nat) :
    ∀ n : Nat, n < fuel →
      digitsValue (Nat.toDigitsCore 10 fuel n []) = n ∧
      (Nat.toDigitsCore 10 fuel n []).all lexer.isDigit = true ∧
      Nat.toDigitsCore 10 fuel n [] ≠ [] := by
  induction fuel with
  | zero => intro n h; omega
  | succ fuel ih =>
    intro n h
    have hd := digitChar_value (n % 10) (Nat.mod_lt _ (by decide))
    simp only [Nat.toDigitsCore]
    split
    · rename_i h0
      refine ⟨?_, ?_, by simp⟩
      · have : digitsValue [Nat.digitChar (n % 10)] = (Nat.digitChar (n % 10)).toNat - 48 := by
          simp [digitsValue]
        rw [this, hd.1]
        omega
      · simp [hd.2]
    · rename_i h0
      have hlt : n / 10 < fuel := by omega
      obtain ⟨h1, h2, h3⟩ := ih (n / 10) hlt
      rw [toDigitsCore_append]
      refine ⟨?_, ?_, by simp [h3]⟩
      · rw [digitsValue_append, h1]
        have : digitsValue [Nat.digitChar (n % 10)] = (Nat.digitChar (n % 10)).toNat - 48 := by
          simp [digitsValue]
        rw [this, hd.1]
        simp only [List.length_singleton, pow_one]
        omega
      · rw [List.all_append, h2]
        simp [hd.2]

/-- The decimal numeral of a natural number: its value, and it is a non-empty run of
digits. -/
theorem toString_value (n : Nat) :
    digitsValue (toString n).data = n ∧ (toString n).data.all lexer.isDigit = true ∧
    (toString n).data ≠ [] := by
  have h := toDigitsCore_value (n + 1) n (by omega)
  have hs : (toString n).data = Nat.toDigitsCore 10 (n + 1) n [] := rfl
  rw [hs]
  exact h

theorem toString_injective (i j : Nat) (h : toString i = toString j) : i = j := by
  have h1 := (toString_value i).1
  have h2 := (toString_value j).1
  rw [h] at h1
  exact h1.symm.trans h2

/-- ParseInt accepts the decimal numeral of every natural number below 2 ^ 63 and
returns the number. -/
theorem ParseInt_toString (n : Nat) (h : n < 2 ^ 63) :
    ParseInt (toString n) = ((n : Int), true) := by
  obtain ⟨h1, h2, h3⟩ := toString_value n
  have hhead : ∀ ch, (toString n).data.head? = some ch → lexer.isDigit ch = true := by
    intro ch hch
    cases hd : (toString n).data with
    | nil => rw [hd] at hch; simp at hch
    | cons a l =>
      rw [hd] at hch h2
      simp only [List.head?_cons, Option.some.injEq] at hch
      simp only [List.all_cons, Bool.and_eq_true] at h2
      rw [← hch]; exact h2.1
  have hm : (toString n).data.head? ≠ some '-' := by
    intro hc
    have := hhead _ hc
    revert this; decide
  have hp : (toString n).data.head? ≠ some '+' := by
    intro hc
    have := hhead _ hc
    revert this; decide
  unfold ParseInt
  simp only [hm, hp, decide_False, Bool.or_self, Bool.false_eq_true, if_false, h2, h1,
    Bool.not_true, Bool.or_false, decide_eq_true_eq, h3]
  have h5 : n < 9223372036854775808 := by
    have : (2 : Nat) ^ 63 = 9223372036854775808 := by norm_num
    omega
  simp [h5]

end strconv

/-! ## The lexeme of an INTEGER token is a non-empty run of digits -/

namespace lexer

theorem scanIntegerLoop_digits (fuel : Nat) :
    ∀ (buf : List Char) (ch : Char) (s : Scanner), buf.all isDigit = true →
      (Scanner.scanIntegerLoop fuel buf ch s).1.all isDigit = true ∧
      (buf ≠ [] ∨ (isDigit ch = true ∧ 1 ≤ fuel) →
        (Scanner.scanIntegerLoop fuel buf ch s).1 ≠ []) := by
  induction fuel with
  | zero =>
    intro buf ch s h
    refine ⟨h, fun h1 => ?_⟩
    rcases h1 with h1 | h1
    · exact h1
    · omega
  | succ fuel ih =>
    intro buf ch s h
    unfold Scanner.scanIntegerLoop
    by_cases hd : isDigit ch = true
    · simp only [hd, Bool.not_true, Bool.false_eq_true, if_false]
      have h2 : (buf ++ [ch]).all isDigit = true := by
        rw [List.all_append, h]
        simp [hd]
      obtain ⟨a, b⟩ := ih (buf ++ [ch]) (s.read).1.1 (s.read).2 h2
      exact ⟨a, fun _ => b (Or.inl (by simp))⟩
    · have hd0 : isDigit ch = false := by simpa using hd
      simp only [hd0, Bool.not_false, if_true]
      refine ⟨h, fun h1 => ?_⟩
      rcases h1 with h1 | h1
      · exact h1
      · exact absurd h1.1 (by simp)

theorem scanKeyword_not_integer (fuel : Nat) (s : Scanner) :
    (Scanner.scanKeyword fuel s).1.TokenType ≠ TokenType.INTEGER := by
  unfold Scanner.scanKeyword
  simp only []
  split_ifs <;> simp

theorem scanStringLoop_not_integer (fuel : Nat) :
    ∀ (buf : List Char) (ch : Char) (pos : Position) (s : Scanner),
      (Scanner.scanStringLoop fuel buf ch pos s).1.TokenType ≠ TokenType.INTEGER := by
  induction fuel with
  | zero => intro buf ch pos s; simp [Scanner.scanStringLoop]
  | succ fuel ih =>
    intro buf ch pos s
    unfold Scanner.scanStringLoop
    split
    · simp
    · split
      · simp
      · exact ih _ _ _ _

theorem scanToken_integer (fuel : Nat) (ch : Char) (pos : Position) (s : Scanner)
    (hch : s.buffer.1 = ch) (hf : 1 ≤ fuel)
    (h : (Scanner.scanToken fuel ch pos s).1.TokenType = TokenType.INTEGER) :
    (Scanner.scanToken fuel ch pos s).1.Lexeme.data ≠ [] ∧
    (Scanner.scanToken fuel ch pos s).1.Lexeme.data.all isDigit = true := by
  unfold Scanner.scanToken at h ⊢
  by_cases hl : isLetter ch = true
  · simp only [hl, if_true] at h
    exact absurd h (scanKeyword_not_integer _ _)
  · simp only [hl, if_false, Bool.false_eq_true] at h ⊢
    by_cases hd : isDigit ch = true
    · simp only [hd, if_true]
      unfold Scanner.scanInteger
      simp only []
      have hr : (s.Unscan.read).1.1 = ch := by rw [read_unscan_char, hch]
      obtain ⟨a, b⟩ := scanIntegerLoop_digits fuel [] (s.Unscan.read).1.1 (s.Unscan.read).2 rfl
      exact ⟨b (Or.inr ⟨by rw [hr]; exact hd, hf⟩), a⟩
    · simp only [hd, if_false, Bool.false_eq_true] at h
      by_cases he : ch = eof
      · simp [he] at h
      · simp only [he, if_false] at h
        by_cases hq : ch = '"'
        · simp only [hq, if_true] at h
          exact absurd h (scanStringLoop_not_integer _ _ _ _ _)
        · simp only [hq, if_false] at h
          split_ifs at h

theorem scanLoop_integer (fuel inner : Nat) (hf : 1 ≤ inner) :
    ∀ (ch : Char) (pos : Position) (s : Scanner), s.buffer.1 = ch →
      (Scanner.scanLoop fuel inner ch pos s).1.TokenType = TokenType.INTEGER →
      (Scanner.scanLoop fuel inner ch pos s).1.Lexeme.data ≠ [] ∧
      (Scanner.scanLoop fuel inner ch pos s).1.Lexeme.data.all isDigit = true := by
  induction fuel with
  | zero => intro ch pos s _ h; simp [Scanner.scanLoop] at h
  | succ fuel ih =>
    intro ch pos s hch h
    unfold Scanner.scanLoop at h ⊢
    by_cases h1 : ch = '#'
    · simp only [h1, if_true] at h ⊢
      split at h
      · simp at h
      · rename_i hc
        simp only [hc, Bool.false_eq_true, if_false]
        exact ih _ _ _ (read_unread _).1.symm h
    · simp only [h1, if_false] at h ⊢
      by_cases h2 : isWhitespace ch = true
      · simp only [h2, if_true] at h ⊢
        exact ih _ _ _ (read_unread _).1.symm h
      · simp only [h2, if_false, Bool.false_eq_true] at h ⊢
        exact scanToken_integer inner ch pos s hch hf h

/-- The lexeme of an INTEGER token that Scan returns is a non-empty run of digits. -/
theorem Scan_integer (s : Scanner) (h : (s.Scan).1.TokenType = TokenType.INTEGER) :
    (s.Scan).1.Lexeme.data ≠ [] ∧ (s.Scan).1.Lexeme.data.all isDigit = true := by
  unfold Scanner.Scan at h ⊢
  exact scanLoop_integer _ _ (by omega) _ _ _ (read_unread s).1.symm h

theorem tokens_integer (n : Nat) :
    ∀ (s : Scanner) (tok : Token), tok ∈ s.tokens n → tok.TokenType = TokenType.INTEGER →
      tok.Lexeme.data ≠ [] ∧ tok.Lexeme.data.all isDigit = true := by
  induction n with
  | zero => intro s tok h; simp [Scanner.tokens] at h
  | succ n ih =>
    intro s tok h ht
    simp only [Scanner.tokens, List.mem_cons] at h
    rcases h with h | h
    · subst h
      exact Scan_integer s ht
    · exact ih _ _ h ht

end lexer

namespace parser

open lexer

/-- The integer symbols of a text are non-empty runs of digits. -/
theorem hasTokens_integer (s : String) (ts : List Symbol) (h : HasTokens s ts) (d : String)
    (hd : Symbol.integer d ∈ ts) : d.data ≠ [] ∧ d.data.all isDigit = true := by
  unfold HasTokens tokenSymbols at h
  rw [← h] at hd
  obtain ⟨tok, hmem, hsym⟩ := List.mem_map.mp hd
  have ht : tok.TokenType = TokenType.INTEGER ∧ tok.Lexeme = d := by
    unfold symbol at hsym
    split_ifs at hsym with h1 h2
    · simp only [Symbol.integer.injEq] at hsym
      exact ⟨h1, hsym⟩
  rw [← ht.2]
  exact tokens_integer _ _ tok hmem ht.1

/-- The value that strconv.ParseInt gives for a non-empty run of digits is a natural
number below 2 ^ 63 (the largest such number when the digits exceed the range). -/
theorem ParseInt_digits (d : String) (h1 : d.data ≠ []) (h2 : d.data.all isDigit = true) :
    ∃ n : Nat, n < 2 ^ 63 ∧ (strconv.ParseInt d).1 = (n : Int) := by
  unfold strconv.ParseInt
  cases hd : d.data with
  | nil => exact absurd hd h1
  | cons c cs =>
    rw [hd] at h2
    have hc : isDigit c = true := by
      simp only [List.all_cons, Bool.and_eq_true] at h2
      exact h2.1
    have hminus : c ≠ '-' := by
      intro he; subst he; revert hc; decide
    have hplus : c ≠ '+' := by
      intro he; subst he; revert hc; decide
    simp only [List.head?_cons, Option.some.injEq, hminus, hplus, decide_False, Bool.or_self,
      Bool.false_eq_true, if_false, h2, Bool.not_true, Bool.or_false, reduceCtorEq]
    by_cases hv : strconv.digitsValue (c :: cs) ≥ 2 ^ 63
    · rw [if_pos hv]
      exact ⟨2 ^ 63 - 1, by norm_num, by norm_num⟩
    · rw [if_neg hv]
      exact ⟨_, by omega, rfl⟩

end parser

/-! ## What every function of the parser keeps -/

namespace parser

open lexer

/-- Matching a token and recording an error when it is not there. -/
theorem expect_kept {G : Parser → Prop} (hG : Kept G) (p : Parser) (t : TokenType)
    (name : String) (h : G p) :
    G (if (!(p.match_ [t]).1.2) = true then
        (p.match_ [t]).2.addError
          (newParseError (p.match_ [t]).1.1.Lexeme [name] (p.match_ [t]).1.1.Position)
      else (p.match_ [t]).2) := by
  rw [match_single]
  by_cases ht : t = p.lookahead.TokenType
  · simp only [ht, if_true, Bool.not_true, Bool.false_eq_true, if_false]
    exact hG.advance p h
  · simp only [ht, if_false, Bool.not_false, if_true]
    exact hG.found p [name] (by simp) h

theorem match_kept {G : Parser → Prop} (hG : Kept G) (p : Parser) (t : TokenType)
    (h : G p) : G (p.match_ [t]).2 := by
  rw [match_single]
  split
  · exact hG.advance p h
  · exact h

theorem ParseString_kept {G : Parser → Prop} (hG : Kept G) (p : Parser) (h : G p) :
    G (p.ParseString).2 := by
  unfold Parser.ParseString
  exact expect_kept hG p _ _ h

theorem ParseInteger_kept {G : Parser → Prop} (hG : Kept G) (p : Parser) (h : G p) :
    G (p.ParseInteger).2 := by
  unfold Parser.ParseInteger
  simp only []
  split
  · exact hG.notNumber _ _ (expect_kept hG p _ _ h)
  · exact expect_kept hG p _ _ h

theorem ParseStringOrInteger_kept {G : Parser → Prop} (hG : Kept G) (p : Parser) (h : G p) :
    G (p.ParseStringOrInteger).2 := by
  unfold Parser.ParseStringOrInteger
  split
  · exact ParseString_kept hG p h
  · split
    · exact ParseInteger_kept hG p h
    · exact hG.found p _ (by simp) h

theorem parseField_kept {G : Parser → Prop} (hG : Kept G) (p : Parser) (h : G p) :
    G (p.parseField).2 := by
  unfold Parser.parseField
  exact ParseStringOrInteger_kept hG _ (expect_kept hG p _ _ h)

theorem afterField_kept {G : Parser → Prop} (hG : Kept G) (p : Parser) (h : G p) :
    G (p.afterField).2 ∧ ∀ p1, (p.afterField).1 = some p1 → G p1 := by
  unfold Parser.afterField
  split
  · refine ⟨h, fun p1 h1 => ?_⟩
    simp only [Option.some.injEq] at h1
    subst h1
    exact match_kept hG p _ h
  · split
    · refine ⟨match_kept hG p _ h, fun p1 h1 => ?_⟩
      simp at h1
    · refine ⟨h, fun p1 h1 => ?_⟩
      simp only [Option.some.injEq] at h1
      subst h1
      exact hG.found p _ (by simp) h

theorem parsePodLoop_kept {G : Parser → Prop} (hG : Kept G) (fuel : Nat) :
    ∀ (cpu memory gpu : Expression) (pos : Position) (p q : Parser) (e : Expression),
      Parser.parsePodLoop fuel cpu memory gpu pos p = some (e, q) → G p → G q := by
  induction fuel with
  | zero =>
    intro cpu memory gpu pos p q e h
    simp [Parser.parsePodLoop] at h
  | succ fuel ih =>
    intro cpu memory gpu pos p q e h hg
    by_cases hr : p.lookahead.TokenType = TokenType.RPAREN
    · simp only [Parser.parsePodLoop, hr, ne_eq, not_true_eq_false, if_false, Option.some.injEq,
        Prod.mk.injEq] at h
      obtain ⟨_, h2⟩ := h
      subst h2
      exact hg
    · by_cases hk : ∃ a : Axis, p.lookahead.TokenType = a.keyword
      · obtain ⟨a, ha⟩ := hk
        rw [parsePodLoop_step fuel a p ha] at h
        have hf := parseField_kept hG _ (match_kept hG p a.keyword hg)
        have ha2 := afterField_kept hG _ hf
        generalize ((p.match_ [a.keyword]).2.parseField) = F at h ha2
        generalize hA : F.2.afterField = A at h ha2
        obtain ⟨A1, A2⟩ := A
        cases A1 with
        | some p1 =>
          simp only [Option.some.injEq, Prod.mk.injEq] at h
          obtain ⟨_, h2⟩ := h
          subst h2
          exact ha2.2 _ rfl
        | none =>
          simp only [] at h
          exact ih _ _ _ _ _ _ _ h ha2.1
      · have h1 : p.lookahead.TokenType ≠ TokenType.MEMORY := fun hc => hk ⟨Axis.memory, hc⟩
        have h2 : p.lookahead.TokenType ≠ TokenType.CPU := fun hc => hk ⟨Axis.cpu, hc⟩
        have h3 : p.lookahead.TokenType ≠ TokenType.GPU := fun hc => hk ⟨Axis.gpu, hc⟩
        simp only [Parser.parsePodLoop, hr, h1, h2, h3, ne_eq, not_false_eq_true, if_true,
          if_false, Option.some.injEq, Prod.mk.injEq] at h
        obtain ⟨_, h5⟩ := h
        subst h5
        exact hG.found p _ (by simp) hg

theorem ParsePod_kept {G : Parser → Prop} (hG : Kept G) (fuel : Nat) (p q : Parser)
    (e : Expression) (h : Parser.ParsePod fuel p = some (e, q)) (hg : G p) : G q := by
  unfold Parser.ParsePod at h
  simp only [] at h
  refine parsePodLoop_kept hG fuel _ _ _ _ _ _ _ h ?_
  exact expect_kept hG _ _ _ (expect_kept hG p _ _ hg)

/-- Every function of the parser keeps a property that is kept by consuming a token and
by recording an error. -/
theorem parser_keeps {G : Parser → Prop} (hG : Kept G) (fuel : Nat) :
    (∀ (p q : Parser) (e : Expression), Parser.ParseExpression fuel p = some (e, q) →
      G p → G q) ∧
    (∀ (result : Expression) (p q : Parser) (e : Expression),
      Parser.parseExpressionLoop fuel result p = some (e, q) → G p → G q) ∧
    (∀ (p q : Parser) (e : Expression), Parser.ParseTerm fuel p = some (e, q) →
      G p → G q) ∧
    (∀ (b : Bool) (result : Expression) (p q : Parser) (e : Expression),
      Parser.parseTermLoop fuel b result p = some (e, q) → G p → G q) ∧
    (∀ (p q : Parser) (e : Expression), Parser.ParseFactor fuel p = some (e, q) →
      G p → G q) := by
  induction fuel with
  | zero =>
    refine ⟨?_, ?_, ?_, ?_, ?_⟩ <;> intros <;> rename_i h _ <;>
      simp [Parser.ParseExpression, Parser.parseExpressionLoop, Parser.ParseTerm,
        Parser.parseTermLoop, Parser.ParseFactor] at h
  | succ fuel ih =>
    obtain ⟨ihE, ihEL, ihT, ihTL, ihF⟩ := ih
    refine ⟨?_, ?_, ?_, ?_, ?_⟩
    · intro p q e h hg
      rw [Parser.ParseExpression] at h
      cases hT : Parser.ParseTerm fuel p with
      | none => rw [hT] at h; simp at h
      | some r =>
        obtain ⟨res, p1⟩ := r
        rw [hT] at h
        simp only [] at h
        exact ihEL _ _ _ _ h (ihT _ _ _ hT hg)
    · intro result p q e h hg
      rw [Parser.parseExpressionLoop] at h
      by_cases ha : p.lookahead.TokenType = TokenType.ADD
      · simp only [ha, if_true] at h
        have hg0 := match_kept hG p TokenType.ADD hg
        cases hT : Parser.ParseTerm fuel (p.match_ [TokenType.ADD]).2 with
        | none => rw [hT] at h; simp at h
        | some r =>
          obtain ⟨rhs, p1⟩ := r
          rw [hT] at h
          simp only [] at h
          exact ihEL _ _ _ _ h (ihT _ _ _ hT hg0)
      · simp only [ha, if_false, Option.some.injEq, Prod.mk.injEq] at h
        obtain ⟨_, h2⟩ := h
        subst h2
        exact hg
    · intro p q e h hg
      rw [Parser.ParseTerm] at h
      by_cases hi : p.lookahead.TokenType = TokenType.INTEGER
      · simp only [hi, if_true] at h
        refine ihTL _ _ _ _ _ h ?_
        split
        · exact hG.found _ _ (by simp) (ParseInteger_kept hG p hg)
        · exact ParseInteger_kept hG p hg
      · simp only [hi, if_false] at h
        cases hF : Parser.ParseFactor fuel p with
        | none => rw [hF] at h; simp at h
        | some r =>
          obtain ⟨res, p1⟩ := r
          rw [hF] at h
          simp only [] at h
          exact ihTL _ _ _ _ _ h (ihF _ _ _ hF hg)
    · intro b result p q e h hg
      rw [Parser.parseTermLoop] at h
      by_cases hm : p.lookahead.TokenType = TokenType.MUL
      · simp only [hm, if_true] at h
        have hg0 := match_kept hG p TokenType.MUL hg
        cases b with
        | true =>
          simp only [if_true] at h
          cases hF : Parser.ParseFactor fuel (p.match_ [TokenType.MUL]).2 with
          | none => rw [hF] at h; simp at h
          | some r =>
            obtain ⟨rhs, p1⟩ := r
            rw [hF] at h
            simp only [] at h
            exact ihTL _ _ _ _ _ h (ihF _ _ _ hF hg0)
        | false =>
          simp only [Bool.false_eq_true, if_false] at h
          exact ihTL _ _ _ _ _ h (ParseInteger_kept hG _ hg0)
      · simp only [hm, if_false, Option.some.injEq, Prod.mk.injEq] at h
        obtain ⟨_, h2⟩ := h
        subst h2
        exact hg
    · intro p q e h hg
      rw [Parser.ParseFactor] at h
      by_cases hl : p.lookahead.TokenType = TokenType.LPAREN
      · simp only [hl, if_true] at h
        have hg0 := match_kept hG p TokenType.LPAREN hg
        cases hE : Parser.ParseExpression fuel (p.match_ [TokenType.LPAREN]).2 with
        | none => rw [hE] at h; simp at h
        | some r =>
          obtain ⟨expr, p1⟩ := r
          rw [hE] at h
          simp only [Option.some.injEq, Prod.mk.injEq] at h
          obtain ⟨_, h2⟩ := h
          subst h2
          exact expect_kept hG p1 _ _ (ihE _ _ _ hE hg0)
      · by_cases hp : p.lookahead.TokenType = TokenType.POD
        · simp only [hl, hp, if_true, if_false] at h
          simp only [reduceCtorEq, if_false] at h
          exact ParsePod_kept hG fuel p q e h hg
        · simp only [hl, hp, if_false, Option.some.injEq, Prod.mk.injEq] at h
          obtain ⟨_, h2⟩ := h
          subst h2
          exact hG.found p _ (by simp) hg

/-- What Parse returns: the error list of a parser state that has every property kept by
the parser and true of the parser at the start. -/
theorem Parse_keeps {G : Parser → Prop} (hG : Kept G) (s : String)
    (h0 : G (NewParser (NewScanner s.data))) :
    ∃ e q, Parse s = some (e, q.Errors) ∧ G q := by
  obtain ⟨e, q, h, _⟩ := (parse_total (3 * s.length + 3)).1 (NewParser (NewScanner s.data))
    (by have := NewParser_pending s; omega)
  exact ⟨e, q, Parse_of_run s _ e q h, (parser_keeps hG _).1 _ _ _ h h0⟩

/-! ## At most one error per position (C21) -/

/-- What addError does: nothing when an error with the position of `e` is recorded,
otherwise `e` goes to the end of the list. -/
theorem addError_positions (p : Parser) (e : ParseError)
    (h : (p.Errors.map ParseError.Pos).Nodup) :
    ((p.addError e).Errors.map ParseError.Pos).Nodup := by
  unfold Parser.addError
  split
  · exact h
  · rename_i hn
    simp only [List.map_append, List.map_cons, List.map_nil]
    rw [List.nodup_append]
    refine ⟨h, List.nodup_singleton _, ?_⟩
    intro a ha hb
    rw [List.mem_singleton] at hb
    subst hb
    apply hn
    rw [List.any_eq_true]
    obtain ⟨err, herr, hpos⟩ := List.mem_map.mp ha
    exact ⟨err, herr, by simpa using hpos⟩

theorem distinct_positions_kept :
    Kept (fun p : Parser => (p.Errors.map ParseError.Pos).Nodup) where
  advance := fun _ h => h
  found := fun p _ _ h => addError_positions p _ h
  notNumber := fun p _ h => addError_positions p _ h

/-- C21: for every input Parse returns, and the error list that it returns contains at
most one error per source position: the positions of its errors are pairwise distinct.
Every error is recorded by addError, which drops an error whose position equals that of
an error already recorded. -/
theorem first_error_per_position (s : String) :
    ∃ e errors, Parse s = some (e, errors) ∧ (errors.map ParseError.Pos).Nodup := by
  obtain ⟨e, q, h, hq⟩ := Parse_keeps distinct_positions_kept s (List.nodup_nil)
  exact ⟨e, q.Errors, h, hq⟩

end parser

/-! ## Positions of the errors of the materializer (C22) -/

namespace podgen

open parser corev1

theorem ParseQuantity_positions (pq : String → Except String resource.Quantity)
    (e : Expression) :
    ((emptyGenerator.ParseQuantity pq e).2.errors.map Error.Pos).Sublist (positions e) := by
  cases e with
  | IntLiteral v p => simp [PodGenerator.ParseQuantity, emptyGenerator]
  | StringLiteral v p =>
    simp only [PodGenerator.ParseQuantity, emptyGenerator, positions]
    cases pq v <;> simp
  | nil => simp [PodGenerator.ParseQuantity, emptyGenerator]
  | ArithmeticExpression _ _ _ _ => simp [PodGenerator.ParseQuantity, emptyGenerator]
  | PodExpression _ _ _ _ => simp [PodGenerator.ParseQuantity, emptyGenerator]

/-- The errors of a pod are those of its three fields, in the order cpu, memory, gpu. -/
theorem PodgenPodExpression_field_list (pq : String → Except String resource.Quantity)
    (CPU Memory GPU : Expression) :
    (emptyGenerator.PodgenPodExpression pq CPU Memory GPU).errors =
      (emptyGenerator.ParseQuantity pq CPU).2.errors ++
        ((emptyGenerator.ParseQuantity pq Memory).2.errors ++
          (emptyGenerator.ParseQuantity pq GPU).2.errors) := by
  unfold PodGenerator.PodgenPodExpression
  simp only []
  rw [ParseQuantity_errors pq _ GPU, ParseQuantity_errors pq _ Memory]
  simp [List.append_assoc]

theorem Podgen_pod_errors (pq : String → Except String resource.Quantity)
    (CPU Memory GPU : Expression) (p : lexer.Position) :
    (Podgen pq (Expression.PodExpression CPU Memory GPU p)).2 =
      (emptyGenerator.PodgenPodExpression pq CPU Memory GPU).errors := rfl

theorem Podgen_add_errors (pq : String → Except String resource.Quantity)
    (l r : Expression) (p : lexer.Position) :
    (Podgen pq (Expression.ArithmeticExpression l Operator.Add r p)).2 =
      (Podgen pq l).2 ++ (Podgen pq r).2 := by
  show (PodGenerator.PodgenExpression pq r (PodGenerator.PodgenExpression pq l _)).errors = _
  rw [PodgenExpression_errors pq r, PodgenExpression_errors pq l]
  rfl

theorem iterate_at_most_one (f : PodGenerator → PodGenerator) (v : Int) (h : v ≤ 1)
    (c : PodGenerator) : Nat.iterate f v.toNat c = c ∨ Nat.iterate f v.toNat c = f c := by
  have hv : v.toNat = 0 ∨ v.toNat = 1 := by omega
  rcases hv with h0 | h1
  · left; rw [h0]; rfl
  · right; rw [h1]; rfl

/-- In a tree without repetition, the positions of the errors of Podgen are among the
positions of the nodes, in the order of the tree. -/
theorem Podgen_error_positions (pq : String → Except String resource.Quantity)
    (e : Expression) (hu : unrepeated e = true) :
    ((Podgen pq e).2.map Error.Pos).Sublist (positions e) := by
  induction e with
  | nil => simp [PodGenerator.PodgenExpression, Podgen]
  | IntLiteral v p => simp [PodGenerator.PodgenExpression, Podgen]
  | StringLiteral v p => simp [PodGenerator.PodgenExpression, Podgen]
  | PodExpression CPU Memory GPU p _ _ _ =>
    rw [Podgen_pod_errors, PodgenPodExpression_field_list, positions, List.map_append,
      List.map_append]
    exact List.Sublist.cons _ (List.Sublist.append (ParseQuantity_positions pq CPU)
      (List.Sublist.append (ParseQuantity_positions pq Memory)
        (ParseQuantity_positions pq GPU)))
  | ArithmeticExpression LHS op RHS p ihl ihr =>
    cases op with
    | Add =>
      simp only [unrepeated, Bool.and_eq_true] at hu
      rw [Podgen_add_errors, positions, List.map_append]
      exact List.Sublist.cons _ (List.Sublist.append (ihl hu.1) (ihr hu.2))
    | Multiply =>
      simp only [unrepeated, Bool.and_eq_true] at hu
      obtain ⟨⟨⟨hl, hr⟩, hfl⟩, hfr⟩ := hu
      have hL := ihl hl
      have hR := ihr hr
      rw [positions]
      have key : (Podgen pq (Expression.ArithmeticExpression LHS Operator.Multiply RHS p)).2 =
          [] ∨
          (Podgen pq (Expression.ArithmeticExpression LHS Operator.Multiply RHS p)).2 =
            (Podgen pq LHS).2 ∨
          (Podgen pq (Expression.ArithmeticExpression LHS Operator.Multiply RHS p)).2 =
            (Podgen pq RHS).2 ∨
          (Podgen pq (Expression.ArithmeticExpression LHS Operator.Multiply RHS p)).2 =
            [multiplyError p] := by
        simp only [Podgen, PodgenExpression_multiply]
        cases hE : asIntLiteral LHS with
        | some v =>
          simp only []
          have hv : v ≤ 1 := by simpa [factorAtMostOne, hE] using hfl
          rcases iterate_at_most_one (PodGenerator.PodgenExpression pq RHS) v hv
            { errors := [], pods := [], currentPodIndex := 0 } with h | h
          · left; rw [h]
          · right; right; left; rw [h]
        | none =>
          simp only []
          cases hF : asIntLiteral RHS with
          | some v =>
            simp only []
            have hv : v ≤ 1 := by simpa [factorAtMostOne, hF] using hfr
            rcases iterate_at_most_one (PodGenerator.PodgenExpression pq LHS) v hv
              { errors := [], pods := [], currentPodIndex := 0 } with h | h
            · left; rw [h]
            · right; left; rw [h]
          | none =>
            right; right; right
            rfl
      rcases key with h | h | h | h
      · rw [h]; simp
      · rw [h]
        exact List.Sublist.cons _ (List.Sublist.trans hL (List.sublist_append_left _ _))
      · rw [h]
        exact List.Sublist.cons _ (List.Sublist.trans hR (List.sublist_append_right _ _))
      · rw [h]
        simp [multiplyError]

/-- C22, as stated, fails: Podgen appends every diagnostic, it has no counterpart of the
parser's addError.  The text `2 * pod(cpu: "x")` parses without errors, and with a
quantity parser that rejects `x` the two expansions of the pod report the same error at
the same position (0, 14) twice. -/
theorem materializer_repeats_position :
    Parse "2 * pod(cpu: \"x\")" =
      some (Expression.ArithmeticExpression (Expression.IntLiteral 2 ⟨0, 0⟩)
        Operator.Multiply
        (Expression.PodExpression (Expression.StringLiteral "x" ⟨0, 14⟩) Expression.nil
          Expression.nil ⟨0, 4⟩) ⟨0, 2⟩, []) ∧
    (Podgen (fun _ => Except.error "bad")
      (Expression.ArithmeticExpression (Expression.IntLiteral 2 ⟨0, 0⟩)
        Operator.Multiply
        (Expression.PodExpression (Expression.StringLiteral "x" ⟨0, 14⟩) Expression.nil
          Expression.nil ⟨0, 4⟩) ⟨0, 2⟩)).2 =
      [{ Message := "bad", Pos := ⟨0, 14⟩ }, { Message := "bad", Pos := ⟨0, 14⟩ }] ∧
    ¬ ((Podgen (fun _ => Except.error "bad")
      (Expression.ArithmeticExpression (Expression.IntLiteral 2 ⟨0, 0⟩)
        Operator.Multiply
        (Expression.PodExpression (Expression.StringLiteral "x" ⟨0, 14⟩) Expression.nil
          Expression.nil ⟨0, 4⟩) ⟨0, 2⟩)).2.map Error.Pos).Nodup := by
  refine ⟨by decide, by decide, by decide⟩

/-- C22, amended: for every expression tree whose nodes carry pairwise distinct source
positions and in which no product expands an operand more than once (every integer
literal operand of a Multiply node is at most 1), the error list returned by Podgen
contains at most one error per source position. -/
theorem materializer_one_error_per_position
    (pq : String → Except String resource.Quantity) (e : Expression)
    (hp : (positions e).Nodup) (hu : unrepeated e = true) :
    ((Podgen pq e).2.map Error.Pos).Nodup :=
  List.Nodup.sublist (Podgen_error_positions pq e hu) hp

/-- C22, amended, at the tree of `1 * pod(cpu: "x", memory: "y")`. -/
theorem materializer_one_error_per_position_witness :
    ((Podgen (fun _ => Except.error "bad")
      (Expression.ArithmeticExpression (Expression.IntLiteral 1 ⟨0, 0⟩)
        Operator.Multiply
        (Expression.PodExpression (Expression.StringLiteral "x" ⟨0, 14⟩)
          (Expression.StringLiteral "y" ⟨0, 27⟩) Expression.nil ⟨0, 4⟩) ⟨0, 2⟩)).2.map
      Error.Pos).Nodup :=
  materializer_one_error_per_position _ _ (by decide) (by decide)

end podgen

/-! ## The front-end on a product of two pods (C23) -/

namespace kubesurvival

open lexer parser podgen

/-- C23, as stated, fails: for the text `pod(cpu: 1) * pod(cpu: 1)` the front-end of main
stops after Parse.  The loop of ParseTerm asks for an integer after the `*` of a term that
starts with a factor, so the second `pod` is reported by the parser (and a second time by
the conversion of its lexeme to an integer); Podgen is not called and its error of a
multiply expression is not reported. -/
theorem pod_times_pod_stops_at_parse :
    Parse "pod(cpu: 1) * pod(cpu: 1)" =
      some (Expression.ArithmeticExpression
          (Expression.PodExpression (Expression.IntLiteral 1 ⟨0, 9⟩) Expression.nil
            Expression.nil ⟨0, 0⟩)
          Operator.Multiply (Expression.IntLiteral 0 ⟨0, 14⟩) ⟨0, 12⟩,
        [{ Message := "", Found := "pod", Expected := ["INTEGER"], Pos := ⟨0, 14⟩ },
         { Message := "pod is not number", Found := "", Expected := [], Pos := ⟨0, 0⟩ }]) ∧
    frontEnd (fun _ => Except.error "") "pod(cpu: 1) * pod(cpu: 1)" =
      some (Except.error (Stopped.parseErrors
        [{ Message := "", Found := "pod", Expected := ["INTEGER"], Pos := ⟨0, 14⟩ },
         { Message := "pod is not number", Found := "", Expected := [], Pos := ⟨0, 0⟩ }])) := by
  have hp : Parse "pod(cpu: 1) * pod(cpu: 1)" =
      some (Expression.ArithmeticExpression
          (Expression.PodExpression (Expression.IntLiteral 1 ⟨0, 9⟩) Expression.nil
            Expression.nil ⟨0, 0⟩)
          Operator.Multiply (Expression.IntLiteral 0 ⟨0, 14⟩) ⟨0, 12⟩,
        [{ Message := "", Found := "pod", Expected := ["INTEGER"], Pos := ⟨0, 14⟩ },
         { Message := "pod is not number", Found := "", Expected := [], Pos := ⟨0, 0⟩ }]) := by
    decide
  refine ⟨hp, ?_⟩
  unfold frontEnd
  rw [hp]
  rfl

/-- C23, amended: for the text `pod(cpu: 1) * pod(cpu: 1)` the front-end of main, whatever
resource.ParseQuantity does, stops after Parse with the parse error "found pod, expected
INTEGER" at line 0, column 14 (followed by the error "pod is not number" of the conversion
of that lexeme), so that neither Podgen nor the search is run.  The
error "one of [lhs, rhs] must be an integer in a multiply expression" of the materializer
is what the front-end reports for a text that Parse accepts and whose product has no
integer literal as an operand, such as `2 * pod(cpu: 1) * pod(cpu: 1)`, the product of
`2 * pod(cpu: 1)` and a pod: there Podgen returns that error at the position of the second
`*`, and the search is not run either. -/
theorem pod_times_pod_scenario (parseQuantity : String → Except String resource.Quantity) :
    frontEnd parseQuantity "pod(cpu: 1) * pod(cpu: 1)" =
      some (Except.error (Stopped.parseErrors
        [newParseError "pod" ["INTEGER"] ⟨0, 14⟩,
         { Message := "pod is not number", Found := "", Expected := [], Pos := ⟨0, 0⟩ }])) ∧
    frontEnd parseQuantity "2 * pod(cpu: 1) * pod(cpu: 1)" =
      some (Except.error (Stopped.podgenErrors [multiplyError ⟨0, 16⟩])) := by
  have hp : Parse "pod(cpu: 1) * pod(cpu: 1)" =
      some (Expression.ArithmeticExpression
          (Expression.PodExpression (Expression.IntLiteral 1 ⟨0, 9⟩) Expression.nil
            Expression.nil ⟨0, 0⟩)
          Operator.Multiply (Expression.IntLiteral 0 ⟨0, 14⟩) ⟨0, 12⟩,
        [{ Message := "", Found := "pod", Expected := ["INTEGER"], Pos := ⟨0, 14⟩ },
         { Message := "pod is not number", Found := "", Expected := [], Pos := ⟨0, 0⟩ }]) := by
    decide
  have hq : Parse "2 * pod(cpu: 1) * pod(cpu: 1)" =
      some (Expression.ArithmeticExpression
          (Expression.ArithmeticExpression (Expression.IntLiteral 2 ⟨0, 0⟩)
            Operator.Multiply
            (Expression.PodExpression (Expression.IntLiteral 1 ⟨0, 13⟩) Expression.nil
              Expression.nil ⟨0, 4⟩) ⟨0, 2⟩)
          Operator.Multiply
          (Expression.PodExpression (Expression.IntLiteral 1 ⟨0, 27⟩) Expression.nil
            Expression.nil ⟨0, 18⟩) ⟨0, 16⟩, []) := by
    decide
  constructor
  · unfold frontEnd
    rw [hp]
    rfl
  · unfold frontEnd
    rw [hq]
    rfl

end kubesurvival

/-! ## Sums and the order of their operands (C24) -/

namespace podgen

open parser corev1

theorem Podgen_add_requestMaps (pq : String → Except String resource.Quantity)
    (l r : Expression) (p : lexer.Position) :
    requestMaps (Podgen pq (Expression.ArithmeticExpression l Operator.Add r p)).1 =
      requestMaps (Podgen pq l).1 ++ requestMaps (Podgen pq r).1 := by
  show requestMaps (PodGenerator.PodgenExpression pq r
    (PodGenerator.PodgenExpression pq l _)).pods = _
  rw [PodgenExpression_requestMaps pq r, PodgenExpression_requestMaps pq l]
  rfl

/-- C24: for all expression trees A and B (and all positions of the two Add nodes), the
list of request maps that Podgen emits for Add(A, B) is a permutation of the list that it
emits for Add(B, A): the one is the request maps of A followed by those of B, the other
those of B followed by those of A. -/
theorem add_commutes_up_to_names (pq : String → Except String resource.Quantity)
    (A B : Expression) (p q : lexer.Position) :
    (requestMaps (Podgen pq (Expression.ArithmeticExpression A Operator.Add B p)).1).Perm
      (requestMaps (Podgen pq (Expression.ArithmeticExpression B Operator.Add A q)).1) ∧
    requestMaps (Podgen pq (Expression.ArithmeticExpression A Operator.Add B p)).1 =
      requestMaps (Podgen pq A).1 ++ requestMaps (Podgen pq B).1 ∧
    requestMaps (Podgen pq (Expression.ArithmeticExpression B Operator.Add A q)).1 =
      requestMaps (Podgen pq B).1 ++ requestMaps (Podgen pq A).1 := by
  refine ⟨?_, Podgen_add_requestMaps pq A B p, Podgen_add_requestMaps pq B A q⟩
  rw [Podgen_add_requestMaps, Podgen_add_requestMaps]
  exact List.perm_append_comm

/-! ## Names of the emitted pods (C25) -/

/-- The name that PodgenPodExpression gives at counter value `i`. -/
theorem PodgenPodExpression_names (pq : String → Except String resource.Quantity)
    (c : PodGenerator) (CPU Memory GPU : Expression) :
    (c.PodgenPodExpression pq CPU Memory GPU).pods.map Pod.Name =
      c.pods.map Pod.Name ++ ["pod-" ++ toString c.currentPodIndex] := by
  rw [(PodgenPodExpression_pods pq c CPU Memory GPU).1]
  simp

theorem iterate_names (f : PodGenerator → PodGenerator)
    (hf : ∀ c, ∃ k, (f c).pods.map Pod.Name = c.pods.map Pod.Name ++
        (List.range' c.currentPodIndex k).map (fun i => "pod-" ++ toString i) ∧
      (f c).currentPodIndex = c.currentPodIndex + k) (n : Nat) :
    ∀ c, ∃ k, (Nat.iterate f n c).pods.map Pod.Name = c.pods.map Pod.Name ++
        (List.range' c.currentPodIndex k).map (fun i => "pod-" ++ toString i) ∧
      (Nat.iterate f n c).currentPodIndex = c.currentPodIndex + k := by
  induction n with
  | zero => intro c; exact ⟨0, by simp, rfl⟩
  | succ n ih =>
    intro c
    obtain ⟨k1, h1, h2⟩ := hf c
    obtain ⟨k2, h3, h4⟩ := ih (f c)
    refine ⟨k1 + k2, ?_, ?_⟩
    · rw [Function.iterate_succ_apply, h3, h1, h2, List.append_assoc, ← List.map_append,
        List.range'_append_1, Nat.add_comm k2 k1]
    · rw [Function.iterate_succ_apply, h4, h2]; omega

/-- The pods that an expression adds are named from the consecutive values of the
counter, starting at its value before. -/
theorem PodgenExpression_names (pq : String → Except String resource.Quantity)
    (e : Expression) :
    ∀ c, ∃ k, (PodGenerator.PodgenExpression pq e c).pods.map Pod.Name =
        c.pods.map Pod.Name ++
          (List.range' c.currentPodIndex k).map (fun i => "pod-" ++ toString i) ∧
      (PodGenerator.PodgenExpression pq e c).currentPodIndex = c.currentPodIndex + k := by
  induction e with
  | nil => intro c; exact ⟨0, by simp [PodGenerator.PodgenExpression], rfl⟩
  | IntLiteral v p => intro c; exact ⟨0, by simp [PodGenerator.PodgenExpression], rfl⟩
  | StringLiteral v p => intro c; exact ⟨0, by simp [PodGenerator.PodgenExpression], rfl⟩
  | PodExpression CPU Memory GPU p _ _ _ =>
    intro c
    refine ⟨1, ?_, ?_⟩
    · simp only [PodGenerator.PodgenExpression]
      rw [PodgenPodExpression_names]
      simp
    · simp only [PodGenerator.PodgenExpression]
      exact (PodgenPodExpression_pods pq c CPU Memory GPU).2
  | ArithmeticExpression LHS op RHS p ihl ihr =>
    intro c
    cases op with
    | Add =>
      simp only [PodGenerator.PodgenExpression]
      obtain ⟨k1, h1, h2⟩ := ihl c
      obtain ⟨k2, h3, h4⟩ := ihr (PodGenerator.PodgenExpression pq LHS c)
      refine ⟨k1 + k2, ?_, ?_⟩
      · rw [h3, h1, h2, List.append_assoc, ← List.map_append, List.range'_append_1,
          Nat.add_comm k2 k1]
      · rw [h4, h2]; omega
    | Multiply =>
      rw [PodgenExpression_multiply]
      cases asIntLiteral LHS with
      | some v => exact iterate_names _ ihr _ c
      | none =>
        cases asIntLiteral RHS with
        | some v => exact iterate_names _ ihl _ c
        | none => exact ⟨0, by simp, rfl⟩

/-- The names of the pods of Podgen: `pod-0`, `pod-1`, and so on. -/
theorem Podgen_names (pq : String → Except String resource.Quantity) (e : Expression) :
    (Podgen pq e).1.map Pod.Name =
      (List.range (Podgen pq e).1.length).map (fun i => "pod-" ++ toString i) := by
  obtain ⟨k, h1, _⟩ := PodgenExpression_names pq e
    { errors := [], pods := [], currentPodIndex := 0 }
  have h : (Podgen pq e).1.map Pod.Name =
      (List.range' 0 k).map (fun i => "pod-" ++ toString i) := by
    simpa [Podgen] using h1
  have hk : (Podgen pq e).1.length = k := by
    have := congrArg List.length h
    simpa using this
  rw [hk, h, List.range_eq_range']

/-- C25, as stated, fails on the name: the valid program `pod(cpu: 1)` parses without
errors and materializes without errors to one pod, which PodgenPodExpression names `pod-0`
(format "pod-%d"), not `unit-0`. -/
theorem unit_name_is_pod :
    Parse "pod(cpu: 1)" =
      some (Expression.PodExpression (Expression.IntLiteral 1 ⟨0, 9⟩) Expression.nil
        Expression.nil ⟨0, 0⟩, []) ∧
    (Podgen (fun _ => Except.error "")
      (Expression.PodExpression (Expression.IntLiteral 1 ⟨0, 9⟩) Expression.nil
        Expression.nil ⟨0, 0⟩)).2 = [] ∧
    (Podgen (fun _ => Except.error "")
      (Expression.PodExpression (Expression.IntLiteral 1 ⟨0, 9⟩) Expression.nil
        Expression.nil ⟨0, 0⟩)).1.map Pod.Name = ["pod-0"] ∧
    "pod-0" ≠ "unit-0" := by
  refine ⟨by decide, by decide, by decide, by decide⟩

/-- C25, amended: for every valid DSL program, that is every text that Parse accepts
without errors and whose tree Podgen materializes without errors, the pods emitted by
Podgen are named `pod-0`, `pod-1`, ..., `pod-{k-1}` in emission order, `k` being the
number of pods, with no gaps and no duplicates. -/
theorem unit_names (pq : String → Except String resource.Quantity) (s : String)
    (t : Expression) :
    Parse s = some (t, []) → (Podgen pq t).2 = [] →
      (Podgen pq t).1.map Pod.Name =
        (List.range (Podgen pq t).1.length).map (fun i => "pod-" ++ toString i) ∧
      ((Podgen pq t).1.map Pod.Name).Nodup := by
  intro _ _
  refine ⟨Podgen_names pq t, ?_⟩
  rw [Podgen_names pq t]
  refine List.Nodup.map ?_ (List.nodup_range _)
  intro i j hij
  have h := congrArg String.data hij
  simp only [String.data_append] at h
  have h2 := List.append_cancel_left h
  have h3 : toString i = toString j := String.ext h2
  exact strconv.toString_injective i j h3

/-- C25, amended, at the program `pod(cpu: 1) + 2 * pod(cpu: 2)`, which has three pods. -/
theorem unit_names_witness :
    (Podgen (fun _ => Except.error "")
      (Expression.ArithmeticExpression
        (Expression.PodExpression (Expression.IntLiteral 1 ⟨0, 9⟩) Expression.nil
          Expression.nil ⟨0, 0⟩)
        Operator.Add
        (Expression.ArithmeticExpression (Expression.IntLiteral 2 ⟨0, 14⟩)
          Operator.Multiply
          (Expression.PodExpression (Expression.IntLiteral 2 ⟨0, 27⟩) Expression.nil
            Expression.nil ⟨0, 18⟩) ⟨0, 16⟩) ⟨0, 12⟩)).1.map Pod.Name =
        (List.range (Podgen (fun _ => Except.error "")
      (Expression.ArithmeticExpression
        (Expression.PodExpression (Expression.IntLiteral 1 ⟨0, 9⟩) Expression.nil
          Expression.nil ⟨0, 0⟩)
        Operator.Add
        (Expression.ArithmeticExpression (Expression.IntLiteral 2 ⟨0, 14⟩)
          Operator.Multiply
          (Expression.PodExpression (Expression.IntLiteral 2 ⟨0, 27⟩) Expression.nil
            Expression.nil ⟨0, 18⟩) ⟨0, 16⟩) ⟨0, 12⟩)).1.length).map
          (fun i => "pod-" ++ toString i) ∧
      ((Podgen (fun _ => Except.error "")
      (Expression.ArithmeticExpression
        (Expression.PodExpression (Expression.IntLiteral 1 ⟨0, 9⟩) Expression.nil
          Expression.nil ⟨0, 0⟩)
        Operator.Add
        (Expression.ArithmeticExpression (Expression.IntLiteral 2 ⟨0, 14⟩)
          Operator.Multiply
          (Expression.PodExpression (Expression.IntLiteral 2 ⟨0, 27⟩) Expression.nil
            Expression.nil ⟨0, 18⟩) ⟨0, 16⟩) ⟨0, 12⟩)).1.map Pod.Name).Nodup :=
  unit_names (fun _ => Except.error "") "pod(cpu: 1) + 2 * pod(cpu: 2)" _ (by decide)
    (by decide)

end podgen

/-! ## Parsing the pretty-printed text of a tree (C26) -/

namespace parser

open lexer

theorem value_literal (t : Symbol) (v : Expression) (h : DerivesValue t v)
    (hw : ∀ d, t = Symbol.integer d → d.data ≠ [] ∧ d.data.all isDigit = true) :
    ∃ l, literalOf v = some l ∧ l.InRange ∧ l.expression = v := by
  cases h with
  | integer digits =>
    obtain ⟨n, hn, hv⟩ := ParseInt_digits digits (hw digits rfl).1 (hw digits rfl).2
    rw [hv]
    obtain ⟨a1, a2, a3⟩ := strconv.toString_value n
    refine ⟨Literal.integer (toString n), rfl, ⟨a3, a2, by rw [a1]; exact hn⟩, ?_⟩
    simp only [Literal.expression, a1]
  | string contents => exact ⟨Literal.string contents, rfl, trivial, rfl⟩

theorem get_assign (a b : Axis) (v : Expression) (f : Expression × Expression × Expression) :
    b.get (a.assign v f) = if b = a then v else b.get f := by
  cases a <;> cases b <;> rfl

/-- The fields of a pod literal of the grammar: each is absent or the expression of a
literal in range, and one of them is present. -/
theorem fields_ok (f : Expression × Expression × Expression) (ts : List Symbol)
    (f1 : Expression × Expression × Expression) (h : DerivesFields f ts f1) :
    (∀ d, Symbol.integer d ∈ ts → d.data ≠ [] ∧ d.data.all isDigit = true) →
    (∀ a : Axis, a.get f = Expression.nil ∨
      ∃ l, literalOf (a.get f) = some l ∧ l.InRange ∧ l.expression = a.get f) →
    (∀ a : Axis, a.get f1 = Expression.nil ∨
      ∃ l, literalOf (a.get f1) = some l ∧ l.InRange ∧ l.expression = a.get f1) ∧
    ∃ a : Axis, a.get f1 ≠ Expression.nil := by
  induction h with
  | last a t v f hv =>
    intro hw hf
    obtain ⟨l, h1, h2, h3⟩ := value_literal t v hv (fun d hd => hw d (by simp [hd]))
    refine ⟨fun b => ?_, a, ?_⟩
    · rw [get_assign]
      split
      · exact Or.inr ⟨l, h1, h2, h3⟩
      · exact hf b
    · rw [get_assign, if_pos rfl]
      intro hnil
      rw [hnil] at h1
      simp [literalOf] at h1
  | more a t v f f1 ts hv _ ih =>
    intro hw hf
    obtain ⟨l, h1, h2, h3⟩ := value_literal t v hv (fun d hd => hw d (by simp [hd]))
    refine ih (fun d hd => hw d (by simp [hd])) (fun b => ?_)
    rw [get_assign]
    split
    · exact Or.inr ⟨l, h1, h2, h3⟩
    · exact hf b

/-- The pod literal that writes a PodExpression whose fields are absent or expressions of
literals in range, one of them present. -/
theorem podFields_spec (c m g : Expression)
    (hok : ∀ a : Axis, a.get (c, m, g) = Expression.nil ∨
      ∃ l, literalOf (a.get (c, m, g)) = some l ∧ l.InRange ∧ l.expression = a.get (c, m, g))
    (hne : ∃ a : Axis, a.get (c, m, g) ≠ Expression.nil) :
    podFields c m g ≠ [] ∧ (∀ x ∈ podFields c m g, x.2.InRange) ∧
    podExpression (podFields c m g) = Expression.PodExpression c m g ⟨0, 0⟩ := by
  have hc := hok Axis.cpu
  have hm := hok Axis.memory
  have hg := hok Axis.gpu
  simp only [Axis.get] at hc hm hg
  have hnil : literalOf Expression.nil = none := rfl
  rcases hc with hc | ⟨l1, a1, b1, c1⟩ <;> rcases hm with hm | ⟨l2, a2, b2, c2⟩ <;>
    rcases hg with hg | ⟨l3, a3, b3, c3⟩
  · obtain ⟨a, ha⟩ := hne
    cases a <;> simp [Axis.get, hc, hm, hg] at ha
  · subst hc hm
    simp [podFields, hnil, a3, b3, podExpression, assignFields, Axis.assign, c3]
  · subst hc hg
    simp [podFields, hnil, a2, b2, podExpression, assignFields, Axis.assign, c2]
  · subst hc
    simp [podFields, hnil, a2, b2, a3, b3, podExpression, assignFields, Axis.assign, c2, c3]
  · subst hm hg
    simp [podFields, hnil, a1, b1, podExpression, assignFields, Axis.assign, c1]
  · subst hm
    simp [podFields, hnil, a1, b1, a3, b3, podExpression, assignFields, Axis.assign, c1, c3]
  · subst hg
    simp [podFields, hnil, a1, b1, a2, b2, podExpression, assignFields, Axis.assign, c1, c2]
  · simp [podFields, a1, b1, a2, b2, a3, b3, podExpression, assignFields, Axis.assign, c1,
      c2, c3]

theorem integersInRange_bracket (b : Bool) (ts : List Symbol) :
    IntegersInRange (bracket b ts) ↔ IntegersInRange ts := by
  unfold bracket
  split
  · simp only [List.cons_append, List.nil_append, integersInRange_token,
      integersInRange_append_iff]
    exact ⟨fun h => h.1, fun h => ⟨h, integersInRange_nil⟩⟩
  · rfl

theorem integersInRange_numeral (n : Nat) (h : n < 2 ^ 63) :
    IntegersInRange [Symbol.integer (toString n)] := by
  rw [integersInRange_integer, strconv.ParseInt_toString n h]
  exact ⟨rfl, integersInRange_nil⟩

theorem intLed_false_right (l : Expression) (v : Int) (p q : Position) :
    ¬ IntLed (Expression.ArithmeticExpression l Operator.Multiply
      (Expression.IntLiteral v q) p) := by
  rintro ⟨l1, r1, p1, h, hr⟩
  simp only [Expression.ArithmeticExpression.injEq] at h
  rw [← h.2.2.1] at hr
  simp [isIntLiteral] at hr

theorem pretty_add (b : Bool) (place : Place) (l r : Expression) (p : Position) :
    prettySymbols b place (Expression.ArithmeticExpression l Operator.Add r p) =
      bracket (place != Place.top)
        (prettySymbols b Place.top l ++ [Symbol.token TokenType.ADD] ++
          prettySymbols b Place.addend r) := by
  simp only [prettySymbols]

theorem pretty_times_integer (b : Bool) (place : Place) (l : Expression) (n : Nat)
    (p q : Position) :
    prettySymbols b place (Expression.ArithmeticExpression l Operator.Multiply
        (Expression.IntLiteral (n : Int) q) p) =
      bracket (b && (place == Place.factor || place == Place.counting))
        (prettySymbols b Place.counted l ++
          [Symbol.token TokenType.MUL, Symbol.integer (toString n)]) := by
  simp only [prettySymbols, isIntLiteral, if_true, List.append_assoc, List.singleton_append]
  rfl

theorem pretty_times_factor (b : Bool) (place : Place) (l r : Expression) (p : Position)
    (h : isIntLiteral r = false) :
    prettySymbols b place (Expression.ArithmeticExpression l Operator.Multiply r p) =
      bracket (b && (place == Place.factor || place == Place.counted))
        (prettySymbols b Place.counting l ++ [Symbol.token TokenType.MUL] ++
          prettySymbols b Place.factor r) := by
  simp only [prettySymbols, h, Bool.false_eq_true, if_false]

/-- A sum of printable trees is printable. -/
theorem printable_add (e e1 : Expression) (h : Printable e) (h1 : Printable e1) :
    Printable (Expression.ArithmeticExpression e Operator.Add e1 ⟨0, 0⟩) := by
  have hd : Derives false Category.expression
      (prettySymbols true Place.top e ++ [Symbol.token TokenType.ADD] ++
        prettySymbols true Place.addend e1)
      (Expression.ArithmeticExpression e Operator.Add e1 ⟨0, 0⟩) := by
    rcases h1.addend with a | a
    · exact Derives.plusFactorTerm false _ _ _ _ h.top a
    · exact Derives.plusIntegerTerm false _ _ _ _ h.top a
  have hf := Derives.paren false _ _ hd
  exact {
    notInteger := rfl
    top := by rw [pretty_add]; exact hd
    factor := by rw [pretty_add]; exact hf
    addend := by rw [pretty_add]; exact Or.inl (Derives.factorTerm false _ _ hf)
    counted := by rw [pretty_add]; exact Derives.factorTerm false _ _ hf
    counting := by
      rintro ⟨l, r, p, he, _⟩
      simp at he
    inRange := by
      intro place
      rw [pretty_add, integersInRange_bracket, integersInRange_append_iff,
        integersInRange_append_iff, integersInRange_token]
      exact ⟨⟨h.inRange _, integersInRange_nil⟩, h1.inRange _⟩ }

/-- A product `e * n` of a printable tree and an integer within the range is
printable. -/
theorem printable_times_integer (e : Expression) (n : Nat) (hn : n < 2 ^ 63)
    (h : Printable e) :
    Printable (Expression.ArithmeticExpression e Operator.Multiply
      (Expression.IntLiteral (n : Int) ⟨0, 0⟩) ⟨0, 0⟩) := by
  have hd : Derives false Category.factorTerm
      (prettySymbols true Place.counted e ++
        [Symbol.token TokenType.MUL, Symbol.integer (toString n)])
      (Expression.ArithmeticExpression e Operator.Multiply
        (Expression.IntLiteral (n : Int) ⟨0, 0⟩) ⟨0, 0⟩) := by
    have := Derives.timesInteger false _ _ (toString n) h.counted
    rw [strconv.ParseInt_toString n hn] at this
    exact this
  have hf := Derives.paren false _ _ (Derives.ofFactorTerm false _ _ hd)
  exact {
    notInteger := rfl
    top := by rw [pretty_times_integer]; exact Derives.ofFactorTerm false _ _ hd
    factor := by rw [pretty_times_integer]; exact hf
    addend := by rw [pretty_times_integer]; exact Or.inl hd
    counted := by rw [pretty_times_integer]; exact hd
    counting := fun hl => absurd hl (intLed_false_right _ _ _ _)
    inRange := by
      intro place
      rw [pretty_times_integer, integersInRange_bracket, integersInRange_append_iff,
        integersInRange_token]
      exact ⟨h.inRange _, integersInRange_numeral n hn⟩ }

/-- A product whose right operand is a printable tree and whose left operand is printed
as a phrase `integer * factor * ...` is printable. -/
theorem printable_times_factor (l e : Expression) (h : Printable e)
    (hl : Derives false Category.integerTerm
      (prettySymbols true Place.counting l ++ [Symbol.token TokenType.MUL] ++
        prettySymbols true Place.factor e)
      (Expression.ArithmeticExpression l Operator.Multiply e ⟨0, 0⟩))
    (hr : IntegersInRange (prettySymbols true Place.counting l)) :
    Printable (Expression.ArithmeticExpression l Operator.Multiply e ⟨0, 0⟩) := by
  have hni : isIntLiteral e = false := h.notInteger
  have hf := Derives.paren false _ _ (Derives.ofIntegerTerm false _ _ hl)
  exact {
    notInteger := rfl
    top := by rw [pretty_times_factor _ _ _ _ _ hni]; exact Derives.ofIntegerTerm false _ _ hl
    factor := by rw [pretty_times_factor _ _ _ _ _ hni]; exact hf
    addend := by rw [pretty_times_factor _ _ _ _ _ hni]; exact Or.inr hl
    counted := by
      rw [pretty_times_factor _ _ _ _ _ hni]; exact Derives.factorTerm false _ _ hf
    counting := by
      intro _
      rw [pretty_times_factor _ _ _ _ _ hni]; exact hl
    inRange := by
      intro place
      rw [pretty_times_factor _ _ _ _ _ hni, integersInRange_bracket,
        integersInRange_append_iff, integersInRange_append_iff, integersInRange_token]
      exact ⟨⟨hr, integersInRange_nil⟩, h.inRange _⟩ }

/-- The tree of every phrase of the grammar without empty pod literals, whose integer
literals are runs of digits, is printable; the tree of a phrase `integer * factor * ...`
is a product without an integer literal on the right. -/
theorem derives_printable (b : Bool) (c : Category) (ts : List Symbol) (e : Expression)
    (h : Derives b c ts e) :
    b = false →
    (∀ d, Symbol.integer d ∈ ts → d.data ≠ [] ∧ d.data.all isDigit = true) →
    Printable e ∧ (c = Category.integerTerm → IntLed e) := by
  induction h with
  | emptyPod => intro hb; cases hb
  | pod b ts f hf =>
    intro _ hw
    obtain ⟨h1, h2⟩ := fields_ok _ ts f hf (fun d hd => hw d (by simp [hd]))
      (fun a => Or.inl (by cases a <;> rfl))
    obtain ⟨k1, k2, k3⟩ := podFields_spec f.1 f.2.1 f.2.2 h1 h2
    have hd : Derives false Category.factor (podSymbols (podFields f.1 f.2.1 f.2.2))
        (Expression.PodExpression f.1 f.2.1 f.2.2 ⟨0, 0⟩) := by
      rw [← k3]
      exact pod_derives _ k1 k2
    refine ⟨?_, fun hc => by cases hc⟩
    exact {
      notInteger := rfl
      top := Derives.ofFactorTerm false _ _ (Derives.factorTerm false _ _ hd)
      factor := hd
      addend := Or.inl (Derives.factorTerm false _ _ hd)
      counted := Derives.factorTerm false _ _ hd
      counting := by
        rintro ⟨l, r, p, he, _⟩
        simp at he
      inRange := fun _ => integersInRange_pod _ k2 }
  | paren b ts e _ ih =>
    intro hb hw
    exact ⟨(ih hb (fun d hd => hw d (by simp [hd]))).1, fun hc => by cases hc⟩
  | factorTerm b ts e _ ih =>
    intro hb hw
    exact ⟨(ih hb hw).1, fun hc => by cases hc⟩
  | timesInteger b ts e digits _ ih =>
    intro hb hw
    obtain ⟨n, hn, hv⟩ := ParseInt_digits digits (hw digits (by simp)).1
      (hw digits (by simp)).2
    rw [hv]
    exact ⟨printable_times_integer e n hn (ih hb (fun d hd => hw d (by simp [hd]))).1,
      fun hc => by cases hc⟩
  | integerTimes b digits ts e _ ih =>
    intro hb hw
    obtain ⟨n, hn, hv⟩ := ParseInt_digits digits (hw digits (by simp)).1
      (hw digits (by simp)).2
    rw [hv]
    have he := (ih hb (fun d hd => hw d (by simp [hd]))).1
    have hl : Derives false Category.integerTerm
        (prettySymbols true Place.counting (Expression.IntLiteral (n : Int) ⟨0, 0⟩) ++
          [Symbol.token TokenType.MUL] ++ prettySymbols true Place.factor e)
        (Expression.ArithmeticExpression (Expression.IntLiteral (n : Int) ⟨0, 0⟩)
          Operator.Multiply e ⟨0, 0⟩) := by
      have := Derives.integerTimes false (toString n) _ _ he.factor
      rw [strconv.ParseInt_toString n hn] at this
      exact this
    exact ⟨printable_times_factor _ e he hl (integersInRange_numeral n hn),
      fun _ => ⟨_, _, _, rfl, he.notInteger⟩⟩
  | timesFactor b ts ts1 e e1 _ _ ih ih1 =>
    intro hb hw
    obtain ⟨he, hled⟩ := ih hb (fun d hd => hw d (by simp [hd]))
    have he1 := (ih1 hb (fun d hd => hw d (by simp [hd]))).1
    have hl := Derives.timesFactor false _ _ _ _ (he.counting (hled rfl)) he1.factor
    exact ⟨printable_times_factor e e1 he1 hl (he.inRange _),
      fun _ => ⟨_, _, _, rfl, he1.notInteger⟩⟩
  | ofFactorTerm b ts e _ ih =>
    intro hb hw
    exact ⟨(ih hb hw).1, fun hc => by cases hc⟩
  | ofIntegerTerm b ts e _ ih =>
    intro hb hw
    exact ⟨(ih hb hw).1, fun hc => by cases hc⟩
  | plusFactorTerm b ts ts1 e e1 _ _ ih ih1 =>
    intro hb hw
    exact ⟨printable_add e e1 (ih hb (fun d hd => hw d (by simp [hd]))).1
      (ih1 hb (fun d hd => hw d (by simp [hd]))).1, fun hc => by cases hc⟩
  | plusIntegerTerm b ts ts1 e e1 _ _ ih ih1 =>
    intro hb hw
    exact ⟨printable_add e e1 (ih hb (fun d hd => hw d (by simp [hd]))).1
      (ih1 hb (fun d hd => hw d (by simp [hd]))).1, fun hc => by cases hc⟩

theorem literalOf_erase (e : Expression) : literalOf e.erase = literalOf e := by
  cases e <;> rfl

theorem isIntLiteral_erase (e : Expression) : isIntLiteral e.erase = isIntLiteral e := by
  cases e <;> rfl

/-- The pretty-printed tokens do not depend on the positions in the tree. -/
theorem prettySymbols_erase (b : Bool) (e : Expression) :
    ∀ place, prettySymbols b place e.erase = prettySymbols b place e := by
  induction e with
  | nil => intro place; rfl
  | IntLiteral v p => intro place; rfl
  | StringLiteral v p => intro place; rfl
  | PodExpression c m g p _ _ _ =>
    intro place
    simp only [Expression.erase, prettySymbols, podFields, List.filterMap_cons,
      literalOf_erase]
  | ArithmeticExpression l op r p ihl ihr =>
    intro place
    cases op <;> simp only [Expression.erase, prettySymbols, ihl, ihr, isIntLiteral_erase]

/-- The tree that Parse returns without errors, for a text among whose tokens no `)`
comes right after a `(` or a `,`, is printable up to positions. -/
theorem Parse_printable (s : String) (t : Expression) (h : Parse s = some (t, []))
    (hn : NoEmptyClose s) : Printable t.erase := by
  unfold Parse at h
  cases hE : Parser.ParseExpression (3 * s.length + 3) (NewParser (NewScanner s.data)) with
  | none => rw [hE] at h; simp at h
  | some r =>
    obtain ⟨e1, q⟩ := r
    rw [hE] at h
    simp only [Option.some.injEq, Prod.mk.injEq] at h
    obtain ⟨h1, h2⟩ := h
    subst h1
    obtain ⟨_, hs⟩ := (parser_sound _).1 _ _ _ hE (NewParser_noEmptyClose s hn)
    obtain ⟨ts, hr, hd⟩ := hs h2
    have ht : HasTokens s ts := (hasTokens_iff s ts).mpr hr.1
    exact (derives_printable _ _ _ _ hd rfl (hasTokens_integer s ts ht)).1

/-- C26, as stated, fails: a product needs its parentheses where it is the right operand
of `*`.  Parse accepts `2 * (3 * pod(cpu: 1))` without errors; printed as the property
says, with parentheses for sums only, the tree gives the tokens of `2 * 3 * pod(cpu: 1)`,
and for this text Parse returns an error (after `2 *` the loop of ParseTerm asks for a
factor and finds the integer 3) and another tree. -/
theorem round_trip_loses_product_parentheses :
    Parse "2 * (3 * pod(cpu: 1))" =
      some (Expression.ArithmeticExpression (Expression.IntLiteral 2 ⟨0, 0⟩)
        Operator.Multiply
        (Expression.ArithmeticExpression (Expression.IntLiteral 3 ⟨0, 5⟩) Operator.Multiply
          (Expression.PodExpression (Expression.IntLiteral 1 ⟨0, 18⟩) Expression.nil
            Expression.nil ⟨0, 9⟩) ⟨0, 7⟩) ⟨0, 2⟩, []) ∧
    HasTokens "2 * 3 * pod(cpu: 1)"
      (prettySymbols false Place.top
        (Expression.ArithmeticExpression (Expression.IntLiteral 2 ⟨0, 0⟩)
          Operator.Multiply
          (Expression.ArithmeticExpression (Expression.IntLiteral 3 ⟨0, 5⟩)
            Operator.Multiply
            (Expression.PodExpression (Expression.IntLiteral 1 ⟨0, 18⟩) Expression.nil
              Expression.nil ⟨0, 9⟩) ⟨0, 7⟩) ⟨0, 2⟩) ++
        [Symbol.token TokenType.EOF]) ∧
    Parse "2 * 3 * pod(cpu: 1)" =
      some (Expression.ArithmeticExpression (Expression.IntLiteral 2 ⟨0, 0⟩)
          Operator.Multiply Expression.nil ⟨0, 2⟩,
        [{ Message := "", Found := "3", Expected := ["(", "pod"], Pos := ⟨0, 4⟩ }]) := by
  refine ⟨by decide, by decide, by decide⟩

/-- C26, amended: for every expression tree `t` that Parse returns with an empty error
list, for an input among whose tokens no `)` comes right after a `(` or a `,`, every text
whose tokens are the pretty-printed form of `t` followed by end-of-input parses to an
empty error list and a tree equal to `t` up to positions.  The pretty-printed form writes
fields `axis: value` in the order cpu, memory, gpu, writes `+` and `*` infix, parenthesises
a sum when it is an operand of `*` or the right operand of `+`, and parenthesises a product
when it is the right operand of `*` or when it is the left operand of `*` and is of the
other kind than the product it stands in (a product `e * n` with an integer literal on the
right inside one without, or the converse). -/
theorem round_trip (s : String) (t : Expression) (h : Parse s = some (t, []))
    (hn : NoEmptyClose s) (s1 : String)
    (hs : HasTokens s1 (prettySymbols true Place.top t ++ [Symbol.token TokenType.EOF])) :
    ∃ t1, Parse s1 = some (t1, []) ∧ t1.erase = t.erase := by
  have hp := Parse_printable s t h hn
  rw [← prettySymbols_erase] at hs
  exact Parse_complete s1 _ _ _ hp.top (hp.inRange _) hs (by decide) (by decide)

/-- C26, amended, at the tree of `2 * (3 * pod(cpu: 1))` and a text without blanks that
has the tokens of its pretty-printed form. -/
theorem round_trip_witness :
    ∃ t1, Parse "2*(3*pod(cpu:1))" = some (t1, []) ∧
      t1.erase = (Expression.ArithmeticExpression (Expression.IntLiteral 2 ⟨0, 0⟩)
        Operator.Multiply
        (Expression.ArithmeticExpression (Expression.IntLiteral 3 ⟨0, 5⟩) Operator.Multiply
          (Expression.PodExpression (Expression.IntLiteral 1 ⟨0, 18⟩) Expression.nil
            Expression.nil ⟨0, 9⟩) ⟨0, 7⟩) ⟨0, 2⟩).erase :=
  round_trip "2 * (3 * pod(cpu: 1))" _ (by decide) (by decide) "2*(3*pod(cpu:1))"
    (by decide)

end parser

/-! ## Scanners that read the same runes return the same tokens -/

namespace lexer

theorem sim_buffer {R : Scanner → Scanner → Prop} {Q : Position → Position → Prop}
    (h : Simulation R Q) (s t : Scanner) (hr : R s t) :
    (s.read).2.buffer.1 = (t.read).2.buffer.1 := by
  rw [← (read_unread s).1, ← (read_unread t).1]
  exact (h.read s t hr).1

theorem sim_scanWhitespace {R : Scanner → Scanner → Prop} {Q : Position → Position → Prop}
    (h : Simulation R Q) (f : Nat) :
    ∀ (g : Nat) (s t : Scanner), R s t → s.unread < f → t.unread < g →
      R (Scanner.scanWhitespace f s) (Scanner.scanWhitespace g t) := by
  induction f with
  | zero => intro g s t _ hf; omega
  | succ f ih =>
    intro g s t hr hf hg
    cases g with
    | zero => omega
    | succ g =>
      obtain ⟨h1, _, h3⟩ := h.read s t hr
      unfold Scanner.scanWhitespace
      simp only []
      rw [← h1]
      by_cases he : (s.read).1.1 = eof
      · simp only [he, if_true]
        exact h3
      · simp only [he, if_false]
        split
        · exact h.unscan _ _ h3 (sim_buffer h s t hr)
        · have a := (read_unread s).2.2 he
          have b := (read_unread t).2.2 (by rw [← h1]; exact he)
          exact ih g _ _ h3 (by omega) (by omega)

theorem sim_skipUntilEndComment {R : Scanner → Scanner → Prop}
    {Q : Position → Position → Prop} (h : Simulation R Q) (f : Nat) :
    ∀ (g : Nat) (s t : Scanner), R s t → s.unread < f → t.unread < g →
      (Scanner.skipUntilEndComment f s).1 = (Scanner.skipUntilEndComment g t).1 ∧
      R (Scanner.skipUntilEndComment f s).2 (Scanner.skipUntilEndComment g t).2 := by
  induction f with
  | zero => intro g s t _ hf; omega
  | succ f ih =>
    intro g s t hr hf hg
    cases g with
    | zero => omega
    | succ g =>
      obtain ⟨h1, _, h3⟩ := h.read s t hr
      unfold Scanner.skipUntilEndComment
      simp only []
      rw [← h1]
      by_cases hn : (s.read).1.1 = '\n'
      · simp only [hn, if_true]
        exact ⟨trivial, h3⟩
      · simp only [hn, if_false]
        by_cases he : (s.read).1.1 = eof
        · simp only [he, if_true]
          exact ⟨trivial, h3⟩
        · simp only [he, if_false]
          have a := (read_unread s).2.2 he
          have b := (read_unread t).2.2 (by rw [← h1]; exact he)
          exact ih g _ _ h3 (by omega) (by omega)

theorem sim_scanKeywordLoop {R : Scanner → Scanner → Prop} {Q : Position → Position → Prop}
    (h : Simulation R Q) (f : Nat) :
    ∀ (g : Nat) (buf : List Char) (s t : Scanner), R s t → s.unread < f → t.unread < g →
      (Scanner.scanKeywordLoop f buf s).1 = (Scanner.scanKeywordLoop g buf t).1 ∧
      R (Scanner.scanKeywordLoop f buf s).2 (Scanner.scanKeywordLoop g buf t).2 := by
  induction f with
  | zero => intro g buf s t _ hf; omega
  | succ f ih =>
    intro g buf s t hr hf hg
    cases g with
    | zero => omega
    | succ g =>
      obtain ⟨h1, _, h3⟩ := h.read s t hr
      unfold Scanner.scanKeywordLoop
      simp only []
      rw [← h1]
      by_cases he : (s.read).1.1 = eof
      · simp only [he, if_true]
        exact ⟨trivial, h3⟩
      · simp only [he, if_false]
        split
        · exact ⟨rfl, h.unscan _ _ h3 (sim_buffer h s t hr)⟩
        · have a := (read_unread s).2.2 he
          have b := (read_unread t).2.2 (by rw [← h1]; exact he)
          exact ih g _ _ _ h3 (by omega) (by omega)

theorem sim_scanKeyword {R : Scanner → Scanner → Prop} {Q : Position → Position → Prop}
    (h : Simulation R Q) (f g : Nat) (s t : Scanner) (hr : R s t)
    (hf : s.unread < f) (hg : t.unread < g) :
    Token.Related Q (Scanner.scanKeyword f s).1 (Scanner.scanKeyword g t).1 ∧
    R (Scanner.scanKeyword f s).2 (Scanner.scanKeyword g t).2 := by
  obtain ⟨h1, h2, h3⟩ := h.read s t hr
  have a := (read_unread s).2.1
  have b := (read_unread t).2.1
  obtain ⟨k1, k2⟩ := sim_scanKeywordLoop h f g [(s.read).1.1] _ _ h3 (by omega) (by omega)
  unfold Scanner.scanKeyword
  simp only []
  rw [← h1, ← k1]
  split_ifs <;> exact ⟨⟨rfl, rfl, h2⟩, k2⟩

theorem sim_scanIntegerLoop {R : Scanner → Scanner → Prop} {Q : Position → Position → Prop}
    (h : Simulation R Q) (f : Nat) :
    ∀ (g : Nat) (buf : List Char) (ch : Char) (s t : Scanner), R s t →
      s.buffer.1 = ch → t.buffer.1 = ch →
      s.unread + (if ch = eof then 0 else 1) < f →
      t.unread + (if ch = eof then 0 else 1) < g →
      (Scanner.scanIntegerLoop f buf ch s).1 = (Scanner.scanIntegerLoop g buf ch t).1 ∧
      R (Scanner.scanIntegerLoop f buf ch s).2 (Scanner.scanIntegerLoop g buf ch t).2 := by
  induction f with
  | zero => intro g buf ch s t _ _ _ hf; omega
  | succ f ih =>
    intro g buf ch s t hr hs ht hf hg
    cases g with
    | zero => omega
    | succ g =>
      unfold Scanner.scanIntegerLoop
      by_cases hd : isDigit ch = true
      · simp only [hd, Bool.not_true, Bool.false_eq_true, if_false]
        obtain ⟨h1, _, h3⟩ := h.read s t hr
        have hne := isDigit_ne_eof hd
        simp only [hne, if_false] at hf hg
        rw [← h1]
        have a := read_unread s
        have b := read_unread t
        refine ih g _ _ _ _ h3 a.1.symm (by rw [h1]; exact b.1.symm) ?_ ?_
        · split
          · omega
          · rename_i hn
            have := a.2.2 hn
            omega
        · split
          · omega
          · rename_i hn
            have := b.2.2 (by rw [← h1]; exact hn)
            omega
      · have hd0 : isDigit ch = false := by simpa using hd
        simp only [hd0, Bool.not_false, if_true]
        exact ⟨trivial, h.unscan _ _ hr (hs.trans ht.symm)⟩

theorem sim_scanInteger {R : Scanner → Scanner → Prop} {Q : Position → Position → Prop}
    (h : Simulation R Q) (f g : Nat) (s t : Scanner) (hr : R s t)
    (hf : s.unread < f) (hg : t.unread < g) :
    Token.Related Q (Scanner.scanInteger f s).1 (Scanner.scanInteger g t).1 ∧
    R (Scanner.scanInteger f s).2 (Scanner.scanInteger g t).2 := by
  obtain ⟨h1, h2, h3⟩ := h.read s t hr
  have a := read_unread s
  have b := read_unread t
  have k := sim_scanIntegerLoop h f g [] (s.read).1.1 _ _ h3 a.1.symm
    (by rw [h1]; exact b.1.symm)
    (by
      split
      · omega
      · rename_i hn
        have := a.2.2 hn
        omega)
    (by
      split
      · omega
      · rename_i hn
        have := b.2.2 (by rw [← h1]; exact hn)
        omega)
  unfold Scanner.scanInteger
  simp only []
  rw [← h1]
  exact ⟨⟨rfl, by rw [k.1], h2⟩, k.2⟩

theorem sim_scanStringLoop {R : Scanner → Scanner → Prop} {Q : Position → Position → Prop}
    (h : Simulation R Q) (f : Nat) :
    ∀ (g : Nat) (buf : List Char) (ch : Char) (pos pos1 : Position) (s t : Scanner), R s t →
      Q pos pos1 →
      s.unread + (if ch = eof then 0 else 1) < f →
      t.unread + (if ch = eof then 0 else 1) < g →
      Token.Related Q (Scanner.scanStringLoop f buf ch pos s).1
        (Scanner.scanStringLoop g buf ch pos1 t).1 ∧
      R (Scanner.scanStringLoop f buf ch pos s).2
        (Scanner.scanStringLoop g buf ch pos1 t).2 := by
  induction f with
  | zero => intro g buf ch pos pos1 s t _ _ hf; omega
  | succ f ih =>
    intro g buf ch pos pos1 s t hr hq hf hg
    cases g with
    | zero => omega
    | succ g =>
      unfold Scanner.scanStringLoop
      by_cases h1 : ch = '"'
      · simp only [h1, if_true]
        exact ⟨⟨rfl, rfl, hq⟩, hr⟩
      · simp only [h1, if_false]
        by_cases h2 : (ch = eof || ch = '\n') = true
        · simp only [h2, if_true]
          exact ⟨⟨rfl, rfl, hq⟩, hr⟩
        · simp only [h2, if_false, Bool.false_eq_true]
          have hne : ch ≠ eof := by
            intro he
            apply h2
            simp [he]
          simp only [hne, if_false] at hf hg
          obtain ⟨k1, _, k3⟩ := h.read s t hr
          rw [← k1]
          have a := read_unread s
          have b := read_unread t
          refine ih g _ _ _ _ _ _ k3 hq ?_ ?_
          · split
            · omega
            · rename_i hn
              have := a.2.2 hn
              omega
          · split
            · omega
            · rename_i hn
              have := b.2.2 (by rw [← k1]; exact hn)
              omega

theorem sim_scanString {R : Scanner → Scanner → Prop} {Q : Position → Position → Prop}
    (h : Simulation R Q) (f g : Nat) (s t : Scanner) (hr : R s t)
    (hf : s.unread < f) (hg : t.unread < g) :
    Token.Related Q (Scanner.scanString f s).1 (Scanner.scanString g t).1 ∧
    R (Scanner.scanString f s).2 (Scanner.scanString g t).2 := by
  obtain ⟨h1, h2, h3⟩ := h.read s t hr
  have a := read_unread s
  have b := read_unread t
  unfold Scanner.scanString
  simp only []
  rw [← h1]
  refine sim_scanStringLoop h f g [] _ _ _ _ _ h3 h2 ?_ ?_
  · split
    · omega
    · rename_i hn
      have := a.2.2 hn
      omega
  · split
    · omega
    · rename_i hn
      have := b.2.2 (by rw [← h1]; exact hn)
      omega

theorem sim_scanToken {R : Scanner → Scanner → Prop} {Q : Position → Position → Prop}
    (h : Simulation R Q) (f g : Nat) (ch : Char) (pos pos1 : Position) (s t : Scanner)
    (hr : R s t) (hq : Q pos pos1) (hs : s.buffer.1 = ch) (ht : t.buffer.1 = ch)
    (hf : s.unread + 1 < f) (hg : t.unread + 1 < g) :
    Token.Related Q (Scanner.scanToken f ch pos s).1 (Scanner.scanToken g ch pos1 t).1 ∧
    R (Scanner.scanToken f ch pos s).2 (Scanner.scanToken g ch pos1 t).2 := by
  have hu := h.unscan s t hr (hs.trans ht.symm)
  have a := unscan_unread s
  have b := unscan_unread t
  have a1 : s.Unscan.unread < f := by
    rw [a]; split <;> omega
  have b1 : t.Unscan.unread < g := by
    rw [b]; split <;> omega
  unfold Scanner.scanToken
  by_cases hl : isLetter ch = true
  · simp only [hl, if_true]
    exact sim_scanKeyword h f g _ _ hu a1 b1
  · simp only [hl, if_false, Bool.false_eq_true]
    by_cases hd : isDigit ch = true
    · simp only [hd, if_true]
      exact sim_scanInteger h f g _ _ hu a1 b1
    · simp only [hd, if_false, Bool.false_eq_true]
      by_cases he : ch = eof
      · simp only [he, if_true]
        exact ⟨⟨rfl, rfl, hq⟩, hr⟩
      · simp only [he, if_false]
        by_cases hq1 : ch = '"'
        · simp only [hq1, if_true]
          exact sim_scanString h f g _ _ hr (by omega) (by omega)
        · simp only [hq1, if_false]
          split_ifs <;> exact ⟨⟨rfl, rfl, hq⟩, hr⟩

theorem sim_scanLoop {R : Scanner → Scanner → Prop} {Q : Position → Position → Prop}
    (h : Simulation R Q) (f : Nat) :
    ∀ (g inner inner1 : Nat) (ch : Char) (pos pos1 : Position) (s t : Scanner), R s t →
      Q pos pos1 → s.buffer.1 = ch → t.buffer.1 = ch →
      1 ≤ f → 1 ≤ g → (ch ≠ eof → s.unread + 2 ≤ f) → (ch ≠ eof → t.unread + 2 ≤ g) →
      s.unread + 1 < inner → t.unread + 1 < inner1 →
      Token.Related Q (Scanner.scanLoop f inner ch pos s).1
        (Scanner.scanLoop g inner1 ch pos1 t).1 ∧
      R (Scanner.scanLoop f inner ch pos s).2 (Scanner.scanLoop g inner1 ch pos1 t).2 := by
  induction f with
  | zero => intro g inner inner1 ch pos pos1 s t _ _ _ _ hf; omega
  | succ f ih =>
    intro g inner inner1 ch pos pos1 s t hr hq hs ht _ hg1 hf hg hi hi1
    cases g with
    | zero => omega
    | succ g =>
      unfold Scanner.scanLoop
      by_cases h1 : ch = '#'
      · have hne : ch ≠ eof := by rw [h1]; decide
        have hf2 := hf hne
        have hg2 := hg hne
        simp only [h1, if_true]
        obtain ⟨k1, k2⟩ := sim_skipUntilEndComment h inner inner1 s t hr (by omega) (by omega)
        rw [← k1]
        split
        · exact ⟨⟨rfl, rfl, hq⟩, k2⟩
        · obtain ⟨r1, r2, r3⟩ := h.read _ _ k2
          have a := read_unread (Scanner.skipUntilEndComment inner s).2
          have b := read_unread (Scanner.skipUntilEndComment inner1 t).2
          have a0 := skipUntilEndComment_unread inner s
          have b0 := skipUntilEndComment_unread inner1 t
          rw [← r1]
          refine ih g inner inner1 _ _ _ _ _ r3 r2 a.1.symm (by rw [r1]; exact b.1.symm)
            (by omega) (by omega) ?_ ?_ (by omega) (by omega)
          · intro hn
            have := a.2.2 hn
            omega
          · intro hn
            have := b.2.2 (by rw [← r1]; exact hn)
            omega
      · simp only [h1, if_false]
        by_cases h2 : isWhitespace ch = true
        · have hne : ch ≠ eof := by
            intro he
            rw [he] at h2
            revert h2
            decide
          have hf2 := hf hne
          have hg2 := hg hne
          simp only [h2, if_true]
          have k2 := sim_scanWhitespace h inner inner1 s t hr (by omega) (by omega)
          obtain ⟨r1, r2, r3⟩ := h.read _ _ k2
          have a := read_unread (Scanner.scanWhitespace inner s)
          have b := read_unread (Scanner.scanWhitespace inner1 t)
          have a0 := scanWhitespace_unread inner s
          have b0 := scanWhitespace_unread inner1 t
          rw [← r1]
          refine ih g inner inner1 _ _ _ _ _ r3 r2 a.1.symm (by rw [r1]; exact b.1.symm)
            (by omega) (by omega) ?_ ?_ (by omega) (by omega)
          · intro hn
            have := a.2.2 hn
            omega
          · intro hn
            have := b.2.2 (by rw [← r1]; exact hn)
            omega
        · simp only [h2, if_false, Bool.false_eq_true]
          exact sim_scanToken h inner inner1 ch pos pos1 s t hr hq hs ht hi hi1

theorem unread_le (s : Scanner) : s.unread ≤ s.Reader.length + s.bufferSize := by
  unfold Scanner.unread
  split <;> omega

/-- Scanners that read the same runes return the same token, and read the same runes
afterwards. -/
theorem sim_Scan {R : Scanner → Scanner → Prop} {Q : Position → Position → Prop}
    (h : Simulation R Q) (s t : Scanner) (hr : R s t) :
    Token.Related Q (s.Scan).1 (t.Scan).1 ∧ R (s.Scan).2 (t.Scan).2 := by
  obtain ⟨h1, h2, h3⟩ := h.read s t hr
  have a := read_unread s
  have b := read_unread t
  have a0 := unread_le s
  have b0 := unread_le t
  unfold Scanner.Scan
  simp only []
  rw [← h1]
  exact sim_scanLoop h _ _ _ _ _ _ _ _ _ h3 h2 a.1.symm (by rw [h1]; exact b.1.symm)
    (by omega) (by omega) (fun _ => by omega) (fun _ => by omega) (by omega) (by omega)

theorem sim_tokens {R : Scanner → Scanner → Prop} {Q : Position → Position → Prop}
    (h : Simulation R Q) (n : Nat) :
    ∀ s t : Scanner, R s t →
      List.Forall₂ (Token.Related Q) (s.tokens n) (t.tokens n) := by
  induction n with
  | zero => intro s t _; exact List.Forall₂.nil
  | succ n ih =>
    intro s t hr
    obtain ⟨k1, k2⟩ := sim_Scan h s t hr
    exact List.Forall₂.cons k1 (ih _ _ k2)

end lexer

/-! ## Line endings (C30) -/

namespace lexer

theorem normalize_cons (ch : Char) (rest : List Char) (h : ch ≠ '\r') :
    normalizeLineEndings (ch :: rest) = ch :: normalizeLineEndings rest := by
  cases rest <;> simp [normalizeLineEndings, h]

theorem normalize_cr_lf (rest : List Char) :
    normalizeLineEndings ('\r' :: '\n' :: rest) = '\n' :: normalizeLineEndings rest := by
  simp [normalizeLineEndings]

theorem normalize_cr (ch : Char) (rest : List Char) (h : ch ≠ '\n') :
    normalizeLineEndings ('\r' :: ch :: rest) = '\n' :: normalizeLineEndings (ch :: rest) := by
  simp [normalizeLineEndings, h]

theorem normalize_cr_end : normalizeLineEndings ['\r'] = ['\n'] := by
  simp [normalizeLineEndings]

/-- The runes that `read` takes from a text are the characters of the normalized text. -/
theorem normalize_eq_readRune (l : List Char) (h : l ≠ []) :
    normalizeLineEndings l = (readRune l).1 :: normalizeLineEndings (readRune l).2 := by
  cases l with
  | nil => exact absurd rfl h
  | cons ch rest =>
    by_cases hc : ch = '\r'
    · subst hc
      cases rest with
      | nil => simp [normalize_cr_end, readRune, normalizeLineEndings]
      | cons ch2 rest2 =>
        by_cases h2 : ch2 = '\n'
        · subst h2
          simp [normalize_cr_lf, readRune]
        · simp [normalize_cr _ _ h2, readRune, h2]
    · simp [normalize_cons _ _ hc, readRune, hc]

/-- Reading a rune from the normalized text: the same rune, and the rest normalized. -/
theorem readRune_normalize (l : List Char) :
    readRune (normalizeLineEndings l) =
      ((readRune l).1, normalizeLineEndings (readRune l).2) := by
  cases l with
  | nil => simp [normalizeLineEndings, readRune]
  | cons ch rest =>
    by_cases hc : ch = '\r'
    · subst hc
      cases rest with
      | nil => simp [normalize_cr_end, readRune, normalizeLineEndings]
      | cons ch2 rest2 =>
        by_cases h2 : ch2 = '\n'
        · subst h2
          simp [normalize_cr_lf, readRune]
        · simp [normalize_cr _ _ h2, readRune, h2]
    · simp [normalize_cons _ _ hc, readRune, hc]

theorem normalized_simulation :
    Simulation (fun s t : Scanner => t = s.normalized) (fun p q : Position => p = q) where
  read := by
    intro s t h
    subst h
    unfold Scanner.read
    by_cases hb : s.bufferSize > 0
    · have hb1 : s.normalized.bufferSize > 0 := hb
      simp only [hb, hb1, if_true]
      exact ⟨rfl, rfl, rfl⟩
    · have hb1 : ¬ s.normalized.bufferSize > 0 := hb
      simp only [hb, hb1, if_false]
      have hr : readRune s.normalized.Reader =
          ((readRune s.Reader).1, normalizeLineEndings (readRune s.Reader).2) :=
        readRune_normalize _
      simp only [hr]
      exact ⟨rfl, rfl, rfl⟩
  unscan := by
    intro s t h _
    subst h
    rfl

theorem tokens_of_related (a b : List Token)
    (h : List.Forall₂ (Token.Related (fun p q : Position => p = q)) a b) : a = b := by
  induction h with
  | nil => rfl
  | @cons x y _ _ h1 _ ih =>
    obtain ⟨k1, k2, k3⟩ := h1
    have : x = y := by
      cases x
      cases y
      simp only [Token.mk.injEq]
      exact ⟨k1, k2, k3⟩
    rw [this, ih]

/-- C30: for every input, replacing each `\r\n` pair and each lone `\r` by a single `\n`
does not change the sequence of tokens (kind, lexeme and position) that successive calls
of Scan return: for every number `n` the first `n` tokens are the same. -/
theorem line_ending_normalization (input : List Char) (n : Nat) :
    (NewScanner (normalizeLineEndings input)).tokens n = (NewScanner input).tokens n := by
  have h := sim_tokens normalized_simulation n (NewScanner input)
    (NewScanner (normalizeLineEndings input)) rfl
  exact (tokens_of_related _ _ h).symm

end lexer

/-! ## String tokens (C27) -/

namespace lexer

/-- Two scanners with the same unread text and the same pushed-back rune: they differ in
their positions only. -/
theorem alike_simulation :
    Simulation (fun s t : Scanner => s.Reader = t.Reader ∧ s.bufferSize = t.bufferSize ∧
      (0 < s.bufferSize → s.buffer.1 = t.buffer.1)) (fun _ _ => True) where
  read := by
    intro s t h
    obtain ⟨h1, h2, h3⟩ := h
    unfold Scanner.read
    by_cases hb : s.bufferSize > 0
    · have hb1 : t.bufferSize > 0 := by omega
      have hc := h3 hb
      simp only [hb, hb1, if_true, Scanner.curr]
      refine ⟨?_, trivial, h1, by simp only [h2], fun _ => hc⟩
      split <;> split <;> exact hc
    · have hb1 : ¬ t.bufferSize > 0 := by omega
      simp only [hb, hb1, if_false, Scanner.curr, h1]
      refine ⟨?_, trivial, ?_, h2, ?_⟩
      · split <;> split <;> rfl
      · trivial
      · intro _; trivial
  unscan := by
    intro s t h hc
    obtain ⟨h1, h2, _⟩ := h
    exact ⟨h1, by simp only [Scanner.Unscan, h2], fun _ => hc⟩

/-- Scanners with the same unread text and nothing pushed back return tokens of the
same types and lexemes. -/
theorem tokens_of_reader (s t : Scanner) (h1 : s.Reader = t.Reader) (h2 : s.bufferSize = 0)
    (h3 : t.bufferSize = 0) (n : Nat) :
    (s.tokens n).map (fun tok => (tok.TokenType, tok.Lexeme)) =
      (t.tokens n).map (fun tok => (tok.TokenType, tok.Lexeme)) := by
  have h := sim_tokens alike_simulation n s t ⟨h1, by omega, fun h0 => by omega⟩
  generalize s.tokens n = a at h
  generalize t.tokens n = b at h
  induction h with
  | nil => rfl
  | cons k _ ih =>
    simp only [List.map_cons, ih, List.cons.injEq, Prod.mk.injEq, and_true]
    exact ⟨k.1, k.2.1⟩

theorem readRune_cons (ch : Char) (rest : List Char) (h : ch ≠ '\r') :
    readRune (ch :: rest) = (ch, rest) := by
  simp [readRune, h]

/-- The loop of scanString over the contents `c` of a string, up to the rune that ends
it. -/
theorem scanStringLoop_run (c X : List Char)
    (hX : (readRune X).1 = '"' ∨ (readRune X).1 = eof ∨ (readRune X).1 = '\n') :
    (∀ ch ∈ c, ch ≠ '"' ∧ ch ≠ '\n' ∧ ch ≠ '\r' ∧ ch ≠ eof) →
    ∀ (fuel : Nat) (buf : List Char) (pos : Position) (s : Scanner), s.bufferSize = 0 →
      s.Reader = c ++ X → c.length < fuel →
      ∃ s1, Scanner.scanStringLoop fuel buf (s.read).1.1 pos (s.read).2 =
          (⟨if (readRune X).1 = '"' then TokenType.STRING else TokenType.BADSTRING,
            String.mk (buf ++ c), pos⟩, s1) ∧
        s1.Reader = (readRune X).2 ∧ s1.bufferSize = 0 := by
  induction c with
  | nil =>
    intro _ fuel buf pos s hb hR hf
    obtain ⟨r1, r2, r3⟩ := read_of_empty_buffer s hb
    rw [hR, List.nil_append] at r1 r2
    cases fuel with
    | zero => omega
    | succ fuel =>
      refine ⟨(s.read).2, ?_, r2, r3⟩
      unfold Scanner.scanStringLoop
      rw [r1, List.append_nil]
      by_cases hq : (readRune X).1 = '"'
      · simp only [hq, if_true]
      · simp only [hq, if_false]
        have h2 : ((readRune X).1 = eof || (readRune X).1 = '\n') = true := by
          rcases hX with h | h | h
          · exact absurd h hq
          · simp [h]
          · simp [h]
        simp only [h2, if_true]
  | cons a c ih =>
    intro hc fuel buf pos s hb hR hf
    obtain ⟨a1, a2, a3, a4⟩ := hc a (List.mem_cons_self _ _)
    obtain ⟨r1, r2, r3⟩ := read_of_empty_buffer s hb
    rw [hR, List.cons_append, readRune_cons _ _ a3] at r1 r2
    cases fuel with
    | zero => omega
    | succ fuel =>
      simp only [List.length_cons] at hf
      obtain ⟨s1, k1, k2, k3⟩ := ih (fun ch h => hc ch (List.mem_cons_of_mem _ h)) fuel
        (buf ++ [a]) pos (s.read).2 r3 r2 (by omega)
      refine ⟨s1, ?_, k2, k3⟩
      unfold Scanner.scanStringLoop
      rw [r1]
      have h2 : (a = eof || a = '\n') = false := by simp [a2, a4]
      simp only [a1, if_false, h2, Bool.false_eq_true]
      rw [k1]
      simp

/-- Scan at a double quote: the token of the string that follows. -/
theorem Scan_string (c X : List Char)
    (hX : (readRune X).1 = '"' ∨ (readRune X).1 = eof ∨ (readRune X).1 = '\n')
    (hc : ∀ ch ∈ c, ch ≠ '"' ∧ ch ≠ '\n' ∧ ch ≠ '\r' ∧ ch ≠ eof) :
    ((NewScanner ('"' :: (c ++ X))).Scan).1 =
        ⟨if (readRune X).1 = '"' then TokenType.STRING else TokenType.BADSTRING,
          String.mk c, ⟨0, 1⟩⟩ ∧
      ((NewScanner ('"' :: (c ++ X))).Scan).2.Reader = (readRune X).2 ∧
      ((NewScanner ('"' :: (c ++ X))).Scan).2.bufferSize = 0 := by
  have hread : (NewScanner ('"' :: (c ++ X))).read =
      (('"', ⟨0, 0⟩), Scanner.mk (c ++ X) ⟨0, 1⟩ false 0 ('"', ⟨0, 0⟩) false) := by
    simp [Scanner.read, NewScanner, readRune, Scanner.curr, eof]
  obtain ⟨s1, k1, k2, k3⟩ := scanStringLoop_run c X hX hc ((c ++ X).length + 2 + 1) []
    ⟨0, 1⟩ (Scanner.mk (c ++ X) ⟨0, 1⟩ false 0 ('"', ⟨0, 0⟩) false) rfl rfl
    (by rw [List.length_append]; omega)
  have hpos : (Scanner.read (Scanner.mk (c ++ X) ⟨0, 1⟩ false 0 ('"', ⟨0, 0⟩) false)).1.2 =
      ⟨0, 1⟩ := by
    simp [Scanner.read, Scanner.curr]
  have hscan : (NewScanner ('"' :: (c ++ X))).Scan =
      (⟨if (readRune X).1 = '"' then TokenType.STRING else TokenType.BADSTRING,
          String.mk c, ⟨0, 1⟩⟩, s1) := by
    unfold Scanner.Scan
    simp only [hread]
    have hlen : (NewScanner ('"' :: (c ++ X))).Reader.length +
        (NewScanner ('"' :: (c ++ X))).bufferSize + 2 = ((c ++ X).length + 2) + 1 := by
      simp [NewScanner]
    rw [hlen, Scanner.scanLoop]
    have h1 : ¬ ('"' = '#') := by decide
    have h2 : isWhitespace '"' = false := by decide
    simp only [h1, if_false, h2, Bool.false_eq_true]
    unfold Scanner.scanToken
    have h3 : isLetter '"' = false := by decide
    have h4 : isDigit '"' = false := by decide
    have h5 : ¬ ('"' = eof) := by decide
    simp only [h3, h4, h5, Bool.false_eq_true, if_false, if_true]
    unfold Scanner.scanString
    simp only [hpos]
    rw [k1]
    simp
  rw [hscan]
  exact ⟨rfl, k2, k3⟩

/-- C27, as stated, fails for a run that contains the rune U+0000, which is the value
`eof` that `read` returns at the end of input and that scanString takes for the end of
input: the run is neither a double quote nor a line ending, and scanning it between double
quotes yields a BADSTRING token with an empty lexeme instead of a STRING token with the
run as its lexeme. -/
theorem string_token_with_zero_rune :
    (∀ ch ∈ [Char.ofNat 0], ch ≠ '"' ∧ ch ≠ '\n' ∧ ch ≠ '\r') ∧
    ((NewScanner ['"', Char.ofNat 0, '"']).Scan).1 = ⟨TokenType.BADSTRING, "", ⟨0, 1⟩⟩ := by
  constructor <;> decide

/-- C27, amended: for every run `c` of characters containing no double quote, no line
ending (`\n` or `\r`) and no rune U+0000, scanning `"c"` yields a STRING token whose lexeme
is exactly `c`, and scanning `"c` followed by a newline or by end-of-input yields a
BADSTRING token whose lexeme is `c`; the position of the token is that of the character
after the opening quote, and in each case the tokens scanned next are, in type and lexeme,
those of the remaining input (the text after the closing quote or after the newline; the
empty text at end-of-input). -/
theorem string_tokens (c rest : List Char)
    (hc : ∀ ch ∈ c, ch ≠ '"' ∧ ch ≠ '\n' ∧ ch ≠ '\r' ∧ ch ≠ eof) (n : Nat) :
    ((NewScanner ('"' :: (c ++ '"' :: rest))).Scan).1 =
      ⟨TokenType.STRING, String.mk c, ⟨0, 1⟩⟩ ∧
    (((NewScanner ('"' :: (c ++ '"' :: rest))).Scan).2.tokens n).map
        (fun tok => (tok.TokenType, tok.Lexeme)) =
      ((NewScanner rest).tokens n).map (fun tok => (tok.TokenType, tok.Lexeme)) ∧
    ((NewScanner ('"' :: (c ++ '\n' :: rest))).Scan).1 =
      ⟨TokenType.BADSTRING, String.mk c, ⟨0, 1⟩⟩ ∧
    (((NewScanner ('"' :: (c ++ '\n' :: rest))).Scan).2.tokens n).map
        (fun tok => (tok.TokenType, tok.Lexeme)) =
      ((NewScanner rest).tokens n).map (fun tok => (tok.TokenType, tok.Lexeme)) ∧
    ((NewScanner ('"' :: c)).Scan).1 = ⟨TokenType.BADSTRING, String.mk c, ⟨0, 1⟩⟩ ∧
    (((NewScanner ('"' :: c)).Scan).2.tokens n).map
        (fun tok => (tok.TokenType, tok.Lexeme)) =
      ((NewScanner []).tokens n).map (fun tok => (tok.TokenType, tok.Lexeme)) := by
  have h1 := Scan_string c ('"' :: rest) (Or.inl (by simp [readRune])) hc
  have h2 := Scan_string c ('\n' :: rest) (Or.inr (Or.inr (by simp [readRune]))) hc
  have h3 := Scan_string c [] (Or.inr (Or.inl rfl)) hc
  rw [List.append_nil] at h3
  have e1 : readRune ('"' :: rest) = ('"', rest) := readRune_cons _ _ (by decide)
  have e2 : readRune ('\n' :: rest) = ('\n', rest) := readRune_cons _ _ (by decide)
  have e3 : readRune [] = (eof, []) := rfl
  rw [e1] at h1
  rw [e2] at h2
  rw [e3] at h3
  refine ⟨?_, tokens_of_reader _ _ h1.2.1 h1.2.2 rfl n, ?_,
    tokens_of_reader _ _ h2.2.1 h2.2.2 rfl n, ?_, tokens_of_reader _ _ h3.2.1 h3.2.2 rfl n⟩
  · rw [h1.1]; rfl
  · rw [h2.1]; rfl
  · rw [h3.1]; rfl

/-- C27, amended, at the run `abc`, the remaining input ` 1` and two more tokens. -/
theorem string_tokens_witness :
    ((NewScanner ('"' :: (['a', 'b', 'c'] ++ '"' :: [' ', '1']))).Scan).1 =
      ⟨TokenType.STRING, String.mk ['a', 'b', 'c'], ⟨0, 1⟩⟩ ∧
    (((NewScanner ('"' :: (['a', 'b', 'c'] ++ '"' :: [' ', '1']))).Scan).2.tokens 2).map
        (fun tok => (tok.TokenType, tok.Lexeme)) =
      ((NewScanner [' ', '1']).tokens 2).map (fun tok => (tok.TokenType, tok.Lexeme)) ∧
    ((NewScanner ('"' :: (['a', 'b', 'c'] ++ '\n' :: [' ', '1']))).Scan).1 =
      ⟨TokenType.BADSTRING, String.mk ['a', 'b', 'c'], ⟨0, 1⟩⟩ ∧
    (((NewScanner ('"' :: (['a', 'b', 'c'] ++ '\n' :: [' ', '1']))).Scan).2.tokens 2).map
        (fun tok => (tok.TokenType, tok.Lexeme)) =
      ((NewScanner [' ', '1']).tokens 2).map (fun tok => (tok.TokenType, tok.Lexeme)) ∧
    ((NewScanner ('"' :: ['a', 'b', 'c'])).Scan).1 =
      ⟨TokenType.BADSTRING, String.mk ['a', 'b', 'c'], ⟨0, 1⟩⟩ ∧
    (((NewScanner ('"' :: ['a', 'b', 'c'])).Scan).2.tokens 2).map
        (fun tok => (tok.TokenType, tok.Lexeme)) =
      ((NewScanner []).tokens 2).map (fun tok => (tok.TokenType, tok.Lexeme)) :=
  string_tokens ['a', 'b', 'c'] [' ', '1'] (by decide) 2

end lexer

/-! ## Reading runes: the scanner and the runes that it will read -/

namespace lexer

theorem normalize_eq_nil (l : List Char) (h : normalizeLineEndings l = []) : l = [] := by
  cases l with
  | nil => rfl
  | cons ch rest =>
    rw [normalize_eq_readRune _ (by simp)] at h
    simp at h

theorem normalize_length (l : List Char) :
    (normalizeLineEndings l).length ≤ l.length := by
  generalize hn : l.length = n
  induction n using Nat.strong_induction_on generalizing l with
  | _ n ih =>
    cases l with
    | nil => simp [normalizeLineEndings]
    | cons ch rest =>
      rw [normalize_eq_readRune _ (by simp)]
      have h1 := (readRune_length (ch :: rest)).1
      have h2 : (readRune (ch :: rest)).2.length < (ch :: rest).length := by
        unfold readRune
        by_cases hc : ch = '\r'
        · simp only [hc, if_true]
          cases rest with
          | nil => simp
          | cons c2 r2 =>
            by_cases h2 : c2 = '\n'
            · simp [h2]; omega
            · simp [h2]
        · simp [hc]
      have := ih _ (by omega) (readRune (ch :: rest)).2 rfl
      simp only [List.length_cons] at hn h2 ⊢
      omega

theorem mem_normalize (l : List Char) (ch : Char) (h : ch ∈ normalizeLineEndings l) :
    ch ∈ l ∨ ch = '\n' := by
  generalize hn : l.length = n at h
  induction n using Nat.strong_induction_on generalizing l with
  | _ n ih =>
    cases l with
    | nil => simp [normalizeLineEndings] at h
    | cons c rest =>
      by_cases hc : c = '\r'
      · subst hc
        cases rest with
        | nil =>
          rw [normalize_cr_end] at h
          right
          simpa using h
        | cons c2 r2 =>
          by_cases h2 : c2 = '\n'
          · subst h2
            rw [normalize_cr_lf, List.mem_cons] at h
            rcases h with h | h
            · right; exact h
            · rcases ih r2.length (by simp at hn; omega) r2 h rfl with k | k
              · left; simp [k]
              · right; exact k
          · rw [normalize_cr _ _ h2, List.mem_cons] at h
            rcases h with h | h
            · right; exact h
            · rcases ih (c2 :: r2).length (by simp at hn ⊢; omega) (c2 :: r2) h rfl with k | k
              · left; exact List.mem_cons_of_mem _ k
              · right; exact k
      · rw [normalize_cons _ _ hc, List.mem_cons] at h
        rcases h with h | h
        · left; simp [h]
        · rcases ih rest.length (by simp at hn; omega) rest h rfl with k | k
          · left; exact List.mem_cons_of_mem _ k
          · right; exact k

theorem fresh_at {s : Scanner} {rs : List Char} {pos : Position} (h : s.Fresh rs pos) :
    s.At rs pos := Or.inl h

theorem ended_at {s : Scanner} (pos : Position) (h : s.Ended) : s.At [] pos :=
  Or.inr (Or.inr ⟨rfl, h⟩)

/-- What `read` does when nothing is pushed back. -/
theorem read_empty (s : Scanner) (hb : s.bufferSize = 0) :
    (s.read).2.Reader = (readRune s.Reader).2 ∧ (s.read).2.bufferSize = 0 ∧
    (s.read).2.DisablePositions = s.DisablePositions ∧
    (s.read).2.buffer = ((readRune s.Reader).1, s.position) ∧
    (s.read).2.position =
      (if (readRune s.Reader).1 = '\n' then ⟨s.position.Line + 1, 0⟩
       else if !s.eof then ⟨s.position.Line, s.position.Column + 1⟩ else s.position) ∧
    (s.read).2.eof = (if (readRune s.Reader).1 = eof then true else s.eof) ∧
    (s.read).1 = (s.read).2.curr := by
  unfold Scanner.read
  rw [if_neg (by omega)]
  exact ⟨rfl, hb, rfl, rfl, rfl, rfl, rfl⟩

/-- What `read` does when a rune is pushed back. -/
theorem read_pushed (s : Scanner) (hb : s.bufferSize = 1) :
    s.read = (({ s with bufferSize := 0 } : Scanner).curr, { s with bufferSize := 0 }) := by
  unfold Scanner.read
  rw [if_pos (by omega)]
  simp only [hb, Nat.sub_self]

theorem curr_eq (s : Scanner) (h : s.DisablePositions = false) : s.curr = s.buffer := by
  simp [Scanner.curr, h]

theorem curr_fst (s : Scanner) : s.curr.1 = s.buffer.1 := by
  unfold Scanner.curr
  split <;> rfl

/-- Reading a rune when nothing is pushed back. -/
theorem read_fresh_cons (s : Scanner) (ch : Char) (rs : List Char) (pos : Position)
    (h : s.Fresh (ch :: rs) pos) (hne : ch ≠ eof) :
    (s.read).1 = (ch, pos) ∧ (s.read).2.Fresh rs (pos.after ch) ∧
    (s.read).2.buffer = (ch, pos) := by
  obtain ⟨h1, h2, h3, h4, h5⟩ := h
  have hR : s.Reader ≠ [] := by
    intro h0
    rw [h0] at h3
    simp [normalizeLineEndings] at h3
  rw [normalize_eq_readRune _ hR] at h3
  simp only [List.cons.injEq] at h3
  obtain ⟨k1, k2⟩ := h3
  obtain ⟨r1, r2, r3, r4, r5, r6, r7⟩ := read_empty s h2
  rw [k1, h4] at r4
  rw [k1, h5, h4] at r5
  rw [k1, h5, if_neg hne] at r6
  refine ⟨?_, ⟨by rw [r3, h1], r2, by rw [r1, k2], ?_, r6⟩, r4⟩
  · rw [r7, curr_eq _ (by rw [r3, h1]), r4]
  · rw [r5]
    simp only [Position.after, Bool.not_false, if_true]

theorem read_fresh_nil (s : Scanner) (pos : Position) (h : s.Fresh [] pos) :
    (s.read).1 = (eof, pos) ∧ (s.read).2.Ended ∧ (s.read).2.bufferSize = 0 := by
  obtain ⟨h1, h2, h3, h4, h5⟩ := h
  have hR := normalize_eq_nil _ h3
  obtain ⟨r1, r2, r3, r4, r5, r6, r7⟩ := read_empty s h2
  have he : (readRune s.Reader).1 = eof := by rw [hR]; rfl
  rw [he, h4] at r4
  rw [he, if_pos rfl] at r6
  refine ⟨?_, ⟨by rw [r1, hR]; rfl, r6, by rw [r4], by omega⟩, r2⟩
  rw [r7, curr_eq _ (by rw [r3, h1]), r4]

theorem read_ended (s : Scanner) (h : s.Ended) :
    (s.read).1.1 = eof ∧ (s.read).2.Ended ∧ (s.read).2.bufferSize = 0 := by
  obtain ⟨h1, h2, h3, h4⟩ := h
  by_cases hb : s.bufferSize = 0
  · obtain ⟨r1, r2, r3, r4, r5, r6, r7⟩ := read_empty s hb
    have he : (readRune s.Reader).1 = eof := by rw [h1]; rfl
    rw [he] at r4
    rw [he, if_pos rfl] at r6
    refine ⟨?_, ⟨by rw [r1, h1]; rfl, r6, by rw [r4], by omega⟩, r2⟩
    rw [r7, curr_fst, r4]
  · have hb1 : s.bufferSize = 1 := by omega
    rw [read_pushed s hb1]
    exact ⟨by rw [curr_fst]; exact h3, ⟨h1, h2, h3, by simp⟩, rfl⟩

/-- Reading the first of the runes that the scanner will read. -/
theorem read_at_cons (s : Scanner) (ch : Char) (rs : List Char) (pos : Position)
    (h : s.At (ch :: rs) pos) (hne : ch ≠ eof) :
    (s.read).1 = (ch, pos) ∧ (s.read).2.Fresh rs (pos.after ch) ∧
    (s.read).2.buffer = (ch, pos) := by
  rcases h with h | ⟨c, rest, h1, h2, h3, h4⟩ | ⟨h1, _⟩
  · exact read_fresh_cons s ch rs pos h hne
  · simp only [List.cons.injEq] at h1
    obtain ⟨e1, e2⟩ := h1
    subst e1 e2
    rw [read_pushed s h2]
    exact ⟨by rw [curr_eq _ h4.1]; exact h3, h4, h3⟩
  · cases h1

/-- Reading at the end of the input. -/
theorem read_at_nil (s : Scanner) (pos : Position) (h : s.At [] pos) :
    (s.read).1.1 = eof ∧ (s.read).2.Ended ∧ (s.read).2.bufferSize = 0 := by
  rcases h with h | ⟨c, rest, h1, _⟩ | ⟨_, h⟩
  · obtain ⟨a, b, c⟩ := read_fresh_nil s pos h
    exact ⟨by rw [a], b, c⟩
  · cases h1
  · exact read_ended s h

/-- Pushing back the rune read last. -/
theorem unscan_fresh (s : Scanner) (ch : Char) (rs : List Char) (pos : Position)
    (h : s.Fresh rs (pos.after ch)) (hb : s.buffer = (ch, pos)) :
    s.Unscan.At (ch :: rs) pos := by
  refine Or.inr (Or.inl ⟨ch, rs, rfl, ?_, hb, ?_⟩)
  · simp [Scanner.Unscan, h.2.1]
  · have : ({ s.Unscan with bufferSize := 0 } : Scanner) = s := by
      cases s
      simp only [Scanner.Unscan, Scanner.mk.injEq, true_and, and_true]
      exact h.2.1.symm
    rw [this]
    exact h

theorem unscan_ended (s : Scanner) (pos : Position) (h : s.Ended) (hb : s.bufferSize = 0) :
    s.Unscan.At [] pos := by
  refine ended_at pos ⟨h.1, h.2.1, h.2.2.1, ?_⟩
  simp [Scanner.Unscan, hb]

theorem at_length (s : Scanner) (rs : List Char) (pos : Position) (h : s.At rs pos) :
    rs.length ≤ s.Reader.length + s.bufferSize := by
  rcases h with h | ⟨c, rest, h1, h2, h3, h4⟩ | ⟨h1, _⟩
  · rw [← h.2.2.1]
    have := normalize_length s.Reader
    omega
  · have h5 : normalizeLineEndings s.Reader = rest := h4.2.2.1
    rw [h1, ← h5, h2]
    have := normalize_length s.Reader
    simp only [List.length_cons]
    omega
  · rw [h1]
    simp

theorem afterAll_append (pos : Position) (a b : List Char) :
    pos.afterAll (a ++ b) = (pos.afterAll a).afterAll b := by
  simp [Position.afterAll, List.foldl_append]

theorem afterAll_cons (pos : Position) (ch : Char) (rs : List Char) :
    pos.afterAll (ch :: rs) = (pos.after ch).afterAll rs := rfl

theorem afterAll_nil (pos : Position) : pos.afterAll [] = pos := rfl

end lexer

/-! ## The loops of the scanner, as functions of the runes that they read -/

namespace lexer

theorem scanWhitespace_spec (rs : List Char) :
    ∀ (fuel : Nat) (s : Scanner) (pos : Position), s.At rs pos → eof ∉ rs →
      rs.length < fuel →
      (Scanner.scanWhitespace fuel s).At (rs.dropWhile isWhitespace)
        (pos.afterAll (rs.takeWhile isWhitespace)) := by
  induction rs with
  | nil =>
    intro fuel s pos h _ hf
    cases fuel with
    | zero => simp at hf
    | succ fuel =>
      obtain ⟨r1, r2, _⟩ := read_at_nil s pos h
      unfold Scanner.scanWhitespace
      simp only [r1, if_true]
      exact ended_at _ r2
  | cons ch rest ih =>
    intro fuel s pos h hn hf
    cases fuel with
    | zero => simp at hf
    | succ fuel =>
      have hne : ch ≠ eof := fun he => hn (by simp [he])
      obtain ⟨r1, r2, r3⟩ := read_at_cons s ch rest pos h hne
      unfold Scanner.scanWhitespace
      simp only [r1, hne, if_false]
      by_cases hw : isWhitespace ch = true
      · simp only [hw, Bool.not_true, Bool.false_eq_true, if_false, List.dropWhile_cons_of_pos,
          List.takeWhile_cons_of_pos, afterAll_cons]
        exact ih fuel _ _ (fresh_at r2) (fun hm => hn (List.mem_cons_of_mem _ hm))
          (by simp at hf; omega)
      · have hw0 : isWhitespace ch = false := by simpa using hw
        simp only [hw0, Bool.not_false, if_true, List.dropWhile_cons_of_neg hw,
          List.takeWhile_cons_of_neg hw, afterAll_nil]
        exact unscan_fresh _ ch rest pos r2 r3

theorem skip_end (rs : List Char) :
    ∀ (fuel : Nat) (s : Scanner) (pos : Position), s.At rs pos → eof ∉ rs →
      rs.length < fuel → rs.dropWhile isCommentRune = [] →
      (Scanner.skipUntilEndComment fuel s).1 = true ∧
      (Scanner.skipUntilEndComment fuel s).2.Ended ∧
      (Scanner.skipUntilEndComment fuel s).2.bufferSize = 0 := by
  induction rs with
  | nil =>
    intro fuel s pos h _ hf _
    cases fuel with
    | zero => simp at hf
    | succ fuel =>
      obtain ⟨r1, r2, r3⟩ := read_at_nil s pos h
      unfold Scanner.skipUntilEndComment
      have hne : ¬ (eof = '\n') := by decide
      simp only [r1, hne, if_false, if_true]
      exact ⟨trivial, r2, r3⟩
  | cons ch rest ih =>
    intro fuel s pos h hn hf hd
    cases fuel with
    | zero => simp at hf
    | succ fuel =>
      have hne : ch ≠ eof := fun he => hn (by simp [he])
      obtain ⟨r1, r2, r3⟩ := read_at_cons s ch rest pos h hne
      have hc : isCommentRune ch = true := by
        by_contra hc
        rw [List.dropWhile_cons_of_neg hc] at hd
        cases hd
      rw [List.dropWhile_cons_of_pos hc] at hd
      have hnl : ch ≠ '\n' := by
        intro he
        rw [he] at hc
        revert hc
        decide
      unfold Scanner.skipUntilEndComment
      simp only [r1, hnl, hne, if_false]
      exact ih fuel _ _ (fresh_at r2) (fun hm => hn (List.mem_cons_of_mem _ hm))
        (by simp at hf; omega) hd

theorem skip_newline (rs : List Char) :
    ∀ (fuel : Nat) (s : Scanner) (pos : Position) (c : Char) (rest : List Char),
      s.At rs pos → eof ∉ rs → rs.length < fuel → rs.dropWhile isCommentRune = c :: rest →
      (Scanner.skipUntilEndComment fuel s).1 = false ∧
      (Scanner.skipUntilEndComment fuel s).2.Fresh rest
        (pos.afterAll (rs.takeWhile isCommentRune ++ [c])) := by
  induction rs with
  | nil =>
    intro fuel s pos c rest _ _ _ hd
    simp at hd
  | cons ch rs ih =>
    intro fuel s pos c rest h hn hf hd
    cases fuel with
    | zero => simp at hf
    | succ fuel =>
      have hne : ch ≠ eof := fun he => hn (by simp [he])
      obtain ⟨r1, r2, r3⟩ := read_at_cons s ch rs pos h hne
      unfold Scanner.skipUntilEndComment
      by_cases hc : isCommentRune ch = true
      · rw [List.dropWhile_cons_of_pos hc] at hd
        have hnl : ch ≠ '\n' := by
          intro he
          rw [he] at hc
          revert hc
          decide
        simp only [r1, hnl, hne, if_false, List.takeWhile_cons_of_pos hc, List.cons_append,
          afterAll_cons]
        exact ih fuel _ _ c rest (fresh_at r2) (fun hm => hn (List.mem_cons_of_mem _ hm))
          (by simp at hf; omega) hd
      · rw [List.dropWhile_cons_of_neg hc] at hd
        simp only [List.cons.injEq] at hd
        obtain ⟨e1, e2⟩ := hd
        subst e1 e2
        have hnl : ch = '\n' := by
          simp only [isCommentRune, bne_iff_ne, ne_eq, not_not] at hc
          exact hc
        simp only [r1, hnl, if_true, List.takeWhile_cons_of_neg hc, List.nil_append,
          afterAll_cons, afterAll_nil]
        rw [hnl] at r2
        exact ⟨trivial, r2⟩

theorem scanKeywordLoop_spec (rs : List Char) :
    ∀ (fuel : Nat) (buf : List Char) (s : Scanner) (pos : Position), s.At rs pos →
      eof ∉ rs → rs.length < fuel →
      (Scanner.scanKeywordLoop fuel buf s).1 = buf ++ rs.takeWhile isIdentifierRune ∧
      (Scanner.scanKeywordLoop fuel buf s).2.At (rs.dropWhile isIdentifierRune)
        (pos.afterAll (rs.takeWhile isIdentifierRune)) := by
  induction rs with
  | nil =>
    intro fuel buf s pos h _ hf
    cases fuel with
    | zero => simp at hf
    | succ fuel =>
      obtain ⟨r1, r2, _⟩ := read_at_nil s pos h
      unfold Scanner.scanKeywordLoop
      simp only [r1, if_true]
      exact ⟨by simp, ended_at _ r2⟩
  | cons ch rest ih =>
    intro fuel buf s pos h hn hf
    cases fuel with
    | zero => simp at hf
    | succ fuel =>
      have hne : ch ≠ eof := fun he => hn (by simp [he])
      obtain ⟨r1, r2, r3⟩ := read_at_cons s ch rest pos h hne
      unfold Scanner.scanKeywordLoop
      simp only [r1, hne, if_false]
      by_cases hw : isIdentifierRune ch = true
      · have hcond : (!isLetter ch && !isDigit ch && decide (ch ≠ '_')) = false := by
          simp only [isIdentifierRune, Bool.or_eq_true, beq_iff_eq] at hw
          rcases hw with (hw | hw) | hw <;> simp [hw]
        simp only [hcond, Bool.false_eq_true, if_false, List.dropWhile_cons_of_pos hw,
          List.takeWhile_cons_of_pos hw, afterAll_cons]
        obtain ⟨k1, k2⟩ := ih fuel (buf ++ [ch]) _ _ (fresh_at r2)
          (fun hm => hn (List.mem_cons_of_mem _ hm)) (by simp at hf; omega)
        exact ⟨by rw [k1]; simp, k2⟩
      · have hcond : (!isLetter ch && !isDigit ch && decide (ch ≠ '_')) = true := by
          simp only [isIdentifierRune, Bool.or_eq_true, beq_iff_eq, not_or] at hw
          simp [hw.1.1, hw.1.2, hw.2]
        simp only [hcond, if_true, List.dropWhile_cons_of_neg hw,
          List.takeWhile_cons_of_neg hw, afterAll_nil]
        exact ⟨by simp, unscan_fresh _ ch rest pos r2 r3⟩

theorem scanIntegerLoop_spec (rs : List Char) :
    ∀ (fuel : Nat) (buf : List Char) (s : Scanner) (pos : Position), s.At rs pos →
      eof ∉ rs → rs.length < fuel →
      (Scanner.scanIntegerLoop fuel buf (s.read).1.1 (s.read).2).1 =
        buf ++ rs.takeWhile isDigit ∧
      (Scanner.scanIntegerLoop fuel buf (s.read).1.1 (s.read).2).2.At
        (rs.dropWhile isDigit) (pos.afterAll (rs.takeWhile isDigit)) := by
  induction rs with
  | nil =>
    intro fuel buf s pos h _ hf
    cases fuel with
    | zero => simp at hf
    | succ fuel =>
      obtain ⟨r1, r2, r3⟩ := read_at_nil s pos h
      unfold Scanner.scanIntegerLoop
      simp only [r1, eof_facts.2.2.2, Bool.not_false, if_true]
      exact ⟨by simp, unscan_ended _ _ r2 r3⟩
  | cons ch rest ih =>
    intro fuel buf s pos h hn hf
    cases fuel with
    | zero => simp at hf
    | succ fuel =>
      have hne : ch ≠ eof := fun he => hn (by simp [he])
      obtain ⟨r1, r2, r3⟩ := read_at_cons s ch rest pos h hne
      unfold Scanner.scanIntegerLoop
      simp only [r1]
      by_cases hw : isDigit ch = true
      · simp only [hw, Bool.not_true, Bool.false_eq_true, if_false,
          List.dropWhile_cons_of_pos hw, List.takeWhile_cons_of_pos hw, afterAll_cons]
        obtain ⟨k1, k2⟩ := ih fuel (buf ++ [ch]) _ _ (fresh_at r2)
          (fun hm => hn (List.mem_cons_of_mem _ hm)) (by simp at hf; omega)
        exact ⟨by rw [k1]; simp, k2⟩
      · have hw0 : isDigit ch = false := by simpa using hw
        simp only [hw0, Bool.not_false, if_true, List.dropWhile_cons_of_neg hw,
          List.takeWhile_cons_of_neg hw, afterAll_nil]
        exact ⟨by simp, unscan_fresh _ ch rest pos r2 r3⟩

theorem scanStringLoop_end (rs : List Char) :
    ∀ (fuel : Nat) (buf : List Char) (p : Position) (s : Scanner) (pos : Position),
      s.At rs pos → eof ∉ rs → rs.length < fuel → rs.dropWhile isStringRune = [] →
      (Scanner.scanStringLoop fuel buf (s.read).1.1 p (s.read).2).1 =
        ⟨TokenType.BADSTRING, String.mk (buf ++ rs), p⟩ ∧
      (Scanner.scanStringLoop fuel buf (s.read).1.1 p (s.read).2).2.Ended := by
  induction rs with
  | nil =>
    intro fuel buf p s pos h _ hf _
    cases fuel with
    | zero => simp at hf
    | succ fuel =>
      obtain ⟨r1, r2, _⟩ := read_at_nil s pos h
      unfold Scanner.scanStringLoop
      have hq : ¬ (eof = '"') := by decide
      simp only [r1, hq, if_false, decide_True, Bool.true_or, if_true, List.append_nil]
      exact ⟨trivial, r2⟩
  | cons ch rest ih =>
    intro fuel buf p s pos h hn hf hd
    cases fuel with
    | zero => simp at hf
    | succ fuel =>
      have hne : ch ≠ eof := fun he => hn (by simp [he])
      obtain ⟨r1, r2, r3⟩ := read_at_cons s ch rest pos h hne
      have hc : isStringRune ch = true := by
        by_contra hc
        rw [List.dropWhile_cons_of_neg hc] at hd
        cases hd
      rw [List.dropWhile_cons_of_pos hc] at hd
      have hq : ch ≠ '"' ∧ ch ≠ '\n' := by
        simp only [isStringRune, Bool.and_eq_true, bne_iff_ne, ne_eq] at hc
        exact hc
      unfold Scanner.scanStringLoop
      have h2 : (decide (ch = eof) || decide (ch = '\n')) = false := by simp [hne, hq.2]
      simp only [r1, hq.1, if_false, h2, Bool.false_eq_true]
      obtain ⟨k1, k2⟩ := ih fuel (buf ++ [ch]) p _ _ (fresh_at r2)
        (fun hm => hn (List.mem_cons_of_mem _ hm)) (by simp at hf; omega) hd
      exact ⟨by rw [k1]; simp, k2⟩

theorem scanStringLoop_closed (rs : List Char) :
    ∀ (fuel : Nat) (buf : List Char) (p : Position) (s : Scanner) (pos : Position)
      (c : Char) (rest : List Char),
      s.At rs pos → eof ∉ rs → rs.length < fuel → rs.dropWhile isStringRune = c :: rest →
      (Scanner.scanStringLoop fuel buf (s.read).1.1 p (s.read).2).1 =
        ⟨if c = '"' then TokenType.STRING else TokenType.BADSTRING,
          String.mk (buf ++ rs.takeWhile isStringRune), p⟩ ∧
      (Scanner.scanStringLoop fuel buf (s.read).1.1 p (s.read).2).2.Fresh rest
        (pos.afterAll (rs.takeWhile isStringRune ++ [c])) := by
  induction rs with
  | nil =>
    intro fuel buf p s pos c rest _ _ _ hd
    simp at hd
  | cons ch rs ih =>
    intro fuel buf p s pos c rest h hn hf hd
    cases fuel with
    | zero => simp at hf
    | succ fuel =>
      have hne : ch ≠ eof := fun he => hn (by simp [he])
      obtain ⟨r1, r2, r3⟩ := read_at_cons s ch rs pos h hne
      unfold Scanner.scanStringLoop
      by_cases hc : isStringRune ch = true
      · rw [List.dropWhile_cons_of_pos hc] at hd
        have hq : ch ≠ '"' ∧ ch ≠ '\n' := by
          simp only [isStringRune, Bool.and_eq_true, bne_iff_ne, ne_eq] at hc
          exact hc
        have h2 : (decide (ch = eof) || decide (ch = '\n')) = false := by simp [hne, hq.2]
        simp only [r1, hq.1, if_false, h2, Bool.false_eq_true, List.takeWhile_cons_of_pos hc,
          List.cons_append, afterAll_cons]
        obtain ⟨k1, k2⟩ := ih fuel (buf ++ [ch]) p _ _ c rest (fresh_at r2)
          (fun hm => hn (List.mem_cons_of_mem _ hm)) (by simp at hf; omega) hd
        exact ⟨by rw [k1]; simp, k2⟩
      · rw [List.dropWhile_cons_of_neg hc] at hd
        simp only [List.cons.injEq] at hd
        obtain ⟨e1, e2⟩ := hd
        subst e1 e2
        simp only [r1, List.takeWhile_cons_of_neg hc, List.append_nil, List.nil_append,
          afterAll_cons, afterAll_nil]
        by_cases hq : ch = '"'
        · simp only [hq, if_true]
          rw [hq] at r2
          exact ⟨trivial, r2⟩
        · have hnl : ch = '\n' := by
            simp only [isStringRune, Bool.and_eq_true, bne_iff_ne, ne_eq, not_and,
              not_not] at hc
            exact hc hq
          have h2 : (decide (ch = eof) || decide (ch = '\n')) = true := by simp [hnl]
          simp only [hq, if_false, h2, if_true]
          exact ⟨trivial, r2⟩

end lexer

/-! ## Scan, as a function of the runes that it reads -/

namespace lexer

theorem lexFrom_comment_end (rs : List Char) :
    ∀ (l lead : List Char), rs.dropWhile isCommentRune = [] →
      lexFrom (some l) lead rs = ⟨TokenType.ILLEGAL, [], l, []⟩ := by
  induction rs with
  | nil => intro l lead _; rfl
  | cons ch rest ih =>
    intro l lead hd
    have hc : isCommentRune ch = true := by
      by_contra hc
      rw [List.dropWhile_cons_of_neg hc] at hd
      cases hd
    rw [List.dropWhile_cons_of_pos hc] at hd
    have hnl : ch ≠ '\n' := by
      intro he
      rw [he] at hc
      revert hc
      decide
    rw [lexFrom, if_neg hnl]
    exact ih l _ hd

theorem lexFrom_comment_newline (rs : List Char) :
    ∀ (l lead : List Char) (c : Char) (rest : List Char),
      rs.dropWhile isCommentRune = c :: rest →
      lexFrom (some l) lead rs =
        lexFrom none (lead ++ (rs.takeWhile isCommentRune ++ [c])) rest := by
  induction rs with
  | nil => intro l lead c rest hd; simp at hd
  | cons ch rs ih =>
    intro l lead c rest hd
    by_cases hc : isCommentRune ch = true
    · rw [List.dropWhile_cons_of_pos hc] at hd
      have hnl : ch ≠ '\n' := by
        intro he
        rw [he] at hc
        revert hc
        decide
      rw [lexFrom, if_neg hnl, ih l _ c rest hd, List.takeWhile_cons_of_pos hc]
      simp
    · rw [List.dropWhile_cons_of_neg hc] at hd
      simp only [List.cons.injEq] at hd
      obtain ⟨e1, e2⟩ := hd
      subst e1 e2
      have hnl : ch = '\n' := by
        simp only [isCommentRune, bne_iff_ne, ne_eq, not_not] at hc
        exact hc
      rw [lexFrom, if_pos hnl, List.takeWhile_cons_of_neg hc]
      simp

theorem lexFrom_whitespace (rs : List Char) :
    ∀ lead : List Char, lexFrom none lead rs =
      lexFrom none (lead ++ rs.takeWhile isWhitespace) (rs.dropWhile isWhitespace) := by
  induction rs with
  | nil => intro lead; simp
  | cons ch rest ih =>
    intro lead
    by_cases hw : isWhitespace ch = true
    · rw [List.takeWhile_cons_of_pos hw, List.dropWhile_cons_of_pos hw, lexFrom,
        if_neg (whitespace_facts ch hw).2, if_pos hw, ih]
      simp
    · rw [List.takeWhile_cons_of_neg hw, List.dropWhile_cons_of_neg hw, List.append_nil]

theorem read_fresh_position (s : Scanner) (rs : List Char) (pos : Position)
    (h : s.Fresh rs pos) (hn : eof ∉ rs) : (s.read).1.2 = pos := by
  cases rs with
  | nil => rw [(read_fresh_nil s pos h).1]
  | cons ch rest => rw [(read_fresh_cons s ch rest pos h (fun he => hn (by simp [he]))).1]

/-- The part of Scan after its loop: the token that starts with the rune read last. -/
theorem scanToken_spec (fuel : Nat) (ch : Char) (pos pos0 : Position) (s : Scanner)
    (rs lead : List Char) (hs : s.Fresh rs (pos.after ch)) (hb : s.buffer = (ch, pos))
    (hne : ch ≠ eof) (hn : eof ∉ rs) (hf : rs.length + 1 < fuel)
    (hp : pos = pos0.afterAll lead) :
    (Scanner.scanToken fuel ch pos s).1 =
      ⟨(lexToken lead ch rs).type, String.mk (lexToken lead ch rs).lexeme,
        pos0.afterAll (lexToken lead ch rs).lead⟩ ∧
    ∃ used, ch :: rs = used ++ (lexToken lead ch rs).rest ∧
      (Scanner.scanToken fuel ch pos s).2.At (lexToken lead ch rs).rest
        (pos.afterAll used) := by
  have hu := unscan_fresh s ch rs pos hs hb
  have hn1 : eof ∉ ch :: rs := by
    intro hm
    rcases List.mem_cons.mp hm with h | h
    · exact hne h.symm
    · exact hn h
  obtain ⟨u1, u2, _⟩ := read_at_cons s.Unscan ch rs pos hu hne
  unfold Scanner.scanToken lexToken
  by_cases hl : isLetter ch = true
  · simp only [hl, if_true]
    obtain ⟨k1, k2⟩ := scanKeywordLoop_spec rs fuel [ch] _ _ (fresh_at u2) hn (by omega)
    have hk : Scanner.scanKeyword fuel s.Unscan =
        (⟨keywordType (String.mk (ch :: rs.takeWhile isIdentifierRune)),
          String.mk (ch :: rs.takeWhile isIdentifierRune), pos⟩,
          (Scanner.scanKeywordLoop fuel [ch] (s.Unscan.read).2).2) := by
      unfold Scanner.scanKeyword keywordType
      simp only [u1, k1, List.singleton_append]
      split_ifs <;> rfl
    rw [hk, hp]
    refine ⟨rfl, ch :: rs.takeWhile isIdentifierRune, ?_, ?_⟩
    · simp [List.takeWhile_append_dropWhile]
    · rw [afterAll_cons, ← hp]
      exact k2
  · have hl0 : isLetter ch = false := by simpa using hl
    simp only [hl0, Bool.false_eq_true, if_false]
    by_cases hd : isDigit ch = true
    · simp only [hd, if_true]
      obtain ⟨k1, k2⟩ := scanIntegerLoop_spec (ch :: rs) fuel [] _ _ hu hn1
        (by simp only [List.length_cons]; omega)
      rw [List.takeWhile_cons_of_pos hd, List.nil_append] at k1
      rw [List.takeWhile_cons_of_pos hd, List.dropWhile_cons_of_pos hd] at k2
      have hk : Scanner.scanInteger fuel s.Unscan =
          (⟨TokenType.INTEGER, String.mk (ch :: rs.takeWhile isDigit), pos⟩,
            (Scanner.scanIntegerLoop fuel [] (s.Unscan.read).1.1 (s.Unscan.read).2).2) := by
        unfold Scanner.scanInteger
        simp only [k1]
        rw [u1]
      rw [hk, hp]
      refine ⟨rfl, ch :: rs.takeWhile isDigit, ?_, ?_⟩
      · simp [List.takeWhile_append_dropWhile]
      · rw [← hp]
        exact k2
    · have hd0 : isDigit ch = false := by simpa using hd
      simp only [hd0, Bool.false_eq_true, if_false, hne]
      by_cases hq : ch = '"'
      · simp only [hq, if_true]
        have hpos := read_fresh_position s rs _ hs hn
        unfold Scanner.scanString
        simp only []
        rw [hpos]
        have hlead : pos0.afterAll (lead ++ ['"']) = pos.after ch := by
          rw [afterAll_append, ← hp, hq]
          rfl
        cases hdw : rs.dropWhile isStringRune with
        | nil =>
          obtain ⟨k1, k2⟩ := scanStringLoop_end rs fuel [] (pos.after ch) s _ (fresh_at hs) hn
            (by omega) hdw
          have hrs : rs.takeWhile isStringRune = rs := by
            have := List.takeWhile_append_dropWhile isStringRune rs
            rw [hdw, List.append_nil] at this
            exact this
          simp only []
          rw [hlead, hrs]
          refine ⟨by rw [k1, List.nil_append], '"' :: rs, by simp, ended_at _ k2⟩
        | cons c rest =>
          obtain ⟨k1, k2⟩ := scanStringLoop_closed rs fuel [] (pos.after ch) s _ c rest
            (fresh_at hs) hn (by omega) hdw
          simp only []
          rw [hlead]
          refine ⟨by rw [k1, List.nil_append], '"' :: (rs.takeWhile isStringRune ++ [c]), ?_,
            ?_⟩
          · have := List.takeWhile_append_dropWhile isStringRune rs
            rw [hdw] at this
            simp only [List.cons_append, List.append_assoc, List.singleton_append,
              List.nil_append, this]
          · rw [afterAll_cons, ← hq]
            exact fresh_at k2
      · simp only [hq, if_false]
        have hk : (if ch = '(' then ((⟨TokenType.LPAREN, String.singleton ch, pos⟩ : Token), s)
            else if ch = ')' then (⟨TokenType.RPAREN, String.singleton ch, pos⟩, s)
            else if ch = ',' then (⟨TokenType.COMMA, String.singleton ch, pos⟩, s)
            else if ch = ':' then (⟨TokenType.COLON, String.singleton ch, pos⟩, s)
            else if ch = '+' then (⟨TokenType.ADD, String.singleton ch, pos⟩, s)
            else if ch = '*' then (⟨TokenType.MUL, String.singleton ch, pos⟩, s)
            else (⟨TokenType.ILLEGAL, String.singleton ch, pos⟩, s)) =
            (⟨symbolType ch, String.mk [ch], pos⟩, s) := by
          unfold symbolType
          split_ifs <;> rfl
        rw [hk, hp]
        refine ⟨rfl, [ch], rfl, ?_⟩
        rw [← hp]
        exact fresh_at hs

/-- The loop of Scan and what follows it. -/
theorem scanLoop_spec (f : Nat) :
    ∀ (inner : Nat) (rs lead : List Char) (s : Scanner) (pos0 : Position),
      s.At rs (pos0.afterAll lead) → eof ∉ rs → rs.length + 2 ≤ f → rs.length + 1 < inner →
      (Scanner.scanLoop f inner (s.read).1.1 (s.read).1.2 (s.read).2).1.TokenType =
        (lexFrom none lead rs).type ∧
      (Scanner.scanLoop f inner (s.read).1.1 (s.read).1.2 (s.read).2).1.Lexeme =
        String.mk (lexFrom none lead rs).lexeme ∧
      ((lexFrom none lead rs).type ≠ TokenType.EOF →
        (Scanner.scanLoop f inner (s.read).1.1 (s.read).1.2 (s.read).2).1.Position =
          pos0.afterAll (lexFrom none lead rs).lead) ∧
      ∃ used, rs = used ++ (lexFrom none lead rs).rest ∧
        (Scanner.scanLoop f inner (s.read).1.1 (s.read).1.2 (s.read).2).2.At
          (lexFrom none lead rs).rest (pos0.afterAll (lead ++ used)) := by
  induction f with
  | zero => intro inner rs lead s pos0 _ _ hf; omega
  | succ f ih =>
    intro inner rs lead s pos0 h hn hf hi
    cases rs with
    | nil =>
      obtain ⟨r1, r2, _⟩ := read_at_nil s _ h
      rw [r1, scanLoop_eof]
      refine ⟨rfl, rfl, fun hne => absurd rfl hne, [], rfl, ended_at _ r2⟩
    | cons ch rest =>
      have hne : ch ≠ eof := fun he => hn (by simp [he])
      have hn1 : eof ∉ rest := fun hm => hn (List.mem_cons_of_mem _ hm)
      obtain ⟨r1, r2, r3⟩ := read_at_cons s ch rest _ h hne
      simp only [List.length_cons] at hf hi
      rw [r1]
      simp only []
      by_cases h1 : ch = '#'
      · rw [Scanner.scanLoop]
        simp only [h1, if_true]
        cases hdw : rest.dropWhile isCommentRune with
        | nil =>
          obtain ⟨k1, k2, _⟩ := skip_end rest inner _ _ (fresh_at r2) hn1 (by omega) hdw
          simp only [k1, if_true]
          rw [lexFrom, if_pos rfl, lexFrom_comment_end rest _ _ hdw]
          refine ⟨rfl, rfl, fun _ => rfl, '#' :: rest, by simp, ended_at _ k2⟩
        | cons c rest2 =>
          obtain ⟨k1, k2⟩ := skip_newline rest inner _ _ c rest2 (fresh_at r2) hn1
            (by omega) hdw
          simp only [k1, Bool.false_eq_true, if_false]
          have hsplit := List.takeWhile_append_dropWhile isCommentRune rest
          rw [hdw] at hsplit
          have hlen : rest2.length < rest.length := by
            have := congrArg List.length hsplit
            simp only [List.length_append, List.length_cons] at this
            omega
          have hn2 : eof ∉ rest2 := by
            intro hm
            apply hn1
            rw [← hsplit]
            simp [hm]
          have hat : (Scanner.skipUntilEndComment inner (s.read).2).2.At rest2
              (pos0.afterAll (lead ++ ('#' :: (rest.takeWhile isCommentRune ++ [c])))) := by
            rw [afterAll_append, afterAll_cons, ← h1]
            exact fresh_at k2
          obtain ⟨a1, a2, a3, used, a4, a5⟩ := ih inner rest2 _ _ pos0 hat hn2 (by omega)
            (by omega)
          rw [lexFrom, if_pos rfl, lexFrom_comment_newline rest _ _ c rest2 hdw]
          have hl : lead ++ ['#'] ++ (rest.takeWhile isCommentRune ++ [c]) =
              lead ++ '#' :: (rest.takeWhile isCommentRune ++ [c]) := by simp
          rw [hl]
          refine ⟨a1, a2, a3, '#' :: (rest.takeWhile isCommentRune ++ [c]) ++ used, ?_, ?_⟩
          · rw [List.append_assoc, ← a4]
            simp only [List.cons_append, List.append_assoc, List.singleton_append,
              List.nil_append, hsplit]
          · rw [← List.append_assoc]
            exact a5
      · rw [Scanner.scanLoop]
        simp only [h1, if_false]
        by_cases h2 : isWhitespace ch = true
        · simp only [h2, if_true]
          have k := scanWhitespace_spec rest inner _ _ (fresh_at r2) hn1 (by omega)
          have hsplit := List.takeWhile_append_dropWhile isWhitespace rest
          have hlen : (rest.dropWhile isWhitespace).length ≤ rest.length := by
            have := congrArg List.length hsplit
            simp only [List.length_append] at this
            omega
          have hn2 : eof ∉ rest.dropWhile isWhitespace := fun hm =>
            hn1 ((List.dropWhile_sublist _).subset hm)
          have hat : (Scanner.scanWhitespace inner (s.read).2).At (rest.dropWhile isWhitespace)
              (pos0.afterAll (lead ++ (ch :: rest.takeWhile isWhitespace))) := by
            rw [afterAll_append, afterAll_cons]
            exact k
          obtain ⟨a1, a2, a3, used, a4, a5⟩ := ih inner _ _ _ pos0 hat hn2 (by omega)
            (by omega)
          rw [lexFrom, if_neg h1, if_pos h2, lexFrom_whitespace rest]
          have hl : lead ++ [ch] ++ rest.takeWhile isWhitespace =
              lead ++ ch :: rest.takeWhile isWhitespace := by simp
          rw [hl]
          refine ⟨a1, a2, a3, ch :: rest.takeWhile isWhitespace ++ used, ?_, ?_⟩
          · rw [List.append_assoc, ← a4]
            simp only [List.cons_append, hsplit]
          · rw [← List.append_assoc]
            exact a5
        · have h20 : isWhitespace ch = false := by simpa using h2
          simp only [h20, Bool.false_eq_true, if_false]
          obtain ⟨k1, used, k2, k3⟩ := scanToken_spec inner ch _ pos0 _ rest lead r2 r3 hne hn1
            (by omega) rfl
          rw [lexFrom, if_neg h1, h20]
          simp only [Bool.false_eq_true, if_false]
          rw [k1]
          refine ⟨rfl, rfl, fun _ => rfl, used, k2, ?_⟩
          rw [afterAll_append]
          exact k3

/-- Scan returns the next token of the runes that the scanner will read, provided that
the rune U+0000 is not among them: the type, the lexeme and, unless the token is the end
of input, the position are those of the token, and the scanner will read the runes after
it. -/
theorem Scan_spec (s : Scanner) (rs lead : List Char) (pos0 : Position)
    (h : s.At rs (pos0.afterAll lead)) (hn : eof ∉ rs) :
    (s.Scan).1.TokenType = (lexFrom none lead rs).type ∧
    (s.Scan).1.Lexeme = String.mk (lexFrom none lead rs).lexeme ∧
    ((lexFrom none lead rs).type ≠ TokenType.EOF →
      (s.Scan).1.Position = pos0.afterAll (lexFrom none lead rs).lead) ∧
    ∃ used, rs = used ++ (lexFrom none lead rs).rest ∧
      (s.Scan).2.At (lexFrom none lead rs).rest (pos0.afterAll (lead ++ used)) := by
  have hl := at_length s rs _ h
  unfold Scanner.Scan
  exact scanLoop_spec _ _ rs lead s pos0 h hn (by omega) (by omega)

end lexer

/-! ## Positions of tokens (C29) -/

namespace lexer

theorem keywordType_ne (w : String) :
    keywordType w ≠ TokenType.STRING ∧ keywordType w ≠ TokenType.BADSTRING ∧
    keywordType w ≠ TokenType.EOF := by
  unfold keywordType
  split_ifs <;> exact ⟨by decide, by decide, by decide⟩

theorem symbolType_ne (ch : Char) :
    symbolType ch ≠ TokenType.STRING ∧ symbolType ch ≠ TokenType.BADSTRING ∧
    symbolType ch ≠ TokenType.EOF := by
  unfold symbolType
  split_ifs <;> exact ⟨by decide, by decide, by decide⟩

theorem lexFrom_rest_subset (rs : List Char) :
    ∀ (hash : Option (List Char)) (lead : List Char) (ch : Char),
      ch ∈ (lexFrom hash lead rs).rest → ch ∈ rs := by
  induction rs with
  | nil =>
    intro hash lead ch h
    cases hash <;> simp [lexFrom] at h
  | cons a rest ih =>
    intro hash lead ch h
    cases hash with
    | some l =>
      rw [lexFrom] at h
      split at h <;> exact List.mem_cons_of_mem _ (ih _ _ _ h)
    | none =>
      rw [lexFrom] at h
      split at h
      · exact List.mem_cons_of_mem _ (ih _ _ _ h)
      · split at h
        · exact List.mem_cons_of_mem _ (ih _ _ _ h)
        · unfold lexToken at h
          split at h
          · exact List.mem_cons_of_mem _ ((List.dropWhile_sublist _).subset h)
          · split at h
            · exact List.mem_cons_of_mem _ ((List.dropWhile_sublist _).subset h)
            · split at h
              · split at h
                · simp at h
                · rename_i c r hdw
                  have hsub : c :: r ⊆ rest := by
                    rw [← hdw]
                    exact (List.dropWhile_sublist _).subset
                  exact List.mem_cons_of_mem _ (hsub (List.mem_cons_of_mem _ h))
              · exact List.mem_cons_of_mem _ h

/-- The position after the runes `pre` from the start of the input: the line is the
number of newlines of `pre`, the column the number of runes after the last of them. -/
theorem afterAll_start (pre : List Char) :
    (⟨0, 0⟩ : Position).afterAll pre =
      ⟨pre.count '\n', (pre.reverse.takeWhile (fun ch => ch != '\n')).length⟩ := by
  induction pre using List.reverseRecOn with
  | nil => rfl
  | append_singleton pre ch ih =>
    rw [afterAll_append, ih, afterAll_cons, afterAll_nil, Position.after]
    by_cases hn : ch = '\n'
    · simp [hn]
    · have hc : (ch != '\n') = true := by simpa using hn
      have hcount : List.count '\n' [ch] = 0 := by
        simp [List.count_singleton, hn]
      have htw : List.takeWhile (fun c => c != '\n') (ch :: pre.reverse) =
          ch :: List.takeWhile (fun c => c != '\n') pre.reverse :=
        List.takeWhile_cons_of_pos hc
      simp only [hn, if_false, List.count_append, hcount, Nat.add_zero, List.reverse_append,
        List.reverse_cons, List.reverse_nil, List.nil_append, List.singleton_append,
        htw, List.length_cons]

theorem newScanner_fresh (input : List Char) :
    (NewScanner input).Fresh (normalizeLineEndings input) ⟨0, 0⟩ :=
  ⟨rfl, rfl, rfl, rfl, rfl⟩

theorem not_mem_normalize (input : List Char) (h : eof ∉ input) :
    eof ∉ normalizeLineEndings input := by
  intro hm
  rcases mem_normalize _ _ hm with k | k
  · exact h k
  · revert k
    decide

end lexer
/-! ## The tokens in the order of the input (C29) -/

namespace lexer

theorem isBlank_append (x y : List Char) :
    ∀ b : Bool, isBlank b x = true → isBlank b (x ++ y) = isBlank false y := by
  induction x with
  | nil =>
    intro b h
    cases b with
    | false => rfl
    | true => simp [isBlank] at h
  | cons ch x ih =>
    intro b h
    cases b with
    | false =>
      simp only [List.cons_append, isBlank] at h ⊢
      by_cases h1 : ch = '#'
      · simp only [h1, if_true] at h ⊢
        exact ih true h
      · simp only [h1, if_false, Bool.and_eq_true] at h ⊢
        rw [h.1, Bool.true_and]
        exact ih false h.2
    | true =>
      simp only [List.cons_append, isBlank] at h ⊢
      by_cases h1 : ch = '\n'
      · simp only [h1, if_true] at h ⊢
        exact ih false h
      · simp only [h1, if_false] at h ⊢
        exact ih true h

theorem isBlank_comment (c : List Char) (h : '\n' ∉ c) : isBlank true (c ++ ['\n']) = true := by
  induction c with
  | nil => rfl
  | cons ch c ih =>
    have h1 : ch ≠ '\n' := fun h2 => h (by simp [h2])
    have h3 : '\n' ∉ c := fun h2 => h (List.mem_cons_of_mem _ h2)
    simp only [List.cons_append, isBlank, h1, if_false]
    exact ih h3

theorem stands_shift (start b rs : List Char) (t : Lexed) (hb : isBlank false b = true)
    (h : t.Stands (start ++ b) rs) : t.Stands start (b ++ rs) := by
  obtain ⟨gap, hg, h⟩ := h
  refine ⟨b ++ gap, by rw [isBlank_append b gap false hb]; exact hg, ?_⟩
  rcases h with ⟨h1, h2, h3⟩ | ⟨close, h1, h2, h3⟩ | ⟨h1, h2, h3, body, h4, h5, h6⟩ |
    ⟨h1, h2, h3, h4, h5, h6⟩
  · exact Or.inl ⟨h1, by rw [h2], h3⟩
  · refine Or.inr (Or.inl ⟨close, h1, ?_, ?_⟩)
    · rw [h2]; simp
    · rw [h3]; simp
  · refine Or.inr (Or.inr (Or.inl ⟨h1, h2, h3, body, h4, ?_, ?_⟩))
    · rw [h5]; simp
    · rw [h6]; simp
  · refine Or.inr (Or.inr (Or.inr ⟨h1, h2, h3, h4, ?_, ?_⟩))
    · rw [h5]; simp
    · rw [h6]; simp

theorem takeWhile_stringRune (rs : List Char) :
    rs = rs.takeWhile isStringRune ++ rs.dropWhile isStringRune :=
  (List.takeWhile_append_dropWhile isStringRune rs).symm

/-- The token that starts at a rune that is neither whitespace nor `#` stands there. -/
theorem lexToken_stands_at (lead : List Char) (ch : Char) (rs : List Char)
    (hw : isWhitespace ch = false) (hh : ch ≠ '#') :
    (lexToken lead ch rs).Stands lead (ch :: rs) := by
  refine ⟨[], rfl, ?_⟩
  unfold lexToken
  by_cases hl : isLetter ch = true
  · simp only [hl, if_true]
    refine Or.inr (Or.inr (Or.inr ⟨(keywordType_ne _).2.2, (keywordType_ne _).1,
      (keywordType_ne _).2.1, ⟨ch, _, rfl, hw, hh⟩, ?_, by simp⟩))
    simp [List.takeWhile_append_dropWhile]
  · have hl0 : isLetter ch = false := by simpa using hl
    simp only [hl0, Bool.false_eq_true, if_false]
    by_cases hd : isDigit ch = true
    · simp only [hd, if_true]
      refine Or.inr (Or.inr (Or.inr ⟨by decide, by decide, by decide,
        ⟨ch, _, rfl, hw, hh⟩, ?_, by simp⟩))
      simp [List.takeWhile_append_dropWhile]
    · have hd0 : isDigit ch = false := by simpa using hd
      simp only [hd0, Bool.false_eq_true, if_false]
      by_cases hq : ch = '"'
      · simp only [hq, if_true]
        have hsplit := takeWhile_stringRune rs
        cases hdw : rs.dropWhile isStringRune with
        | nil =>
          simp only []
          rw [hdw, List.append_nil] at hsplit
          refine Or.inr (Or.inl ⟨[], Or.inr ⟨by simp, Or.inr ⟨rfl, by simp⟩⟩, ?_, by simp⟩)
          simp [← hsplit]
        | cons c rest =>
          simp only []
          rw [hdw] at hsplit
          have hc : isStringRune c = false := by
            have h := List.head_dropWhile_not isStringRune rs (by rw [hdw]; simp)
            simpa [hdw] using h
          have hc2 : c = '"' ∨ c = '\n' := by
            simp only [isStringRune, Bool.and_eq_false_imp, bne_iff_ne, ne_eq,
              bne_eq_false_iff_eq] at hc
            by_cases h1 : c = '"'
            · exact Or.inl h1
            · exact Or.inr (hc h1)
          refine Or.inr (Or.inl ⟨[c], ?_, ?_, by simp⟩)
          · rcases hc2 with h1 | h1
            · exact Or.inl ⟨by simp [h1], by rw [h1]⟩
            · refine Or.inr ⟨?_, Or.inl (by rw [h1])⟩
              have h2 : c ≠ '"' := by rw [h1]; decide
              simp [h2]
          · simp only [List.nil_append, List.cons_append, List.append_assoc,
              List.singleton_append]
            rw [← hsplit]
      · simp only [hq, if_false]
        refine Or.inr (Or.inr (Or.inr ⟨(symbolType_ne _).2.2, (symbolType_ne _).1,
          (symbolType_ne _).2.1, ⟨ch, _, rfl, hw, hh⟩, by simp, by simp⟩))

/-- The next token of the runes `rs` stands in them, after a gap of whitespace and
comments. -/
theorem lexFrom_stands_at (n : Nat) :
    ∀ (rs lead : List Char), rs.length ≤ n → (lexFrom none lead rs).Stands lead rs := by
  induction n with
  | zero =>
    intro rs lead h
    have h0 : rs = [] := List.length_eq_zero.mp (by omega)
    subst h0
    exact ⟨[], rfl, Or.inl ⟨rfl, rfl, rfl⟩⟩
  | succ n ih =>
    intro rs lead h
    cases rs with
    | nil => exact ⟨[], rfl, Or.inl ⟨rfl, rfl, rfl⟩⟩
    | cons ch rs =>
      simp only [List.length_cons] at h
      rw [lexFrom]
      by_cases h1 : ch = '#'
      · simp only [h1, if_true]
        have hsplit : rs = rs.takeWhile isCommentRune ++ rs.dropWhile isCommentRune :=
          (List.takeWhile_append_dropWhile isCommentRune rs).symm
        have hno : '\n' ∉ rs.takeWhile isCommentRune := by
          intro hm
          have h2 := List.mem_takeWhile_imp hm
          simp [isCommentRune] at h2
        cases hdw : rs.dropWhile isCommentRune with
        | nil =>
          rw [hdw, List.append_nil] at hsplit
          rw [← hsplit] at hno
          rw [lexFrom_comment_end rs lead _ hdw]
          exact ⟨[], rfl, Or.inr (Or.inr (Or.inl ⟨rfl, rfl, rfl, rs, hno, rfl, by simp⟩))⟩
        | cons c rest =>
          rw [hdw] at hsplit
          have hc : isCommentRune c = false := by
            have h2 := List.head_dropWhile_not isCommentRune rs (by rw [hdw]; simp)
            simpa [hdw] using h2
          have hc2 : c = '\n' := by simpa [isCommentRune] using hc
          subst hc2
          have hlen : rest.length ≤ n := by
            have h3 := congrArg List.length hsplit
            simp only [List.length_append, List.length_cons] at h3
            omega
          have hb : isBlank false ('#' :: (rs.takeWhile isCommentRune ++ ['\n'])) = true := by
            simp only [isBlank, if_true]
            exact isBlank_comment _ hno
          have hst := stands_shift lead _ rest _ hb (ih rest _ hlen)
          have e1 : '#' :: rs = ('#' :: (rs.takeWhile isCommentRune ++ ['\n'])) ++ rest := by
            conv_lhs => rw [hsplit]
            simp
          have e2 : lexFrom (some lead) (lead ++ ['#']) rs =
              lexFrom none (lead ++ '#' :: (rs.takeWhile isCommentRune ++ ['\n'])) rest := by
            rw [lexFrom_comment_newline rs lead (lead ++ ['#']) '\n' rest hdw]
            simp
          rw [e1, e2]
          exact hst
      · simp only [h1, if_false]
        by_cases h2 : isWhitespace ch = true
        · simp only [h2, if_true]
          have hb : isBlank false [ch] = true := by simp [isBlank, h1, h2]
          exact stands_shift lead [ch] rs _ hb (ih rs _ (by omega))
        · have h20 : isWhitespace ch = false := by simpa using h2
          simp only [h20, Bool.false_eq_true, if_false]
          exact lexToken_stands_at lead ch rs h20 h1

theorem afterAll_positionAfter (pre : List Char) :
    (⟨0, 0⟩ : Position).afterAll pre = positionAfter pre :=
  afterAll_start pre

/-- The tokens that the scanner returns stand one after the other in the runes that it
reads, from a state in which it has read the runes `done` of the input. -/
theorem tokens_placed (n : Nat) :
    ∀ (s : Scanner) (done rs : List Char),
      s.At rs ((⟨0, 0⟩ : Position).afterAll done) → eof ∉ rs →
      Placed done rs (s.tokens n) := by
  induction n with
  | zero => intro s done rs _ _; exact Placed.done _ _
  | succ n ih =>
    intro s done rs h hn
    obtain ⟨a1, a2, a3, used, a4, a5⟩ := Scan_spec s rs done ⟨0, 0⟩ h hn
    have hn2 : eof ∉ (lexFrom none done rs).rest := fun hc =>
      hn (lexFrom_rest_subset rs none done _ hc)
    have hrec := ih _ (done ++ used) _ a5 hn2
    have hdata : (s.Scan).1.Lexeme.data = (lexFrom none done rs).lexeme := by rw [a2]
    have hst := lexFrom_stands_at rs.length rs done (le_refl _)
    simp only [Scanner.tokens]
    generalize lexFrom none done rs = t at a1 a3 a4 hrec hst hdata
    generalize Scanner.tokens n (s.Scan).2 = toks at hrec ⊢
    generalize (s.Scan).1 = tok at a1 a3 hdata ⊢
    clear a2 a5 hn2 h hn ih
    simp only [afterAll_positionAfter] at a3
    obtain ⟨gap, hg, hst⟩ := hst
    rcases hst with ⟨h1, h2, h3⟩ | ⟨close, h1, h2, h3⟩ | ⟨h1, h2, h3, body, h4, h5, h6⟩ |
      ⟨h1, h2, h3, h4, h5, h6⟩
    · rw [h3, List.append_nil] at a4
      rw [h3, ← a4, h2] at hrec
      rw [h2]
      exact Placed.eof done gap tok toks hg (a1.trans h1) hrec
    · have hne : t.type ≠ TokenType.EOF := by
        rcases h1 with h1 | h1 <;> rw [h1.1] <;> decide
      have hused : used = gap ++ '"' :: t.lexeme ++ close :=
        List.append_cancel_right (a4.symm.trans h2)
      have hp := a3 hne
      rw [h3] at hp
      rw [hused, ← hdata] at hrec
      rw [h2, ← hdata]
      refine Placed.string done gap close t.rest tok toks hg ?_ hp ?_
      · rw [a1]; exact h1
      · simpa [List.append_assoc] using hrec
    · have hne : t.type ≠ TokenType.EOF := by rw [h1]; decide
      have hused : used = gap ++ '#' :: body := by
        rw [h3, List.append_nil] at a4
        rw [← a4, h5]
      have hp := a3 hne
      rw [h6] at hp
      rw [hused, h3] at hrec
      rw [h5]
      refine Placed.comment done gap body tok toks hg (a1.trans h1) (hdata.trans h2) h4 hp ?_
      simpa [List.append_assoc] using hrec
    · have hused : used = gap ++ t.lexeme := List.append_cancel_right (a4.symm.trans h5)
      have hp := a3 h1
      rw [h6] at hp
      rw [hused, ← hdata] at hrec
      rw [← hdata] at h4
      rw [h5, ← hdata]
      refine Placed.plain done gap t.rest tok toks hg (by rw [a1]; exact h1)
        (by rw [a1]; exact h2) (by rw [a1]; exact h3) h4 hp ?_
      simpa [List.append_assoc] using hrec

end lexer
/-! ## The places of the tokens are determined (C29) -/

namespace lexer

theorem isBlank_newline (g : List Char) : isBlank true g = true → '\n' ∈ g := by
  induction g with
  | nil => intro h; simp [isBlank] at h
  | cons c g ih =>
    intro h
    simp only [isBlank] at h
    by_cases h1 : c = '\n'
    · simp [h1]
    · simp only [h1, if_false] at h
      exact List.mem_cons_of_mem _ (ih h)

/-- A gap does not start with a rune that is no whitespace, unless it is the `#` of a
comment that a newline ends. -/
theorem blank_not_halt (c : Char) (g y : List Char) (hb : isBlank false (c :: g) = true)
    (hh : isWhitespace c = false ∧ (c = '#' → '\n' ∉ g ++ y)) : False := by
  simp only [isBlank] at hb
  by_cases h1 : c = '#'
  · simp only [h1, if_true] at hb
    exact hh.2 h1 (List.mem_append_left _ (isBlank_newline g hb))
  · simp only [h1, if_false, Bool.and_eq_true] at hb
    rw [hh.1] at hb
    exact absurd hb.1 (by simp)

/-- The gap before a token is determined by the runes: it ends at the first rune that is
no whitespace and does not open a comment that a newline ends. -/
theorem gap_unique (g1 : List Char) :
    ∀ (b : Bool) (g2 x1 x2 : List Char), isBlank b g1 = true → isBlank b g2 = true →
      g1 ++ x1 = g2 ++ x2 →
      (∀ ch rest, x1 = ch :: rest → isWhitespace ch = false ∧ (ch = '#' → '\n' ∉ rest)) →
      (∀ ch rest, x2 = ch :: rest → isWhitespace ch = false ∧ (ch = '#' → '\n' ∉ rest)) →
      g1 = g2 := by
  induction g1 with
  | nil =>
    intro b g2 x1 x2 hb1 hb2 he hx1 hx2
    cases b with
    | true => simp [isBlank] at hb1
    | false =>
      cases g2 with
      | nil => rfl
      | cons c g2 =>
        simp only [List.nil_append, List.cons_append] at he
        exact (blank_not_halt c g2 x2 hb2 (hx1 c _ he)).elim
  | cons c g1 ih =>
    intro b g2 x1 x2 hb1 hb2 he hx1 hx2
    cases g2 with
    | nil =>
      cases b with
      | true => simp [isBlank] at hb2
      | false =>
        simp only [List.nil_append, List.cons_append] at he
        exact (blank_not_halt c g1 x1 hb1 (hx2 c _ he.symm)).elim
    | cons c2 g2 =>
      simp only [List.cons_append, List.cons.injEq] at he
      obtain ⟨hc, he⟩ := he
      subst hc
      have hg : g1 = g2 := by
        cases b with
        | false =>
          simp only [isBlank] at hb1 hb2
          by_cases h1 : c = '#'
          · simp only [h1, if_true] at hb1 hb2
            exact ih true g2 x1 x2 hb1 hb2 he hx1 hx2
          · simp only [h1, if_false, Bool.and_eq_true] at hb1 hb2
            exact ih false g2 x1 x2 hb1.2 hb2.2 he hx1 hx2
        | true =>
          simp only [isBlank] at hb1 hb2
          by_cases h1 : c = '\n'
          · simp only [h1, if_true] at hb1 hb2
            exact ih false g2 x1 x2 hb1 hb2 he hx1 hx2
          · simp only [h1, if_false] at hb1 hb2
            exact ih true g2 x1 x2 hb1 hb2 he hx1 hx2
      rw [hg]

theorem token_eq (a b : Token) (h1 : a.TokenType = b.TokenType) (h2 : a.Lexeme = b.Lexeme)
    (h3 : a.Position = b.Position) : a = b := by
  cases a
  cases b
  cases h1
  cases h2
  cases h3
  rfl

/-- How the first of the tokens that stand in the runes `rs` stands there. -/
theorem placed_cons (pre rs : List Char) (tok : Token) (toks : List Token)
    (h : Placed pre rs (tok :: toks)) :
    ∃ gap x next, isBlank false gap = true ∧ rs = gap ++ x ++ next ∧
      (∀ ch rest, x ++ next = ch :: rest →
        isWhitespace ch = false ∧ (ch = '#' → '\n' ∉ rest)) ∧
      Placed (pre ++ gap ++ x) next toks ∧
      ((tok.TokenType = TokenType.EOF ∧ x = [] ∧ next = []) ∨
       (∃ close, (tok.TokenType = TokenType.STRING ∧ close = ['"'] ∨
            tok.TokenType = TokenType.BADSTRING ∧
              (close = ['\n'] ∨ close = [] ∧ next = [])) ∧
          x = '"' :: tok.Lexeme.data ++ close ∧
          tok.Position = positionAfter (pre ++ gap ++ ['"'])) ∨
       (tok.TokenType = TokenType.ILLEGAL ∧ tok.Lexeme.data = [] ∧ next = [] ∧
          (∃ body, x = '#' :: body) ∧ tok.Position = positionAfter (pre ++ gap)) ∨
       (tok.TokenType ≠ TokenType.EOF ∧ tok.TokenType ≠ TokenType.STRING ∧
          tok.TokenType ≠ TokenType.BADSTRING ∧ tok.Lexeme.data ≠ [] ∧
          x = tok.Lexeme.data ∧ tok.Position = positionAfter (pre ++ gap))) := by
  cases h with
  | eof _ gap _ _ hg ht hrest =>
    refine ⟨rs, [], [], hg, by simp, ?_, by simpa using hrest, Or.inl ⟨ht, rfl, rfl⟩⟩
    intro ch rest h
    simp at h
  | string _ gap close next _ _ hg ht hp hrest =>
    refine ⟨gap, '"' :: tok.Lexeme.data ++ close, next, hg, by simp, ?_,
      by simpa [List.append_assoc] using hrest, Or.inr (Or.inl ⟨close, ht, rfl, hp⟩)⟩
    intro ch rest h
    simp only [List.cons_append, List.cons.injEq] at h
    rw [← h.1]
    exact ⟨by decide, fun h2 => absurd h2 (by decide)⟩
  | comment _ gap body _ _ hg ht hl hb hp hrest =>
    refine ⟨gap, '#' :: body, [], hg, by simp, ?_, by simpa [List.append_assoc] using hrest,
      Or.inr (Or.inr (Or.inl ⟨ht, hl, rfl, ⟨body, rfl⟩, hp⟩))⟩
    intro ch rest h
    simp only [List.append_nil, List.cons.injEq] at h
    rw [← h.1, ← h.2]
    exact ⟨by decide, fun _ => hb⟩
  | plain _ gap next _ _ hg ht1 ht2 ht3 hl hp hrest =>
    obtain ⟨c, l, hl1, hl2, hl3⟩ := hl
    refine ⟨gap, tok.Lexeme.data, next, hg, rfl, ?_, hrest,
      Or.inr (Or.inr (Or.inr ⟨ht1, ht2, ht3, by rw [hl1]; simp, rfl, hp⟩))⟩
    intro ch rest h
    rw [hl1] at h
    simp only [List.cons_append, List.cons.injEq] at h
    rw [← h.1]
    exact ⟨hl2, fun h2 => absurd h2 hl3⟩

/-- The input and the types and lexemes of the tokens determine where the tokens stand:
two lists of tokens with the same types and lexemes that stand in the same runes agree in
every token but for the positions of the end-of-input tokens. -/
theorem placed_unique (toks : List Token) :
    ∀ (toks2 : List Token) (pre rs : List Char), Placed pre rs toks → Placed pre rs toks2 →
      toks.map (fun tok => (tok.TokenType, tok.Lexeme)) =
        toks2.map (fun tok => (tok.TokenType, tok.Lexeme)) →
      List.Forall₂ (fun a b => a.TokenType = TokenType.EOF ∨ a = b) toks toks2 := by
  induction toks with
  | nil =>
    intro toks2 pre rs _ _ hmap
    cases toks2 with
    | nil => exact List.Forall₂.nil
    | cons b bs => simp at hmap
  | cons a as ih =>
    intro toks2 pre rs h1 h2 hmap
    cases toks2 with
    | nil => simp at hmap
    | cons b bs =>
      simp only [List.map_cons, List.cons.injEq, Prod.mk.injEq] at hmap
      obtain ⟨⟨hT, hL⟩, hmap⟩ := hmap
      obtain ⟨g1, x1, n1, hg1, hr1, hx1, hp1, k1⟩ := placed_cons pre rs a as h1
      obtain ⟨g2, x2, n2, hg2, hr2, hx2, hp2, k2⟩ := placed_cons pre rs b bs h2
      have he : g1 ++ (x1 ++ n1) = g2 ++ (x2 ++ n2) := by
        rw [← List.append_assoc, ← List.append_assoc, ← hr1, ← hr2]
      have hg : g1 = g2 := gap_unique g1 false g2 _ _ hg1 hg2 he hx1 hx2
      subst hg
      have he2 : x1 ++ n1 = x2 ++ n2 := List.append_cancel_left he
      have hxn : x1 = x2 ∧ n1 = n2 ∧ (a.TokenType = TokenType.EOF ∨ a.Position = b.Position) := by
        rcases k1 with ⟨e1, e2, e3⟩ | ⟨close, s1, s2, s3⟩ | ⟨c1, c2, c3, c4, c5⟩ |
          ⟨p1, p2, p3, p4, p5, p6⟩
        · rcases k2 with ⟨f1, f2, f3⟩ | ⟨close2, t1, t2, t3⟩ | ⟨d1, d2, d3, d4, d5⟩ |
            ⟨q1, q2, q3, q4, q5, q6⟩
          · exact ⟨by rw [e2, f2], by rw [e3, f3], Or.inl e1⟩
          · rw [← hT, e1] at t1
            rcases t1 with t1 | t1 <;> exact absurd t1.1 (by decide)
          · rw [← hT, e1] at d1
            exact absurd d1 (by decide)
          · exact absurd (hT ▸ e1) q1
        · have hs : a.TokenType = TokenType.STRING ∨ a.TokenType = TokenType.BADSTRING := by
            rcases s1 with s1 | s1
            · exact Or.inl s1.1
            · exact Or.inr s1.1
          rcases k2 with ⟨f1, f2, f3⟩ | ⟨close2, t1, t2, t3⟩ | ⟨d1, d2, d3, d4, d5⟩ |
            ⟨q1, q2, q3, q4, q5, q6⟩
          · rw [hT, f1] at hs
            rcases hs with hs | hs <;> exact absurd hs (by decide)
          · have hpos : a.Position = b.Position := by rw [s3, t3]
            rw [s2, t2, ← hL] at he2
            simp only [List.cons_append, List.append_assoc, List.cons.injEq, true_and,
              List.append_cancel_left_eq] at he2
            have hcl : close = close2 ∧ n1 = n2 := by
              rcases s1 with ⟨u1, u2⟩ | ⟨u1, u2⟩
              · rcases t1 with ⟨v1, v2⟩ | ⟨v1, v2⟩
                · rw [u2, v2] at he2 ⊢
                  exact ⟨rfl, by simpa using he2⟩
                · rw [hT, v1] at u1
                  exact absurd u1 (by decide)
              · rcases t1 with ⟨v1, v2⟩ | ⟨v1, v2⟩
                · rw [hT, v1] at u1
                  exact absurd u1 (by decide)
                · rcases u2 with u2 | ⟨u2, u3⟩
                  · rcases v2 with v2 | ⟨v2, v3⟩
                    · rw [u2, v2] at he2 ⊢
                      exact ⟨rfl, by simpa using he2⟩
                    · rw [u2, v2, v3] at he2
                      simp at he2
                  · rcases v2 with v2 | ⟨v2, v3⟩
                    · rw [u2, u3, v2] at he2
                      simp at he2
                    · exact ⟨by rw [u2, v2], by rw [u3, v3]⟩
            exact ⟨by rw [s2, t2, hcl.1, hL], hcl.2, Or.inr hpos⟩
          · rw [hT, d1] at hs
            rcases hs with hs | hs <;> exact absurd hs (by decide)
          · rcases hs with hs | hs
            · exact absurd (hT ▸ hs) q2
            · exact absurd (hT ▸ hs) q3
        · rcases k2 with ⟨f1, f2, f3⟩ | ⟨close2, t1, t2, t3⟩ | ⟨d1, d2, d3, d4, d5⟩ |
            ⟨q1, q2, q3, q4, q5, q6⟩
          · rw [hT, f1] at c1
            exact absurd c1 (by decide)
          · rw [← hT, c1] at t1
            rcases t1 with t1 | t1 <;> exact absurd t1.1 (by decide)
          · rw [c3, d3, List.append_nil, List.append_nil] at he2
            exact ⟨he2, by rw [c3, d3], Or.inr (by rw [c5, d5])⟩
          · rw [← hL] at q4
            exact absurd c2 q4
        · rcases k2 with ⟨f1, f2, f3⟩ | ⟨close2, t1, t2, t3⟩ | ⟨d1, d2, d3, d4, d5⟩ |
            ⟨q1, q2, q3, q4, q5, q6⟩
          · exact absurd (hT.trans f1) p1
          · rcases t1 with t1 | t1
            · exact absurd (hT.trans t1.1) p2
            · exact absurd (hT.trans t1.1) p3
          · rw [← hL] at d2
            exact absurd d2 p4
          · have hx : x1 = x2 := by rw [p5, q5, hL]
            rw [hx] at he2
            exact ⟨hx, List.append_cancel_left he2, Or.inr (by rw [p6, q6])⟩
      obtain ⟨hx, hn, hpos⟩ := hxn
      subst hx
      subst hn
      refine List.Forall₂.cons ?_ (ih bs _ _ hp1 hp2 hmap)
      rcases hpos with hpos | hpos
      · exact Or.inl hpos
      · exact Or.inr (token_eq a b hT hL hpos)

end lexer

namespace lexer

/-- C29, as stated, fails for an input that contains the rune U+0000, which is the value
`eof` that `read` takes for the end of input: `read` counts the column of the first such
rune only ("Only count EOF once") and of no rune after it, so in the input U+0000 `+` `+`
the second `+`, whose first character has column 2 with no line ending before it, carries
the position (0, 1) of the first `+`. -/
theorem position_after_zero_rune :
    ((NewScanner [Char.ofNat 0, '+', '+']).tokens 3).map
        (fun tok => (tok.TokenType, tok.Lexeme, tok.Position)) =
      [(TokenType.EOF, "EOF", ⟨0, 0⟩), (TokenType.ADD, "+", ⟨0, 1⟩),
        (TokenType.ADD, "+", ⟨0, 1⟩)] := by
  decide

/-- C29, amended: for every input without the rune U+0000, read with each line ending
(`\r\n`, `\r` or `\n`) as the one rune `\n`, the tokens returned by successive Scan calls
stand in the input one after the other (`Placed`): before each token comes a gap of
whitespace and comments, then the text of the token, and the next token follows that text.
Each token other than end-of-input carries the zero-based position of the first rune of
its own text, whose line is the number of line endings before that rune and whose column
is the number of runes since the last line ending; for STRING and BADSTRING tokens it is
the position of the rune following the opening quote, and the ILLEGAL token with an empty
lexeme of a comment that the end of input ends carries the position of the `#`.  No other
positions fit: a list of tokens with the same types and lexemes that stands in the input
in this way is the list of the scanner, but for the positions of end-of-input tokens. -/
theorem token_positions (input : List Char) (h0 : eof ∉ input) (n : Nat) :
    Placed [] (normalizeLineEndings input) ((NewScanner input).tokens n) ∧
    ∀ toks : List Token, Placed [] (normalizeLineEndings input) toks →
      toks.map (fun tok => (tok.TokenType, tok.Lexeme)) =
        ((NewScanner input).tokens n).map (fun tok => (tok.TokenType, tok.Lexeme)) →
      List.Forall₂ (fun a b => a.TokenType = TokenType.EOF ∨ a = b) toks
        ((NewScanner input).tokens n) := by
  have h := tokens_placed n (NewScanner input) [] (normalizeLineEndings input)
    (fresh_at (newScanner_fresh input)) (not_mem_normalize input h0)
  exact ⟨h, fun toks h2 hmap => placed_unique toks _ _ _ h2 h hmap⟩

/-- C29, amended, at the input `+`, space, `\r\n`, `+`: the second `+` stands at line 1,
column 0, and the tokens do not stand in the input with the second `+` at the position of
the first. -/
theorem token_positions_witness :
    (NewScanner ['+', ' ', '\r', '\n', '+']).tokens 2 =
      [⟨TokenType.ADD, "+", ⟨0, 0⟩⟩, ⟨TokenType.ADD, "+", ⟨1, 0⟩⟩] ∧
    Placed [] (normalizeLineEndings ['+', ' ', '\r', '\n', '+'])
      ((NewScanner ['+', ' ', '\r', '\n', '+']).tokens 2) ∧
    ¬ Placed [] (normalizeLineEndings ['+', ' ', '\r', '\n', '+'])
      [⟨TokenType.ADD, "+", ⟨0, 0⟩⟩, ⟨TokenType.ADD, "+", ⟨0, 0⟩⟩] := by
  have ht : (NewScanner ['+', ' ', '\r', '\n', '+']).tokens 2 =
      [⟨TokenType.ADD, "+", ⟨0, 0⟩⟩, ⟨TokenType.ADD, "+", ⟨1, 0⟩⟩] := by decide
  have h := token_positions ['+', ' ', '\r', '\n', '+'] (by decide) 2
  refine ⟨ht, h.1, fun hw => ?_⟩
  have h2 := h.2 _ hw (by rw [ht]; rfl)
  rw [ht] at h2
  cases h2 with
  | cons _ h3 =>
    cases h3 with
    | cons h4 _ =>
      rcases h4 with h4 | h4
      · exact absurd h4 (by decide)
      · exact absurd h4 (by decide)

end lexer

/-! ## Comments (C28) -/

namespace lexer

theorem lexToken_lead (lead lead1 : List Char) (ch : Char) (rs : List Char) :
    (lexToken lead ch rs).type = (lexToken lead1 ch rs).type ∧
    (lexToken lead ch rs).lexeme = (lexToken lead1 ch rs).lexeme ∧
    (lexToken lead ch rs).rest = (lexToken lead1 ch rs).rest := by
  unfold lexToken
  split_ifs
  · exact ⟨rfl, rfl, rfl⟩
  · exact ⟨rfl, rfl, rfl⟩
  · cases rs.dropWhile isStringRune <;> exact ⟨rfl, rfl, rfl⟩
  · exact ⟨rfl, rfl, rfl⟩

/-- The type, the lexeme and the remaining runes of a token do not depend on the runes
before it. -/
theorem lexFrom_lead (rs : List Char) :
    ∀ lead lead1 : List Char,
      ((lexFrom none lead rs).type = (lexFrom none lead1 rs).type ∧
        (lexFrom none lead rs).lexeme = (lexFrom none lead1 rs).lexeme ∧
        (lexFrom none lead rs).rest = (lexFrom none lead1 rs).rest) ∧
      ∀ l l1 : List Char,
        (lexFrom (some l) lead rs).type = (lexFrom (some l1) lead1 rs).type ∧
        (lexFrom (some l) lead rs).lexeme = (lexFrom (some l1) lead1 rs).lexeme ∧
        (lexFrom (some l) lead rs).rest = (lexFrom (some l1) lead1 rs).rest := by
  induction rs with
  | nil => intro lead lead1; exact ⟨⟨rfl, rfl, rfl⟩, fun l l1 => ⟨rfl, rfl, rfl⟩⟩
  | cons ch rest ih =>
    intro lead lead1
    constructor
    · rw [lexFrom, lexFrom]
      split_ifs
      · exact (ih _ _).2 _ _
      · exact (ih _ _).1
      · exact lexToken_lead _ _ _ _
    · intro l l1
      rw [lexFrom, lexFrom]
      split_ifs
      · exact (ih _ _).1
      · exact (ih _ _).2 _ _

/-- The scanner returns the tokens of the pure lexer. -/
theorem tokens_spec (n : Nat) :
    ∀ (s : Scanner) (rs lead : List Char) (pos0 : Position),
      s.At rs (pos0.afterAll lead) → eof ∉ rs →
      (s.tokens n).map (fun tok => (tok.TokenType, tok.Lexeme)) = lexTokens n rs := by
  induction n with
  | zero => intro s rs lead pos0 _ _; rfl
  | succ n ih =>
    intro s rs lead pos0 h hn
    obtain ⟨a1, a2, _, used, _, a5⟩ := Scan_spec s rs lead pos0 h hn
    obtain ⟨b1, b2, b3⟩ := (lexFrom_lead rs lead []).1
    have hn2 : eof ∉ (lexFrom none lead rs).rest := fun hc =>
      hn (lexFrom_rest_subset rs none lead _ hc)
    simp only [Scanner.tokens, List.map_cons, lexTokens]
    rw [ih _ _ (lead ++ used) pos0 a5 hn2, a1, a2, b1, b2, b3]

theorem newScanner_tokens (input : List Char) (h0 : eof ∉ input) (n : Nat) :
    ((NewScanner input).tokens n).map (fun tok => (tok.TokenType, tok.Lexeme)) =
      lexTokens n (normalizeLineEndings input) :=
  tokens_spec n (NewScanner input) _ [] ⟨0, 0⟩ (fresh_at (newScanner_fresh input))
    (not_mem_normalize input h0)

end lexer

namespace lexer

theorem takeWhile_before (p : Char → Bool) (X : List Char)
    (hx : ∀ x ∈ X.head?, p x = false) (A : List Char) :
    (A ++ X).takeWhile p = A.takeWhile p ∧ (A ++ X).dropWhile p = A.dropWhile p ++ X := by
  induction A with
  | nil =>
    cases X with
    | nil => simp
    | cons x r =>
      have hp := hx x (by simp)
      simp [List.takeWhile_cons, List.dropWhile_cons, hp]
  | cons a A ih =>
    by_cases ha : p a = true
    · simp [List.takeWhile_cons, List.dropWhile_cons, ha, ih.1, ih.2]
    · simp [List.takeWhile_cons, List.dropWhile_cons, ha]

theorem takeWhile_stopped (p : Char → Bool) (X : List Char) (A : List Char)
    (h : A.dropWhile p ≠ []) :
    (A ++ X).takeWhile p = A.takeWhile p ∧ (A ++ X).dropWhile p = A.dropWhile p ++ X := by
  induction A with
  | nil => simp at h
  | cons a A ih =>
    by_cases ha : p a = true
    · rw [List.dropWhile_cons_of_pos ha] at h
      simp [List.takeWhile_cons, List.dropWhile_cons, ha, (ih h).1, (ih h).2]
    · simp [List.takeWhile_cons, List.dropWhile_cons, ha]

theorem after_cons (m : Mode) (a : Char) (A : List Char) :
    Mode.after m (a :: A) = Mode.after (m.step a) A := rfl

theorem after_code_run (w : List Char) (hw : ∀ c ∈ w, c ≠ '"' ∧ c ≠ '#') (r : List Char) :
    Mode.after Mode.code (w ++ r) = Mode.after Mode.code r := by
  induction w with
  | nil => rfl
  | cons c w ih =>
    have hc := hw c (List.mem_cons_self _ _)
    rw [List.cons_append, after_cons]
    have hs : Mode.code.step c = Mode.code := by simp [Mode.step, hc.1, hc.2]
    rw [hs]
    exact ih (fun d hd => hw d (List.mem_cons_of_mem _ hd))

theorem after_string_run (w : List Char) (hw : ∀ c ∈ w, isStringRune c = true)
    (r : List Char) : Mode.after Mode.string (w ++ r) = Mode.after Mode.string r := by
  induction w with
  | nil => rfl
  | cons c w ih =>
    have hc := hw c (List.mem_cons_self _ _)
    simp only [isStringRune, Bool.and_eq_true, bne_iff_ne, ne_eq] at hc
    rw [List.cons_append, after_cons]
    have hs : Mode.string.step c = Mode.string := by simp [Mode.step, hc.1, hc.2]
    rw [hs]
    exact ih (fun d hd => hw d (List.mem_cons_of_mem _ hd))

theorem identifierRune_facts (c : Char) (h : isIdentifierRune c = true) :
    c ≠ '"' ∧ c ≠ '#' := by
  constructor <;> (intro he; subst he; revert h; decide)

theorem digit_identifierRune (c : Char) (h : isDigit c = true) :
    isIdentifierRune c = true := by
  simp [isIdentifierRune, h]

theorem letter_identifierRune (c : Char) (h : isLetter c = true) :
    isIdentifierRune c = true := by
  simp [isIdentifierRune, h]

theorem after_word (p : Char → Bool) (hp : ∀ c, p c = true → isIdentifierRune c = true)
    (A : List Char) : Mode.after Mode.code (A.dropWhile p) = Mode.after Mode.code A := by
  conv => rhs; rw [← List.takeWhile_append_dropWhile p A]
  rw [after_code_run]
  intro c hc
  exact identifierRune_facts c (hp c (List.mem_takeWhile_imp hc))

theorem before_cons (X1 X2 A : List Char) (m m1 : Mode) (a : Char) (t1 t2 : Lexed)
    (hm : m.step a = m1) (h : Lexed.Before X1 X2 A m1 t1 t2) :
    Lexed.Before X1 X2 (a :: A) m t1 t2 := by
  unfold Lexed.Before at h ⊢
  rw [after_cons, hm]
  rcases h with ⟨A1, h1, h2⟩ | h | h
  · exact Or.inl ⟨A1, by simp only [List.length_cons]; omega, h2⟩
  · exact Or.inr (Or.inl h)
  · exact Or.inr (Or.inr h)

theorem lexToken_letter (lead : List Char) (ch : Char) (rs : List Char)
    (h : isLetter ch = true) :
    lexToken lead ch rs =
      ⟨keywordType (String.mk (ch :: rs.takeWhile isIdentifierRune)),
        ch :: rs.takeWhile isIdentifierRune, lead, rs.dropWhile isIdentifierRune⟩ := by
  simp [lexToken, h]

theorem lexToken_digit (lead : List Char) (ch : Char) (rs : List Char)
    (hl : isLetter ch = false) (h : isDigit ch = true) :
    lexToken lead ch rs =
      ⟨TokenType.INTEGER, ch :: rs.takeWhile isDigit, lead, rs.dropWhile isDigit⟩ := by
  simp [lexToken, hl, h]

theorem lexToken_quote (lead : List Char) (rs : List Char) (c : Char) (rest : List Char)
    (h : rs.dropWhile isStringRune = c :: rest) :
    lexToken lead '"' rs =
      ⟨if c = '"' then TokenType.STRING else TokenType.BADSTRING,
        rs.takeWhile isStringRune, lead ++ ['"'], rest⟩ := by
  have h1 : isLetter '"' = false := by decide
  have h2 : isDigit '"' = false := by decide
  simp [lexToken, h1, h2, h]

theorem lexToken_symbol (lead : List Char) (ch : Char) (rs : List Char)
    (hl : isLetter ch = false) (hd : isDigit ch = false) (hq : ch ≠ '"') :
    lexToken lead ch rs = ⟨symbolType ch, [ch], lead, rs⟩ := by
  simp [lexToken, hl, hd, hq]

theorem lexToken_before (X1 X2 : List Char)
    (hx1 : ∀ x ∈ X1.head?, isIdentifierRune x = false)
    (hx2 : ∀ x ∈ X2.head?, isIdentifierRune x = false)
    (a : Char) (A lead1 lead2 : List Char) (h1 : a ≠ '#')
    (hm : Mode.after Mode.code (a :: A) ≠ Mode.string) :
    Lexed.Before X1 X2 (a :: A) Mode.code (lexToken lead1 a (A ++ X1))
      (lexToken lead2 a (A ++ X2)) := by
  have hd1 : ∀ x ∈ X1.head?, isDigit x = false := fun x hx => by
    by_contra hc
    have := digit_identifierRune x (by simpa using hc)
    rw [hx1 x hx] at this
    cases this
  have hd2 : ∀ x ∈ X2.head?, isDigit x = false := fun x hx => by
    by_contra hc
    have := digit_identifierRune x (by simpa using hc)
    rw [hx2 x hx] at this
    cases this
  by_cases hl : isLetter a = true
  · rw [lexToken_letter _ _ _ hl, lexToken_letter _ _ _ hl,
      (takeWhile_before _ X1 hx1 A).1, (takeWhile_before _ X1 hx1 A).2,
      (takeWhile_before _ X2 hx2 A).1, (takeWhile_before _ X2 hx2 A).2]
    refine Or.inl ⟨A.dropWhile isIdentifierRune, ?_, ?_, rfl, rfl, rfl, rfl, ?_⟩
    · have := (List.dropWhile_sublist isIdentifierRune (l := A)).length_le
      simp only [List.length_cons]
      omega
    · have hs : Mode.code.step a = Mode.code := by
        have := identifierRune_facts a (letter_identifierRune a hl)
        simp [Mode.step, this.1, this.2]
      rw [after_cons, hs]
      exact after_word _ (fun c hc => hc) A
    · exact (keywordType_ne _).2.2
  · have hl0 : isLetter a = false := by simpa using hl
    by_cases hd : isDigit a = true
    · rw [lexToken_digit _ _ _ hl0 hd, lexToken_digit _ _ _ hl0 hd,
        (takeWhile_before _ X1 hd1 A).1, (takeWhile_before _ X1 hd1 A).2,
        (takeWhile_before _ X2 hd2 A).1, (takeWhile_before _ X2 hd2 A).2]
      refine Or.inl ⟨A.dropWhile isDigit, ?_, ?_, rfl, rfl, rfl, rfl, ?_⟩
      · have := (List.dropWhile_sublist isDigit (l := A)).length_le
        simp only [List.length_cons]
        omega
      · have hs : Mode.code.step a = Mode.code := by
          have := identifierRune_facts a (digit_identifierRune a hd)
          simp [Mode.step, this.1, this.2]
        rw [after_cons, hs]
        exact after_word _ digit_identifierRune A
      · intro he
        cases he
    · have hd0 : isDigit a = false := by simpa using hd
      by_cases hq : a = '"'
      · subst hq
        have hs : Mode.code.step '"' = Mode.string := by simp [Mode.step]
        rw [after_cons, hs] at hm
        have hne : A.dropWhile isStringRune ≠ [] := by
          intro he
          apply hm
          have hA : A = A.takeWhile isStringRune ++ [] := by
            conv => lhs; rw [← List.takeWhile_append_dropWhile isStringRune A, he]
          rw [hA, after_string_run _ (fun c hc => List.mem_takeWhile_imp hc)]
          rfl
        obtain ⟨d, A2, hdw⟩ := List.exists_cons_of_ne_nil hne
        have k1 := takeWhile_stopped isStringRune X1 A hne
        have k2 := takeWhile_stopped isStringRune X2 A hne
        rw [lexToken_quote lead1 (A ++ X1) d (A2 ++ X1) (by rw [k1.2, hdw]; rfl),
          lexToken_quote lead2 (A ++ X2) d (A2 ++ X2) (by rw [k2.2, hdw]; rfl), k1.1, k2.1]
        refine Or.inl ⟨A2, ?_, ?_, rfl, rfl, rfl, rfl, ?_⟩
        · have := (List.dropWhile_sublist isStringRune (l := A)).length_le
          rw [hdw] at this
          simp only [List.length_cons] at this ⊢
          omega
        · have hdn : isStringRune d = false := by
            have := List.head_dropWhile_not isStringRune A hne
            simpa [hdw] using this
          have hA : A = A.takeWhile isStringRune ++ d :: A2 := by
            conv => lhs; rw [← List.takeWhile_append_dropWhile isStringRune A, hdw]
          rw [after_cons, hs]
          conv => rhs; rw [hA]
          rw [after_string_run _ (fun c hc => List.mem_takeWhile_imp hc), after_cons]
          have hs2 : Mode.string.step d = Mode.code := by
            simp only [isStringRune, Bool.and_eq_false_iff, bne_eq_false_iff_eq] at hdn
            simp only [Mode.step]
            rw [if_pos hdn]
          rw [hs2]
        · show (if d = '"' then TokenType.STRING else TokenType.BADSTRING) ≠ TokenType.EOF
          split_ifs <;> decide
      · rw [lexToken_symbol _ _ _ hl0 hd0 hq, lexToken_symbol _ _ _ hl0 hd0 hq]
        refine Or.inl ⟨A, by simp, ?_, rfl, rfl, rfl, rfl, (symbolType_ne _).2.2⟩
        have hs : Mode.code.step a = Mode.code := by simp [Mode.step, hq, h1]
        rw [after_cons, hs]

/-- The next tokens of two texts that start with the same runes `A`, followed by runes that
end a keyword or an integer, when `A` does not end inside a string. -/
theorem lexFrom_before (X1 X2 : List Char)
    (hx1 : ∀ x ∈ X1.head?, isIdentifierRune x = false)
    (hx2 : ∀ x ∈ X2.head?, isIdentifierRune x = false) (A : List Char) :
    ∀ (lead1 lead2 : List Char),
      (Mode.after Mode.code A ≠ Mode.string →
        Lexed.Before X1 X2 A Mode.code (lexFrom none lead1 (A ++ X1))
          (lexFrom none lead2 (A ++ X2))) ∧
      (∀ l1 l2 : List Char, Mode.after Mode.comment A ≠ Mode.string →
        Lexed.Before X1 X2 A Mode.comment (lexFrom (some l1) lead1 (A ++ X1))
          (lexFrom (some l2) lead2 (A ++ X2))) := by
  induction A with
  | nil =>
    intro lead1 lead2
    exact ⟨fun _ => Or.inr (Or.inl ⟨rfl, lead1, lead2, rfl, rfl⟩),
      fun l1 l2 _ => Or.inr (Or.inr ⟨rfl, l1, l2, lead1, lead2, rfl, rfl⟩)⟩
  | cons a A ih =>
    intro lead1 lead2
    constructor
    · intro hm
      rw [List.cons_append, List.cons_append, lexFrom, lexFrom]
      by_cases h1 : a = '#'
      · simp only [h1, if_true]
        have hs : Mode.code.step '#' = Mode.comment := by simp [Mode.step]
        subst h1
        rw [after_cons, hs] at hm
        exact before_cons _ _ _ _ _ _ _ _ hs ((ih _ _).2 _ _ hm)
      · simp only [h1, if_false]
        by_cases h2 : isWhitespace a = true
        · simp only [h2, if_true]
          have hq : a ≠ '"' := by
            intro he; subst he; revert h2; decide
          have hs : Mode.code.step a = Mode.code := by simp [Mode.step, hq, h1]
          rw [after_cons, hs] at hm
          exact before_cons _ _ _ _ _ _ _ _ hs ((ih _ _).1 hm)
        · have h20 : isWhitespace a = false := by simpa using h2
          simp only [h20, Bool.false_eq_true, if_false]
          exact lexToken_before X1 X2 hx1 hx2 a A lead1 lead2 h1 hm
    · intro l1 l2 hm
      rw [List.cons_append, List.cons_append, lexFrom, lexFrom]
      by_cases hn : a = '\n'
      · simp only [hn, if_true]
        have hs : Mode.comment.step '\n' = Mode.code := by simp [Mode.step]
        subst hn
        rw [after_cons, hs] at hm
        exact before_cons _ _ _ _ _ _ _ _ hs ((ih _ _).1 hm)
      · simp only [hn, if_false]
        have hs : Mode.comment.step a = Mode.comment := by simp [Mode.step, hn]
        rw [after_cons, hs] at hm
        exact before_cons _ _ _ _ _ _ _ _ hs ((ih _ _).2 _ _ hm)

end lexer

namespace lexer

theorem lexFrom_comment_run (c B : List Char) (hc : '\n' ∉ c) :
    ∀ l lead : List Char,
      lexFrom (some l) lead (c ++ '\n' :: B) = lexFrom none (lead ++ (c ++ ['\n'])) B := by
  induction c with
  | nil =>
    intro l lead
    rw [List.nil_append, lexFrom, if_pos rfl]
    rfl
  | cons a c ih =>
    intro l lead
    have ha : a ≠ '\n' := fun he => hc (by simp [he])
    rw [List.cons_append, lexFrom, if_neg ha, ih (fun h => hc (List.mem_cons_of_mem _ h))]
    simp

theorem lexFrom_comment_open (c : List Char) (hc : '\n' ∉ c) :
    ∀ l lead : List Char, lexFrom (some l) lead c = ⟨TokenType.ILLEGAL, [], l, []⟩ := by
  induction c with
  | nil => intro l lead; rfl
  | cons a c ih =>
    intro l lead
    have ha : a ≠ '\n' := fun he => hc (by simp [he])
    rw [lexFrom, if_neg ha, ih (fun h => hc (List.mem_cons_of_mem _ h))]

theorem lexFrom_hash (lead rs : List Char) :
    lexFrom none lead ('#' :: rs) = lexFrom (some lead) (lead ++ ['#']) rs := by
  rw [lexFrom, if_pos rfl]

theorem lexFrom_newline (lead rs : List Char) :
    lexFrom none lead ('\n' :: rs) = lexFrom none (lead ++ ['\n']) rs := by
  rw [lexFrom, if_neg (by decide), if_pos (by decide)]

/-- The tokens of a text do not change when a comment that a newline ends is deleted from
it, the `#` standing outside a string. -/
theorem lexTokens_comment_line (c B : List Char) (hc : '\n' ∉ c) (n : Nat) :
    ∀ A : List Char, Mode.after Mode.code A ≠ Mode.string →
      lexTokens n (A ++ '#' :: (c ++ '\n' :: B)) = lexTokens n (A ++ '\n' :: B) := by
  induction n with
  | zero => intro A _; rfl
  | succ n ih =>
    intro A hm
    have hb := (lexFrom_before ('#' :: (c ++ '\n' :: B)) ('\n' :: B)
      (fun x hx => by
        simp only [List.head?_cons, Option.mem_def, Option.some.injEq] at hx
        subst hx
        decide)
      (fun x hx => by
        simp only [List.head?_cons, Option.mem_def, Option.some.injEq] at hx
        subst hx
        decide) A [] []).1 hm
    simp only [lexTokens]
    rcases hb with ⟨A1, _, h2, h3, h4, h5, h6, _⟩ | ⟨_, l1, l2, e1, e2⟩ | ⟨_, a, b, l1, l2, e1, e2⟩
    · rw [h3, h4, h5, h6, ih A1 (by rw [h2]; exact hm)]
    · rw [e1, e2, lexFrom_hash, lexFrom_comment_run c B hc, lexFrom_newline]
      obtain ⟨k1, k2, k3⟩ := (lexFrom_lead B (l1 ++ ['#'] ++ (c ++ ['\n'])) (l2 ++ ['\n'])).1
      rw [k1, k2, k3]
    · have hc2 : '\n' ∉ '#' :: c := by
        intro h
        rcases List.mem_cons.mp h with h | h
        · revert h; decide
        · exact hc h
      have e3 := lexFrom_comment_run ('#' :: c) B hc2 a l1
      rw [List.cons_append] at e3
      have e4 := lexFrom_comment_run [] B (by simp) b l2
      rw [List.nil_append] at e4
      rw [e1, e2, e3, e4]
      obtain ⟨k1, k2, k3⟩ := (lexFrom_lead B (l1 ++ ('#' :: c ++ ['\n'])) (l2 ++ ([] ++ ['\n']))).1
      rw [k1, k2, k3]

/-- A comment that the end of the text ends is not dropped: where the text without it has
its end-of-input token, the text with it has an ILLEGAL token with an empty lexeme, and
the end-of-input token follows. -/
theorem lexTokens_comment_open (c : List Char) (hc : '\n' ∉ c) (k : Nat) :
    ∀ A : List Char, A.length < k → Mode.after Mode.code A = Mode.code →
      ∃ (n : Nat) (toks : List (TokenType × String)),
        (∀ t ∈ toks, t.1 ≠ TokenType.EOF) ∧
        lexTokens (n + 1) A = toks ++ [(TokenType.EOF, "EOF")] ∧
        lexTokens (n + 2) (A ++ '#' :: c) =
          toks ++ [(TokenType.ILLEGAL, ""), (TokenType.EOF, "EOF")] := by
  induction k with
  | zero => intro A h _; omega
  | succ k ih =>
    intro A hk hm
    have hb := (lexFrom_before ('#' :: c) []
      (fun x hx => by
        simp only [List.head?_cons, Option.mem_def, Option.some.injEq] at hx
        subst hx
        decide)
      (fun x hx => by simp at hx) A [] []).1 (by rw [hm]; decide)
    rw [List.append_nil] at hb
    rcases hb with ⟨A1, h1, h2, h3, h4, h5, h6, h7⟩ | ⟨_, l1, l2, e1, e2⟩ | ⟨h8, _⟩
    · rw [List.append_nil] at h6
      obtain ⟨n, toks, t1, t2, t3⟩ := ih A1 (by omega) (by rw [h2]; exact hm)
      refine ⟨n + 1, ((lexFrom none [] A).type, String.mk (lexFrom none [] A).lexeme) :: toks,
        ?_, ?_, ?_⟩
      · intro t ht
        rcases List.mem_cons.mp ht with ht | ht
        · rw [ht, ← h3]; exact h7
        · exact t1 t ht
      · rw [lexTokens, h6, t2]
        rfl
      · rw [lexTokens, h5, t3, h3, h4]
        rfl
    · refine ⟨0, [], by simp, ?_, ?_⟩
      · rw [lexTokens, e2]
        rfl
      · rw [lexTokens, e1, lexFrom_hash, lexFrom_comment_open c hc]
        rfl
    · rw [hm] at h8
      cases h8

end lexer

namespace lexer

/-- C28, as stated, fails for a comment that only the end of input ends: Scan returns an
ILLEGAL token with an empty lexeme for it (the error branch of skipUntilEndComment) before
the end-of-input token, so the tokens of `5 # c` are not those of `5 `, the text without
the comment. -/
theorem comment_at_end_yields_token :
    ((NewScanner ['5', ' ', '#', ' ', 'c']).tokens 3).map
        (fun tok => (tok.TokenType, tok.Lexeme)) =
      [(TokenType.INTEGER, "5"), (TokenType.ILLEGAL, ""), (TokenType.EOF, "EOF")] ∧
    ((NewScanner ['5', ' ']).tokens 3).map (fun tok => (tok.TokenType, tok.Lexeme)) =
      [(TokenType.INTEGER, "5"), (TokenType.EOF, "EOF"), (TokenType.EOF, "EOF")] := by
  decide

/-- C28, amended: take inputs without the rune U+0000 and read each line ending (`\r\n`,
`\r` or `\n`) as the one rune `\n`. Let `A` be runes that do not end inside a string and
`c` runes without a line ending. Deleting the comment `# c` from an input `A # c \n B`, up
to but not including its line ending, leaves the sequence of token types and lexemes
returned by successive Scan calls unchanged. A comment that only the end of input ends,
its `#` standing in code (outside strings and comments), is not dropped: where the input
`A` has its end-of-input token after the tokens `toks`, the input `A # c` has the tokens
`toks`, then an ILLEGAL token with an empty lexeme, then the end-of-input token. -/
theorem comments_produce_no_tokens (A c B : List Char) (hc : '\n' ∉ c)
    (hm : Mode.after Mode.code A ≠ Mode.string) :
    (∀ input deleted : List Char, eof ∉ input → eof ∉ deleted →
      normalizeLineEndings input = A ++ '#' :: (c ++ '\n' :: B) →
      normalizeLineEndings deleted = A ++ '\n' :: B →
      ∀ n : Nat, ((NewScanner input).tokens n).map (fun tok => (tok.TokenType, tok.Lexeme)) =
        ((NewScanner deleted).tokens n).map (fun tok => (tok.TokenType, tok.Lexeme))) ∧
    (∀ input deleted : List Char, eof ∉ input → eof ∉ deleted →
      normalizeLineEndings input = A ++ '#' :: c → normalizeLineEndings deleted = A →
      Mode.after Mode.code A = Mode.code →
      ∃ (n : Nat) (toks : List (TokenType × String)),
        (∀ t ∈ toks, t.1 ≠ TokenType.EOF) ∧
        ((NewScanner deleted).tokens (n + 1)).map (fun tok => (tok.TokenType, tok.Lexeme)) =
          toks ++ [(TokenType.EOF, "EOF")] ∧
        ((NewScanner input).tokens (n + 2)).map (fun tok => (tok.TokenType, tok.Lexeme)) =
          toks ++ [(TokenType.ILLEGAL, ""), (TokenType.EOF, "EOF")]) := by
  constructor
  · intro input deleted h1 h2 e1 e2 n
    rw [newScanner_tokens input h1, newScanner_tokens deleted h2, e1, e2]
    exact lexTokens_comment_line c B hc n A hm
  · intro input deleted h1 h2 e1 e2 hcode
    obtain ⟨n, toks, t1, t2, t3⟩ :=
      lexTokens_comment_open c hc (A.length + 1) A (Nat.lt_succ_self _) hcode
    refine ⟨n, toks, t1, ?_, ?_⟩
    · rw [newScanner_tokens deleted h2, e2]; exact t2
    · rw [newScanner_tokens input h1, e1]; exact t3

/-- C28, amended, at the runes `5 ` before the comment `# c`: in the input
`5 # c`, `\r\n`, `+ 4` with five tokens, and in the input `5 # c`. -/
theorem comments_produce_no_tokens_witness :
    (((NewScanner ['5', ' ', '#', ' ', 'c', '\r', '\n', '+', ' ', '4']).tokens 5).map
        (fun tok => (tok.TokenType, tok.Lexeme)) =
      ((NewScanner ['5', ' ', '\r', '\n', '+', ' ', '4']).tokens 5).map
        (fun tok => (tok.TokenType, tok.Lexeme))) ∧
    ∃ (n : Nat) (toks : List (TokenType × String)),
      (∀ t ∈ toks, t.1 ≠ TokenType.EOF) ∧
      ((NewScanner ['5', ' ']).tokens (n + 1)).map (fun tok => (tok.TokenType, tok.Lexeme)) =
        toks ++ [(TokenType.EOF, "EOF")] ∧
      ((NewScanner ['5', ' ', '#', ' ', 'c']).tokens (n + 2)).map
          (fun tok => (tok.TokenType, tok.Lexeme)) =
        toks ++ [(TokenType.ILLEGAL, ""), (TokenType.EOF, "EOF")] :=
  ⟨(comments_produce_no_tokens ['5', ' '] [' ', 'c'] ['+', ' ', '4'] (by decide)
      (by decide)).1 ['5', ' ', '#', ' ', 'c', '\r', '\n', '+', ' ', '4']
      ['5', ' ', '\r', '\n', '+', ' ', '4'] (by decide) (by decide) (by decide) (by decide) 5,
    (comments_produce_no_tokens ['5', ' '] [' ', 'c'] [] (by decide)
      (by decide)).2 ['5', ' ', '#', ' ', 'c'] ['5', ' '] (by decide) (by decide)
      (by decide) (by decide) (by decide)⟩

end lexer

/-! ## The count loop and its pruning (C32) -/

namespace kubesurvival

open nodesource corev1

theorem tooExpensive_iff (res : Option Result) (x : ℚ) :
    tooExpensive res x = true ↔ ∃ r0, res = some r0 ∧ r0.TotalPricePerMonth < x := by
  cases res with
  | none => simp [tooExpensive]
  | some r => simp [tooExpensive]

theorem countRoundsFrom_succ (m : AWSNode) (res : Option Result) (j k : Nat) (v : Verdict) :
    countRoundsFrom m res j (k + 1) v =
      ⟨m, growthCount j, res, Verdict.failed⟩ :: countRoundsFrom m res (j + 1) k v := by
  unfold countRoundsFrom
  rw [List.range'_succ, List.map_cons, List.cons_append]
  have : j + (k + 1) = j + 1 + k := by omega
  rw [this]

/-- The rounds of the inner loop, whenever it returns: failures at the counts of the growth
sequence, then one round that does not fail. -/
theorem countLoopLog_rounds (fl : ℚ → ℚ) (Simulate : List Pod → List AWSNode → Except String Bool)
    (pods : List Pod) (m : AWSNode) :
    ∀ (fuel : Nat) (res : Option Result) (j : Nat) (out : Except String (Option Result))
      (log : List Attempt),
      countLoopLog fl Simulate pods m fuel res (growthCount j) = some (out, log) →
      ∃ (k : Nat) (v : Verdict), log = countRoundsFrom m res j k v ∧ v ≠ Verdict.failed := by
  intro fuel
  induction fuel with
  | zero => intro res j out log h; simp [countLoopLog] at h
  | succ fuel ih =>
    intro res j out log h
    unfold countLoopLog at h
    by_cases ht : tooExpensive res (totalPricePerMonth fl (growthCount j) m) = true
    · simp only [ht, if_true, Option.some.injEq, Prod.mk.injEq] at h
      exact ⟨0, Verdict.pruned, h.2.symm, by decide⟩
    · simp only [ht, Bool.false_eq_true, if_false] at h
      cases hsim : Simulate pods (List.replicate (growthCount j) m) with
      | error err =>
        rw [hsim] at h
        simp only [Option.some.injEq, Prod.mk.injEq] at h
        exact ⟨0, Verdict.errored, h.2.symm, by decide⟩
      | ok b =>
        cases b with
        | true =>
          rw [hsim] at h
          simp only [Option.some.injEq, Prod.mk.injEq] at h
          exact ⟨0, Verdict.succeeded, h.2.symm, by decide⟩
        | false =>
          rw [hsim] at h
          simp only [] at h
          cases hrec : countLoopLog fl Simulate pods m fuel res
              (nextNodeCount (growthCount j)) with
          | none => rw [hrec] at h; simp at h
          | some r =>
            obtain ⟨out1, log1⟩ := r
            rw [hrec] at h
            simp only [Option.some.injEq, Prod.mk.injEq] at h
            obtain ⟨k, v, h1, h2⟩ := ih res (j + 1) out1 log1 hrec
            refine ⟨k + 1, v, ?_, h2⟩
            rw [countRoundsFrom_succ, ← h1, ← h.2]

/-- The inner loop stops at the first count at which the fleet is too expensive or the
simulation succeeds, when the simulation fails at the counts before it: with fuel for
these rounds it returns, with the best so far unchanged or with the fleet of that count. -/
theorem countLoopLog_stops (fl : ℚ → ℚ) (Simulate : List Pod → List AWSNode → Except String Bool)
    (pods : List Pod) (m : AWSNode) (res : Option Result) :
    ∀ (k j fuel : Nat), k < fuel →
      (∀ i, j ≤ i → i < j + k →
        tooExpensive res (totalPricePerMonth fl (growthCount i) m) = false ∧
        Simulate pods (List.replicate (growthCount i) m) = Except.ok false) →
      (tooExpensive res (totalPricePerMonth fl (growthCount (j + k)) m) = true →
        countLoopLog fl Simulate pods m fuel res (growthCount j) =
          some (Except.ok res, countRoundsFrom m res j k Verdict.pruned)) ∧
      (tooExpensive res (totalPricePerMonth fl (growthCount (j + k)) m) = false →
        Simulate pods (List.replicate (growthCount (j + k)) m) = Except.ok true →
        countLoopLog fl Simulate pods m fuel res (growthCount j) =
          some (Except.ok (some ⟨m.InstanceType, growthCount (j + k),
              totalPricePerMonth fl (growthCount (j + k)) m⟩),
            countRoundsFrom m res j k Verdict.succeeded)) := by
  intro k
  induction k with
  | zero =>
    intro j fuel hf _
    obtain ⟨f, rfl⟩ : ∃ f, fuel = f + 1 := ⟨fuel - 1, by omega⟩
    constructor
    · intro ht
      rw [Nat.add_zero] at ht
      unfold countLoopLog
      simp only [ht, if_true]
      rfl
    · intro ht hs
      rw [Nat.add_zero] at ht hs
      unfold countLoopLog
      simp only [ht, Bool.false_eq_true, if_false, hs]
      rfl
  | succ k ih =>
    intro j fuel hf hfail
    obtain ⟨f, rfl⟩ : ∃ f, fuel = f + 1 := ⟨fuel - 1, by omega⟩
    obtain ⟨h1, h2⟩ := hfail j (le_refl _) (by omega)
    have hnext : nextNodeCount (growthCount j) = growthCount (j + 1) := rfl
    have hidx : j + (k + 1) = j + 1 + k := by omega
    obtain ⟨i1, i2⟩ := ih (j + 1) f (by omega)
      (fun i hi1 hi2 => hfail i (by omega) (by omega))
    constructor
    · intro ht
      rw [hidx] at ht
      unfold countLoopLog
      simp only [h1, Bool.false_eq_true, if_false, h2, hnext, i1 ht]
      rw [countRoundsFrom_succ]
    · intro ht hs
      rw [hidx] at ht hs
      unfold countLoopLog
      simp only [h1, Bool.false_eq_true, if_false, h2, hnext, i2 ht hs]
      rw [countRoundsFrom_succ, hidx]

/-- The rounds of the search, node type by node type. -/
theorem mainLoopLog_rounds (fl : ℚ → ℚ) (Simulate : List Pod → List AWSNode → Except String Bool)
    (pods : List Pod) (fuel : Nat) :
    ∀ (nodeTypes : List AWSNode) (res : Option Result) (out : Except String (Option Result))
      (log : List Attempt),
      mainLoopLog fl Simulate pods fuel nodeTypes res = some (out, log) →
      ∃ segments : List (List Attempt), log = segments.flatten ∧
        List.Forall₂ (fun m segment => ∃ (best : Option Result) (k : Nat) (v : Verdict),
            segment = countRounds m best k v ∧ v ≠ Verdict.failed)
          (nodeTypes.take segments.length) segments := by
  intro nodeTypes
  induction nodeTypes with
  | nil =>
    intro res out log h
    simp only [mainLoopLog, Option.some.injEq, Prod.mk.injEq] at h
    exact ⟨[], h.2.symm, List.Forall₂.nil⟩
  | cons m ms ih =>
    intro res out log h
    unfold mainLoopLog at h
    cases hc : countLoopLog fl Simulate pods m fuel res 2 with
    | none => rw [hc] at h; simp at h
    | some c1 =>
      obtain ⟨out1, log1⟩ := c1
      obtain ⟨k, v, c2, c3⟩ := countLoopLog_rounds fl Simulate pods m fuel res 0 out1 log1 hc
      have hseg : ∃ (best : Option Result) (k : Nat) (v : Verdict),
          log1 = countRounds m best k v ∧ v ≠ Verdict.failed := ⟨res, k, v, c2, c3⟩
      rw [hc] at h
      cases out1 with
      | error err =>
        simp only [Option.some.injEq, Prod.mk.injEq] at h
        refine ⟨[log1], by simp [h.2.symm], ?_⟩
        exact List.Forall₂.cons hseg List.Forall₂.nil
      | ok res1 =>
        simp only [] at h
        cases hm : mainLoopLog fl Simulate pods fuel ms res1 with
        | none => rw [hm] at h; simp at h
        | some m1 =>
          obtain ⟨out2, log2⟩ := m1
          rw [hm] at h
          simp only [Option.some.injEq, Prod.mk.injEq] at h
          obtain ⟨segments, i1, i2⟩ := ih res1 out2 log2 hm
          refine ⟨log1 :: segments, by rw [← h.2, i1]; rfl, ?_⟩
          exact List.Forall₂.cons hseg i2

end kubesurvival

namespace kubesurvival

open nodesource corev1

/-- C32: in every run of the driver that returns, the rounds are those of the machines in
the order of the list, and the rounds of each machine run through the counts of the growth
sequence 2, 3, ... in increasing order: the simulation fails at every count but the last,
and the last round is the first at which the simulation succeeds (the fleet is recorded as
the best so far), or at which the monthly cost strictly exceeds the current best (nothing
is recorded), or at which the simulator returns an error (main returns).  A round is pruned
exactly when its monthly cost strictly exceeds the current best, so the simulator is never
invoked on such a fleet.  Conversely, when the simulation fails at the first `k` counts and
at the next count the cost exceeds the current best or the simulation succeeds, the inner
loop returns there, given fuel for `k + 1` rounds.  With a single machine whose simulation
fails at 2 nodes and succeeds at 3, the result has count 3.  The monthly cost of a fleet is
the number that main computes and compares, in float64: the product
`float64(count) * hourly * 24 * 31` with every operation rounded, for every rounding `fl`;
the current best holds the number computed for its fleet. -/
theorem count_loop_and_pruning (fl : ℚ → ℚ)
    (Simulate : List Pod → List AWSNode → Except String Bool) (pods : List Pod) :
    (∀ (fuel : Nat) (nodeTypes : List AWSNode) (out : Except String (Option Result))
        (log : List Attempt),
      mainLoopLog fl Simulate pods fuel nodeTypes none = some (out, log) →
      (∃ segments : List (List Attempt), log = segments.flatten ∧
        List.Forall₂ (fun m segment => ∃ (best : Option Result) (k : Nat) (v : Verdict),
            segment = countRounds m best k v ∧ v ≠ Verdict.failed)
          (nodeTypes.take segments.length) segments) ∧
      (∀ a ∈ log,
        (a.verdict = Verdict.pruned ↔
          ∃ r0, a.best = some r0 ∧ r0.TotalPricePerMonth < (a.price fl)) ∧
        (a.verdict = Verdict.succeeded →
          Simulate pods (List.replicate a.nodeCount a.nodeType) = Except.ok true ∧
          (a.next fl) = some ⟨a.nodeType.InstanceType, a.nodeCount, (a.price fl)⟩) ∧
        (a.verdict = Verdict.failed →
          Simulate pods (List.replicate a.nodeCount a.nodeType) = Except.ok false) ∧
        (a.verdict = Verdict.errored →
          ∃ err, Simulate pods (List.replicate a.nodeCount a.nodeType) = Except.error err) ∧
        (a.verdict ≠ Verdict.succeeded → (a.next fl) = a.best)) ∧
      (∀ final, out = Except.ok final → Threads fl none log final)) ∧
    (∀ (m : AWSNode) (best : Option Result) (k fuel : Nat), k < fuel →
      (∀ i, i < k →
        tooExpensive best (totalPricePerMonth fl (growthCount i) m) = false ∧
        Simulate pods (List.replicate (growthCount i) m) = Except.ok false) →
      (tooExpensive best (totalPricePerMonth fl (growthCount k) m) = true →
        countLoopLog fl Simulate pods m fuel best 2 =
          some (Except.ok best, countRounds m best k Verdict.pruned)) ∧
      (tooExpensive best (totalPricePerMonth fl (growthCount k) m) = false →
        Simulate pods (List.replicate (growthCount k) m) = Except.ok true →
        countLoopLog fl Simulate pods m fuel best 2 =
          some (Except.ok (some ⟨m.InstanceType, growthCount k,
              totalPricePerMonth fl (growthCount k) m⟩),
            countRounds m best k Verdict.succeeded))) ∧
    (∀ (m : AWSNode) (fuel : Nat),
      Simulate pods (List.replicate 2 m) = Except.ok false →
      Simulate pods (List.replicate 3 m) = Except.ok true →
      mainLoop fl Simulate pods (fuel + 2) [m] none =
        some (Except.ok (some ⟨m.InstanceType, 3, totalPricePerMonth fl 3 m⟩))) := by
  have hstops : ∀ (m : AWSNode) (best : Option Result) (k fuel : Nat), k < fuel →
      (∀ i, i < k →
        tooExpensive best (totalPricePerMonth fl (growthCount i) m) = false ∧
        Simulate pods (List.replicate (growthCount i) m) = Except.ok false) →
      (tooExpensive best (totalPricePerMonth fl (growthCount k) m) = true →
        countLoopLog fl Simulate pods m fuel best 2 =
          some (Except.ok best, countRounds m best k Verdict.pruned)) ∧
      (tooExpensive best (totalPricePerMonth fl (growthCount k) m) = false →
        Simulate pods (List.replicate (growthCount k) m) = Except.ok true →
        countLoopLog fl Simulate pods m fuel best 2 =
          some (Except.ok (some ⟨m.InstanceType, growthCount k,
              totalPricePerMonth fl (growthCount k) m⟩),
            countRounds m best k Verdict.succeeded)) := by
    intro m best k fuel hf hfail
    have h := countLoopLog_stops fl Simulate pods m best k 0 fuel hf
      (fun i _ hi => hfail i (by omega))
    rw [Nat.zero_add] at h
    exact h
  refine ⟨?_, hstops, ?_⟩
  · intro fuel nodeTypes out log hrun
    obtain ⟨h1, _⟩ := mainLoopLog_spec fl Simulate pods fuel nodeTypes none out log hrun
    refine ⟨mainLoopLog_rounds fl Simulate pods fuel nodeTypes none out log hrun, ?_, ?_⟩
    · intro a ha
      obtain ⟨⟨f1, f2, f3, f4⟩, _, _⟩ := h1 a ha
      refine ⟨?_, fun hv => ⟨f2 hv, next_succeeded fl a hv⟩, f3, f4, ?_⟩
      · rw [f1, tooExpensive_iff]
      · intro hv
        simp [Attempt.next, hv]
    · intro final hout
      subst hout
      exact mainLoopLog_threads fl Simulate pods fuel nodeTypes none final log hrun
  · intro m fuel h2 h3
    have hg1 : growthCount 1 = 3 := growthCount_small 1 (by omega)
    have hs := (hstops m none 1 (fuel + 2) (by omega) (fun i hi => by
      have hi0 : i = 0 := by omega
      subst hi0
      exact ⟨rfl, h2⟩)).2 rfl (by rw [hg1]; exact h3)
    have hc := countLoopLog_fst fl Simulate pods m (fuel + 2) none 2
    rw [hs] at hc
    simp only [Option.map_some'] at hc
    unfold mainLoop
    rw [← hc, hg1]
    rfl

/-- C32 at the single machine `dollarNode` and a simulator that succeeds from 3 nodes on:
the driver finds the count 3. -/
theorem count_loop_and_pruning_witness :
    mainLoop id (succeedsFrom 3) [] 2 [dollarNode] none =
      some (Except.ok (some ⟨"m", 3, totalPricePerMonth id 3 dollarNode⟩)) :=
  (count_loop_and_pruning id (succeedsFrom 3) []).2.2 dollarNode 0 (by simp [succeedsFrom])
    (by simp [succeedsFrom])

end kubesurvival

/-! ## The growth of the node count (C33) -/

namespace kubesurvival

open nodesource corev1

/-- C33: for every node count `c` (in particular every `c ≥ 2`), the next count that the
driver computes, `c + int(max(c / 15, 1))` with the division of the rationals and
truncation, equals `c + max(floor(c / 15), 1)`; the step is exactly 1 for every `c ≤ 15`
(and up to 29), the next count is greater than `c`, and the sequence of the counts that the
driver tries, which starts at 2, is strictly increasing. -/
theorem growth_policy (c : Nat) :
    nextNodeCount c = c + max ⌊(c : ℚ) / 15⌋₊ 1 ∧
    (c ≤ 15 → nextNodeCount c = c + 1) ∧
    (c ≤ 29 → nextNodeCount c = c + 1) ∧
    c < nextNodeCount c ∧
    growthCount 0 = 2 ∧
    (∀ n, growthCount (n + 1) = nextNodeCount (growthCount n)) ∧
    StrictMono growthCount := by
  have hfloor : ⌊(c : ℚ) / 15⌋₊ = c / 15 := by
    have h := Nat.floor_div_eq_div (α := ℚ) c 15
    simpa using h
  have h29 : c ≤ 29 → nextNodeCount c = c + 1 := by
    intro h
    rw [nextNodeCount_eq]
    have : c / 15 ≤ 1 := by omega
    rw [max_eq_right this]
  refine ⟨?_, fun h => h29 (by omega), h29, ?_, rfl, fun n => rfl, ?_⟩
  · rw [nextNodeCount_eq, hfloor]
  · rw [nextNodeCount_eq]
    have : 1 ≤ max (c / 15) 1 := le_max_right _ _
    omega
  · exact strictMono_nat_of_lt_succ growthCount_lt_succ

end kubesurvival

/-! ## Well-formed trees (C34) -/

namespace parser

open lexer

theorem nonempty_kept : Kept (fun p : Parser => p.Errors ≠ []) where
  advance := fun _ h => h
  found := fun p _ _ _ => addError_ne_nil p _
  notNumber := fun p _ _ => addError_ne_nil p _

theorem ParseStringOrInteger_fieldValue (p : Parser) :
    (p.ParseStringOrInteger).1.isFieldValue = true := by
  unfold Parser.ParseStringOrInteger
  split
  · rfl
  · split <;> rfl

theorem parseField_fieldValue (p : Parser) : (p.parseField).1.isFieldValue = true := by
  unfold Parser.parseField
  exact ParseStringOrInteger_fieldValue _

theorem assign_fieldValue (a : Axis) (v cpu memory gpu : Expression)
    (hv : v.isFieldValue = true) (h1 : cpu.isFieldValue = true)
    (h2 : memory.isFieldValue = true) (h3 : gpu.isFieldValue = true) :
    (a.assign v (cpu, memory, gpu)).1.isFieldValue = true ∧
    (a.assign v (cpu, memory, gpu)).2.1.isFieldValue = true ∧
    (a.assign v (cpu, memory, gpu)).2.2.isFieldValue = true := by
  cases a <;> exact ⟨by assumption, by assumption, by assumption⟩

theorem pod_wellFormed (cpu memory gpu : Expression) (pos : Position)
    (h1 : cpu.isFieldValue = true) (h2 : memory.isFieldValue = true)
    (h3 : gpu.isFieldValue = true) :
    (Expression.PodExpression cpu memory gpu pos).WellFormed = true := by
  simp [Expression.WellFormed, h1, h2, h3]

/-- The loop of ParsePod returns a pod whose fields are absent or literals, whether or not
it records errors. -/
theorem parsePodLoop_wellFormed (fuel : Nat) :
    ∀ (cpu memory gpu : Expression) (pos : Position) (p q : Parser) (e : Expression),
      Parser.parsePodLoop fuel cpu memory gpu pos p = some (e, q) →
      cpu.isFieldValue = true → memory.isFieldValue = true → gpu.isFieldValue = true →
      e.WellFormed = true := by
  induction fuel with
  | zero =>
    intro cpu memory gpu pos p q e h
    simp [Parser.parsePodLoop] at h
  | succ fuel ih =>
    intro cpu memory gpu pos p q e h h1 h2 h3
    by_cases hr : p.lookahead.TokenType = TokenType.RPAREN
    · simp only [Parser.parsePodLoop, hr, ne_eq, not_true_eq_false, if_false, Option.some.injEq,
        Prod.mk.injEq] at h
      rw [← h.1]
      exact pod_wellFormed _ _ _ _ h1 h2 h3
    · by_cases hk : ∃ a : Axis, p.lookahead.TokenType = a.keyword
      · obtain ⟨a, ha⟩ := hk
        rw [parsePodLoop_step fuel a p ha] at h
        have hf := parseField_fieldValue (p.match_ [a.keyword]).2
        generalize ((p.match_ [a.keyword]).2.parseField) = F at h hf
        obtain ⟨g1, g2, g3⟩ := assign_fieldValue a F.1 cpu memory gpu hf h1 h2 h3
        generalize hA : F.2.afterField = A at h
        obtain ⟨A1, A2⟩ := A
        cases A1 with
        | some p1 =>
          simp only [Option.some.injEq, Prod.mk.injEq] at h
          rw [← h.1]
          exact pod_wellFormed _ _ _ _ g1 g2 g3
        | none =>
          simp only [] at h
          exact ih _ _ _ _ _ _ _ h g1 g2 g3
      · have k1 : p.lookahead.TokenType ≠ TokenType.MEMORY := fun hc => hk ⟨Axis.memory, hc⟩
        have k2 : p.lookahead.TokenType ≠ TokenType.CPU := fun hc => hk ⟨Axis.cpu, hc⟩
        have k3 : p.lookahead.TokenType ≠ TokenType.GPU := fun hc => hk ⟨Axis.gpu, hc⟩
        simp only [Parser.parsePodLoop, hr, k1, k2, k3, ne_eq, not_false_eq_true, if_true,
          if_false, Option.some.injEq, Prod.mk.injEq] at h
        rw [← h.1]
        exact pod_wellFormed _ _ _ _ h1 h2 h3

theorem ParsePod_wellFormed (fuel : Nat) (p q : Parser) (e : Expression)
    (h : Parser.ParsePod fuel p = some (e, q)) : e.WellFormed = true := by
  unfold Parser.ParsePod at h
  simp only [] at h
  exact parsePodLoop_wellFormed fuel _ _ _ _ _ _ _ h rfl rfl rfl

theorem match_errors_nil (p : Parser) (t : TokenType) (h : (p.match_ [t]).2.Errors = []) :
    p.Errors = [] := by
  rw [match_errors] at h
  exact h

theorem ParseInteger_errors_nil (p : Parser) (h : (p.ParseInteger).2.Errors = []) :
    p.Errors = [] := by
  by_contra hc
  exact ParseInteger_kept nonempty_kept p hc h

/-- Every function of the parser returns a well-formed tree when it ends without a recorded
error. -/
theorem parser_wellFormed (fuel : Nat) :
    (∀ (p q : Parser) (e : Expression), Parser.ParseExpression fuel p = some (e, q) →
      q.Errors = [] → e.WellFormed = true) ∧
    (∀ (result : Expression) (p q : Parser) (e : Expression),
      Parser.parseExpressionLoop fuel result p = some (e, q) →
      (p.Errors = [] → result.WellFormed = true) → q.Errors = [] → e.WellFormed = true) ∧
    (∀ (p q : Parser) (e : Expression), Parser.ParseTerm fuel p = some (e, q) →
      q.Errors = [] → e.WellFormed = true) ∧
    (∀ (b : Bool) (result : Expression) (p q : Parser) (e : Expression),
      Parser.parseTermLoop fuel b result p = some (e, q) →
      (p.Errors = [] → result.WellFormed = true) → q.Errors = [] → e.WellFormed = true) ∧
    (∀ (p q : Parser) (e : Expression), Parser.ParseFactor fuel p = some (e, q) →
      q.Errors = [] → e.WellFormed = true) := by
  induction fuel with
  | zero =>
    refine ⟨?_, ?_, ?_, ?_, ?_⟩
    · intro p q e h; simp [Parser.ParseExpression] at h
    · intro result p q e h; simp [Parser.parseExpressionLoop] at h
    · intro p q e h; simp [Parser.ParseTerm] at h
    · intro b result p q e h; simp [Parser.parseTermLoop] at h
    · intro p q e h; simp [Parser.ParseFactor] at h
  | succ fuel ih =>
    obtain ⟨ihE, ihEL, ihT, ihTL, ihF⟩ := ih
    obtain ⟨_, _, kT, _, kF⟩ := parser_keeps nonempty_kept fuel
    refine ⟨?_, ?_, ?_, ?_, ?_⟩
    · intro p q e h hq
      rw [Parser.ParseExpression] at h
      cases hT : Parser.ParseTerm fuel p with
      | none => rw [hT] at h; simp at h
      | some r =>
        obtain ⟨res, p1⟩ := r
        rw [hT] at h
        simp only [] at h
        exact ihEL _ _ _ _ h (ihT _ _ _ hT) hq
    · intro result p q e h hres hq
      rw [Parser.parseExpressionLoop] at h
      by_cases ha : p.lookahead.TokenType = TokenType.ADD
      · simp only [ha, if_true] at h
        cases hT : Parser.ParseTerm fuel (p.match_ [TokenType.ADD]).2 with
        | none => rw [hT] at h; simp at h
        | some r =>
          obtain ⟨rhs, p1⟩ := r
          rw [hT] at h
          simp only [] at h
          refine ihEL _ _ _ _ h ?_ hq
          intro hp1
          have hp0 : (p.match_ [TokenType.ADD]).2.Errors = [] := by
            by_contra hc
            exact kT _ _ _ hT hc hp1
          have hp : p.Errors = [] := match_errors_nil p _ hp0
          simp [Expression.WellFormed, hres hp, ihT _ _ _ hT hp1]
      · simp only [ha, if_false, Option.some.injEq, Prod.mk.injEq] at h
        obtain ⟨h1, h2⟩ := h
        subst h1 h2
        exact hres hq
    · intro p q e h hq
      rw [Parser.ParseTerm] at h
      by_cases hi : p.lookahead.TokenType = TokenType.INTEGER
      · simp only [hi, if_true] at h
        exact ihTL _ _ _ _ _ h (fun _ => rfl) hq
      · simp only [hi, if_false] at h
        cases hF : Parser.ParseFactor fuel p with
        | none => rw [hF] at h; simp at h
        | some r =>
          obtain ⟨res, p1⟩ := r
          rw [hF] at h
          simp only [] at h
          exact ihTL _ _ _ _ _ h (ihF _ _ _ hF) hq
    · intro b result p q e h hres hq
      rw [Parser.parseTermLoop] at h
      by_cases hm : p.lookahead.TokenType = TokenType.MUL
      · simp only [hm, if_true] at h
        cases b with
        | true =>
          simp only [if_true] at h
          cases hF : Parser.ParseFactor fuel (p.match_ [TokenType.MUL]).2 with
          | none => rw [hF] at h; simp at h
          | some r =>
            obtain ⟨rhs, p1⟩ := r
            rw [hF] at h
            simp only [] at h
            refine ihTL _ _ _ _ _ h ?_ hq
            intro hp1
            have hp0 : (p.match_ [TokenType.MUL]).2.Errors = [] := by
              by_contra hc
              exact kF _ _ _ hF hc hp1
            have hp : p.Errors = [] := match_errors_nil p _ hp0
            simp [Expression.WellFormed, hres hp, ihF _ _ _ hF hp1]
        | false =>
          simp only [Bool.false_eq_true, if_false] at h
          refine ihTL _ _ _ _ _ h ?_ hq
          intro hp1
          have hp : p.Errors = [] :=
            match_errors_nil p _ (ParseInteger_errors_nil _ hp1)
          have hint : ((p.match_ [TokenType.MUL]).2.ParseInteger).1.WellFormed = true := rfl
          simp [Expression.WellFormed, hres hp, hint]
      · simp only [hm, if_false, Option.some.injEq, Prod.mk.injEq] at h
        obtain ⟨h1, h2⟩ := h
        subst h1 h2
        exact hres hq
    · intro p q e h hq
      rw [Parser.ParseFactor] at h
      by_cases hl : p.lookahead.TokenType = TokenType.LPAREN
      · simp only [hl, if_true] at h
        cases hE : Parser.ParseExpression fuel (p.match_ [TokenType.LPAREN]).2 with
        | none => rw [hE] at h; simp at h
        | some r =>
          obtain ⟨expr, p1⟩ := r
          rw [hE] at h
          simp only [Option.some.injEq, Prod.mk.injEq] at h
          obtain ⟨h1, h2⟩ := h
          subst h1
          have hp1 : p1.Errors = [] := by
            by_contra hc
            have := expect_kept nonempty_kept p1 TokenType.RPAREN ")" hc
            rw [h2] at this
            exact this hq
          exact ihE _ _ _ hE hp1
      · by_cases hp : p.lookahead.TokenType = TokenType.POD
        · simp only [hl, hp, if_true, if_false] at h
          simp only [reduceCtorEq, if_false] at h
          exact ParsePod_wellFormed fuel p q e h
        · simp only [hl, hp, if_false, Option.some.injEq, Prod.mk.injEq] at h
          obtain ⟨_, h2⟩ := h
          subst h2
          exact absurd hq (addError_ne_nil p _)

end parser

namespace parser

open lexer

/-- C34: for every input for which Parse returns an empty error list, the returned tree is
well-formed: it is present (not nil), every ArithmeticExpression in it has both operands
present, and every cpu, memory or gpu field of every PodExpression is absent or an
IntLiteral or a StringLiteral, never an arithmetic expression.  The text
`pod(cpu: 5 + 10, memory: "32Gi", gpu: 10)` is rejected: Parse returns errors for it (the
`+` after the value of cpu, where `,` or `)` is expected, and the `,` after 10, where `*`
is expected). -/
theorem well_formed_trees (s : String) (t : Expression) (h : Parse s = some (t, [])) :
    t ≠ Expression.nil ∧ t.WellFormed = true ∧
    Parse "pod(cpu: 5 + 10, memory: \"32Gi\", gpu: 10)" =
      some (Expression.ArithmeticExpression
          (Expression.PodExpression (Expression.IntLiteral 5 ⟨0, 9⟩) Expression.nil
            Expression.nil ⟨0, 0⟩)
          Operator.Add (Expression.IntLiteral 10 ⟨0, 13⟩) ⟨0, 11⟩,
        [{ Message := "", Found := "+", Expected := [",", ")"], Pos := ⟨0, 11⟩ },
         { Message := "", Found := ",", Expected := ["*"], Pos := ⟨0, 15⟩ }]) := by
  have hw : t.WellFormed = true := by
    unfold Parse at h
    cases hE : Parser.ParseExpression (3 * s.length + 3) (NewParser (NewScanner s.data)) with
    | none => rw [hE] at h; simp at h
    | some r =>
      obtain ⟨e, q⟩ := r
      rw [hE] at h
      simp only [Option.some.injEq, Prod.mk.injEq] at h
      obtain ⟨h1, h2⟩ := h
      subst h1
      exact (parser_wellFormed _).1 _ _ _ hE h2
  refine ⟨?_, hw, by decide⟩
  intro hn
  rw [hn] at hw
  cases hw

/-- C34 at the text `2 * pod(cpu: 1)`, which Parse accepts without errors. -/
theorem well_formed_trees_witness :
    (Expression.ArithmeticExpression (Expression.IntLiteral 2 ⟨0, 0⟩) Operator.Multiply
        (Expression.PodExpression (Expression.IntLiteral 1 ⟨0, 13⟩) Expression.nil
          Expression.nil ⟨0, 4⟩) ⟨0, 2⟩) ≠ Expression.nil ∧
    (Expression.ArithmeticExpression (Expression.IntLiteral 2 ⟨0, 0⟩) Operator.Multiply
        (Expression.PodExpression (Expression.IntLiteral 1 ⟨0, 13⟩) Expression.nil
          Expression.nil ⟨0, 4⟩) ⟨0, 2⟩).WellFormed = true ∧
    Parse "pod(cpu: 5 + 10, memory: \"32Gi\", gpu: 10)" =
      some (Expression.ArithmeticExpression
          (Expression.PodExpression (Expression.IntLiteral 5 ⟨0, 9⟩) Expression.nil
            Expression.nil ⟨0, 0⟩)
          Operator.Add (Expression.IntLiteral 10 ⟨0, 13⟩) ⟨0, 11⟩,
        [{ Message := "", Found := "+", Expected := [",", ")"], Pos := ⟨0, 11⟩ },
         { Message := "", Found := ",", Expected := ["*"], Pos := ⟨0, 15⟩ }]) :=
  well_formed_trees "2 * pod(cpu: 1)" _ (by decide)

end parser


/-! ## What every function of the parser keeps, with ParseInteger as a step (C35) -/

namespace parser

open lexer

/-- Matching a token and recording an error when it is not there. -/
theorem expect_traced {G : Parser → Prop} (hG : Traced G) (p : Parser) (t : TokenType)
    (name : String) (h : G p) :
    G (if (!(p.match_ [t]).1.2) = true then
        (p.match_ [t]).2.addError
          (newParseError (p.match_ [t]).1.1.Lexeme [name] (p.match_ [t]).1.1.Position)
      else (p.match_ [t]).2) := by
  rw [match_single]
  by_cases ht : t = p.lookahead.TokenType
  · simp only [ht, if_true, Bool.not_true, Bool.false_eq_true, if_false]
    exact hG.advance p h
  · simp only [ht, if_false, Bool.not_false, if_true]
    exact hG.found p [name] (by simp) h

theorem match_traced {G : Parser → Prop} (hG : Traced G) (p : Parser) (t : TokenType)
    (h : G p) : G (p.match_ [t]).2 := by
  rw [match_single]
  split
  · exact hG.advance p h
  · exact h

theorem ParseString_traced {G : Parser → Prop} (hG : Traced G) (p : Parser) (h : G p) :
    G (p.ParseString).2 := by
  unfold Parser.ParseString
  exact expect_traced hG p _ _ h

theorem ParseInteger_traced {G : Parser → Prop} (hG : Traced G) (p : Parser) (h : G p) :
    G (p.ParseInteger).2 :=
  hG.integer p h

theorem ParseStringOrInteger_traced {G : Parser → Prop} (hG : Traced G) (p : Parser) (h : G p) :
    G (p.ParseStringOrInteger).2 := by
  unfold Parser.ParseStringOrInteger
  split
  · exact ParseString_traced hG p h
  · split
    · exact ParseInteger_traced hG p h
    · exact hG.found p _ (by simp) h

theorem parseField_traced {G : Parser → Prop} (hG : Traced G) (p : Parser) (h : G p) :
    G (p.parseField).2 := by
  unfold Parser.parseField
  exact ParseStringOrInteger_traced hG _ (expect_traced hG p _ _ h)

theorem afterField_traced {G : Parser → Prop} (hG : Traced G) (p : Parser) (h : G p) :
    G (p.afterField).2 ∧ ∀ p1, (p.afterField).1 = some p1 → G p1 := by
  unfold Parser.afterField
  split
  · refine ⟨h, fun p1 h1 => ?_⟩
    simp only [Option.some.injEq] at h1
    subst h1
    exact match_traced hG p _ h
  · split
    · refine ⟨match_traced hG p _ h, fun p1 h1 => ?_⟩
      simp at h1
    · refine ⟨h, fun p1 h1 => ?_⟩
      simp only [Option.some.injEq] at h1
      subst h1
      exact hG.found p _ (by simp) h

theorem parsePodLoop_traced {G : Parser → Prop} (hG : Traced G) (fuel : Nat) :
    ∀ (cpu memory gpu : Expression) (pos : Position) (p q : Parser) (e : Expression),
      Parser.parsePodLoop fuel cpu memory gpu pos p = some (e, q) → G p → G q := by
  induction fuel with
  | zero =>
    intro cpu memory gpu pos p q e h
    simp [Parser.parsePodLoop] at h
  | succ fuel ih =>
    intro cpu memory gpu pos p q e h hg
    by_cases hr : p.lookahead.TokenType = TokenType.RPAREN
    · simp only [Parser.parsePodLoop, hr, ne_eq, not_true_eq_false, if_false, Option.some.injEq,
        Prod.mk.injEq] at h
      obtain ⟨_, h2⟩ := h
      subst h2
      exact hg
    · by_cases hk : ∃ a : Axis, p.lookahead.TokenType = a.keyword
      · obtain ⟨a, ha⟩ := hk
        rw [parsePodLoop_step fuel a p ha] at h
        have hf := parseField_traced hG _ (match_traced hG p a.keyword hg)
        have ha2 := afterField_traced hG _ hf
        generalize ((p.match_ [a.keyword]).2.parseField) = F at h ha2
        generalize hA : F.2.afterField = A at h ha2
        obtain ⟨A1, A2⟩ := A
        cases A1 with
        | some p1 =>
          simp only [Option.some.injEq, Prod.mk.injEq] at h
          obtain ⟨_, h2⟩ := h
          subst h2
          exact ha2.2 _ rfl
        | none =>
          simp only [] at h
          exact ih _ _ _ _ _ _ _ h ha2.1
      · have h1 : p.lookahead.TokenType ≠ TokenType.MEMORY := fun hc => hk ⟨Axis.memory, hc⟩
        have h2 : p.lookahead.TokenType ≠ TokenType.CPU := fun hc => hk ⟨Axis.cpu, hc⟩
        have h3 : p.lookahead.TokenType ≠ TokenType.GPU := fun hc => hk ⟨Axis.gpu, hc⟩
        simp only [Parser.parsePodLoop, hr, h1, h2, h3, ne_eq, not_false_eq_true, if_true,
          if_false, Option.some.injEq, Prod.mk.injEq] at h
        obtain ⟨_, h5⟩ := h
        subst h5
        exact hG.found p _ (by simp) hg

theorem ParsePod_traced {G : Parser → Prop} (hG : Traced G) (fuel : Nat) (p q : Parser)
    (e : Expression) (h : Parser.ParsePod fuel p = some (e, q)) (hg : G p) : G q := by
  unfold Parser.ParsePod at h
  simp only [] at h
  refine parsePodLoop_traced hG fuel _ _ _ _ _ _ _ h ?_
  exact expect_traced hG _ _ _ (expect_traced hG p _ _ hg)

/-- Every function of the parser keeps a property that is kept by consuming a token and
by recording an error. -/
theorem parser_traces {G : Parser → Prop} (hG : Traced G) (fuel : Nat) :
    (∀ (p q : Parser) (e : Expression), Parser.ParseExpression fuel p = some (e, q) →
      G p → G q) ∧
    (∀ (result : Expression) (p q : Parser) (e : Expression),
      Parser.parseExpressionLoop fuel result p = some (e, q) → G p → G q) ∧
    (∀ (p q : Parser) (e : Expression), Parser.ParseTerm fuel p = some (e, q) →
      G p → G q) ∧
    (∀ (b : Bool) (result : Expression) (p q : Parser) (e : Expression),
      Parser.parseTermLoop fuel b result p = some (e, q) → G p → G q) ∧
    (∀ (p q : Parser) (e : Expression), Parser.ParseFactor fuel p = some (e, q) →
      G p → G q) := by
  induction fuel with
  | zero =>
    refine ⟨?_, ?_, ?_, ?_, ?_⟩ <;> intros <;> rename_i h _ <;>
      simp [Parser.ParseExpression, Parser.parseExpressionLoop, Parser.ParseTerm,
        Parser.parseTermLoop, Parser.ParseFactor] at h
  | succ fuel ih =>
    obtain ⟨ihE, ihEL, ihT, ihTL, ihF⟩ := ih
    refine ⟨?_, ?_, ?_, ?_, ?_⟩
    · intro p q e h hg
      rw [Parser.ParseExpression] at h
      cases hT : Parser.ParseTerm fuel p with
      | none => rw [hT] at h; simp at h
      | some r =>
        obtain ⟨res, p1⟩ := r
        rw [hT] at h
        simp only [] at h
        exact ihEL _ _ _ _ h (ihT _ _ _ hT hg)
    · intro result p q e h hg
      rw [Parser.parseExpressionLoop] at h
      by_cases ha : p.lookahead.TokenType = TokenType.ADD
      · simp only [ha, if_true] at h
        have hg0 := match_traced hG p TokenType.ADD hg
        cases hT : Parser.ParseTerm fuel (p.match_ [TokenType.ADD]).2 with
        | none => rw [hT] at h; simp at h
        | some r =>
          obtain ⟨rhs, p1⟩ := r
          rw [hT] at h
          simp only [] at h
          exact ihEL _ _ _ _ h (ihT _ _ _ hT hg0)
      · simp only [ha, if_false, Option.some.injEq, Prod.mk.injEq] at h
        obtain ⟨_, h2⟩ := h
        subst h2
        exact hg
    · intro p q e h hg
      rw [Parser.ParseTerm] at h
      by_cases hi : p.lookahead.TokenType = TokenType.INTEGER
      · simp only [hi, if_true] at h
        refine ihTL _ _ _ _ _ h ?_
        split
        · exact hG.found _ _ (by simp) (ParseInteger_traced hG p hg)
        · exact ParseInteger_traced hG p hg
      · simp only [hi, if_false] at h
        cases hF : Parser.ParseFactor fuel p with
        | none => rw [hF] at h; simp at h
        | some r =>
          obtain ⟨res, p1⟩ := r
          rw [hF] at h
          simp only [] at h
          exact ihTL _ _ _ _ _ h (ihF _ _ _ hF hg)
    · intro b result p q e h hg
      rw [Parser.parseTermLoop] at h
      by_cases hm : p.lookahead.TokenType = TokenType.MUL
      · simp only [hm, if_true] at h
        have hg0 := match_traced hG p TokenType.MUL hg
        cases b with
        | true =>
          simp only [if_true] at h
          cases hF : Parser.ParseFactor fuel (p.match_ [TokenType.MUL]).2 with
          | none => rw [hF] at h; simp at h
          | some r =>
            obtain ⟨rhs, p1⟩ := r
            rw [hF] at h
            simp only [] at h
            exact ihTL _ _ _ _ _ h (ihF _ _ _ hF hg0)
        | false =>
          simp only [Bool.false_eq_true, if_false] at h
          exact ihTL _ _ _ _ _ h (ParseInteger_traced hG _ hg0)
      · simp only [hm, if_false, Option.some.injEq, Prod.mk.injEq] at h
        obtain ⟨_, h2⟩ := h
        subst h2
        exact hg
    · intro p q e h hg
      rw [Parser.ParseFactor] at h
      by_cases hl : p.lookahead.TokenType = TokenType.LPAREN
      · simp only [hl, if_true] at h
        have hg0 := match_traced hG p TokenType.LPAREN hg
        cases hE : Parser.ParseExpression fuel (p.match_ [TokenType.LPAREN]).2 with
        | none => rw [hE] at h; simp at h
        | some r =>
          obtain ⟨expr, p1⟩ := r
          rw [hE] at h
          simp only [Option.some.injEq, Prod.mk.injEq] at h
          obtain ⟨_, h2⟩ := h
          subst h2
          exact expect_traced hG p1 _ _ (ihE _ _ _ hE hg0)
      · by_cases hp : p.lookahead.TokenType = TokenType.POD
        · simp only [hl, hp, if_true, if_false] at h
          simp only [reduceCtorEq, if_false] at h
          exact ParsePod_traced hG fuel p q e h hg
        · simp only [hl, hp, if_false, Option.some.injEq, Prod.mk.injEq] at h
          obtain ⟨_, h2⟩ := h
          subst h2
          exact hG.found p _ (by simp) hg

/-- What Parse returns: the error list of a parser state that has every property kept by
the parser and true of the parser at the start. -/
theorem Parse_traces {G : Parser → Prop} (hG : Traced G) (s : String)
    (h0 : G (NewParser (NewScanner s.data))) :
    ∃ e q, Parse s = some (e, q.Errors) ∧ G q := by
  obtain ⟨e, q, h, _⟩ := (parse_total (3 * s.length + 3)).1 (NewParser (NewScanner s.data))
    (by have := NewParser_pending s; omega)
  exact ⟨e, q, Parse_of_run s _ e q h, (parser_traces hG _).1 _ _ _ h h0⟩

end parser

namespace parser

open lexer

theorem mem_addError (p : Parser) (e x : ParseError) (h : x ∈ (p.addError e).Errors) :
    x ∈ p.Errors ∨ x = e := by
  unfold Parser.addError at h
  split at h
  · exact Or.inl h
  · simp only [List.mem_append, List.mem_singleton] at h
    exact h

theorem lookahead_of_clean (sc : Scanner) (p : Parser) (n : Nat)
    (h : p.clean = (Parser.advance^[n] (NewParser sc)).clean) :
    p.lookahead = tokenAt sc n := by
  have := congrArg Parser.lookahead h
  exact this

theorem diagnosed_advance (sc : Scanner) (p : Parser) (h : p.Diagnosed sc) :
    p.advance.Diagnosed sc := by
  obtain ⟨⟨n, hn⟩, he⟩ := h
  refine ⟨⟨n + 1, ?_⟩, he⟩
  rw [clean_advance, hn, iterate_advance_last, clean_advance]

theorem diagnosed_addError (sc : Scanner) (p : Parser) (e : ParseError)
    (h : p.Diagnosed sc) (he : e.Reports p.lookahead) : (p.addError e).Diagnosed sc := by
  obtain ⟨⟨n, hn⟩, hes⟩ := h
  refine ⟨⟨n, by rw [clean_addError, hn]⟩, ?_⟩
  intro x hx
  rcases mem_addError p e x hx with hx | hx
  · exact hes x hx
  · subst hx
    exact ⟨n, by rw [← lookahead_of_clean sc p n hn]; exact he⟩

theorem diagnosed_found (sc : Scanner) (p : Parser) (expected : List String)
    (hx : expected ≠ []) (h : p.Diagnosed sc) :
    (p.addError (newParseError p.lookahead.Lexeme expected p.lookahead.Position)).Diagnosed
      sc :=
  diagnosed_addError sc p _ h (Or.inl ⟨rfl, rfl, hx, rfl⟩)

/-- The error of a failed conversion reports the token that ParseInteger stood at: after the
token has been consumed, or after it has been reported as found. -/
theorem diagnosed_notNumber (sc : Scanner) (p p1 : Parser) (h : p.Diagnosed sc)
    (h1 : p1.Diagnosed sc) (pos : Position)
    (hv : (strconv.ParseInt p.lookahead.Lexeme).2 = false) :
    (p1.addError { Message := p.lookahead.Lexeme ++ " is not number", Found := "",
                   Expected := [], Pos := pos }).Diagnosed sc := by
  obtain ⟨⟨n, hn⟩, _⟩ := h
  obtain ⟨h2, h3⟩ := h1
  refine ⟨by rw [clean_addError]; exact h2, ?_⟩
  intro x hx
  rcases mem_addError p1 _ x hx with hx | hx
  · exact h3 x hx
  · subst hx
    exact ⟨n, by rw [← lookahead_of_clean sc p n hn]; exact Or.inr ⟨rfl, rfl, rfl, hv⟩⟩

theorem diagnosed_traced (sc : Scanner) : Traced (Parser.Diagnosed sc) where
  advance := diagnosed_advance sc
  found := diagnosed_found sc
  integer := by
    intro p h
    unfold Parser.ParseInteger
    simp only []
    rw [match_single]
    by_cases ht : TokenType.INTEGER = p.lookahead.TokenType
    · simp only [ht, if_true, Bool.not_true, Bool.false_eq_true, if_false]
      split
      · rename_i hv
        exact diagnosed_notNumber sc p _ h (diagnosed_advance sc p h) _ (by simpa using hv)
      · exact diagnosed_advance sc p h
    · simp only [ht, if_false, Bool.not_false, if_true]
      split
      · rename_i hv
        exact diagnosed_notNumber sc p _ h (diagnosed_found sc p _ (by simp) h) _
          (by simpa using hv)
      · exact diagnosed_found sc p _ (by simp) h

theorem tokenAt_mem (sc : Scanner) (n : Nat) : tokenAt sc n ∈ sc.tokens (n + 1) := by
  rw [tokens_succ]
  simp [tokenAt]

end parser

namespace parser

open lexer

/-- C35, as stated, fails for an integer literal outside the signed 64-bit range: for the
text `pod(cpu: 99999999999999999999)` the only error that Parse returns is the one that
ParseInteger records for the failed conversion, `ParseError{Message: ...}`.  It has no
found lexeme and an empty list of expected token categories, and its position is the zero
position (line 0, column 0), not the position (line 0, column 9) of the literal. -/
theorem conversion_error_shape :
    Parse "pod(cpu: 99999999999999999999)" =
      some (Expression.PodExpression (Expression.IntLiteral 9223372036854775807 ⟨0, 9⟩)
          Expression.nil Expression.nil ⟨0, 0⟩,
        [{ Message := "99999999999999999999 is not number", Found := "", Expected := [],
           Pos := ⟨0, 0⟩ }]) ∧
    tokenAt (NewScanner "pod(cpu: 99999999999999999999)".data) 4 =
      ⟨TokenType.INTEGER, "99999999999999999999", ⟨0, 9⟩⟩ := by
  constructor <;> decide

/-- C35, amended: for every input Parse returns, and every error in the list that it returns
reports a token of the input in one of two ways.  Either it carries the lexeme of the token
actually found, a non-empty list of expected token categories and the source position of
that token (and no message); or it is the error of a failed conversion to an integer, of a
lexeme that strconv.ParseInt rejects (an integer literal outside the signed 64-bit range,
or the lexeme of a token found where an integer was expected): it then carries the message
`<lexeme> is not number` with the lexeme of that token, no found lexeme and no expected
token categories. -/
theorem diagnostic_shape (s : String) :
    ∃ t errors, Parse s = some (t, errors) ∧
      ∀ e ∈ errors, ∃ n, ∃ tok ∈ (NewScanner s.data).tokens n,
        (e.Message = "" ∧ e.Found = tok.Lexeme ∧ e.Expected ≠ [] ∧ e.Pos = tok.Position) ∨
        (e.Message = tok.Lexeme ++ " is not number" ∧ e.Found = "" ∧ e.Expected = [] ∧
          (strconv.ParseInt tok.Lexeme).2 = false) := by
  obtain ⟨t, q, h, hq⟩ := Parse_traces (diagnosed_traced (NewScanner s.data)) s
    ⟨⟨0, rfl⟩, fun e he => by cases he⟩
  refine ⟨t, q.Errors, h, ?_⟩
  intro e he
  obtain ⟨n, hn⟩ := hq.2 e he
  exact ⟨n + 1, tokenAt (NewScanner s.data) n, tokenAt_mem _ n, hn⟩

end parser

/-! ## The numbering of the pods (C36) -/

namespace podgen

open parser corev1

/-- C36: for every expression tree, also one for which Podgen records errors, and every
resource.ParseQuantity, if Podgen emits `k` pods then the pod number `i` in emission order
(from 0) carries the name made from the counter value `i`, `pod-i`: the names are
`pod-0`, ..., `pod-(k-1)` without gaps, they are pairwise distinct, and the order is that
of the expansion from left to right (the pods of the left operand of a sum come before
those of the right operand). -/
theorem dense_unit_numbering (pq : String → Except String resource.Quantity)
    (e : Expression) :
    (∀ (i : Nat) (h : i < (Podgen pq e).1.length),
      ((Podgen pq e).1.get ⟨i, h⟩).Name = "pod-" ++ toString i) ∧
    (Podgen pq e).1.map Pod.Name =
      (List.range (Podgen pq e).1.length).map (fun i => "pod-" ++ toString i) ∧
    ((Podgen pq e).1.map Pod.Name).Nodup ∧
    (∀ (l r : Expression) (p : lexer.Position),
      e = Expression.ArithmeticExpression l Operator.Add r p →
      requestMaps (Podgen pq e).1 =
        requestMaps (Podgen pq l).1 ++ requestMaps (Podgen pq r).1) := by
  have hnames := Podgen_names pq e
  refine ⟨?_, hnames, ?_, ?_⟩
  · intro i h
    have h1 := congrArg (fun l : List String => l[i]?) hnames
    have hr : i < (List.range (Podgen pq e).1.length).length := by simpa using h
    simp only [List.getElem?_map, List.getElem?_eq_getElem h, List.getElem?_eq_getElem hr,
      Option.map_some', Option.some.injEq, List.getElem_range] at h1
    simpa using h1
  · rw [hnames]
    refine List.Nodup.map ?_ (List.nodup_range _)
    intro i j hij
    have h := congrArg String.data hij
    simp only [String.data_append] at h
    have h2 := List.append_cancel_left h
    have h3 : toString i = toString j := String.ext h2
    exact strconv.toString_injective i j h3
  · intro l r p he
    subst he
    exact Podgen_add_requestMaps pq l r p

end podgen

/-! ## The closing parenthesis of a pod (C37) -/

namespace parser

open lexer

/-- C37 at the failing inputs `pod() + 1` and `pod(cpu: 1,) + 1`: ParsePod returns the pod
without having recorded an error, and the look-ahead of the parser is the closing `)` of
the pod, not the `+` that follows it.  The loop of ParsePod is left through its guard
`p.lookahead.TokenType != lexer.RPAREN`, and the `)` is not matched after it; after a
field, as in `pod(cpu: 1) + 1`, ParsePod matches the `)` and the look-ahead is the `+`. -/
theorem pod_leaves_closing_parenthesis :
    (Parser.ParsePod 5 (NewParser (NewScanner "pod() + 1".data))).map
        (fun r => (r.1, r.2.Errors, r.2.lookahead)) =
      some (Expression.PodExpression Expression.nil Expression.nil Expression.nil ⟨0, 0⟩,
        [], ⟨TokenType.RPAREN, ")", ⟨0, 4⟩⟩) ∧
    (Parser.ParsePod 5 (NewParser (NewScanner "pod(cpu: 1,) + 1".data))).map
        (fun r => (r.1, r.2.Errors, r.2.lookahead)) =
      some (Expression.PodExpression (Expression.IntLiteral 1 ⟨0, 9⟩) Expression.nil
          Expression.nil ⟨0, 0⟩,
        [], ⟨TokenType.RPAREN, ")", ⟨0, 11⟩⟩) ∧
    (Parser.ParsePod 5 (NewParser (NewScanner "pod(cpu: 1) + 1".data))).map
        (fun r => (r.1, r.2.Errors, r.2.lookahead)) =
      some (Expression.PodExpression (Expression.IntLiteral 1 ⟨0, 9⟩) Expression.nil
          Expression.nil ⟨0, 0⟩,
        [], ⟨TokenType.ADD, "+", ⟨0, 12⟩⟩) := by
  refine ⟨?_, ?_, ?_⟩ <;> decide

end parser
